import Mathlib

/-!
# Checkers engine (Game/Logic.h): move generation, move application, evaluation, search

A shallow embedding of the class `Logic` of `src/Game/Logic.h`, followed by the theorems
about it.

Modelling conventions
* `POS_T` (declared in `Models/Move.h`, an 8-bit signed integer) is `Int`: every
  coordinate the code computes lies in `-2..9` and every cell code it writes lies in
  `0..4`, so no machine overflow can occur and no reduction modulo `2^8` is needed.
* `vector<vector<POS_T>>` is `List (List Int)`.  Indexing outside the vector is
  undefined behaviour in C++; here an out-of-range read gives `0` and an out-of-range
  write is ignored, and the theorems are stated for in-range indices on 8x8 boards.
* The C++ operators `%` and `/` on integers truncate towards zero: `Int.tmod`, `Int.tdiv`.
* `double` scores are exact rationals (`ℚ`); the constant `0.05` is `1/20`.
* `bool` colours are `Bool` (`false` = white, `true` = black); the integer a `bool` is
  promoted to is `colorInt`.
* Member functions that change the members of `Logic` take the members (`Logic`) and return
  them; the members no function changes are `Params`.  `std::shuffle` with the random engine
  is a parameter: a function from the engine state and a list to a list and the next state.
* The recursive search functions take a bound on the nesting of calls and return `none` when
  it is exhausted; `find_best_turns_eq` shows that a bound of `65 * Max_depth + 67` is never
  exhausted on an 8x8 board.
-/

namespace Checkers

/-! ## Data model -/

/-- Modelled from the spec: the record `move_pos` (declared in `Models/Move.h`, which is not
among the sources): origin `(x, y)`, destination `(x2, y2)` and the optional captured
position `(xb, yb)`; the code reads the fields under these names and tests `xb != -1` for a
capture. -/
structure move_pos where
  x : Int
  y : Int
  x2 : Int
  y2 : Int
  xb : Int
  yb : Int
deriving DecidableEq

/-- Modelled from the spec: the four-argument constructor of `move_pos` (declared in
`Models/Move.h`, which is not among the sources).  A move without a captured position is a
simple move; the code tests this as `xb != -1`, so the absent position is `(-1, -1)`. -/
def move_pos.mk4 (x y x2 y2 : Int) : move_pos := ⟨x, y, x2, y2, -1, -1⟩

/-- The board type `vector<vector<POS_T>>`. -/
abbrev Board := List (List Int)

/-- The read `mtx[i][j]`. -/
def getCell (mtx : Board) (i j : Int) : Int :=
  if 0 ≤ i ∧ 0 ≤ j then (mtx.getD i.toNat []).getD j.toNat 0 else 0

/-- The write `mtx[i][j] = v`. -/
def setCell (mtx : Board) (i j v : Int) : Board :=
  if 0 ≤ i ∧ 0 ≤ j then mtx.set i.toNat ((mtx.getD i.toNat []).set j.toNat v) else mtx

/-- An 8x8 grid. -/
def is8x8 (mtx : Board) : Prop := mtx.length = 8 ∧ ∀ row ∈ mtx, row.length = 8

instance (mtx : Board) : Decidable (is8x8 mtx) := by
  unfold is8x8; infer_instance

/-- The index range `0..7` of both board loops. -/
def idx8 : List Int := [0, 1, 2, 3, 4, 5, 6, 7]

/-- A coordinate pair on the board. -/
def inRange (i j : Int) : Prop := 0 ≤ i ∧ i ≤ 7 ∧ 0 ≤ j ∧ j ≤ 7

instance (i j : Int) : Decidable (inRange i j) := by
  unfold inRange; infer_instance

/-- Every cell of the grid holds one of the five cell codes `0..4`. -/
def codesOK (mtx : Board) : Prop := ∀ row ∈ mtx, ∀ c ∈ row, 0 ≤ c ∧ c ≤ 4

instance (mtx : Board) : Decidable (codesOK mtx) := by
  unfold codesOK; infer_instance

/-- The integer value of a `bool` colour (`false` = white = 0, `true` = black = 1). -/
def colorInt (color : Bool) : Int := if color then 1 else 0

/-! ## `Logic::make_turn` -/

/-- `Logic::make_turn` (Logic.h 58-72): clear the captured cell, promote a man that reaches
its last row, copy the piece to the destination, clear the origin. -/
def make_turn (mtx : Board) (turn : move_pos) : Board :=
  let m1 := if turn.xb ≠ -1 then setCell mtx turn.xb turn.yb 0 else mtx
  let m2 :=
    if (getCell m1 turn.x turn.y = 1 ∧ turn.x2 = 0) ∨ (getCell m1 turn.x turn.y = 2 ∧ turn.x2 = 7)
    then setCell m1 turn.x turn.y (getCell m1 turn.x turn.y + 2) else m1
  let m3 := setCell m2 turn.x2 turn.y2 (getCell m2 turn.x turn.y)
  setCell m3 turn.x turn.y 0

/-! ## `Logic::find_turns(x, y, mtx)`: the square query -/

/-- The capture loop of a man (Logic.h 343-355): `i` runs over `x-2, x+2`, `j` over
`y-2, y+2`; a target off the board, a non-empty target, an empty middle cell or a middle
cell of the mover's parity is skipped. -/
def manBeats (mtx : Board) (x y type : Int) : List move_pos :=
  [x - 2, x + 2].flatMap fun i =>
    [y - 2, y + 2].flatMap fun j =>
      if i < 0 ∨ i > 7 ∨ j < 0 ∨ j > 7 then []
      else
        let xb := (x + i).tdiv 2
        let yb := (y + j).tdiv 2
        if getCell mtx i j ≠ 0 ∨ getCell mtx xb yb = 0
            ∨ (getCell mtx xb yb).tmod 2 = type.tmod 2 then []
        else [⟨x, y, i, j, xb, yb⟩]

/-- The innermost capture loop of a king (Logic.h 365-381) along direction `(i, j)`, from
the cell `(i2, j2)` with the captured square found so far `(xb, yb)`; the result is the list
of moves the remaining iterations append.  The first argument bounds the number of
iterations (see `kingBeatRay_fuel`: 8 are never exhausted from a square on the board). -/
def kingBeatRay (mtx : Board) (x y type i j : Int) : Nat → Int → Int → Int → Int → List move_pos
  | 0, _, _, _, _ => []
  | n + 1, i2, j2, xb, yb =>
    if i2 ≠ 8 ∧ j2 ≠ 8 ∧ i2 ≠ -1 ∧ j2 ≠ -1 then
      if getCell mtx i2 j2 ≠ 0 ∧
          ((getCell mtx i2 j2).tmod 2 = type.tmod 2
            ∨ ((getCell mtx i2 j2).tmod 2 ≠ type.tmod 2 ∧ xb ≠ -1)) then []
      else
        let xb1 := if getCell mtx i2 j2 ≠ 0 then i2 else xb
        let yb1 := if getCell mtx i2 j2 ≠ 0 then j2 else yb
        (if xb1 ≠ -1 ∧ xb1 ≠ i2 then [(⟨x, y, i2, j2, xb1, yb1⟩ : move_pos)] else [])
          ++ kingBeatRay mtx x y type i j n (i2 + i) (j2 + j) xb1 yb1
    else []

/-- The capture loops of a king (Logic.h 359-383): the four diagonal directions. -/
def kingBeats (mtx : Board) (x y type : Int) : List move_pos :=
  [-1, 1].flatMap fun i =>
    [-1, 1].flatMap fun j =>
      kingBeatRay mtx x y type i j 8 (x + i) (y + j) (-1) (-1)

/-- The simple-move loop of a man (Logic.h 401-407): one row forward, one column aside. -/
def manMoves (mtx : Board) (x y type : Int) : List move_pos :=
  let i := if type.tmod 2 ≠ 0 then x - 1 else x + 1
  [y - 1, y + 1].flatMap fun j =>
    if i < 0 ∨ i > 7 ∨ j < 0 ∨ j > 7 ∨ getCell mtx i j ≠ 0 then []
    else [move_pos.mk4 x y i j]

/-- The innermost simple-move loop of a king (Logic.h 416-421) along direction `(i, j)`; the
first argument bounds the number of iterations (see `kingMoveRay_fuel`). -/
def kingMoveRay (mtx : Board) (x y i j : Int) : Nat → Int → Int → List move_pos
  | 0, _, _ => []
  | n + 1, i2, j2 =>
    if i2 ≠ 8 ∧ j2 ≠ 8 ∧ i2 ≠ -1 ∧ j2 ≠ -1 then
      if getCell mtx i2 j2 ≠ 0 then []
      else move_pos.mk4 x y i2 j2 :: kingMoveRay mtx x y i j n (i2 + i) (j2 + j)
    else []

/-- The simple-move loops of a king (Logic.h 412-423). -/
def kingMoves (mtx : Board) (x y : Int) : List move_pos :=
  [-1, 1].flatMap fun i =>
    [-1, 1].flatMap fun j =>
      kingMoveRay mtx x y i j 8 (x + i) (y + j)

/-- `Logic::find_turns(x, y, mtx)` (Logic.h 331-426).  The result is the pair of members
`(turns, have_beats)` the call leaves behind. -/
def find_turns_xy (mtx : Board) (x y : Int) : List move_pos × Bool :=
  let type := getCell mtx x y
  let beats := if type = 1 ∨ type = 2 then manBeats mtx x y type else kingBeats mtx x y type
  if ¬ beats = [] then (beats, true)
  else if type = 1 ∨ type = 2 then (manMoves mtx x y type, false)
  else (kingMoves mtx x y, false)

/-! ## `Logic::find_turns(color, mtx)`: the colour-wide query -/

/-- The body of the double loop of `find_turns(color, mtx)` (Logic.h 308-320) at the cell
`(i, j)`; the state is `(res_turns, have_beats_before)`. -/
def find_turns_cell (color : Bool) (mtx : Board) (st : List move_pos × Bool) (i j : Int) :
    List move_pos × Bool :=
  if getCell mtx i j ≠ 0 ∧ (getCell mtx i j).tmod 2 ≠ colorInt color then
    let r := find_turns_xy mtx i j
    let st1 : List move_pos × Bool := if r.2 = true ∧ st.2 = false then ([], true) else st
    if (st1.2 = true ∧ r.2 = true) ∨ st1.2 = false then (st1.1 ++ r.1, st1.2) else st1
  else st

/-- The double loop of `find_turns(color, mtx)` (Logic.h 302-322): `res_turns` and
`have_beats_before` before the shuffle. -/
def find_turns_scan (color : Bool) (mtx : Board) : List move_pos × Bool :=
  idx8.foldl (fun st i => idx8.foldl (fun st1 j => find_turns_cell color mtx st1 i j) st) ([], false)

/-- `Logic::find_turns(color, mtx)` (Logic.h 300-326).  `shuffle` stands for
`std::shuffle(turns.begin(), turns.end(), rand_eng)` at the engine state `rng`: it returns
the reordered list and the next engine state.  The result is `(turns, have_beats)` and the
engine state. -/
def find_turns {σ : Type} (shuffle : σ → List move_pos → List move_pos × σ) (rng : σ)
    (color : Bool) (mtx : Board) : (List move_pos × Bool) × σ :=
  let r := find_turns_scan color mtx
  let s := shuffle rng r.1
  ((s.1, r.2), s.2)

/-! ## `Logic::calc_score` -/

/-- The constant `INF = 1e9`. -/
def INF : ℚ := 1000000000

/-- The value of a C++ comparison used as a number. -/
def ind (p : Prop) [Decidable p] : ℚ := if p then 1 else 0

/-- The four accumulators `w, wq, b, bq` of `calc_score`. -/
structure Sums where
  w : ℚ
  wq : ℚ
  b : ℚ
  bq : ℚ

/-- The body of the double loop of `calc_score` (Logic.h 86-95) at the cell `(i, j)`. -/
def score_cell (scoring_mode : String) (mtx : Board) (s : Sums) (i j : Int) : Sums :=
  let c := getCell mtx i j
  let s1 : Sums := ⟨s.w + ind (c = 1), s.wq + ind (c = 3), s.b + ind (c = 2), s.bq + ind (c = 4)⟩
  if scoring_mode = "NumberAndPotential" then
    ⟨s1.w + (1 / 20) * ind (c = 1) * (7 - i), s1.wq, s1.b + (1 / 20) * ind (c = 2) * i, s1.bq⟩
  else s1

/-- The double loop of `calc_score` (Logic.h 81-97). -/
def score_scan (scoring_mode : String) (mtx : Board) : Sums :=
  idx8.foldl (fun s i => idx8.foldl (fun s1 j => score_cell scoring_mode mtx s1 i j) s) ⟨0, 0, 0, 0⟩

/-- The accumulators after the conditional swap (Logic.h 99-103): afterwards `w, wq` belong
to the opponent of the evaluated colour and `b, bq` to the evaluated colour. -/
def score_sums (scoring_mode : String) (mtx : Board) (first_bot_color : Bool) : Sums :=
  let s := score_scan scoring_mode mtx
  if first_bot_color = false then ⟨s.b, s.bq, s.w, s.wq⟩ else s

/-- The king coefficient `q_coef` (Logic.h 112-116). -/
def q_coef (scoring_mode : String) : ℚ := if scoring_mode = "NumberAndPotential" then 5 else 4

/-- The divisor of the ratio on the last line of `calc_score` (Logic.h 118). -/
def score_divisor (scoring_mode : String) (mtx : Board) (first_bot_color : Bool) : ℚ :=
  let s := score_sums scoring_mode mtx first_bot_color
  s.w + s.wq * q_coef scoring_mode

/-- `Logic::calc_score` (Logic.h 78-119). -/
def calc_score (scoring_mode : String) (mtx : Board) (first_bot_color : Bool) : ℚ :=
  let s := score_sums scoring_mode mtx first_bot_color
  if s.w + s.wq = 0 then INF
  else if s.b + s.bq = 0 then 0
  else (s.b + s.bq * q_coef scoring_mode) / score_divisor scoring_mode mtx first_bot_color

/-! ## The search: `find_best_turns_rec`, `find_first_best_turn`, `find_best_turns` -/

/-- The members of `Logic` that no member function modifies (`Max_depth`, `scoring_mode`,
`optimization`), together with the shuffle `std::shuffle(.., rand_eng)` as a function of the
engine state.  `Max_depth` is an `int` compared with a `size_t` depth; it is a natural
number here (the configuration supplies a non-negative level). -/
structure Params (σ : Type) where
  shuffle : σ → List move_pos → List move_pos × σ
  Max_depth : Nat
  scoring_mode : String
  optimization : String

/-- The mutable members of `Logic`: `turns`, `have_beats`, `next_move`, `next_best_state` and
the random engine `rand_eng`. -/
structure Logic (σ : Type) where
  turns : List move_pos
  have_beats : Bool
  next_move : List move_pos
  next_best_state : List Int
  rand_eng : σ

/-- The effect of `find_turns(x, y, mtx)` on the members. -/
def Logic.find_turns_xy {σ : Type} (L : Logic σ) (x y : Int) (mtx : Board) : Logic σ :=
  { L with turns := (Checkers.find_turns_xy mtx x y).1,
           have_beats := (Checkers.find_turns_xy mtx x y).2 }

/-- The effect of `find_turns(color, mtx)` on the members. -/
def Logic.find_turns {σ : Type} (P : Params σ) (L : Logic σ) (color : Bool) (mtx : Board) :
    Logic σ :=
  { L with turns := (Checkers.find_turns P.shuffle L.rand_eng color mtx).1.1,
           have_beats := (Checkers.find_turns P.shuffle L.rand_eng color mtx).1.2,
           rand_eng := (Checkers.find_turns P.shuffle L.rand_eng color mtx).2 }

/-- The loop over `turns_now` of `find_best_turns_rec` (Logic.h 234-277).  `child L turn alpha
beta` is the recursive call made for `turn`; the remaining arguments are the members, `alpha`,
`beta`, `min_score` and `max_score`. -/
def rec_loop {σ : Type} (P : Params σ) (depth : Nat)
    (child : Logic σ → move_pos → ℚ → ℚ → Option (ℚ × Logic σ)) :
    List move_pos → Logic σ → ℚ → ℚ → ℚ → ℚ → Option (ℚ × Logic σ)
  | [], L, _, _, min_score, max_score =>
    some (if depth % 2 ≠ 0 then max_score else min_score, L)
  | turn :: rest, L, alpha, beta, min_score, max_score =>
    match child L turn alpha beta with
    | none => none
    | some (score, L1) =>
      let min1 := min min_score score
      let max1 := max max_score score
      let alpha1 := if depth % 2 ≠ 0 then max alpha max1 else alpha
      let beta1 := if depth % 2 ≠ 0 then beta else min beta min1
      if P.optimization ≠ "O0" ∧ alpha1 ≥ beta1 then
        some (if depth % 2 ≠ 0 then max1 + 1 else min1 - 1, L1)
      else rec_loop P depth child rest L1 alpha1 beta1 min1 max1

/-- `Logic::find_best_turns_rec` (Logic.h 191-278).  The first argument bounds the nesting of
recursive calls (`none` when it is exhausted); the result is the returned score and the
members after the call. -/
def find_best_turns_rec {σ : Type} (P : Params σ) :
    Nat → Logic σ → Board → Bool → Nat → ℚ → ℚ → Int → Int → Option (ℚ × Logic σ)
  | 0, _, _, _, _, _, _, _, _ => none
  | n + 1, L, mtx, color, depth, alpha, beta, x, y =>
    if depth = P.Max_depth then
      some (calc_score P.scoring_mode mtx (decide ((depth % 2 : Int) = colorInt color)), L)
    else
      let L1 := if x ≠ -1 then L.find_turns_xy x y mtx else L.find_turns P color mtx
      let turns_now := L1.turns
      let have_beats_now := L1.have_beats
      if have_beats_now = false ∧ x ≠ -1 then
        find_best_turns_rec P n L1 mtx (!color) (depth + 1) alpha beta (-1) (-1)
      else if L1.turns = [] then
        some (if depth % 2 ≠ 0 then 0 else INF, L1)
      else
        rec_loop P depth
          (fun L2 turn a b =>
            if have_beats_now = false ∧ x = -1 then
              find_best_turns_rec P n L2 (make_turn mtx turn) (!color) (depth + 1) a b (-1) (-1)
            else
              find_best_turns_rec P n L2 (make_turn mtx turn) color depth a b turn.x2 turn.y2)
          turns_now L1 alpha beta (INF + 1) (-1)

/-- The two `push_back`s that open `find_first_best_turn` (Logic.h 132-133): a new state
with successor `-1` and the placeholder move `(-1, -1, -1, -1)`. -/
def Logic.push_state {σ : Type} (L : Logic σ) : Logic σ :=
  { L with next_best_state := L.next_best_state ++ [-1],
           next_move := L.next_move ++ [move_pos.mk4 (-1) (-1) (-1) (-1)] }

/-- The loop over `turns_now` of `find_first_best_turn` (Logic.h 153-180).  `child L turn
next_state best_score` is the call made for `turn`; the last argument is `best_score`. -/
def first_loop {σ : Type} (have_beats_now : Bool) (state : Nat)
    (child : Logic σ → move_pos → Nat → ℚ → Option (ℚ × Logic σ)) :
    List move_pos → Logic σ → ℚ → Option (ℚ × Logic σ)
  | [], L, best_score => some (best_score, L)
  | turn :: rest, L, best_score =>
    let next_state := L.next_move.length
    match child L turn next_state best_score with
    | none => none
    | some (score, L1) =>
      if score > best_score then
        first_loop have_beats_now state child rest
          { L1 with
            next_best_state :=
              L1.next_best_state.set state (if have_beats_now then (next_state : Int) else -1),
            next_move := L1.next_move.set state turn }
          score
      else first_loop have_beats_now state child rest L1 best_score

/-- `Logic::find_first_best_turn` (Logic.h 128-181). -/
def find_first_best_turn {σ : Type} (P : Params σ) :
    Nat → Logic σ → Board → Bool → Int → Int → Nat → ℚ → Option (ℚ × Logic σ)
  | 0, _, _, _, _, _, _, _ => none
  | n + 1, L, mtx, color, x, y, state, alpha =>
    let L0 : Logic σ := L.push_state
    let L1 := if state ≠ 0 then L0.find_turns_xy x y mtx else L0
    let turns_now := L1.turns
    let have_beats_now := L1.have_beats
    if have_beats_now = false ∧ state ≠ 0 then
      find_best_turns_rec P n L1 mtx (!color) 0 alpha (INF + 1) (-1) (-1)
    else
      first_loop have_beats_now state
        (fun L2 turn next_state best_score =>
          if have_beats_now = true then
            find_first_best_turn P n L2 (make_turn mtx turn) color turn.x2 turn.y2 next_state
              best_score
          else
            find_best_turns_rec P n L2 (make_turn mtx turn) (!color) 0 best_score (INF + 1)
              (-1) (-1))
        turns_now L1 (-1)

/-- The `do ... while` loop of `find_best_turns` (Logic.h 42-48) from `cur_state`; the first
argument bounds the number of iterations.  A read outside the arrays (undefined in C++) gives
the placeholder move, respectively `-1`. -/
def collect_chain (next_move : List move_pos) (next_best_state : List Int) :
    Nat → Int → Option (List move_pos)
  | 0, _ => none
  | n + 1, cur_state =>
    let turn := next_move.getD cur_state.toNat (move_pos.mk4 (-1) (-1) (-1) (-1))
    let cur1 := next_best_state.getD cur_state.toNat (-1)
    if cur1 ≠ -1 ∧ (next_move.getD cur1.toNat (move_pos.mk4 (-1) (-1) (-1) (-1))).x ≠ -1 then
      (collect_chain next_move next_best_state n cur1).map (fun res => turn :: res)
    else some [turn]

/-- `Logic::find_best_turns` (Logic.h 28-51) on the live board `mtx`.  The fuel bounds the
nesting of the search calls; the chain loop may run once per recorded state. -/
def find_best_turns {σ : Type} (P : Params σ) (fuel : Nat) (L : Logic σ) (mtx : Board)
    (color : Bool) : Option (List move_pos × Logic σ) :=
  let L0 : Logic σ := { L with next_best_state := [], next_move := [] }
  match find_first_best_turn P fuel L0 mtx color (-1) (-1) 0 (-1) with
  | none => none
  | some (_, L1) =>
    (collect_chain L1.next_move L1.next_best_state L1.next_move.length 0).map
      (fun res => (res, L1))

/-! ## Reference values of the search -/

/-- The value of a position under plain minimax, following the case analysis of
`find_best_turns_rec` without the members, the window and the pruning test, on the unshuffled
move list.  The first argument bounds the nesting (value 0 when it is exhausted). -/
def minimax (Max_depth : Nat) (mode : String) : Nat → Board → Bool → Nat → Int → Int → ℚ
  | 0, _, _, _, _, _ => 0
  | n + 1, mtx, color, depth, x, y =>
    if depth = Max_depth then
      calc_score mode mtx (decide ((depth % 2 : Int) = colorInt color))
    else
      let r := if x ≠ -1 then find_turns_xy mtx x y else find_turns_scan color mtx
      if r.2 = false ∧ x ≠ -1 then minimax Max_depth mode n mtx (!color) (depth + 1) (-1) (-1)
      else if r.1 = [] then (if depth % 2 ≠ 0 then 0 else INF)
      else
        let vals := r.1.map fun t =>
          if r.2 = false ∧ x = -1 then
            minimax Max_depth mode n (make_turn mtx t) (!color) (depth + 1) (-1) (-1)
          else minimax Max_depth mode n (make_turn mtx t) color depth t.x2 t.y2
        if depth % 2 ≠ 0 then vals.foldl max (-1) else vals.foldl min (INF + 1)

/-- The relation between the plain minimax value `v` of a node and the value `w` returned for
the window `(alpha, beta)` with pruning: exact inside the window, on the same side outside. -/
def within (alpha beta v w : ℚ) : Prop :=
  (v ≤ alpha ∧ w ≤ alpha) ∨ (alpha < v ∧ v < beta ∧ w = v) ∨ (beta ≤ v ∧ beta ≤ w)

/-- The value of the position in which a capture has just landed on `(x, y)`, following
`find_first_best_turn` for a state other than 0: the opponent's minimax value when the piece
has no further capture, otherwise the best value over its further captures. -/
def first_value (Max_depth : Nat) (mode : String) : Nat → Board → Bool → Int → Int → ℚ
  | 0, _, _, _, _ => 0
  | n + 1, mtx, color, x, y =>
    if (find_turns_xy mtx x y).2 = false then minimax Max_depth mode n mtx (!color) 0 (-1) (-1)
    else
      ((find_turns_xy mtx x y).1.map fun t =>
        first_value Max_depth mode n (make_turn mtx t) color t.x2 t.y2).foldl max (-1)

/-- The value of a candidate move of `find_first_best_turn`: the value of the continued
capture series when the candidates are captures, the opponent's minimax value otherwise. -/
def cand (Max_depth : Nat) (mode : String) (n : Nat) (mtx : Board) (color : Bool)
    (have_beats : Bool) (t : move_pos) : ℚ :=
  if have_beats = true then first_value Max_depth mode n (make_turn mtx t) color t.x2 t.y2
  else minimax Max_depth mode n (make_turn mtx t) (!color) 0 (-1) (-1)

/-- The candidate kept by the loop of `find_first_best_turn`: a move replaces the current one
when its value is strictly greater than the best value so far. -/
def pick (val : move_pos → ℚ) : List move_pos → ℚ → Option move_pos → ℚ × Option move_pos
  | [], best, cur => (best, cur)
  | t :: rest, best, cur =>
    if val t > best then pick val rest (val t) (some t) else pick val rest best cur

/-- The chain of moves recorded from a state of `find_first_best_turn` with the candidates
`ts`: the kept candidate, followed (for captures) by the chain from its landing square. -/
def state_chain (Max_depth : Nat) (mode : String) :
    Nat → Board → Bool → List move_pos → Bool → List move_pos
  | 0, _, _, _, _ => []
  | n + 1, mtx, color, ts, have_beats =>
    match (pick (cand Max_depth mode n mtx color have_beats) ts (-1) none).2 with
    | none => []
    | some t =>
      t :: (if have_beats = true ∧ (find_turns_xy (make_turn mtx t) t.x2 t.y2).2 = true then
              state_chain Max_depth mode n (make_turn mtx t) color
                (find_turns_xy (make_turn mtx t) t.x2 t.y2).1 true
            else [])

/-- The chain a state of `find_first_best_turn` other than 0 records for the piece that
landed on `(x, y)`: empty when it has no further capture. -/
def landing_chain (Max_depth : Nat) (mode : String) (n : Nat) (mtx : Board) (color : Bool)
    (x y : Int) : List move_pos :=
  if (find_turns_xy mtx x y).2 = true then
    state_chain Max_depth mode n mtx color (find_turns_xy mtx x y).1 true
  else []

/-- The arrays `next_move`, `next_best_state` hold `chain` from state `s` on: each move sits
at its state, which links to a later state, and the state after the last move holds the
placeholder move (`x = -1`). -/
def Rep (nm : List move_pos) (nbs : List Int) : Nat → List move_pos → Prop
  | s, [] => ∃ p, nm[s]? = some p ∧ p.x = -1
  | s, t :: rest =>
    nm[s]? = some t ∧ t.x ≠ -1 ∧ ∃ s1 : Nat, s < s1 ∧ nbs[s]? = some (s1 : Int) ∧ Rep nm nbs s1 rest

/-- The board after the first `m` moves of a chain. -/
def boardAfter (mtx : Board) (chain : List move_pos) (m : Nat) : Board :=
  (chain.take m).foldl make_turn mtx

/-- The chain `find_best_turns` returns for the candidates `ts`: the recorded chain, or the
single placeholder move when nothing was recorded. -/
def root_chain (Max_depth : Nat) (mode : String) (n : Nat) (mtx : Board) (color : Bool)
    (ts : List move_pos) (have_beats : Bool) : List move_pos :=
  if state_chain Max_depth mode n mtx color ts have_beats = [] then
    [move_pos.mk4 (-1) (-1) (-1) (-1)]
  else state_chain Max_depth mode n mtx color ts have_beats

/-- The invariant of the loop of `find_first_best_turn` at state `s`: the arrays below `s` are
untouched, `best_score` lies in `-1..INF`, and entry `s` of the arrays records the candidate
kept so far (`cur`) with value `cv` and, for captures, the chain `tail` from its landing
square. -/
def LoopInv {σ : Type} (have_beats : Bool) (s : Nat) (tail : move_pos → List move_pos)
    (cv : move_pos → ℚ) (pre_nm : List move_pos) (pre_nbs : List Int) (L : Logic σ) (best : ℚ)
    (cur : Option move_pos) : Prop :=
  L.next_move.length = L.next_best_state.length ∧ s < L.next_move.length
  ∧ L.next_move.take s = pre_nm ∧ L.next_best_state.take s = pre_nbs
  ∧ -1 ≤ best ∧ best ≤ INF
  ∧ match cur with
    | none => best = -1 ∧ L.next_move[s]? = some (move_pos.mk4 (-1) (-1) (-1) (-1))
        ∧ L.next_best_state[s]? = some (-1)
    | some t => best = cv t ∧ L.next_move[s]? = some t
        ∧ (have_beats = false → L.next_best_state[s]? = some (-1))
        ∧ (have_beats = true → ∃ s1 : Nat, s < s1 ∧ L.next_best_state[s]? = some (s1 : Int)
            ∧ Rep L.next_move L.next_best_state s1 (tail t))

/-! ## Specification vocabulary and sample positions -/

/-- The piece `make_turn` puts on the destination: the king of a man that reaches its last
row (white man `1` on row 0 becomes `3`, black man `2` on row 7 becomes `4`), otherwise the
piece itself. -/
def landed (piece x2 : Int) : Int :=
  if piece = 1 ∧ x2 = 0 then 3 else if piece = 2 ∧ x2 = 7 then 4 else piece

/-- The empty 8x8 board. -/
def emptyBoard : Board := List.replicate 8 (List.replicate 8 0)

/-- The empty board with the listed pieces `(row, column, code)` put on it. -/
def place (pieces : List (Int × Int × Int)) : Board :=
  pieces.foldl (fun mtx p => setCell mtx p.1 p.2.1 p.2.2) emptyBoard

/-- The colour of a piece code being `color` (`false` = white: 1 or 3, `true` = black: 2 or 4). -/
def isPiece (color : Bool) (c : Int) : Prop :=
  if color then c = 2 ∨ c = 4 else c = 1 ∨ c = 3

instance (color : Bool) (c : Int) : Decidable (isPiece color c) := by
  unfold isPiece; infer_instance

/-- Colour `color` has no piece (man or king) on the 8x8 grid. -/
def noPieces (color : Bool) (mtx : Board) : Prop :=
  ∀ i ∈ idx8, ∀ j ∈ idx8, ¬ isPiece color (getCell mtx i j)

instance (color : Bool) (mtx : Board) : Decidable (noPieces color mtx) := by
  unfold noPieces; infer_instance

/-- Two piece codes of opposite colours (white: 1, 3; black: 2, 4). -/
def opposing (type c : Int) : Prop :=
  ((type = 1 ∨ type = 3) ∧ (c = 2 ∨ c = 4)) ∨ ((type = 2 ∨ type = 4) ∧ (c = 1 ∨ c = 3))

instance (type c : Int) : Decidable (opposing type c) := by
  unfold opposing; infer_instance

/-- The rule for a king capture from `(x, y)`: the destination is an on-board empty cell
`k` steps along a diagonal, the captured square lies `m` steps along the same diagonal with
`1 ≤ m < k` and holds a piece of the opposite colour, and every other cell strictly between
origin and destination is empty. -/
def kingCapture (mtx : Board) (x y : Int) (t : move_pos) : Prop :=
  t.x = x ∧ t.y = y ∧
  ∃ di ∈ ([-1, 1] : List Int), ∃ dj ∈ ([-1, 1] : List Int), ∃ k m : Nat, 1 ≤ m ∧ m < k
    ∧ t.x2 = x + k * di ∧ t.y2 = y + k * dj ∧ inRange t.x2 t.y2 ∧ getCell mtx t.x2 t.y2 = 0
    ∧ t.xb = x + m * di ∧ t.yb = y + m * dj
    ∧ opposing (getCell mtx x y) (getCell mtx t.xb t.yb)
    ∧ ∀ n : Nat, 1 ≤ n → n < k → n ≠ m → getCell mtx (x + n * di) (y + n * dj) = 0

/-- The 64 cells of the board in loop order. -/
def cells : List (Int × Int) := idx8.flatMap fun i => idx8.map fun j => (i, j)

/-- The value 1 for an occupied cell and 0 for an empty one. -/
def occ (v : Int) : Nat := if v = 0 then 0 else 1

/-- The number of non-empty cells of the 8x8 grid. -/
def pieceCount (mtx : Board) : Nat := (cells.map fun p => occ (getCell mtx p.1 p.2)).sum

/-- A well-formed capture on `mtx`: origin, destination and captured square are three
distinct board cells, the destination is empty and the captured square is occupied. -/
def captureOK (mtx : Board) (t : move_pos) : Prop :=
  inRange t.x t.y ∧ inRange t.x2 t.y2 ∧ inRange t.xb t.yb ∧ t.xb ≠ -1
  ∧ ¬ (t.x = t.x2 ∧ t.y = t.y2) ∧ ¬ (t.x = t.xb ∧ t.y = t.yb) ∧ ¬ (t.x2 = t.xb ∧ t.y2 = t.yb)
  ∧ getCell mtx t.x2 t.y2 = 0 ∧ getCell mtx t.xb t.yb ≠ 0

/-- A complete series of further captures of the piece standing on `(x, y)`: each move is
one of the captures the square query reports for the piece where it stands, and after the
last one the query reports no capture. -/
def chainFrom : Board → Int → Int → List move_pos → Prop
  | mtx, x, y, [] => (find_turns_xy mtx x y).2 = false
  | mtx, x, y, t :: rest =>
    (find_turns_xy mtx x y).2 = true ∧ t ∈ (find_turns_xy mtx x y).1
      ∧ chainFrom (make_turn mtx t) t.x2 t.y2 rest

/-- A shuffle for sample runs: the engine state is trivial and the list is reversed. -/
def sampleShuffle : Unit → List move_pos → List move_pos × Unit := fun s l => (l.reverse, s)

/-- Sample settings: search depth 2, material-only scoring, the given pruning setting. -/
def sampleParams (optimization : String) : Params Unit :=
  ⟨sampleShuffle, 2, "Number", optimization⟩

/-- The members of `Logic` after `find_turns(color)` on the live board `mtx`, as `Game::play`
leaves them before the bot moves. -/
def sampleLogic (color : Bool) (mtx : Board) : Logic Unit :=
  (⟨[], false, [], [], ()⟩ : Logic Unit).find_turns (sampleParams "O1") color mtx

/-- A position with a double capture for the white man on (5,4). -/
def sampleBoard : Board := place [(5, 4, 1), (4, 3, 2), (2, 1, 2), (7, 0, 1), (0, 1, 2)]

/-- Spec (Position Evaluator): the men value of a colour: each man counts 1 and, in the
mode "NumberAndPotential", adds `0.05 * (7 - row)` for white and `0.05 * row` for black. -/
def spec_men (scoring_mode : String) (mtx : Board) (color : Bool) : ℚ :=
  (cells.map fun p =>
    if getCell mtx p.1 p.2 = (if color then 2 else 1) then
      1 + (if scoring_mode = "NumberAndPotential" then
            (1 / 20) * (if color then (p.1 : ℚ) else 7 - (p.1 : ℚ)) else 0)
    else 0).sum

/-- Spec (Position Evaluator): the number of kings of a colour. -/
def spec_kings (mtx : Board) (color : Bool) : ℚ :=
  (cells.map fun p => if getCell mtx p.1 p.2 = (if color then 4 else 3) then (1 : ℚ) else 0).sum

/-- Spec (Position Evaluator): the king multiplier, 4 in material-only mode and 5 in the mode
"NumberAndPotential". -/
def spec_q (scoring_mode : String) : ℚ := if scoring_mode = "NumberAndPotential" then 5 else 4

/-- Spec (Position Evaluator): the ratio
`(own_men + own_kings * q) / (opp_men + opp_kings * q)` for the colour `color`. -/
def spec_score (scoring_mode : String) (mtx : Board) (color : Bool) : ℚ :=
  (spec_men scoring_mode mtx color + spec_kings mtx color * spec_q scoring_mode)
    / (spec_men scoring_mode mtx (!color) + spec_kings mtx (!color) * spec_q scoring_mode)

/-- Modelled from the spec: the standard starting position (the set-up code of the board is
not among the sources): black men (2) on the cells `(i, j)` with `i` in 0..2 and `i + j`
odd, white men (1) on the cells with `i` in 5..7 and `i + j` odd, every other cell empty. -/
def startBoard : Board :=
  idx8.map fun i => idx8.map fun j =>
    if (i + j) % 2 = 1 then (if i ≤ 2 then 2 else if 5 ≤ i then 1 else 0) else 0

/-- The board of the forced double capture: a white man on (5,4), black men on (4,3) and
(2,1). -/
def jumpBoard : Board := place [(5, 4, 1), (4, 3, 2), (2, 1, 2)]

/-- The rule for a man capture from `(x, y)`: the destination `(x2, y2)` lies two rows and
two columns away, is on the board and empty, the captured square is the cell in between,
`((x + x2) / 2, (y + y2) / 2)`, and holds a piece of the opposite colour. -/
def manCapture (mtx : Board) (x y : Int) (t : move_pos) : Prop :=
  t.x = x ∧ t.y = y ∧ |t.x2 - x| = 2 ∧ |t.y2 - y| = 2 ∧ inRange t.x2 t.y2
    ∧ getCell mtx t.x2 t.y2 = 0 ∧ t.xb = (x + t.x2) / 2 ∧ t.yb = (y + t.y2) / 2
    ∧ opposing (getCell mtx x y) (getCell mtx t.xb t.yb)

instance (mtx : Board) (x y : Int) (t : move_pos) : Decidable (manCapture mtx x y t) := by
  unfold manCapture; infer_instance

/-- The rule for the simple moves of the man on `(x, y)`: the cells `(f, y - 1)` and
`(f, y + 1)` that are on the board and empty, `f = x - 1` for a white man and `f = x + 1`
for a black man. -/
def manSimple (mtx : Board) (x y : Int) : List move_pos :=
  let f := if getCell mtx x y = 1 then x - 1 else x + 1
  ([y - 1, y + 1].filter fun j => decide (inRange f j ∧ getCell mtx f j = 0)).map
    fun j => move_pos.mk4 x y f j

/-- A man of colour `color` on `(i, j)` is blocked: each of its two forward diagonal
neighbour cells (row `i - 1` for white, `i + 1` for black) is off the board or occupied. -/
def blockedMan (mtx : Board) (color : Bool) (i j : Int) : Prop :=
  ∀ j1 ∈ [j - 1, j + 1],
    ¬ inRange (if color then i + 1 else i - 1) j1
      ∨ getCell mtx (if color then i + 1 else i - 1) j1 ≠ 0

instance (mtx : Board) (color : Bool) (i j : Int) : Decidable (blockedMan mtx color i j) := by
  unfold blockedMan; infer_instance

/-- A white man on (5,0) shut in by black men on (4,1) and (3,2). -/
def blockedBoard : Board := place [(5, 0, 1), (4, 1, 2), (3, 2, 2)]

/-- The squares holding a piece of colour `color`, in loop order. -/
def pieceCells (color : Bool) (mtx : Board) : List (Int × Int) :=
  cells.filter fun p => decide (isPiece color (getCell mtx p.1 p.2))

/-- Some piece of colour `color` has a capture (its square query sets `have_beats`). -/
def anyCapture (color : Bool) (mtx : Board) : Bool :=
  (pieceCells color mtx).any fun p => (find_turns_xy mtx p.1 p.2).2

/-- The moves of colour `color` by the colour-level rule: the square-query results of the
squares holding a piece of the colour, of the pieces with a capture only when some piece of
the colour has one. -/
def spec_turns (color : Bool) (mtx : Board) : List move_pos :=
  ((pieceCells color mtx).filter fun p =>
      !anyCapture color mtx || (find_turns_xy mtx p.1 p.2).2).flatMap
    fun p => (find_turns_xy mtx p.1 p.2).1

/-- The test of the colour-wide loop (Logic.h 308) as a function of the cell. -/
def loopTest (color : Bool) (mtx : Board) (p : Int × Int) : Bool :=
  decide (getCell mtx p.1 p.2 ≠ 0 ∧ (getCell mtx p.1 p.2).tmod 2 ≠ colorInt color)

/-- Two white men, on (5,0) and (5,4), and a black man on (4,3): the man on (5,4) has a
capture, the man on (5,0) has not. -/
def mixedBoard : Board := place [(5, 0, 1), (5, 4, 1), (4, 3, 2)]

/-- The rule for a king simple move from `(x, y)`: the destination lies `k ≥ 1` steps along a
diagonal, and the destination and every cell strictly between origin and destination are on
the board and empty; no captured square is named. -/
def kingSimple (mtx : Board) (x y : Int) (t : move_pos) : Prop :=
  t.x = x ∧ t.y = y ∧ t.xb = -1 ∧ t.yb = -1 ∧
  ∃ di ∈ ([-1, 1] : List Int), ∃ dj ∈ ([-1, 1] : List Int), ∃ k : Nat, 1 ≤ k
    ∧ t.x2 = x + k * di ∧ t.y2 = y + k * dj
    ∧ ∀ n : Nat, 1 ≤ n → n ≤ k →
        inRange (x + n * di) (y + n * dj) ∧ getCell mtx (x + n * di) (y + n * dj) = 0

/-- A white king on (4,3) with a black man on (2,1) two steps away and a white man on (5,4)
next to it. -/
def kingBoard : Board := place [(4, 3, 3), (2, 1, 2), (1, 0, 2), (5, 4, 1)]

/-- The square `(xb, yb)` lies strictly between `(x, y)` and `(x2, y2)` on a diagonal through
them. -/
def between (x y x2 y2 xb yb : Int) : Prop :=
  ∃ di ∈ ([-1, 1] : List Int), ∃ dj ∈ ([-1, 1] : List Int), ∃ k m : Nat, 1 ≤ m ∧ m < k
    ∧ x2 = x + k * di ∧ y2 = y + k * dj ∧ xb = x + m * di ∧ yb = y + m * dj

/-- A well-formed move of the piece on `(x, y)`: it starts on `(x, y)`, its destination is an
empty board cell on a diagonal through `(x, y)`, at least one step away, and if it names a
captured square, that square is a board cell strictly between origin and destination on the
diagonal and holds a piece of the opposite colour. -/
def wellFormed (mtx : Board) (x y : Int) (t : move_pos) : Prop :=
  t.x = x ∧ t.y = y ∧ inRange t.x2 t.y2 ∧ getCell mtx t.x2 t.y2 = 0
    ∧ |t.x2 - x| = |t.y2 - y| ∧ 1 ≤ |t.x2 - x|
    ∧ (t.xb ≠ -1 → inRange t.xb t.yb ∧ between x y t.x2 t.y2 t.xb t.yb
        ∧ opposing (getCell mtx x y) (getCell mtx t.xb t.yb))

/-- The number of pieces (men and kings) of colour `color` on the 8x8 grid. -/
def colourCount (color : Bool) (mtx : Board) : Nat :=
  (cells.map fun p => if isPiece color (getCell mtx p.1 p.2) then 1 else 0).sum

/-- The first capture of the forced double capture: (5,4) -> (3,2) taking (4,3). -/
def jumpMove : move_pos := ⟨5, 4, 3, 2, 4, 3⟩

/-- The call `find_first_best_turn` makes for the candidate `turn` at state 0 (Logic.h
160-167): after a capture the nested `find_first_best_turn` for the landing square, with the
next free state, else `find_best_turns_rec` for the opponent at depth 0; `alpha` is the
current `best_score`. -/
def root_child {σ : Type} (P : Params σ) (n : Nat) (mtx : Board) (color : Bool)
    (have_beats_now : Bool) (L : Logic σ) (turn : move_pos) (alpha : ℚ) :
    Option (ℚ × Logic σ) :=
  if have_beats_now = true then
    find_first_best_turn P n L (make_turn mtx turn) color turn.x2 turn.y2 L.next_move.length alpha
  else
    find_best_turns_rec P n L (make_turn mtx turn) (!color) 0 alpha (INF + 1) (-1) (-1)

/-- The search `find_best_turns_rec` with every depth-cutoff evaluation made for the fixed
colour `c`: `calc_score(mtx, c)` in place of `calc_score(mtx, depth % 2 == color)`, the rest
of the body unchanged. -/
def rec_for {σ : Type} (P : Params σ) (c : Bool) :
    Nat → Logic σ → Board → Bool → Nat → ℚ → ℚ → Int → Int → Option (ℚ × Logic σ)
  | 0, _, _, _, _, _, _, _, _ => none
  | n + 1, L, mtx, color, depth, alpha, beta, x, y =>
    if depth = P.Max_depth then
      some (calc_score P.scoring_mode mtx c, L)
    else
      let L1 := if x ≠ -1 then L.find_turns_xy x y mtx else L.find_turns P color mtx
      let turns_now := L1.turns
      let have_beats_now := L1.have_beats
      if have_beats_now = false ∧ x ≠ -1 then
        rec_for P c n L1 mtx (!color) (depth + 1) alpha beta (-1) (-1)
      else if L1.turns = [] then
        some (if depth % 2 ≠ 0 then 0 else INF, L1)
      else
        rec_loop P depth
          (fun L2 turn a b =>
            if have_beats_now = false ∧ x = -1 then
              rec_for P c n L2 (make_turn mtx turn) (!color) (depth + 1) a b (-1) (-1)
            else
              rec_for P c n L2 (make_turn mtx turn) color depth a b turn.x2 turn.y2)
          turns_now L1 alpha beta (INF + 1) (-1)

/-- The arguments `(mtx, color, depth)` of one call of `find_best_turns_rec`. -/
structure Call where
  mtx : Board
  color : Bool
  depth : Nat

/-- The loop of `find_best_turns_rec` (`rec_loop`) that also collects the calls of
`find_best_turns_rec` made by the child calls, in execution order. -/
def rec_loop_tr {σ : Type} (P : Params σ) (depth : Nat)
    (child : Logic σ → move_pos → ℚ → ℚ → Option ((ℚ × Logic σ) × List Call)) :
    List move_pos → Logic σ → ℚ → ℚ → ℚ → ℚ → Option ((ℚ × Logic σ) × List Call)
  | [], L, _, _, min_score, max_score =>
    some ((if depth % 2 ≠ 0 then max_score else min_score, L), [])
  | turn :: rest, L, alpha, beta, min_score, max_score =>
    match child L turn alpha beta with
    | none => none
    | some ((score, L1), tr) =>
      let min1 := min min_score score
      let max1 := max max_score score
      let alpha1 := if depth % 2 ≠ 0 then max alpha max1 else alpha
      let beta1 := if depth % 2 ≠ 0 then beta else min beta min1
      if P.optimization ≠ "O0" ∧ alpha1 ≥ beta1 then
        some ((if depth % 2 ≠ 0 then max1 + 1 else min1 - 1, L1), tr)
      else
        (rec_loop_tr P depth child rest L1 alpha1 beta1 min1 max1).map
          fun r => (r.1, tr ++ r.2)

/-- `find_best_turns_rec` instrumented: the same body, returning in addition the list of the
calls of `find_best_turns_rec` made during the call, itself first, each recorded with the
arguments `(mtx, color, depth)` it received. -/
def rec_tr {σ : Type} (P : Params σ) :
    Nat → Logic σ → Board → Bool → Nat → ℚ → ℚ → Int → Int →
      Option ((ℚ × Logic σ) × List Call)
  | 0, _, _, _, _, _, _, _, _ => none
  | n + 1, L, mtx, color, depth, alpha, beta, x, y =>
    if depth = P.Max_depth then
      some ((calc_score P.scoring_mode mtx (decide ((depth % 2 : Int) = colorInt color)), L),
        [⟨mtx, color, depth⟩])
    else
      let L1 := if x ≠ -1 then L.find_turns_xy x y mtx else L.find_turns P color mtx
      let turns_now := L1.turns
      let have_beats_now := L1.have_beats
      if have_beats_now = false ∧ x ≠ -1 then
        (rec_tr P n L1 mtx (!color) (depth + 1) alpha beta (-1) (-1)).map
          fun r => (r.1, ⟨mtx, color, depth⟩ :: r.2)
      else if L1.turns = [] then
        some ((if depth % 2 ≠ 0 then 0 else INF, L1), [⟨mtx, color, depth⟩])
      else
        (rec_loop_tr P depth
          (fun L2 turn a b =>
            if have_beats_now = false ∧ x = -1 then
              rec_tr P n L2 (make_turn mtx turn) (!color) (depth + 1) a b (-1) (-1)
            else
              rec_tr P n L2 (make_turn mtx turn) color depth a b turn.x2 turn.y2)
          turns_now L1 alpha beta (INF + 1) (-1)).map
          fun r => (r.1, ⟨mtx, color, depth⟩ :: r.2)

/-- The loop of `find_first_best_turn` (`first_loop`) that also collects the calls of
`find_best_turns_rec` made by the child calls. -/
def first_loop_tr {σ : Type} (have_beats_now : Bool) (state : Nat)
    (child : Logic σ → move_pos → Nat → ℚ → Option ((ℚ × Logic σ) × List Call)) :
    List move_pos → Logic σ → ℚ → Option ((ℚ × Logic σ) × List Call)
  | [], L, best_score => some ((best_score, L), [])
  | turn :: rest, L, best_score =>
    let next_state := L.next_move.length
    match child L turn next_state best_score with
    | none => none
    | some ((score, L1), tr) =>
      (if score > best_score then
        first_loop_tr have_beats_now state child rest
          { L1 with
            next_best_state :=
              L1.next_best_state.set state (if have_beats_now then (next_state : Int) else -1),
            next_move := L1.next_move.set state turn }
          score
      else first_loop_tr have_beats_now state child rest L1 best_score).map
        fun r => (r.1, tr ++ r.2)

/-- `find_first_best_turn` instrumented: the same body, returning in addition the list of the
calls of `find_best_turns_rec` made during the call. -/
def first_tr {σ : Type} (P : Params σ) :
    Nat → Logic σ → Board → Bool → Int → Int → Nat → ℚ → Option ((ℚ × Logic σ) × List Call)
  | 0, _, _, _, _, _, _, _ => none
  | n + 1, L, mtx, color, x, y, state, alpha =>
    let L0 : Logic σ := L.push_state
    let L1 := if state ≠ 0 then L0.find_turns_xy x y mtx else L0
    let turns_now := L1.turns
    let have_beats_now := L1.have_beats
    if have_beats_now = false ∧ state ≠ 0 then
      rec_tr P n L1 mtx (!color) 0 alpha (INF + 1) (-1) (-1)
    else
      first_loop_tr have_beats_now state
        (fun L2 turn next_state best_score =>
          if have_beats_now = true then
            first_tr P n L2 (make_turn mtx turn) color turn.x2 turn.y2 next_state best_score
          else
            rec_tr P n L2 (make_turn mtx turn) (!color) 0 best_score (INF + 1) (-1) (-1))
        turns_now L1 (-1)

/-- `find_best_turns` instrumented: the same body, returning in addition the list of the
calls of `find_best_turns_rec` made during the call. -/
def best_tr {σ : Type} (P : Params σ) (fuel : Nat) (L : Logic σ) (mtx : Board)
    (color : Bool) : Option ((List move_pos × Logic σ) × List Call) :=
  let L0 : Logic σ := { L with next_best_state := [], next_move := [] }
  match first_tr P fuel L0 mtx color (-1) (-1) 0 (-1) with
  | none => none
  | some ((_, L1), tr) =>
    (collect_chain L1.next_move L1.next_best_state L1.next_move.length 0).map
      (fun res => ((res, L1), tr))

/-! ## Board access lemmas -/

theorem getCell_setCell_ne (mtx : Board) (i j v a b : Int) (h : ¬ (a = i ∧ b = j)) :
    getCell (setCell mtx i j v) a b = getCell mtx a b := by
  unfold getCell setCell
  by_cases hab : 0 ≤ a ∧ 0 ≤ b
  · by_cases hij : 0 ≤ i ∧ 0 ≤ j
    · simp only [hab, hij, and_self, if_true]
      by_cases hai : a = i
      · have hbj : b.toNat ≠ j.toNat := by
          intro hc; apply h; refine ⟨hai, ?_⟩; omega
        subst hai
        simp only [List.getD_eq_getElem?_getD]
        by_cases hl : a.toNat < mtx.length
        · simp [List.getElem?_set, hl, List.getElem?_eq_getElem, Ne.symm hbj]
        · rw [List.set_eq_of_length_le (by omega)]
      · have : i.toNat ≠ a.toNat := by omega
        simp [List.getD_eq_getElem?_getD, List.getElem?_set, this]
    · simp [hij]
  · simp [hab]

theorem getCell_setCell_eq (mtx : Board) (i j v : Int) (h8 : is8x8 mtx) (hr : inRange i j) :
    getCell (setCell mtx i j v) i j = v := by
  obtain ⟨hl, hrow⟩ := h8
  obtain ⟨h1, h2, h3, h4⟩ := hr
  unfold getCell setCell
  have hi : i.toNat < mtx.length := by omega
  have hrl : (mtx[i.toNat]).length = 8 := hrow _ (List.getElem_mem _)
  have hj : j.toNat < (mtx[i.toNat]).length := by omega
  simp [h1, h3, List.getD_eq_getElem?_getD, List.getElem?_set, hi, List.getElem?_eq_getElem, hj]

theorem is8x8_setCell (mtx : Board) (i j v : Int) (h8 : is8x8 mtx) : is8x8 (setCell mtx i j v) := by
  obtain ⟨hl, hrow⟩ := h8
  unfold setCell
  split
  · by_cases hi : i.toNat < mtx.length
    · refine ⟨by simp [hl], ?_⟩
      intro row hrowmem
      rcases List.mem_or_eq_of_mem_set hrowmem with h | h
      · exact hrow _ h
      · subst h
        simp only [List.length_set, List.getD_eq_getElem?_getD, List.getElem?_eq_getElem hi,
          Option.getD_some]
        exact hrow _ (List.getElem_mem _)
    · rw [List.set_eq_of_length_le (by omega)]
      exact ⟨hl, hrow⟩
  · exact ⟨hl, hrow⟩

theorem getCell_out (mtx : Board) (i j : Int) (h8 : is8x8 mtx) (h : ¬ inRange i j) : getCell mtx i j = 0 := by
  obtain ⟨hl, hrow⟩ := h8
  unfold getCell
  split
  · rename_i h0
    simp only [List.getD_eq_getElem?_getD]
    by_cases hi : i.toNat < mtx.length
    · have hrl : (mtx[i.toNat]).length = 8 := hrow _ (List.getElem_mem _)
      have hj : ¬ j.toNat < (mtx[i.toNat]).length := by unfold inRange at h; omega
      simp [List.getElem?_eq_getElem hi, List.getElem?_eq_none (not_lt.mp hj)]
    · simp [List.getElem?_eq_none (not_lt.mp hi)]
  · rfl

/-! ## `make_turn` -/

theorem is8x8_ite (c : Prop) [Decidable c] (a b : Board) (ha : is8x8 a) (hb : is8x8 b) :
    is8x8 (if c then a else b) := by
  split
  · exact ha
  · exact hb

theorem is8x8_make_turn (mtx : Board) (t : move_pos) (h8 : is8x8 mtx) : is8x8 (make_turn mtx t) := by
  have h1 : is8x8 (if t.xb ≠ -1 then setCell mtx t.xb t.yb 0 else mtx) :=
    is8x8_ite _ _ _ (is8x8_setCell _ _ _ _ h8) h8
  unfold make_turn
  exact is8x8_setCell _ _ _ _ (is8x8_setCell _ _ _ _
    (is8x8_ite _ _ _ (is8x8_setCell _ _ _ _ h1) h1))

theorem make_turn_spec (mtx : Board) (t : move_pos) (h8 : is8x8 mtx)
    (hO : inRange t.x t.y) (hD : inRange t.x2 t.y2) (hB : t.xb ≠ -1 → inRange t.xb t.yb)
    (hOD : ¬ (t.x = t.x2 ∧ t.y = t.y2))
    (hOB : t.xb ≠ -1 → ¬ (t.x = t.xb ∧ t.y = t.yb)) :
    getCell (make_turn mtx t) t.x t.y = 0
    ∧ (t.xb ≠ -1 → ¬ (t.x2 = t.xb ∧ t.y2 = t.yb) → getCell (make_turn mtx t) t.xb t.yb = 0)
    ∧ getCell (make_turn mtx t) t.x2 t.y2 = landed (getCell mtx t.x t.y) t.x2
    ∧ ∀ a b, ¬ (a = t.x ∧ b = t.y) → ¬ (a = t.x2 ∧ b = t.y2) →
        ¬ (t.xb ≠ -1 ∧ a = t.xb ∧ b = t.yb) →
        getCell (make_turn mtx t) a b = getCell mtx a b := by
  -- the board after clearing the captured cell
  set m1 := (if t.xb ≠ -1 then setCell mtx t.xb t.yb 0 else mtx) with hm1
  have h8m1 : is8x8 m1 := by
    rw [hm1]; split
    · exact is8x8_setCell _ _ _ _ h8
    · exact h8
  have hm1O : getCell m1 t.x t.y = getCell mtx t.x t.y := by
    rw [hm1]; split
    · rename_i hb; exact getCell_setCell_ne _ _ _ _ _ _ (hOB hb)
    · rfl
  have hm1B : t.xb ≠ -1 → getCell m1 t.xb t.yb = 0 := by
    intro hb; rw [hm1, if_pos hb]; exact getCell_setCell_eq _ _ _ _ h8 (hB hb)
  have hm1other : ∀ a b, ¬ (t.xb ≠ -1 ∧ a = t.xb ∧ b = t.yb) → getCell m1 a b = getCell mtx a b := by
    intro a b hab; rw [hm1]; split
    · rename_i hb; exact getCell_setCell_ne _ _ _ _ _ _ (fun h => hab ⟨hb, h⟩)
    · rfl
  -- the board after the promotion
  set m2 := (if (getCell m1 t.x t.y = 1 ∧ t.x2 = 0) ∨ (getCell m1 t.x t.y = 2 ∧ t.x2 = 7)
    then setCell m1 t.x t.y (getCell m1 t.x t.y + 2) else m1) with hm2
  have h8m2 : is8x8 m2 := by
    rw [hm2]; split
    · exact is8x8_setCell _ _ _ _ h8m1
    · exact h8m1
  have hm2O : getCell m2 t.x t.y = landed (getCell mtx t.x t.y) t.x2 := by
    rw [hm2, hm1O]; unfold landed; split
    · rename_i hp
      rw [getCell_setCell_eq _ _ _ _ h8m1 hO]
      rcases hp with ⟨h1, h2⟩ | ⟨h1, h2⟩
      · simp [h1, h2]
      · simp [h1, h2]
    · rename_i hp
      rw [hm1O]
      rw [not_or] at hp
      simp [hp.1, hp.2]
  have hm2other : ∀ a b, ¬ (a = t.x ∧ b = t.y) → getCell m2 a b = getCell m1 a b := by
    intro a b hab; rw [hm2]; split
    · exact getCell_setCell_ne _ _ _ _ _ _ hab
    · rfl
  have hmt : make_turn mtx t = setCell (setCell m2 t.x2 t.y2 (getCell m2 t.x t.y)) t.x t.y 0 := rfl
  have h8m3 : is8x8 (setCell m2 t.x2 t.y2 (getCell m2 t.x t.y)) := is8x8_setCell _ _ _ _ h8m2
  refine ⟨?_, ?_, ?_, ?_⟩
  · rw [hmt]; exact getCell_setCell_eq _ _ _ _ h8m3 hO
  · intro hb hDBb
    have hDB : t.xb ≠ -1 → ¬ (t.x2 = t.xb ∧ t.y2 = t.yb) := fun _ => hDBb
    rw [hmt, getCell_setCell_ne _ _ _ _ _ _ (fun h => hOB hb ⟨h.1.symm, h.2.symm⟩),
      getCell_setCell_ne _ _ _ _ _ _ (fun h => hDB hb ⟨h.1.symm, h.2.symm⟩),
      hm2other _ _ (fun h => hOB hb ⟨h.1.symm, h.2.symm⟩)]
    exact hm1B hb
  · rw [hmt, getCell_setCell_ne _ _ _ _ _ _ (fun h => hOD ⟨h.1.symm, h.2.symm⟩),
      getCell_setCell_eq _ _ _ _ h8m2 hD]
    exact hm2O
  · intro a b h1 h2 h3
    rw [hmt, getCell_setCell_ne _ _ _ _ _ _ h1, getCell_setCell_ne _ _ _ _ _ _ h2,
      hm2other _ _ h1, hm1other _ _ h3]


/-- C5: on an 8x8 board, for a move between board cells whose origin differs from its
destination and from its captured square, if any (as for every move the generator returns:
`find_turns_xy_wf`), if the origin holds a white man (1) and the destination row is 0 the
destination holds the white king (3) after the single `make_turn` call, and if the origin
holds a black man (2) and the destination row is 7 it holds the black king (4). -/
theorem C5_promotion_atomic (mtx : Board) (t : move_pos) (h8 : is8x8 mtx)
    (hO : inRange t.x t.y) (hD : inRange t.x2 t.y2) (hB : t.xb ≠ -1 → inRange t.xb t.yb)
    (hOD : ¬ (t.x = t.x2 ∧ t.y = t.y2))
    (hOB : t.xb ≠ -1 → ¬ (t.x = t.xb ∧ t.y = t.yb)) :
    (getCell mtx t.x t.y = 1 ∧ t.x2 = 0 → getCell (make_turn mtx t) t.x2 t.y2 = 3)
    ∧ (getCell mtx t.x t.y = 2 ∧ t.x2 = 7 → getCell (make_turn mtx t) t.x2 t.y2 = 4) := by
  have h := (make_turn_spec mtx t h8 hO hD hB hOD hOB).2.2.1
  constructor
  · rintro ⟨h1, h2⟩; rw [h, h1, h2]; rfl
  · rintro ⟨h1, h2⟩; rw [h, h1, h2]; rfl

theorem C5_promotion_atomic_witness :
    getCell (place [(1, 0, 1), (1, 2, 2)]) 1 0 = 1
    ∧ getCell (make_turn (place [(1, 0, 1), (1, 2, 2)]) ⟨1, 0, 0, 1, -1, -1⟩) 0 1 = 3
    ∧ getCell (place [(6, 1, 2), (1, 2, 2)]) 6 1 = 2
    ∧ getCell (make_turn (place [(6, 1, 2), (1, 2, 2)]) ⟨6, 1, 7, 0, -1, -1⟩) 7 0 = 4 :=
  ⟨by decide,
   (C5_promotion_atomic (place [(1, 0, 1), (1, 2, 2)]) ⟨1, 0, 0, 1, -1, -1⟩ (by decide) (by decide)
      (by decide) (by decide) (by decide) (by decide)).1 (by decide),
   by decide,
   (C5_promotion_atomic (place [(6, 1, 2), (1, 2, 2)]) ⟨6, 1, 7, 0, -1, -1⟩ (by decide) (by decide)
      (by decide) (by decide) (by decide) (by decide)).2 (by decide)⟩

/-- C6: on an 8x8 board, for a move with in-range coordinates whose origin, destination and
captured square (if present, i.e. `xb ≠ -1`) are pairwise distinct, the board returned by
`make_turn` is again 8x8, has 0 at the origin, 0 at the captured square (if any), at the
destination the piece that stood on the origin (its king exactly when it is a man reaching
its promotion row), and agrees with the input board on every other cell. -/
theorem C6_make_turn_frame (mtx : Board) (t : move_pos) (h8 : is8x8 mtx)
    (hO : inRange t.x t.y) (hD : inRange t.x2 t.y2) (hB : t.xb ≠ -1 → inRange t.xb t.yb)
    (hOD : ¬ (t.x = t.x2 ∧ t.y = t.y2))
    (hOB : t.xb ≠ -1 → ¬ (t.x = t.xb ∧ t.y = t.yb))
    (hDB : t.xb ≠ -1 → ¬ (t.x2 = t.xb ∧ t.y2 = t.yb)) :
    is8x8 (make_turn mtx t)
    ∧ getCell (make_turn mtx t) t.x t.y = 0
    ∧ (t.xb ≠ -1 → getCell (make_turn mtx t) t.xb t.yb = 0)
    ∧ getCell (make_turn mtx t) t.x2 t.y2 =
        (if getCell mtx t.x t.y = 1 ∧ t.x2 = 0 then 3
         else if getCell mtx t.x t.y = 2 ∧ t.x2 = 7 then 4
         else getCell mtx t.x t.y)
    ∧ ∀ a b, ¬ (a = t.x ∧ b = t.y) → ¬ (a = t.x2 ∧ b = t.y2) →
        ¬ (t.xb ≠ -1 ∧ a = t.xb ∧ b = t.yb) →
        getCell (make_turn mtx t) a b = getCell mtx a b := by
  obtain ⟨h1, h2, h3, h4⟩ := make_turn_spec mtx t h8 hO hD hB hOD hOB
  exact ⟨is8x8_make_turn mtx t h8, h1, fun hb => h2 hb (hDB hb), h3, h4⟩

theorem C6_make_turn_frame_witness :
    getCell (make_turn (place [(5, 4, 1), (4, 3, 2), (2, 1, 2)]) ⟨5, 4, 3, 2, 4, 3⟩) 5 4 = 0
    ∧ getCell (make_turn (place [(5, 4, 1), (4, 3, 2), (2, 1, 2)]) ⟨5, 4, 3, 2, 4, 3⟩) 4 3 = 0
    ∧ getCell (make_turn (place [(5, 4, 1), (4, 3, 2), (2, 1, 2)]) ⟨5, 4, 3, 2, 4, 3⟩) 3 2 = 1
    ∧ getCell (make_turn (place [(5, 4, 1), (4, 3, 2), (2, 1, 2)]) ⟨5, 4, 3, 2, 4, 3⟩) 2 1 = 2 := by
  obtain ⟨-, h1, h2, h3, h4⟩ := C6_make_turn_frame (place [(5, 4, 1), (4, 3, 2), (2, 1, 2)])
    ⟨5, 4, 3, 2, 4, 3⟩ (by decide) (by decide) (by decide) (by decide) (by decide) (by decide)
    (by decide)
  refine ⟨h1, h2 (by decide), ?_, ?_⟩
  · rw [h3]; decide
  · rw [h4 2 1 (by decide) (by decide) (by decide)]; decide


/-! ## The double loop over the board -/

/-- Invariant rule for the double loop `for i in 0..7, for j in 0..7`. -/
theorem scan_inv {α : Type} (f : α → Int → Int → α) (P : α → Prop) (init : α) (h0 : P init)
    (hstep : ∀ s i j, i ∈ idx8 → j ∈ idx8 → P s → P (f s i j)) :
    P (idx8.foldl (fun st i => idx8.foldl (fun st1 j => f st1 i j) st) init) := by
  have inner : ∀ (l : List Int) (i : Int) (s : α), i ∈ idx8 → (∀ j ∈ l, j ∈ idx8) → P s →
      P (l.foldl (fun st1 j => f st1 i j) s) := by
    intro l i
    induction l with
    | nil => intro s _ _ hs; exact hs
    | cons a l ih =>
      intro s hi hl hs
      simp only [List.foldl_cons]
      exact ih _ hi (fun j hj => hl j (List.mem_cons_of_mem _ hj))
        (hstep s i a hi (hl a (List.mem_cons_self _ _)) hs)
  have outer : ∀ (l : List Int) (s : α), (∀ i ∈ l, i ∈ idx8) → P s →
      P (l.foldl (fun st i => idx8.foldl (fun st1 j => f st1 i j) st) s) := by
    intro l
    induction l with
    | nil => intro s _ hs; exact hs
    | cons a l ih =>
      intro s hl hs
      simp only [List.foldl_cons]
      exact ih _ (fun i hi => hl i (List.mem_cons_of_mem _ hi))
        (inner idx8 a s (hl a (List.mem_cons_self _ _)) (fun j hj => hj) hs)
  exact outer idx8 init (fun i hi => hi) h0

/-- A measure that no iteration of the double loop decreases and that the iteration at
`(i0, j0)` increases by at least one grows by at least one over the whole loop. -/
theorem scan_gain {α : Type} (f : α → Int → Int → α) (μ : α → ℚ) (init : α) (i0 j0 : Int)
    (hi0 : i0 ∈ idx8) (hj0 : j0 ∈ idx8)
    (hmono : ∀ s i j, i ∈ idx8 → j ∈ idx8 → μ s ≤ μ (f s i j))
    (hgain : ∀ s, μ s + 1 ≤ μ (f s i0 j0)) :
    μ init + 1 ≤ μ (idx8.foldl (fun st i => idx8.foldl (fun st1 j => f st1 i j) st) init) := by
  have innerMono : ∀ (l : List Int) (i : Int) (s : α), i ∈ idx8 → (∀ j ∈ l, j ∈ idx8) →
      μ s ≤ μ (l.foldl (fun st1 j => f st1 i j) s) := by
    intro l i
    induction l with
    | nil => intro s _ _; exact le_refl _
    | cons a l ih =>
      intro s hi hl
      simp only [List.foldl_cons]
      exact le_trans (hmono s i a hi (hl a (List.mem_cons_self _ _)))
        (ih _ hi (fun j hj => hl j (List.mem_cons_of_mem _ hj)))
  have innerGain : ∀ (l : List Int) (s : α), j0 ∈ l → (∀ j ∈ l, j ∈ idx8) →
      μ s + 1 ≤ μ (l.foldl (fun st1 j => f st1 i0 j) s) := by
    intro l
    induction l with
    | nil => intro s h; simp at h
    | cons a l ih =>
      intro s hmem hl
      simp only [List.foldl_cons]
      have hl2 : ∀ j ∈ l, j ∈ idx8 := fun j hj => hl j (List.mem_cons_of_mem _ hj)
      by_cases ha : j0 = a
      · subst ha
        exact le_trans (hgain s) (innerMono l i0 _ hi0 hl2)
      · have hm : j0 ∈ l := by
          rcases List.mem_cons.mp hmem with h | h
          · exact absurd h ha
          · exact h
        have h1 := hmono s i0 a hi0 (hl a (List.mem_cons_self _ _))
        have h2 := ih (f s i0 a) hm hl2
        linarith
  have outerMono : ∀ (l : List Int) (s : α), (∀ i ∈ l, i ∈ idx8) →
      μ s ≤ μ (l.foldl (fun st i => idx8.foldl (fun st1 j => f st1 i j) st) s) := by
    intro l
    induction l with
    | nil => intro s _; exact le_refl _
    | cons a l ih =>
      intro s hl
      simp only [List.foldl_cons]
      exact le_trans (innerMono idx8 a s (hl a (List.mem_cons_self _ _)) (fun j hj => hj))
        (ih _ (fun i hi => hl i (List.mem_cons_of_mem _ hi)))
  have outerGain : ∀ (l : List Int) (s : α), i0 ∈ l → (∀ i ∈ l, i ∈ idx8) →
      μ s + 1 ≤ μ (l.foldl (fun st i => idx8.foldl (fun st1 j => f st1 i j) st) s) := by
    intro l
    induction l with
    | nil => intro s h; simp at h
    | cons a l ih =>
      intro s hmem hl
      simp only [List.foldl_cons]
      have hl2 : ∀ i ∈ l, i ∈ idx8 := fun i hi => hl i (List.mem_cons_of_mem _ hi)
      by_cases ha : i0 = a
      · subst ha
        exact le_trans (innerGain idx8 s hj0 (fun j hj => hj)) (outerMono l _ hl2)
      · have hm : i0 ∈ l := by
          rcases List.mem_cons.mp hmem with h | h
          · exact absurd h ha
          · exact h
        have h1 := innerMono idx8 a s (hl a (List.mem_cons_self _ _)) (fun j hj => hj)
        have h2 := ih (idx8.foldl (fun st1 j => f st1 a j) s) hm hl2
        linarith
  exact outerGain idx8 init hi0 (fun i hi => hi)

theorem idx8_bounds (i : Int) (h : i ∈ idx8) : 0 ≤ i ∧ i ≤ 7 := by
  unfold idx8 at h
  simp only [List.mem_cons, List.mem_singleton, List.not_mem_nil, or_false] at h
  omega

theorem idx8_mem (i : Int) (h0 : 0 ≤ i) (h7 : i ≤ 7) : i ∈ idx8 := by
  unfold idx8
  simp only [List.mem_cons, List.mem_singleton, List.not_mem_nil, or_false]
  omega

theorem ind_nonneg (p : Prop) [Decidable p] : 0 ≤ ind p := by
  unfold ind; split <;> norm_num

/-- All four accumulators of `calc_score` are non-negative after the loops. -/
theorem score_scan_nonneg (mode : String) (mtx : Board) :
    0 ≤ (score_scan mode mtx).w ∧ 0 ≤ (score_scan mode mtx).wq
    ∧ 0 ≤ (score_scan mode mtx).b ∧ 0 ≤ (score_scan mode mtx).bq := by
  unfold score_scan
  apply scan_inv (score_cell mode mtx) (fun s => 0 ≤ s.w ∧ 0 ≤ s.wq ∧ 0 ≤ s.b ∧ 0 ≤ s.bq)
  · simp
  · intro s i j hi hj ⟨h1, h2, h3, h4⟩
    have hb := idx8_bounds i hi
    have hi0 : (0 : ℚ) ≤ (i : ℚ) := by exact_mod_cast hb.1
    have hi7 : (0 : ℚ) ≤ 7 - (i : ℚ) := by
      have : (i : ℚ) ≤ 7 := by exact_mod_cast hb.2
      linarith
    have e1 := ind_nonneg (getCell mtx i j = 1)
    have e2 := ind_nonneg (getCell mtx i j = 2)
    have e3 := ind_nonneg (getCell mtx i j = 3)
    have e4 := ind_nonneg (getCell mtx i j = 4)
    unfold score_cell
    split
    · simp only []
      refine ⟨?_, by linarith, ?_, by linarith⟩
      · have := mul_nonneg (mul_nonneg (by norm_num : (0 : ℚ) ≤ 1 / 20) e1) hi7
        linarith
      · have := mul_nonneg (mul_nonneg (by norm_num : (0 : ℚ) ≤ 1 / 20) e2) hi0
        linarith
    · simp only []
      exact ⟨by linarith, by linarith, by linarith, by linarith⟩


/-! ## `calc_score` -/

/-- One iteration of the `calc_score` loop never decreases an accumulator. -/
theorem score_cell_mono (mode : String) (mtx : Board) (s : Sums) (i j : Int) (hi : i ∈ idx8) :
    s.w ≤ (score_cell mode mtx s i j).w ∧ s.wq ≤ (score_cell mode mtx s i j).wq
    ∧ s.b ≤ (score_cell mode mtx s i j).b ∧ s.bq ≤ (score_cell mode mtx s i j).bq := by
  have hb := idx8_bounds i hi
  have hi0 : (0 : ℚ) ≤ (i : ℚ) := by exact_mod_cast hb.1
  have hi7 : (0 : ℚ) ≤ 7 - (i : ℚ) := by
    have : (i : ℚ) ≤ 7 := by exact_mod_cast hb.2
    linarith
  have e1 := ind_nonneg (getCell mtx i j = 1)
  have e2 := ind_nonneg (getCell mtx i j = 2)
  have e3 := ind_nonneg (getCell mtx i j = 3)
  have e4 := ind_nonneg (getCell mtx i j = 4)
  have p1 := mul_nonneg (mul_nonneg (by norm_num : (0 : ℚ) ≤ 1 / 20) e1) hi7
  have p2 := mul_nonneg (mul_nonneg (by norm_num : (0 : ℚ) ≤ 1 / 20) e2) hi0
  unfold score_cell
  split
  · simp only []
    exact ⟨by linarith, by linarith, by linarith, by linarith⟩
  · simp only []
    exact ⟨by linarith, by linarith, by linarith, by linarith⟩

/-- The white accumulators stay 0 on a board without white pieces. -/
theorem score_scan_white_zero (mode : String) (mtx : Board) (h : noPieces false mtx) :
    (score_scan mode mtx).w = 0 ∧ (score_scan mode mtx).wq = 0 := by
  unfold score_scan
  apply scan_inv (score_cell mode mtx) (fun s => s.w = 0 ∧ s.wq = 0)
  · simp
  · intro s i j hi hj ⟨h1, h2⟩
    have hc := h i hi j hj
    simp only [isPiece, Bool.false_eq_true, if_false, not_or] at hc
    unfold score_cell
    split <;> simp [ind, hc.1, hc.2, h1, h2]

/-- The black accumulators stay 0 on a board without black pieces. -/
theorem score_scan_black_zero (mode : String) (mtx : Board) (h : noPieces true mtx) :
    (score_scan mode mtx).b = 0 ∧ (score_scan mode mtx).bq = 0 := by
  unfold score_scan
  apply scan_inv (score_cell mode mtx) (fun s => s.b = 0 ∧ s.bq = 0)
  · simp
  · intro s i j hi hj ⟨h1, h2⟩
    have hc := h i hi j hj
    simp only [isPiece, if_true, not_or] at hc
    unfold score_cell
    split <;> simp [ind, hc.1, hc.2, h1, h2]

/-- A white piece on the board makes the white accumulators sum to at least 1. -/
theorem score_scan_white_pos (mode : String) (mtx : Board) (h : ¬ noPieces false mtx) :
    1 ≤ (score_scan mode mtx).w + (score_scan mode mtx).wq := by
  unfold noPieces at h
  push_neg at h
  obtain ⟨i0, hi0, j0, hj0, hp⟩ := h
  simp only [isPiece, Bool.false_eq_true, if_false] at hp
  have := scan_gain (score_cell mode mtx) (fun s => s.w + s.wq) ⟨0, 0, 0, 0⟩ i0 j0 hi0 hj0
    (fun s i j hi _ => by
      have := score_cell_mono mode mtx s i j hi
      simp only []; linarith [this.1, this.2.1])
    (fun s => by
      have hm := score_cell_mono mode mtx ⟨s.w + ind (getCell mtx i0 j0 = 1),
        s.wq + ind (getCell mtx i0 j0 = 3), s.b, s.bq⟩ i0 j0 hi0
      have hb := idx8_bounds i0 hi0
      have hi7 : (0 : ℚ) ≤ 7 - (i0 : ℚ) := by
        have : (i0 : ℚ) ≤ 7 := by exact_mod_cast hb.2
        linarith
      have e1 := ind_nonneg (getCell mtx i0 j0 = 1)
      have p1 := mul_nonneg (mul_nonneg (by norm_num : (0 : ℚ) ≤ 1 / 20) e1) hi7
      have hsum : ind (getCell mtx i0 j0 = 1) + ind (getCell mtx i0 j0 = 3) = 1 := by
        rcases hp with hp | hp <;> simp [ind, hp]
      unfold score_cell
      split
      · simp only []; linarith
      · simp only []; linarith)
  unfold score_scan
  simp only [] at this
  linarith

/-- A black piece on the board makes the black accumulators sum to at least 1. -/
theorem score_scan_black_pos (mode : String) (mtx : Board) (h : ¬ noPieces true mtx) :
    1 ≤ (score_scan mode mtx).b + (score_scan mode mtx).bq := by
  unfold noPieces at h
  push_neg at h
  obtain ⟨i0, hi0, j0, hj0, hp⟩ := h
  simp only [isPiece, if_true] at hp
  have := scan_gain (score_cell mode mtx) (fun s => s.b + s.bq) ⟨0, 0, 0, 0⟩ i0 j0 hi0 hj0
    (fun s i j hi _ => by
      have := score_cell_mono mode mtx s i j hi
      simp only []; linarith [this.2.2.1, this.2.2.2])
    (fun s => by
      have hb := idx8_bounds i0 hi0
      have hi0q : (0 : ℚ) ≤ (i0 : ℚ) := by exact_mod_cast hb.1
      have e2 := ind_nonneg (getCell mtx i0 j0 = 2)
      have p2 := mul_nonneg (mul_nonneg (by norm_num : (0 : ℚ) ≤ 1 / 20) e2) hi0q
      have hsum : ind (getCell mtx i0 j0 = 2) + ind (getCell mtx i0 j0 = 4) = 1 := by
        rcases hp with hp | hp <;> simp [ind, hp]
      unfold score_cell
      split
      · simp only []; linarith
      · simp only []; linarith)
  unfold score_scan
  simp only [] at this
  linarith

/-- After the swap, the accumulators `w, wq` of `calc_score` vanish when the opponent of
the evaluated colour has no piece. -/
theorem score_sums_opp_zero (mode : String) (mtx : Board) (c : Bool) (h : noPieces (!c) mtx) :
    (score_sums mode mtx c).w + (score_sums mode mtx c).wq = 0 := by
  unfold score_sums
  cases c
  · have := score_scan_black_zero mode mtx h
    simp [this.1, this.2]
  · have := score_scan_white_zero mode mtx h
    simp [this.1, this.2]

theorem score_sums_opp_pos (mode : String) (mtx : Board) (c : Bool) (h : ¬ noPieces (!c) mtx) :
    1 ≤ (score_sums mode mtx c).w + (score_sums mode mtx c).wq := by
  unfold score_sums
  cases c
  · have := score_scan_black_pos mode mtx h
    simpa using this
  · have := score_scan_white_pos mode mtx h
    simpa using this

theorem score_sums_own_zero (mode : String) (mtx : Board) (c : Bool) (h : noPieces c mtx) :
    (score_sums mode mtx c).b + (score_sums mode mtx c).bq = 0 := by
  unfold score_sums
  cases c
  · have := score_scan_white_zero mode mtx h
    simp [this.1, this.2]
  · have := score_scan_black_zero mode mtx h
    simp [this.1, this.2]

theorem score_sums_own_pos (mode : String) (mtx : Board) (c : Bool) (h : ¬ noPieces c mtx) :
    1 ≤ (score_sums mode mtx c).b + (score_sums mode mtx c).bq := by
  unfold score_sums
  cases c
  · have := score_scan_white_pos mode mtx h
    simpa using this
  · have := score_scan_black_pos mode mtx h
    simpa using this

theorem score_sums_nonneg (mode : String) (mtx : Board) (c : Bool) :
    0 ≤ (score_sums mode mtx c).w ∧ 0 ≤ (score_sums mode mtx c).wq
    ∧ 0 ≤ (score_sums mode mtx c).b ∧ 0 ≤ (score_sums mode mtx c).bq := by
  obtain ⟨h1, h2, h3, h4⟩ := score_scan_nonneg mode mtx
  unfold score_sums
  cases c
  · exact ⟨h3, h4, h1, h2⟩
  · exact ⟨h1, h2, h3, h4⟩

theorem q_coef_ge (mode : String) : 4 ≤ q_coef mode := by
  unfold q_coef; split <;> norm_num

/-- If the sum `w + wq` tested on Logic.h 105 is not zero, the divisor is positive. -/
theorem score_divisor_pos (mode : String) (mtx : Board) (c : Bool)
    (h : (score_sums mode mtx c).w + (score_sums mode mtx c).wq ≠ 0) :
    0 < score_divisor mode mtx c := by
  obtain ⟨h1, h2, -, -⟩ := score_sums_nonneg mode mtx c
  have hq := q_coef_ge mode
  unfold score_divisor
  simp only []
  have hpos : 0 < (score_sums mode mtx c).w + (score_sums mode mtx c).wq :=
    lt_of_le_of_ne (by linarith) (Ne.symm h)
  nlinarith [mul_nonneg h2 (by linarith : (0 : ℚ) ≤ q_coef mode - 1)]


/-- `calc_score` returns `INF` as soon as the sum tested on Logic.h 105 vanishes. -/
theorem calc_score_of_opp_zero (mode : String) (mtx : Board) (c : Bool)
    (h : noPieces (!c) mtx) : calc_score mode mtx c = INF := by
  unfold calc_score
  simp only []
  rw [if_pos (score_sums_opp_zero mode mtx c h)]

/-- C8: for every board, every scoring mode and both colours, if the opponent of the
evaluated colour has no piece (neither man nor king) on the board, `calc_score` returns the
sentinel `INF` (1e9). -/
theorem C8_calc_score_win (scoring_mode : String) (mtx : Board) (first_bot_color : Bool)
    (h : noPieces (!first_bot_color) mtx) :
    calc_score scoring_mode mtx first_bot_color = INF :=
  calc_score_of_opp_zero scoring_mode mtx first_bot_color h

theorem C8_calc_score_win_witness :
    calc_score "NumberAndPotential" (place [(5, 4, 1), (7, 0, 3)]) false = INF
    ∧ calc_score "Number" (place [(2, 1, 2)]) true = INF :=
  ⟨C8_calc_score_win "NumberAndPotential" (place [(5, 4, 1), (7, 0, 3)]) false (by decide),
   C8_calc_score_win "Number" (place [(2, 1, 2)]) true (by decide)⟩

/-- C9 (as stated) fails: on the empty board the evaluated colour has no piece, but
`calc_score` returns `INF`, not 0, because the test for the opponent comes first. -/
theorem C9_counterexample :
    noPieces true emptyBoard ∧ calc_score "Number" emptyBoard true = INF
    ∧ calc_score "Number" emptyBoard true ≠ 0 := by
  have h : calc_score "Number" emptyBoard true = INF :=
    calc_score_of_opp_zero "Number" emptyBoard true (by decide)
  refine ⟨by decide, h, ?_⟩
  rw [h]; unfold INF; norm_num

/-- C9 (amended): for every board, every scoring mode and both colours, if the evaluated
colour has no piece on the board and its opponent has at least one, `calc_score`
returns 0. -/
theorem C9_calc_score_loss (scoring_mode : String) (mtx : Board) (first_bot_color : Bool)
    (hown : noPieces first_bot_color mtx) (hopp : ¬ noPieces (!first_bot_color) mtx) :
    calc_score scoring_mode mtx first_bot_color = 0 := by
  have h1 := score_sums_opp_pos scoring_mode mtx first_bot_color hopp
  have h2 := score_sums_own_zero scoring_mode mtx first_bot_color hown
  unfold calc_score
  simp only []
  rw [if_neg (by linarith), if_pos h2]

theorem C9_calc_score_loss_witness :
    calc_score "NumberAndPotential" (place [(5, 4, 1), (7, 0, 3)]) true = 0
    ∧ calc_score "Number" (place [(2, 1, 2)]) false = 0 :=
  ⟨C9_calc_score_loss "NumberAndPotential" (place [(5, 4, 1), (7, 0, 3)]) true (by decide)
     (by decide),
   C9_calc_score_loss "Number" (place [(2, 1, 2)]) false (by decide) (by decide)⟩

/-- C10: for every board (in particular every 8x8 board with cell codes in 0..4), every
scoring mode and both colours, whenever `calc_score` passes its two early returns and so
reaches the ratio on its last line, the divisor `w + wq * q_coef` is strictly positive and
`calc_score` is that ratio: no division by zero occurs. -/
theorem C10_calc_score_divisor_pos (scoring_mode : String) (mtx : Board) (first_bot_color : Bool)
    (h1 : (score_sums scoring_mode mtx first_bot_color).w
            + (score_sums scoring_mode mtx first_bot_color).wq ≠ 0)
    (h2 : (score_sums scoring_mode mtx first_bot_color).b
            + (score_sums scoring_mode mtx first_bot_color).bq ≠ 0) :
    0 < score_divisor scoring_mode mtx first_bot_color
    ∧ calc_score scoring_mode mtx first_bot_color =
        ((score_sums scoring_mode mtx first_bot_color).b
          + (score_sums scoring_mode mtx first_bot_color).bq * q_coef scoring_mode)
        / score_divisor scoring_mode mtx first_bot_color := by
  refine ⟨score_divisor_pos scoring_mode mtx first_bot_color h1, ?_⟩
  unfold calc_score
  simp only []
  rw [if_neg h1, if_neg h2]

theorem C10_calc_score_divisor_pos_witness :
    0 < score_divisor "NumberAndPotential" (place [(5, 4, 1), (4, 3, 2), (2, 1, 4)]) false :=
  (C10_calc_score_divisor_pos "NumberAndPotential" (place [(5, 4, 1), (4, 3, 2), (2, 1, 4)]) false
    (by
      have := score_sums_opp_pos "NumberAndPotential" (place [(5, 4, 1), (4, 3, 2), (2, 1, 4)])
        false (by decide)
      linarith)
    (by
      have := score_sums_own_pos "NumberAndPotential" (place [(5, 4, 1), (4, 3, 2), (2, 1, 4)])
        false (by decide)
      linarith)).1


/-! ## Move generation: captures carry a captured square -/

/-- A property that every iteration of the double loop keeps and that the iteration at
`(i0, j0)` establishes holds after the loop. -/
theorem scan_reach {α : Type} (f : α → Int → Int → α) (Q : α → Prop) (init : α) (i0 j0 : Int)
    (hi0 : i0 ∈ idx8) (hj0 : j0 ∈ idx8)
    (hkeep : ∀ s i j, Q s → Q (f s i j))
    (hset : ∀ s, Q (f s i0 j0)) :
    Q (idx8.foldl (fun st i => idx8.foldl (fun st1 j => f st1 i j) st) init) := by
  have innerKeep : ∀ (l : List Int) (i : Int) (s : α), Q s →
      Q (l.foldl (fun st1 j => f st1 i j) s) := by
    intro l i
    induction l with
    | nil => intro s hs; exact hs
    | cons a l ih => intro s hs; exact ih _ (hkeep s i a hs)
  have innerSet : ∀ (l : List Int) (s : α), j0 ∈ l →
      Q (l.foldl (fun st1 j => f st1 i0 j) s) := by
    intro l
    induction l with
    | nil => intro s h; simp at h
    | cons a l ih =>
      intro s hmem
      simp only [List.foldl_cons]
      by_cases ha : j0 = a
      · subst ha; exact innerKeep l i0 _ (hset s)
      · rcases List.mem_cons.mp hmem with h | h
        · exact absurd h ha
        · exact ih _ h
  have outerKeep : ∀ (l : List Int) (s : α), Q s →
      Q (l.foldl (fun st i => idx8.foldl (fun st1 j => f st1 i j) st) s) := by
    intro l
    induction l with
    | nil => intro s hs; exact hs
    | cons a l ih => intro s hs; exact ih _ (innerKeep idx8 a s hs)
  have outerSet : ∀ (l : List Int) (s : α), i0 ∈ l →
      Q (l.foldl (fun st i => idx8.foldl (fun st1 j => f st1 i j) st) s) := by
    intro l
    induction l with
    | nil => intro s h; simp at h
    | cons a l ih =>
      intro s hmem
      simp only [List.foldl_cons]
      by_cases ha : i0 = a
      · subst ha; exact outerKeep l _ (innerSet idx8 s hj0)
      · rcases List.mem_cons.mp hmem with h | h
        · exact absurd h ha
        · exact ih _ h
  exact outerSet idx8 init hi0

/-- Every move the king capture loop appends has a captured square. -/
theorem kingBeatRay_xb (mtx : Board) (x y type i j : Int) (t : move_pos) :
    ∀ (n : Nat) (i2 j2 xb yb : Int), t ∈ kingBeatRay mtx x y type i j n i2 j2 xb yb → t.xb ≠ -1 := by
  intro n
  induction n with
  | zero => intro i2 j2 xb yb h; simp [kingBeatRay] at h
  | succ n ih =>
    intro i2 j2 xb yb h
    unfold kingBeatRay at h
    by_cases hc : i2 ≠ 8 ∧ j2 ≠ 8 ∧ i2 ≠ -1 ∧ j2 ≠ -1
    · rw [if_pos hc] at h
      by_cases hblk : getCell mtx i2 j2 ≠ 0 ∧
          ((getCell mtx i2 j2).tmod 2 = type.tmod 2
            ∨ ((getCell mtx i2 j2).tmod 2 ≠ type.tmod 2 ∧ xb ≠ -1))
      · rw [if_pos hblk] at h; simp at h
      · rw [if_neg hblk] at h
        simp only [List.mem_append] at h
        rcases h with h | h
        · by_cases hp : (if getCell mtx i2 j2 ≠ 0 then i2 else xb) ≠ -1
              ∧ (if getCell mtx i2 j2 ≠ 0 then i2 else xb) ≠ i2
          · rw [if_pos hp, List.mem_singleton] at h
            subst h
            exact hp.1
          · rw [if_neg hp] at h; simp at h
        · exact ih _ _ _ _ h
    · rw [if_neg hc] at h; simp at h

theorem kingBeats_xb (mtx : Board) (x y type : Int) (t : move_pos)
    (h : t ∈ kingBeats mtx x y type) : t.xb ≠ -1 := by
  unfold kingBeats at h
  simp only [List.mem_flatMap] at h
  obtain ⟨i, -, j, -, h⟩ := h
  exact kingBeatRay_xb _ _ _ _ _ _ _ _ _ _ _ _ h

/-- Every capture of a man standing on a row `0..7` has a captured square. -/
theorem manBeats_xb (mtx : Board) (x y type : Int) (t : move_pos) (hx : 0 ≤ x ∧ x ≤ 7)
    (h : t ∈ manBeats mtx x y type) : t.xb ≠ -1 := by
  unfold manBeats at h
  simp only [List.mem_flatMap] at h
  obtain ⟨i, hi, j, -, h⟩ := h
  by_cases hr : i < 0 ∨ i > 7 ∨ j < 0 ∨ j > 7
  · rw [if_pos hr] at h; simp at h
  · rw [if_neg hr] at h
    by_cases hs : getCell mtx i j ≠ 0 ∨ getCell mtx ((x + i).tdiv 2) ((y + j).tdiv 2) = 0
        ∨ (getCell mtx ((x + i).tdiv 2) ((y + j).tdiv 2)).tmod 2 = type.tmod 2
    · simp only [if_pos hs] at h; simp at h
    · simp only [if_neg hs, List.mem_singleton] at h
      subst h
      simp only []
      have hi0 : 0 ≤ i := by omega
      rw [Int.tdiv_eq_ediv (by omega) (by norm_num)]
      simp only [List.mem_cons, List.mem_singleton, List.not_mem_nil, or_false] at hi
      omega

/-- The square query reports captures exactly when its capture loop found some. -/
theorem find_turns_xy_eq (mtx : Board) (x y : Int) :
    find_turns_xy mtx x y =
      if ¬ (if getCell mtx x y = 1 ∨ getCell mtx x y = 2 then manBeats mtx x y (getCell mtx x y)
            else kingBeats mtx x y (getCell mtx x y)) = []
      then ((if getCell mtx x y = 1 ∨ getCell mtx x y = 2 then manBeats mtx x y (getCell mtx x y)
            else kingBeats mtx x y (getCell mtx x y)), true)
      else if getCell mtx x y = 1 ∨ getCell mtx x y = 2
        then (manMoves mtx x y (getCell mtx x y), false)
        else (kingMoves mtx x y, false) := rfl

/-- When the square query on a row `0..7` reports captures, every returned move is one. -/
theorem find_turns_xy_beats (mtx : Board) (x y : Int) (hx : 0 ≤ x ∧ x ≤ 7)
    (hb : (find_turns_xy mtx x y).2 = true) : ∀ t ∈ (find_turns_xy mtx x y).1, t.xb ≠ -1 := by
  intro t ht
  rw [find_turns_xy_eq] at hb ht
  by_cases hne : ¬ (if getCell mtx x y = 1 ∨ getCell mtx x y = 2
      then manBeats mtx x y (getCell mtx x y) else kingBeats mtx x y (getCell mtx x y)) = []
  · rw [if_pos hne] at ht
    simp only [] at ht
    by_cases hm : getCell mtx x y = 1 ∨ getCell mtx x y = 2
    · rw [if_pos hm] at ht; exact manBeats_xb _ _ _ _ _ hx ht
    · rw [if_neg hm] at ht; exact kingBeats_xb _ _ _ _ _ ht
  · rw [if_neg hne] at hb
    by_cases hm : getCell mtx x y = 1 ∨ getCell mtx x y = 2
    · rw [if_pos hm] at hb; simp at hb
    · rw [if_neg hm] at hb; simp at hb


/-! ## The colour-wide query: mandatory capture -/

/-- The loop test `mtx[i][j] && mtx[i][j] % 2 != color` accepts every piece of the colour. -/
theorem isPiece_test (color : Bool) (c : Int) (h : isPiece color c) :
    c ≠ 0 ∧ c.tmod 2 ≠ colorInt color := by
  unfold isPiece at h
  cases color
  · simp only [Bool.false_eq_true, if_false] at h
    rcases h with h | h <;> subst h <;> decide
  · simp only [if_true] at h
    rcases h with h | h <;> subst h <;> decide

/-- The result of one iteration of the colour-wide loop, by the two flags. -/
theorem find_turns_cell_eq (color : Bool) (mtx : Board) (st : List move_pos × Bool) (i j : Int)
    (h : getCell mtx i j ≠ 0 ∧ (getCell mtx i j).tmod 2 ≠ colorInt color) :
    find_turns_cell color mtx st i j =
      if (find_turns_xy mtx i j).2 = true then
        (if st.2 = true then (st.1 ++ (find_turns_xy mtx i j).1, true)
         else ((find_turns_xy mtx i j).1, true))
      else (if st.2 = true then st else (st.1 ++ (find_turns_xy mtx i j).1, false)) := by
  unfold find_turns_cell
  rw [if_pos h]
  generalize find_turns_xy mtx i j = r
  obtain ⟨l, b⟩ := st
  obtain ⟨rl, rb⟩ := r
  cases rb <;> cases b <;> simp

/-- While `have_beats_before` is set, `res_turns` holds captures only. -/
theorem find_turns_scan_beats (color : Bool) (mtx : Board) :
    (find_turns_scan color mtx).2 = true → ∀ t ∈ (find_turns_scan color mtx).1, t.xb ≠ -1 := by
  unfold find_turns_scan
  apply scan_inv (find_turns_cell color mtx) (fun st => st.2 = true → ∀ t ∈ st.1, t.xb ≠ -1)
  · simp
  · intro st i j hi _ hst
    by_cases h : getCell mtx i j ≠ 0 ∧ (getCell mtx i j).tmod 2 ≠ colorInt color
    · rw [find_turns_cell_eq color mtx st i j h]
      have hb := find_turns_xy_beats mtx i j (idx8_bounds i hi)
      by_cases hr : (find_turns_xy mtx i j).2 = true
      · rw [if_pos hr]
        by_cases hs : st.2 = true
        · rw [if_pos hs]
          intro _ t ht
          rcases List.mem_append.mp ht with ht | ht
          · exact hst hs t ht
          · exact hb hr t ht
        · rw [if_neg hs]
          intro _ t ht
          exact hb hr t ht
      · rw [if_neg hr]
        by_cases hs : st.2 = true
        · rw [if_pos hs]; exact hst
        · rw [if_neg hs]; intro h; simp at h
    · unfold find_turns_cell
      rw [if_neg h]; exact hst

/-- A piece of the colour with a capture sets `have_beats_before`. -/
theorem find_turns_scan_flag (color : Bool) (mtx : Board) (i0 j0 : Int)
    (hi0 : i0 ∈ idx8) (hj0 : j0 ∈ idx8) (hp : isPiece color (getCell mtx i0 j0))
    (hcap : (find_turns_xy mtx i0 j0).2 = true) : (find_turns_scan color mtx).2 = true := by
  unfold find_turns_scan
  apply scan_reach (find_turns_cell color mtx) (fun st => st.2 = true) _ i0 j0 hi0 hj0
  · intro st i j hst
    by_cases h : getCell mtx i j ≠ 0 ∧ (getCell mtx i j).tmod 2 ≠ colorInt color
    · rw [find_turns_cell_eq color mtx st i j h]
      by_cases hr : (find_turns_xy mtx i j).2 = true
      · rw [if_pos hr, if_pos hst]
      · rw [if_neg hr, if_pos hst]; exact hst
    · unfold find_turns_cell
      rw [if_neg h]; exact hst
  · intro st
    rw [find_turns_cell_eq color mtx st i0 j0 (isPiece_test color _ hp), if_pos hcap]
    by_cases hs : st.2 = true
    · rw [if_pos hs]
    · rw [if_neg hs]

/-- C1: on every board (in particular every 8x8 board with cell codes in 0..4), for every
colour, if some piece of that colour has a capture (the square query on its cell reports
`have_beats`), then after the colour-wide `find_turns(color, mtx)` every move in `turns` is
a capture (`xb ≠ -1`) and `have_beats` is true, whatever permutation the shuffle applies
and whatever the state of the random engine. -/
theorem C1_mandatory_capture {σ : Type} (shuffle : σ → List move_pos → List move_pos × σ)
    (hshuffle : ∀ s l, (shuffle s l).1.Perm l) (rng : σ) (color : Bool) (mtx : Board)
    (hcap : ∃ i ∈ idx8, ∃ j ∈ idx8, isPiece color (getCell mtx i j)
      ∧ (find_turns_xy mtx i j).2 = true) :
    (∀ t ∈ (find_turns shuffle rng color mtx).1.1, t.xb ≠ -1)
    ∧ (find_turns shuffle rng color mtx).1.2 = true := by
  obtain ⟨i0, hi0, j0, hj0, hp, hc⟩ := hcap
  have hflag := find_turns_scan_flag color mtx i0 j0 hi0 hj0 hp hc
  refine ⟨?_, hflag⟩
  intro t ht
  have hmem : t ∈ (find_turns_scan color mtx).1 :=
    (hshuffle rng (find_turns_scan color mtx).1).mem_iff.mp ht
  exact find_turns_scan_beats color mtx hflag t hmem

theorem C1_mandatory_capture_witness :
    (∀ t ∈ (find_turns (fun (s : Unit) l => (l.reverse, s)) ()
        false (place [(5, 4, 1), (4, 3, 2), (2, 1, 2), (7, 0, 1)])).1.1, t.xb ≠ -1)
    ∧ (find_turns (fun (s : Unit) l => (l.reverse, s)) ()
        false (place [(5, 4, 1), (4, 3, 2), (2, 1, 2), (7, 0, 1)])).1.2 = true :=
  C1_mandatory_capture (fun (s : Unit) l => (l.reverse, s)) (fun _ l => List.reverse_perm l) ()
    false (place [(5, 4, 1), (4, 3, 2), (2, 1, 2), (7, 0, 1)])
    ⟨5, by decide, 4, by decide, by decide, by decide⟩


/-! ## The king capture loop -/

/-- Unfolding of one iteration of the king capture loop. -/
theorem kingBeatRay_succ (mtx : Board) (x y type i j : Int) (n : Nat) (i2 j2 xb yb : Int) :
    kingBeatRay mtx x y type i j (n + 1) i2 j2 xb yb =
      if i2 ≠ 8 ∧ j2 ≠ 8 ∧ i2 ≠ -1 ∧ j2 ≠ -1 then
        if getCell mtx i2 j2 ≠ 0 ∧
            ((getCell mtx i2 j2).tmod 2 = type.tmod 2
              ∨ ((getCell mtx i2 j2).tmod 2 ≠ type.tmod 2 ∧ xb ≠ -1)) then []
        else
          (if (if getCell mtx i2 j2 ≠ 0 then i2 else xb) ≠ -1
              ∧ (if getCell mtx i2 j2 ≠ 0 then i2 else xb) ≠ i2
            then [(⟨x, y, i2, j2, if getCell mtx i2 j2 ≠ 0 then i2 else xb,
                    if getCell mtx i2 j2 ≠ 0 then j2 else yb⟩ : move_pos)] else [])
            ++ kingBeatRay mtx x y type i j n (i2 + i) (j2 + j)
                (if getCell mtx i2 j2 ≠ 0 then i2 else xb)
                (if getCell mtx i2 j2 ≠ 0 then j2 else yb)
      else [] := rfl

/-- The loop test of the king rays is the on-board test for a neighbour of a board cell. -/
theorem ray_cond (i2 j2 i j : Int) (hdi : i = 1 ∨ i = -1) (hdj : j = 1 ∨ j = -1)
    (hprev : inRange (i2 - i) (j2 - j)) :
    (i2 ≠ 8 ∧ j2 ≠ 8 ∧ i2 ≠ -1 ∧ j2 ≠ -1) ↔ inRange i2 j2 := by
  unfold inRange at *
  rcases hdi with h | h <;> rcases hdj with h' | h' <;> subst h <;> subst h' <;> omega

/-- The king capture loop once the captured piece `(xb, yb)` lies behind the current cell:
it appends one capture per empty cell up to the next occupied cell or the board edge. -/
theorem kingBeatRay_after (mtx : Board) (x y type i j : Int) (hdi : i = 1 ∨ i = -1)
    (hdj : j = 1 ∨ j = -1) (t : move_pos) :
    ∀ (n : Nat) (i2 j2 xb yb : Int), inRange (i2 - i) (j2 - j) → xb ≠ -1 →
      ((i = 1 ∧ xb < i2) ∨ (i = -1 ∧ i2 < xb)) →
      (t ∈ kingBeatRay mtx x y type i j n i2 j2 xb yb ↔
        ∃ r : Nat, r < n ∧ inRange (i2 + r * i) (j2 + r * j)
          ∧ (∀ q : Nat, q ≤ r → getCell mtx (i2 + q * i) (j2 + q * j) = 0)
          ∧ t = ⟨x, y, i2 + r * i, j2 + r * j, xb, yb⟩) := by
  intro n
  induction n with
  | zero =>
    intro i2 j2 xb yb _ _ _
    simp [kingBeatRay]
  | succ n ih =>
    intro i2 j2 xb yb hprev hxb hbehind
    rw [kingBeatRay_succ]
    have hcond := ray_cond i2 j2 i j hdi hdj hprev
    by_cases hc : i2 ≠ 8 ∧ j2 ≠ 8 ∧ i2 ≠ -1 ∧ j2 ≠ -1
    · rw [if_pos hc]
      have hin : inRange i2 j2 := hcond.mp hc
      by_cases hz : getCell mtx i2 j2 = 0
      · have hnb : ¬ (getCell mtx i2 j2 ≠ 0 ∧
            ((getCell mtx i2 j2).tmod 2 = type.tmod 2
              ∨ ((getCell mtx i2 j2).tmod 2 ≠ type.tmod 2 ∧ xb ≠ -1))) := fun h => h.1 hz
        have hne : ¬ getCell mtx i2 j2 ≠ 0 := fun h => h hz
        have hbi : xb ≠ i2 := by rcases hbehind with h | h <;> omega
        rw [if_neg hnb]
        simp only [if_neg hne]
        rw [if_pos ⟨hxb, hbi⟩]
        have hprev2 : inRange (i2 + i - i) (j2 + j - j) := by
          have e1 : i2 + i - i = i2 := by ring
          have e2 : j2 + j - j = j2 := by ring
          rw [e1, e2]; exact hin
        have hbehind2 : (i = 1 ∧ xb < i2 + i) ∨ (i = -1 ∧ i2 + i < xb) := by
          rcases hbehind with h | h
          · left; exact ⟨h.1, by omega⟩
          · right; exact ⟨h.1, by omega⟩
        have ihn := ih (i2 + i) (j2 + j) xb yb hprev2 hxb hbehind2
        simp only [List.singleton_append, List.mem_cons]
        rw [ihn]
        constructor
        · rintro (h | ⟨r, hr, hrin, hrz, ht⟩)
          · refine ⟨0, by omega, by simpa using hin, ?_, by simpa using h⟩
            intro q hq
            have : q = 0 := by omega
            subst this; simpa using hz
          · refine ⟨r + 1, by omega, ?_, ?_, ?_⟩
            · have e1 : i2 + ((r + 1 : Nat) : Int) * i = i2 + i + r * i := by push_cast; ring
              have e2 : j2 + ((r + 1 : Nat) : Int) * j = j2 + j + r * j := by push_cast; ring
              rw [e1, e2]; exact hrin
            · intro q hq
              rcases Nat.eq_zero_or_pos q with h0 | hpos
              · subst h0; simpa using hz
              · obtain ⟨q', rfl⟩ : ∃ q', q = q' + 1 := ⟨q - 1, by omega⟩
                have e1 : i2 + ((q' + 1 : Nat) : Int) * i = i2 + i + q' * i := by push_cast; ring
                have e2 : j2 + ((q' + 1 : Nat) : Int) * j = j2 + j + q' * j := by push_cast; ring
                rw [e1, e2]; exact hrz q' (by omega)
            · have e1 : i2 + ((r + 1 : Nat) : Int) * i = i2 + i + r * i := by push_cast; ring
              have e2 : j2 + ((r + 1 : Nat) : Int) * j = j2 + j + r * j := by push_cast; ring
              rw [e1, e2]; exact ht
        · rintro ⟨r, hr, hrin, hrz, ht⟩
          rcases Nat.eq_zero_or_pos r with h0 | hpos
          · subst h0; left; simpa using ht
          · obtain ⟨r', rfl⟩ : ∃ r', r = r' + 1 := ⟨r - 1, by omega⟩
            have e1 : i2 + ((r' + 1 : Nat) : Int) * i = i2 + i + r' * i := by push_cast; ring
            have e2 : j2 + ((r' + 1 : Nat) : Int) * j = j2 + j + r' * j := by push_cast; ring
            right
            refine ⟨r', by omega, ?_, ?_, ?_⟩
            · rw [← e1, ← e2]; exact hrin
            · intro q hq
              have := hrz (q + 1) (by omega)
              have e3 : i2 + ((q + 1 : Nat) : Int) * i = i2 + i + q * i := by push_cast; ring
              have e4 : j2 + ((q + 1 : Nat) : Int) * j = j2 + j + q * j := by push_cast; ring
              rw [e3, e4] at this; exact this
            · rw [← e1, ← e2]; exact ht
      · have hb : getCell mtx i2 j2 ≠ 0 ∧
            ((getCell mtx i2 j2).tmod 2 = type.tmod 2
              ∨ ((getCell mtx i2 j2).tmod 2 ≠ type.tmod 2 ∧ xb ≠ -1)) := by
          refine ⟨hz, ?_⟩
          by_cases hp : (getCell mtx i2 j2).tmod 2 = type.tmod 2
          · exact Or.inl hp
          · exact Or.inr ⟨hp, hxb⟩
        rw [if_pos hb]
        constructor
        · intro h; simp at h
        · rintro ⟨r, _, _, hrz, _⟩
          have := hrz 0 (by omega)
          simp at this
          exact absurd this hz
    · rw [if_neg hc]
      constructor
      · intro h; simp at h
      · rintro ⟨r, _, hrin, _, _⟩
        exfalso
        have hout : ¬ inRange i2 j2 := fun h => hc (hcond.mpr h)
        unfold inRange at *
        rcases hdi with h | h <;> rcases hdj with h' | h' <;> subst h <;> subst h' <;> omega


theorem ray_shift (a d : Int) (q : Nat) : a + ((q + 1 : Nat) : Int) * d = a + d + q * d := by
  push_cast; ring

/-- The king capture loop before any piece was met (`xb = -1`): a capture is appended exactly
for an occupied cell `m` steps ahead holding a piece of the other parity, reached over
empty cells, and an on-board landing cell `r + 1` steps further, with empty cells from the
piece to the landing cell. -/
theorem kingBeatRay_before (mtx : Board) (x y type i j : Int) (hdi : i = 1 ∨ i = -1)
    (hdj : j = 1 ∨ j = -1) (t : move_pos) :
    ∀ (n : Nat) (i2 j2 yb : Int), inRange (i2 - i) (j2 - j) →
      (t ∈ kingBeatRay mtx x y type i j n i2 j2 (-1) yb ↔
        ∃ m r : Nat, m + 1 + r < n
          ∧ inRange (i2 + ((m + 1 + r : Nat) : Int) * i) (j2 + ((m + 1 + r : Nat) : Int) * j)
          ∧ (∀ q : Nat, q < m → getCell mtx (i2 + q * i) (j2 + q * j) = 0)
          ∧ getCell mtx (i2 + m * i) (j2 + m * j) ≠ 0
          ∧ (getCell mtx (i2 + m * i) (j2 + m * j)).tmod 2 ≠ type.tmod 2
          ∧ (∀ q : Nat, m < q → q ≤ m + 1 + r → getCell mtx (i2 + q * i) (j2 + q * j) = 0)
          ∧ t = ⟨x, y, i2 + ((m + 1 + r : Nat) : Int) * i, j2 + ((m + 1 + r : Nat) : Int) * j,
                  i2 + m * i, j2 + m * j⟩) := by
  intro n
  induction n with
  | zero =>
    intro i2 j2 yb _
    simp [kingBeatRay]
  | succ n ih =>
    intro i2 j2 yb hprev
    rw [kingBeatRay_succ]
    have hcond := ray_cond i2 j2 i j hdi hdj hprev
    by_cases hc : i2 ≠ 8 ∧ j2 ≠ 8 ∧ i2 ≠ -1 ∧ j2 ≠ -1
    · rw [if_pos hc]
      have hin : inRange i2 j2 := hcond.mp hc
      have hprev2 : inRange (i2 + i - i) (j2 + j - j) := by
        have e1 : i2 + i - i = i2 := by ring
        have e2 : j2 + j - j = j2 := by ring
        rw [e1, e2]; exact hin
      by_cases hz : getCell mtx i2 j2 = 0
      · -- an empty cell: the loop goes on without a captured piece
        have hnb : ¬ (getCell mtx i2 j2 ≠ 0 ∧
            ((getCell mtx i2 j2).tmod 2 = type.tmod 2
              ∨ ((getCell mtx i2 j2).tmod 2 ≠ type.tmod 2 ∧ (-1 : Int) ≠ -1))) := fun h => h.1 hz
        have hne : ¬ getCell mtx i2 j2 ≠ 0 := fun h => h hz
        rw [if_neg hnb]
        simp only [if_neg hne]
        rw [if_neg (fun h => h.1 rfl), List.nil_append, ih (i2 + i) (j2 + j) yb hprev2]
        constructor
        · rintro ⟨m, r, hlt, hrin, hbefore, hpiece, hpar, hafter, ht⟩
          refine ⟨m + 1, r, by omega, ?_, ?_, ?_, ?_, ?_, ?_⟩
          · have e : m + 1 + 1 + r = (m + 1 + r) + 1 := by omega
            rw [e, ray_shift, ray_shift]; exact hrin
          · intro q hq
            rcases Nat.eq_zero_or_pos q with h0 | hpos
            · subst h0; simpa using hz
            · obtain ⟨q', rfl⟩ : ∃ q', q = q' + 1 := ⟨q - 1, by omega⟩
              rw [ray_shift, ray_shift]; exact hbefore q' (by omega)
          · rw [ray_shift, ray_shift]; exact hpiece
          · rw [ray_shift, ray_shift]; exact hpar
          · intro q hq1 hq2
            obtain ⟨q', rfl⟩ : ∃ q', q = q' + 1 := ⟨q - 1, by omega⟩
            rw [ray_shift, ray_shift]; exact hafter q' (by omega) (by omega)
          · have e : m + 1 + 1 + r = (m + 1 + r) + 1 := by omega
            rw [e, ray_shift, ray_shift, ray_shift, ray_shift]; exact ht
        · rintro ⟨m, r, hlt, hrin, hbefore, hpiece, hpar, hafter, ht⟩
          rcases Nat.eq_zero_or_pos m with h0 | hpos
          · subst h0
            exfalso; apply hpiece; simpa using hz
          · obtain ⟨m', rfl⟩ : ∃ m', m = m' + 1 := ⟨m - 1, by omega⟩
            have e : m' + 1 + 1 + r = (m' + 1 + r) + 1 := by omega
            rw [e] at hrin ht
            rw [ray_shift, ray_shift] at hrin hpiece hpar
            rw [ray_shift, ray_shift, ray_shift, ray_shift] at ht
            refine ⟨m', r, by omega, hrin, ?_, hpiece, hpar, ?_, ht⟩
            · intro q hq
              have := hbefore (q + 1) (by omega)
              rw [ray_shift, ray_shift] at this; exact this
            · intro q hq1 hq2
              have := hafter (q + 1) (by omega) (by omega)
              rw [ray_shift, ray_shift] at this; exact this
      · by_cases hp : (getCell mtx i2 j2).tmod 2 = type.tmod 2
        · -- a piece of the mover's parity: the loop stops
          rw [if_pos ⟨hz, Or.inl hp⟩]
          constructor
          · intro h; simp at h
          · rintro ⟨m, r, hlt, hrin, hbefore, hpiece, hpar, hafter, ht⟩
            exfalso
            rcases Nat.eq_zero_or_pos m with h0 | hpos
            · subst h0; apply hpar; simpa using hp
            · apply hz; simpa using hbefore 0 hpos
        · -- a piece of the other parity: it becomes the captured piece
          have hnb : ¬ (getCell mtx i2 j2 ≠ 0 ∧
              ((getCell mtx i2 j2).tmod 2 = type.tmod 2
                ∨ ((getCell mtx i2 j2).tmod 2 ≠ type.tmod 2 ∧ (-1 : Int) ≠ -1))) := by
            rintro ⟨_, h | h⟩
            · exact hp h
            · exact h.2 rfl
          rw [if_neg hnb]
          simp only [if_pos hz]
          rw [if_neg (fun h => h.2 rfl), List.nil_append]
          have hi2 : i2 ≠ -1 := hc.2.2.1
          have hbehind : (i = 1 ∧ i2 < i2 + i) ∨ (i = -1 ∧ i2 + i < i2) := by
            rcases hdi with h | h
            · left; exact ⟨h, by omega⟩
            · right; exact ⟨h, by omega⟩
          rw [kingBeatRay_after mtx x y type i j hdi hdj t n (i2 + i) (j2 + j) i2 j2 hprev2 hi2
            hbehind]
          constructor
          · rintro ⟨r, hr, hrin, hrz, ht⟩
            refine ⟨0, r, by omega, ?_, ?_, ?_, ?_, ?_, ?_⟩
            · have e : 0 + 1 + r = r + 1 := by omega
              rw [e, ray_shift, ray_shift]; exact hrin
            · intro q hq; omega
            · simpa using hz
            · simpa using hp
            · intro q hq1 hq2
              obtain ⟨q', rfl⟩ : ∃ q', q = q' + 1 := ⟨q - 1, by omega⟩
              rw [ray_shift, ray_shift]; exact hrz q' (by omega)
            · have e : 0 + 1 + r = r + 1 := by omega
              rw [e, ray_shift, ray_shift]; simpa using ht
          · rintro ⟨m, r, hlt, hrin, hbefore, hpiece, hpar, hafter, ht⟩
            rcases Nat.eq_zero_or_pos m with h0 | hpos
            · subst h0
              have e : 0 + 1 + r = r + 1 := by omega
              rw [e] at hrin ht
              rw [ray_shift, ray_shift] at hrin ht
              refine ⟨r, by omega, hrin, ?_, by simpa using ht⟩
              intro q hq
              have := hafter (q + 1) (by omega) (by omega)
              rw [ray_shift, ray_shift] at this; exact this
            · exfalso; apply hz; simpa using hbefore 0 hpos
    · rw [if_neg hc]
      constructor
      · intro h; simp at h
      · rintro ⟨m, r, _, hrin, _⟩
        exfalso
        have hout : ¬ inRange i2 j2 := fun h => hc (hcond.mpr h)
        unfold inRange at *
        rcases hdi with h | h <;> rcases hdj with h' | h' <;> subst h <;> subst h' <;> omega


/-- Cells of a board with codes `0..4` read as `0..4` (off the board: 0). -/
theorem getCell_codes (mtx : Board) (hc : codesOK mtx) (a b : Int) :
    0 ≤ getCell mtx a b ∧ getCell mtx a b ≤ 4 := by
  unfold getCell
  by_cases h : 0 ≤ a ∧ 0 ≤ b
  · rw [if_pos h]
    simp only [List.getD_eq_getElem?_getD]
    by_cases ha : a.toNat < mtx.length
    · rw [List.getElem?_eq_getElem ha]
      simp only [Option.getD_some]
      by_cases hb : b.toNat < (mtx[a.toNat]).length
      · rw [List.getElem?_eq_getElem hb]
        simp only [Option.getD_some]
        exact hc _ (List.getElem_mem _) _ (List.getElem_mem _)
      · rw [List.getElem?_eq_none (not_lt.mp hb)]; simp
    · rw [List.getElem?_eq_none (not_lt.mp ha)]; simp
  · rw [if_neg h]; simp

/-- The simple-move loop of a king appends simple moves only. -/
theorem kingMoveRay_xb (mtx : Board) (x y i j : Int) (t : move_pos) :
    ∀ (n : Nat) (i2 j2 : Int), t ∈ kingMoveRay mtx x y i j n i2 j2 → t.xb = -1 := by
  intro n
  induction n with
  | zero => intro i2 j2 h; simp [kingMoveRay] at h
  | succ n ih =>
    intro i2 j2 h
    unfold kingMoveRay at h
    by_cases hc : i2 ≠ 8 ∧ j2 ≠ 8 ∧ i2 ≠ -1 ∧ j2 ≠ -1
    · rw [if_pos hc] at h
      by_cases hz : getCell mtx i2 j2 ≠ 0
      · rw [if_pos hz] at h; simp at h
      · rw [if_neg hz] at h
        rcases List.mem_cons.mp h with h | h
        · subst h; rfl
        · exact ih _ _ h
    · rw [if_neg hc] at h; simp at h

theorem kingMoves_xb (mtx : Board) (x y : Int) (t : move_pos) (h : t ∈ kingMoves mtx x y) :
    t.xb = -1 := by
  unfold kingMoves at h
  simp only [List.mem_flatMap] at h
  obtain ⟨i, -, j, -, h⟩ := h
  exact kingMoveRay_xb _ _ _ _ _ _ _ _ _ h

/-- The captures the square query returns for a king are the moves of its capture loops. -/
theorem find_turns_xy_king (mtx : Board) (x y : Int) (t : move_pos)
    (hk : ¬ (getCell mtx x y = 1 ∨ getCell mtx x y = 2)) :
    (t ∈ (find_turns_xy mtx x y).1 ∧ t.xb ≠ -1) ↔ t ∈ kingBeats mtx x y (getCell mtx x y) := by
  rw [find_turns_xy_eq]
  simp only [if_neg hk]
  by_cases hne : ¬ kingBeats mtx x y (getCell mtx x y) = []
  · rw [if_pos hne]
    exact ⟨fun h => h.1, fun h => ⟨h, kingBeats_xb _ _ _ _ _ h⟩⟩
  · rw [if_neg hne]
    constructor
    · rintro ⟨h1, h2⟩
      exact absurd (kingMoves_xb _ _ _ _ h1) h2
    · intro h
      rw [not_not] at hne
      rw [hne] at h; simp at h

/-- On codes `0..4`, the parity test of the king loop selects the opposing pieces. -/
theorem parity_opposing (type c : Int) (hk : type = 3 ∨ type = 4) (hc : 0 ≤ c ∧ c ≤ 4) :
    (c ≠ 0 ∧ c.tmod 2 ≠ type.tmod 2) ↔ opposing type c := by
  unfold opposing
  have hcases : c = 0 ∨ c = 1 ∨ c = 2 ∨ c = 3 ∨ c = 4 := by omega
  rcases hk with h | h <;> subst h <;>
    rcases hcases with h | h | h | h | h <;> subst h <;> decide


/-- The captures of one king ray from a board cell, in terms of the distances `m < k` of the
captured piece and of the landing cell. -/
theorem kingBeatRay_start (mtx : Board) (x y type i j : Int) (hdi : i = 1 ∨ i = -1)
    (hdj : j = 1 ∨ j = -1) (hxy : inRange x y) (t : move_pos) :
    t ∈ kingBeatRay mtx x y type i j 8 (x + i) (y + j) (-1) (-1) ↔
      ∃ k m : Nat, 1 ≤ m ∧ m < k
        ∧ t = ⟨x, y, x + k * i, y + k * j, x + m * i, y + m * j⟩
        ∧ inRange (x + k * i) (y + k * j) ∧ getCell mtx (x + k * i) (y + k * j) = 0
        ∧ getCell mtx (x + m * i) (y + m * j) ≠ 0
        ∧ (getCell mtx (x + m * i) (y + m * j)).tmod 2 ≠ type.tmod 2
        ∧ ∀ n : Nat, 1 ≤ n → n < k → n ≠ m → getCell mtx (x + n * i) (y + n * j) = 0 := by
  have hprev : inRange (x + i - i) (y + j - j) := by
    have e1 : x + i - i = x := by ring
    have e2 : y + j - j = y := by ring
    rw [e1, e2]; exact hxy
  have e : ∀ (a d : Int) (q : Nat), a + d + q * d = a + ((q + 1 : Nat) : Int) * d := by
    intro a d q; push_cast; ring
  rw [kingBeatRay_before mtx x y type i j hdi hdj t 8 (x + i) (y + j) (-1) hprev]
  simp only [e]
  constructor
  · rintro ⟨m, r, hlt, hrin, hbefore, hpiece, hpar, hafter, ht⟩
    refine ⟨m + 1 + r + 1, m + 1, by omega, by omega, ht, hrin, ?_, hpiece, hpar, ?_⟩
    · exact hafter (m + 1 + r) (by omega) (by omega)
    · intro n hn1 hn2 hn3
      obtain ⟨q, rfl⟩ : ∃ q, n = q + 1 := ⟨n - 1, by omega⟩
      by_cases hq : q < m
      · exact hbefore q hq
      · exact hafter q (by omega) (by omega)
  · rintro ⟨k, m, hm1, hmk, ht, hin, hland, hpiece, hpar, hbetween⟩
    obtain ⟨m', rfl⟩ : ∃ m', m = m' + 1 := ⟨m - 1, by omega⟩
    obtain ⟨r, rfl⟩ : ∃ r, k = m' + 1 + r + 1 := ⟨k - m' - 2, by omega⟩
    have hk7 : m' + 1 + r + 1 ≤ 7 := by
      unfold inRange at hin hxy
      rcases hdi with h | h <;> subst h <;> push_cast at hin <;> omega
    refine ⟨m', r, by omega, hin, ?_, hpiece, hpar, ?_, ht⟩
    · intro q hq
      exact hbetween (q + 1) (by omega) (by omega) (by omega)
    · intro q hq1 hq2
      by_cases hq : q = m' + 1 + r
      · subst hq; exact hland
      · exact hbetween (q + 1) (by omega) (by omega) (by omega)

/-- C7: on an 8x8 board with cell codes in 0..4, for a king (code 3 or 4) on the board cell
`(x, y)`, the square query returns a capture `t` (a returned move with `xb ≠ -1`) if and only
if `t` goes from `(x, y)` to an on-board empty cell on a diagonal through `(x, y)`, its
captured square lies strictly between them on that diagonal and holds an opposing piece, and
every other cell strictly between origin and destination is empty (`kingCapture`).  In
particular a returned capture jumps exactly one piece, and the cell immediately beyond the
captured piece is on the board and empty. -/
theorem C7_king_capture_rule (mtx : Board) (x y : Int) (t : move_pos)
    (hcodes : codesOK mtx) (hxy : inRange x y)
    (hk : getCell mtx x y = 3 ∨ getCell mtx x y = 4) :
    ((t ∈ (find_turns_xy mtx x y).1 ∧ t.xb ≠ -1) ↔ kingCapture mtx x y t)
    ∧ ((t ∈ (find_turns_xy mtx x y).1 ∧ t.xb ≠ -1) →
        ∃ di ∈ ([-1, 1] : List Int), ∃ dj ∈ ([-1, 1] : List Int),
          inRange (t.xb + di) (t.yb + dj) ∧ getCell mtx (t.xb + di) (t.yb + dj) = 0) := by
  have hnm : ¬ (getCell mtx x y = 1 ∨ getCell mtx x y = 2) := by
    rcases hk with h | h <;> rw [h] <;> decide
  have hmem : ∀ d : Int, d ∈ ([-1, 1] : List Int) ↔ (d = 1 ∨ d = -1) := by
    intro d; simp only [List.mem_cons, List.mem_singleton, List.not_mem_nil, or_false]
    constructor <;> (intro h; rcases h with h | h <;> simp [h])
  have hiff : (t ∈ (find_turns_xy mtx x y).1 ∧ t.xb ≠ -1) ↔ kingCapture mtx x y t := by
    rw [find_turns_xy_king mtx x y t hnm]
    unfold kingBeats kingCapture
    simp only [List.mem_flatMap]
    constructor
    · rintro ⟨i, hi, j, hj, h⟩
      rw [kingBeatRay_start mtx x y _ i j ((hmem i).mp hi) ((hmem j).mp hj) hxy t] at h
      obtain ⟨k, m, hm1, hmk, ht, hin, hland, hpiece, hpar, hbetween⟩ := h
      subst ht
      refine ⟨rfl, rfl, i, hi, j, hj, k, m, hm1, hmk, rfl, rfl, hin, hland, rfl, rfl, ?_,
        hbetween⟩
      exact (parity_opposing _ _ hk (getCell_codes mtx hcodes _ _)).mp ⟨hpiece, hpar⟩
    · rintro ⟨hx, hy, i, hi, j, hj, k, m, hm1, hmk, hx2, hy2, hin, hland, hxb, hyb, hopp,
        hbetween⟩
      refine ⟨i, hi, j, hj, ?_⟩
      rw [kingBeatRay_start mtx x y _ i j ((hmem i).mp hi) ((hmem j).mp hj) hxy t]
      rw [hxb, hyb] at hopp
      have hp := (parity_opposing _ _ hk (getCell_codes mtx hcodes _ _)).mpr hopp
      refine ⟨k, m, hm1, hmk, ?_, ?_, ?_, hp.1, hp.2, hbetween⟩
      · cases t; simp only [move_pos.mk.injEq] at *
        exact ⟨hx, hy, hx2, hy2, hxb, hyb⟩
      · rw [← hx2, ← hy2]; exact hin
      · rw [← hx2, ← hy2]; exact hland
  refine ⟨hiff, ?_⟩
  intro h
  obtain ⟨hx, hy, i, hi, j, hj, k, m, hm1, hmk, hx2, hy2, hin, hland, hxb, hyb, hopp,
    hbetween⟩ := hiff.mp h
  refine ⟨i, hi, j, hj, ?_⟩
  have e1 : t.xb + i = x + ((m + 1 : Nat) : Int) * i := by rw [hxb]; push_cast; ring
  have e2 : t.yb + j = y + ((m + 1 : Nat) : Int) * j := by rw [hyb]; push_cast; ring
  rw [e1, e2]
  by_cases hk1 : m + 1 = k
  · subst hk1
    rw [← hx2, ← hy2]; exact ⟨hin, hland⟩
  · refine ⟨?_, hbetween (m + 1) (by omega) (by omega) (by omega)⟩
    rw [hx2, hy2] at hin
    unfold inRange at hin hxy ⊢
    have hi' := (hmem i).mp hi
    have hj' := (hmem j).mp hj
    rcases hi' with h | h <;> rcases hj' with h' | h' <;> subst h <;> subst h' <;>
      push_cast <;> omega


theorem C7_king_capture_rule_witness :
    kingCapture (place [(7, 0, 3), (4, 3, 2), (1, 6, 2)]) 7 0 ⟨7, 0, 2, 5, 4, 3⟩ :=
  (C7_king_capture_rule (place [(7, 0, 3), (4, 3, 2), (1, 6, 2)]) 7 0 ⟨7, 0, 2, 5, 4, 3⟩
    (by decide) (by decide) (by decide)).1.mp ⟨by decide, by decide⟩

/-! ## Counting pieces -/

theorem cells_nodup : cells.Nodup := by decide

theorem mem_cells (a b : Int) : (a, b) ∈ cells ↔ inRange a b := by
  unfold cells inRange
  simp only [List.mem_flatMap, List.mem_map, Prod.mk.injEq]
  constructor
  · rintro ⟨i, hi, j, hj, rfl, rfl⟩
    have h1 := idx8_bounds i hi
    have h2 := idx8_bounds j hj
    omega
  · rintro ⟨h1, h2, h3, h4⟩
    exact ⟨a, idx8_mem a h1 h2, b, idx8_mem b h3 h4, rfl, rfl⟩

theorem cells_length : cells.length = 64 := by decide

theorem pieceCount_le (mtx : Board) : pieceCount mtx ≤ 64 := by
  unfold pieceCount
  have h : ∀ l : List (Int × Int),
      (l.map fun p => occ (getCell mtx p.1 p.2)).sum ≤ l.length := by
    intro l
    induction l with
    | nil => simp
    | cons a l ih =>
      simp only [List.map_cons, List.sum_cons, List.length_cons]
      have : occ (getCell mtx a.1 a.2) ≤ 1 := by unfold occ; split <;> omega
      omega
  have := h cells
  rw [cells_length] at this
  exact this

/-- Summing an indicator of one board cell over the 64 cells gives 1. -/
theorem sum_delta (a b : Int) (h : inRange a b) :
    (cells.map fun p => if p = (a, b) then 1 else 0).sum = 1 := by
  have hgen : ∀ l : List (Int × Int), l.Nodup →
      (l.map fun p => if p = (a, b) then 1 else 0).sum = if (a, b) ∈ l then 1 else 0 := by
    intro l
    induction l with
    | nil => simp
    | cons c l ih =>
      intro hnd
      rw [List.nodup_cons] at hnd
      simp only [List.map_cons, List.sum_cons, ih hnd.2, List.mem_cons]
      by_cases hcab : c = (a, b)
      · subst hcab
        simp [hnd.1]
      · have : ¬ (a, b) = c := fun h => hcab h.symm
        simp [hcab, this]
  rw [hgen cells cells_nodup, if_pos ((mem_cells a b).mpr h)]

theorem occ_landed (v x2 : Int) : occ (landed v x2) = occ v := by
  unfold landed occ
  by_cases h1 : v = 1 ∧ x2 = 0
  · rw [if_pos h1]; simp [h1.1]
  · rw [if_neg h1]
    by_cases h2 : v = 2 ∧ x2 = 7
    · rw [if_pos h2]; simp [h2.1]
    · rw [if_neg h2]

theorem sum_map_add3 (l : List (Int × Int)) (f g h : Int × Int → Nat) :
    (l.map fun p => f p + g p + h p).sum = (l.map f).sum + (l.map g).sum + (l.map h).sum := by
  induction l with
  | nil => simp
  | cons a l ih => simp only [List.map_cons, List.sum_cons, ih]; omega

theorem sum_map_add2 (l : List (Int × Int)) (f g : Int × Int → Nat) :
    (l.map fun p => f p + g p).sum = (l.map f).sum + (l.map g).sum := by
  induction l with
  | nil => simp
  | cons a l ih => simp only [List.map_cons, List.sum_cons, ih]; omega

theorem sum_map_scale (l : List (Int × Int)) (f : Int × Int → Nat) (c : Nat) :
    (l.map fun p => f p * c).sum = (l.map f).sum * c := by
  induction l with
  | nil => simp
  | cons a l ih => simp only [List.map_cons, List.sum_cons, ih]; ring

/-- A capture between three distinct board cells, landing on an empty cell and taking an
occupied one, removes exactly one piece from the board. -/
theorem pieceCount_capture (mtx : Board) (t : move_pos) (h8 : is8x8 mtx)
    (hO : inRange t.x t.y) (hD : inRange t.x2 t.y2) (hB : inRange t.xb t.yb) (hxb : t.xb ≠ -1)
    (hOD : ¬ (t.x = t.x2 ∧ t.y = t.y2)) (hOB : ¬ (t.x = t.xb ∧ t.y = t.yb))
    (hDB : ¬ (t.x2 = t.xb ∧ t.y2 = t.yb))
    (hDe : getCell mtx t.x2 t.y2 = 0) (hBn : getCell mtx t.xb t.yb ≠ 0) :
    pieceCount (make_turn mtx t) + 1 = pieceCount mtx := by
  obtain ⟨h1, h2, h3, h4⟩ := make_turn_spec mtx t h8 hO hD (fun _ => hB) hOD (fun _ => hOB)
  have h2' := h2 hxb hDB
  have hpt : ∀ p : Int × Int,
      occ (getCell (make_turn mtx t) p.1 p.2)
        + (if p = (t.xb, t.yb) then 1 else 0)
        + (if p = (t.x, t.y) then 1 else 0) * occ (getCell mtx t.x t.y)
      = occ (getCell mtx p.1 p.2)
        + (if p = (t.x2, t.y2) then 1 else 0) * occ (getCell mtx t.x t.y) := by
    rintro ⟨a, b⟩
    simp only [Prod.mk.injEq]
    by_cases pO : a = t.x ∧ b = t.y
    · obtain ⟨rfl, rfl⟩ := pO
      simp [h1, hOB, hOD, occ]
    · by_cases pD : a = t.x2 ∧ b = t.y2
      · obtain ⟨rfl, rfl⟩ := pD
        simp [h3, hDB, pO, hDe, occ_landed]
        simp [occ]
      · by_cases pB : a = t.xb ∧ b = t.yb
        · obtain ⟨rfl, rfl⟩ := pB
          simp [h2', pO, pD, occ, hBn]
        · rw [h4 a b pO pD (fun h => pB h.2)]
          simp [pB, pO, pD]
  have hsum := congrArg List.sum (List.map_congr_left (l := cells) (fun p _ => hpt p))
  rw [sum_map_add3, sum_map_add2, sum_map_scale, sum_map_scale,
    sum_delta _ _ hB, sum_delta _ _ hO, sum_delta _ _ hD] at hsum
  unfold pieceCount
  omega


/-! ## Generated captures are well-formed -/

theorem manBeats_ok (mtx : Board) (x y type : Int) (t : move_pos) (hxy : inRange x y)
    (h : t ∈ manBeats mtx x y type) : t.x = x ∧ t.y = y ∧ captureOK mtx t := by
  unfold manBeats at h
  simp only [List.mem_flatMap] at h
  obtain ⟨i, hi, j, hj, h⟩ := h
  by_cases hr : i < 0 ∨ i > 7 ∨ j < 0 ∨ j > 7
  · rw [if_pos hr] at h; simp at h
  · rw [if_neg hr] at h
    by_cases hs : getCell mtx i j ≠ 0 ∨ getCell mtx ((x + i).tdiv 2) ((y + j).tdiv 2) = 0
        ∨ (getCell mtx ((x + i).tdiv 2) ((y + j).tdiv 2)).tmod 2 = type.tmod 2
    · simp only [if_pos hs] at h; simp at h
    · simp only [if_neg hs, List.mem_singleton] at h
      subst h
      simp only [List.mem_cons, List.mem_singleton, List.not_mem_nil, or_false] at hi hj
      unfold inRange at hxy
      have e1 : (x + i).tdiv 2 = (x + i) / 2 := Int.tdiv_eq_ediv (by omega) (by norm_num)
      have e2 : (y + j).tdiv 2 = (y + j) / 2 := Int.tdiv_eq_ediv (by omega) (by norm_num)
      rw [not_or, not_or] at hs
      refine ⟨rfl, rfl, ?_⟩
      unfold captureOK inRange
      simp only []
      rw [e1, e2] at hs ⊢
      refine ⟨hxy, by omega, by omega, by omega, by omega, by omega, by omega, ?_, hs.2.1⟩
      exact not_not.mp hs.1

theorem kingBeats_ok (mtx : Board) (x y type : Int) (t : move_pos) (hxy : inRange x y)
    (h : t ∈ kingBeats mtx x y type) : t.x = x ∧ t.y = y ∧ captureOK mtx t := by
  unfold kingBeats at h
  simp only [List.mem_flatMap] at h
  obtain ⟨i, hi, j, hj, h⟩ := h
  have hdi : i = 1 ∨ i = -1 := by
    simp only [List.mem_cons, List.mem_singleton, List.not_mem_nil, or_false] at hi; omega
  have hdj : j = 1 ∨ j = -1 := by
    simp only [List.mem_cons, List.mem_singleton, List.not_mem_nil, or_false] at hj; omega
  rw [kingBeatRay_start mtx x y type i j hdi hdj hxy t] at h
  obtain ⟨k, m, hm1, hmk, ht, hin, hland, hpiece, hpar, hbetween⟩ := h
  subst ht
  refine ⟨rfl, rfl, ?_⟩
  unfold captureOK
  simp only []
  have hinB : inRange (x + m * i) (y + m * j) := by
    unfold inRange at hin hxy ⊢
    rcases hdi with h | h <;> rcases hdj with h' | h' <;> subst h <;> subst h' <;> omega
  refine ⟨hxy, hin, hinB, ?_, ?_, ?_, ?_, hland, hpiece⟩
  · unfold inRange at hinB; omega
  · rcases hdi with h | h <;> subst h <;> omega
  · rcases hdi with h | h <;> subst h <;> omega
  · rcases hdi with h | h <;> subst h <;> omega

/-- The captures the square query reports on a board cell are well-formed and start there. -/
theorem find_turns_xy_ok (mtx : Board) (x y : Int) (hxy : inRange x y)
    (hb : (find_turns_xy mtx x y).2 = true) :
    ∀ t ∈ (find_turns_xy mtx x y).1, t.x = x ∧ t.y = y ∧ captureOK mtx t := by
  intro t ht
  rw [find_turns_xy_eq] at hb ht
  by_cases hne : ¬ (if getCell mtx x y = 1 ∨ getCell mtx x y = 2
      then manBeats mtx x y (getCell mtx x y) else kingBeats mtx x y (getCell mtx x y)) = []
  · rw [if_pos hne] at ht
    simp only [] at ht
    by_cases hm : getCell mtx x y = 1 ∨ getCell mtx x y = 2
    · rw [if_pos hm] at ht; exact manBeats_ok _ _ _ _ _ hxy ht
    · rw [if_neg hm] at ht; exact kingBeats_ok _ _ _ _ _ hxy ht
  · rw [if_neg hne] at hb
    by_cases hm : getCell mtx x y = 1 ∨ getCell mtx x y = 2
    · rw [if_pos hm] at hb; simp at hb
    · rw [if_neg hm] at hb; simp at hb

/-- A property of all captures reported by the square queries holds for the colour-wide
result when it reports captures. -/
theorem find_turns_scan_all (color : Bool) (mtx : Board) (Q : move_pos → Prop)
    (hQ : ∀ i ∈ idx8, ∀ j ∈ idx8, (find_turns_xy mtx i j).2 = true →
      ∀ t ∈ (find_turns_xy mtx i j).1, Q t) :
    (find_turns_scan color mtx).2 = true → ∀ t ∈ (find_turns_scan color mtx).1, Q t := by
  unfold find_turns_scan
  apply scan_inv (find_turns_cell color mtx) (fun st => st.2 = true → ∀ t ∈ st.1, Q t)
  · simp
  · intro st i j hi hj hst
    by_cases h : getCell mtx i j ≠ 0 ∧ (getCell mtx i j).tmod 2 ≠ colorInt color
    · rw [find_turns_cell_eq color mtx st i j h]
      have hb := hQ i hi j hj
      by_cases hr : (find_turns_xy mtx i j).2 = true
      · rw [if_pos hr]
        by_cases hs : st.2 = true
        · rw [if_pos hs]
          intro _ t ht
          rcases List.mem_append.mp ht with ht | ht
          · exact hst hs t ht
          · exact hb hr t ht
        · rw [if_neg hs]
          intro _ t ht
          exact hb hr t ht
      · rw [if_neg hr]
        by_cases hs : st.2 = true
        · rw [if_pos hs]; exact hst
        · rw [if_neg hs]; intro h; simp at h
    · unfold find_turns_cell
      rw [if_neg h]; exact hst

theorem find_turns_scan_ok (color : Bool) (mtx : Board)
    (hb : (find_turns_scan color mtx).2 = true) :
    ∀ t ∈ (find_turns_scan color mtx).1, captureOK mtx t := by
  apply find_turns_scan_all color mtx (captureOK mtx) _ hb
  intro i hi j hj hr t ht
  have hi' := idx8_bounds i hi
  have hj' := idx8_bounds j hj
  exact (find_turns_xy_ok mtx i j ⟨hi'.1, hi'.2, hj'.1, hj'.2⟩ hr t ht).2.2

theorem pieceCount_captureOK (mtx : Board) (t : move_pos) (h8 : is8x8 mtx)
    (h : captureOK mtx t) : pieceCount (make_turn mtx t) + 1 = pieceCount mtx := by
  obtain ⟨hO, hD, hB, hxb, hOD, hOB, hDB, hDe, hBn⟩ := h
  exact pieceCount_capture mtx t h8 hO hD hB hxb hOD hOB hDB hDe hBn


/-! ## Bounds on the evaluation -/

/-- A measure that every iteration of the double loop increases by at most `c` grows by at
most `64 * c` over the whole loop. -/
theorem scan_le {α : Type} (f : α → Int → Int → α) (μ : α → ℚ) (c : ℚ) (init : α)
    (hstep : ∀ s i j, i ∈ idx8 → j ∈ idx8 → μ (f s i j) ≤ μ s + c) :
    μ (idx8.foldl (fun st i => idx8.foldl (fun st1 j => f st1 i j) st) init) ≤ μ init + 64 * c := by
  have inner : ∀ (l : List Int) (i : Int) (s : α), i ∈ idx8 → (∀ j ∈ l, j ∈ idx8) →
      μ (l.foldl (fun st1 j => f st1 i j) s) ≤ μ s + l.length * c := by
    intro l i
    induction l with
    | nil => intro s _ _; simp
    | cons a l ih =>
      intro s hi hl
      simp only [List.foldl_cons, List.length_cons]
      have h1 := hstep s i a hi (hl a (List.mem_cons_self _ _))
      have h2 := ih (f s i a) hi (fun j hj => hl j (List.mem_cons_of_mem _ hj))
      push_cast
      linarith
  have outer : ∀ (l : List Int) (s : α), (∀ i ∈ l, i ∈ idx8) →
      μ (l.foldl (fun st i => idx8.foldl (fun st1 j => f st1 i j) st) s)
        ≤ μ s + l.length * (8 * c) := by
    intro l
    induction l with
    | nil => intro s _; simp
    | cons a l ih =>
      intro s hl
      simp only [List.foldl_cons, List.length_cons]
      have h1 := inner idx8 a s (hl a (List.mem_cons_self _ _)) (fun j hj => hj)
      have h2 := ih (idx8.foldl (fun st1 j => f st1 a j) s)
        (fun i hi => hl i (List.mem_cons_of_mem _ hi))
      have h8 : ((idx8.length : Nat) : ℚ) = 8 := by norm_num [idx8]
      rw [h8] at h1
      push_cast
      linarith
  have := outer idx8 init (fun i hi => hi)
  have h8 : ((idx8.length : Nat) : ℚ) = 8 := by norm_num [idx8]
  rw [h8] at this
  linarith

theorem ind_le_one (p : Prop) [Decidable p] : ind p ≤ 1 := by
  unfold ind; split <;> norm_num

/-- The accumulators of `calc_score` stay small: `w + b + 5 * (wq + bq) ≤ 1280`. -/
theorem score_scan_le (mode : String) (mtx : Board) :
    (score_scan mode mtx).w + (score_scan mode mtx).b
      + 5 * ((score_scan mode mtx).wq + (score_scan mode mtx).bq) ≤ 1280 := by
  have := scan_le (score_cell mode mtx) (fun s => s.w + s.b + 5 * (s.wq + s.bq)) 20 ⟨0, 0, 0, 0⟩
    (fun s i j hi _ => by
      have hb := idx8_bounds i hi
      have hi0 : (0 : ℚ) ≤ (i : ℚ) := by exact_mod_cast hb.1
      have hi7 : (i : ℚ) ≤ 7 := by exact_mod_cast hb.2
      have e1 := ind_nonneg (getCell mtx i j = 1)
      have e2 := ind_nonneg (getCell mtx i j = 2)
      have l1 := ind_le_one (getCell mtx i j = 1)
      have l2 := ind_le_one (getCell mtx i j = 2)
      have l3 := ind_le_one (getCell mtx i j = 3)
      have l4 := ind_le_one (getCell mtx i j = 4)
      have p1 : (1 / 20 : ℚ) * ind (getCell mtx i j = 1) * (7 - i) ≤ 1 := by nlinarith
      have p2 : (1 / 20 : ℚ) * ind (getCell mtx i j = 2) * i ≤ 1 := by nlinarith
      unfold score_cell
      split
      · simp only []; linarith
      · simp only []; linarith)
  unfold score_scan
  simp only [] at this
  linarith

/-- The evaluation lies between the loss value 0 and the win sentinel. -/
theorem calc_score_bounds (mode : String) (mtx : Board) (c : Bool) :
    0 ≤ calc_score mode mtx c ∧ calc_score mode mtx c ≤ INF := by
  unfold calc_score
  simp only []
  by_cases h1 : (score_sums mode mtx c).w + (score_sums mode mtx c).wq = 0
  · rw [if_pos h1]; unfold INF; norm_num
  · rw [if_neg h1]
    by_cases h2 : (score_sums mode mtx c).b + (score_sums mode mtx c).bq = 0
    · rw [if_pos h2]; unfold INF; norm_num
    · rw [if_neg h2]
      have hpos := score_divisor_pos mode mtx c h1
      obtain ⟨n1, n2, n3, n4⟩ := score_sums_nonneg mode mtx c
      have hq := q_coef_ge mode
      have hq5 : q_coef mode ≤ 5 := by unfold q_coef; split <;> norm_num
      have hopp : 1 ≤ (score_sums mode mtx c).w + (score_sums mode mtx c).wq := by
        by_cases hn : noPieces (!c) mtx
        · exact absurd (score_sums_opp_zero mode mtx c hn) h1
        · exact score_sums_opp_pos mode mtx c hn
      have hden : 1 ≤ score_divisor mode mtx c := by
        unfold score_divisor
        simp only []
        nlinarith [mul_nonneg n2 (by linarith : (0 : ℚ) ≤ q_coef mode - 1)]
      have hnum0 : 0 ≤ (score_sums mode mtx c).b + (score_sums mode mtx c).bq * q_coef mode := by
        nlinarith [mul_nonneg n4 (by linarith : (0 : ℚ) ≤ q_coef mode)]
      have hsum := score_scan_le mode mtx
      obtain ⟨m1, m2, m3, m4⟩ := score_scan_nonneg mode mtx
      have hnum : (score_sums mode mtx c).b + (score_sums mode mtx c).bq * q_coef mode ≤ 1280 := by
        have hb5 : (score_sums mode mtx c).bq * q_coef mode ≤ (score_sums mode mtx c).bq * 5 :=
          mul_le_mul_of_nonneg_left hq5 n4
        have : (score_sums mode mtx c).b + 5 * (score_sums mode mtx c).bq ≤ 1280 := by
          unfold score_sums
          cases c
          · simp only [if_true]; linarith
          · simp only [Bool.true_eq_false, if_false]; linarith
        linarith
      constructor
      · exact div_nonneg hnum0 (le_of_lt hpos)
      · rw [div_le_iff₀ hpos]
        unfold INF
        nlinarith


/-! ## Plain minimax values -/

theorem foldl_min_le_init (l : List ℚ) (a : ℚ) : l.foldl min a ≤ a := by
  induction l generalizing a with
  | nil => exact le_refl _
  | cons b l ih => exact le_trans (ih (min a b)) (min_le_left _ _)

theorem foldl_min_le_mem (l : List ℚ) (a x : ℚ) (hx : x ∈ l) : l.foldl min a ≤ x := by
  induction l generalizing a with
  | nil => simp at hx
  | cons b l ih =>
    rcases List.mem_cons.mp hx with h | h
    · subst h
      exact le_trans (foldl_min_le_init l (min a x)) (min_le_right _ _)
    · exact ih (min a b) h

theorem le_foldl_min (l : List ℚ) (a c : ℚ) (ha : c ≤ a) (hl : ∀ x ∈ l, c ≤ x) :
    c ≤ l.foldl min a := by
  induction l generalizing a with
  | nil => exact ha
  | cons b l ih =>
    exact ih (min a b) (le_min ha (hl b (List.mem_cons_self _ _)))
      (fun x hx => hl x (List.mem_cons_of_mem _ hx))

theorem foldl_max_ge_init (l : List ℚ) (a : ℚ) : a ≤ l.foldl max a := by
  induction l generalizing a with
  | nil => exact le_refl _
  | cons b l ih => exact le_trans (le_max_left _ _) (ih (max a b))

theorem foldl_max_ge_mem (l : List ℚ) (a x : ℚ) (hx : x ∈ l) : x ≤ l.foldl max a := by
  induction l generalizing a with
  | nil => simp at hx
  | cons b l ih =>
    rcases List.mem_cons.mp hx with h | h
    · subst h
      exact le_trans (le_max_right _ _) (foldl_max_ge_init l (max a x))
    · exact ih (max a b) h

theorem foldl_max_le (l : List ℚ) (a c : ℚ) (ha : a ≤ c) (hl : ∀ x ∈ l, x ≤ c) :
    l.foldl max a ≤ c := by
  induction l generalizing a with
  | nil => exact ha
  | cons b l ih =>
    exact ih (max a b) (max_le ha (hl b (List.mem_cons_self _ _)))
      (fun x hx => hl x (List.mem_cons_of_mem _ hx))

theorem foldl_min_perm (l l' : List ℚ) (a : ℚ) (h : l.Perm l') : l.foldl min a = l'.foldl min a := by
  induction h generalizing a with
  | nil => rfl
  | cons x _ ih => exact ih (min a x)
  | swap x y l =>
    simp only [List.foldl_cons]
    rw [min_assoc, min_comm y x, ← min_assoc]
  | trans _ _ ih1 ih2 => exact (ih1 a).trans (ih2 a)

theorem foldl_max_perm (l l' : List ℚ) (a : ℚ) (h : l.Perm l') : l.foldl max a = l'.foldl max a := by
  induction h generalizing a with
  | nil => rfl
  | cons x _ ih => exact ih (max a x)
  | swap x y l =>
    simp only [List.foldl_cons]
    rw [max_assoc, max_comm y x, ← max_assoc]
  | trans _ _ ih1 ih2 => exact (ih1 a).trans (ih2 a)

theorem INF_pos : (0 : ℚ) ≤ INF := by unfold INF; norm_num

/-- Unfolding of `minimax`. -/
theorem minimax_succ (M : Nat) (mode : String) (n : Nat) (mtx : Board) (color : Bool)
    (depth : Nat) (x y : Int) :
    minimax M mode (n + 1) mtx color depth x y =
      if depth = M then calc_score mode mtx (decide ((depth % 2 : Int) = colorInt color))
      else
        if (if x ≠ -1 then find_turns_xy mtx x y else find_turns_scan color mtx).2 = false
            ∧ x ≠ -1 then
          minimax M mode n mtx (!color) (depth + 1) (-1) (-1)
        else if (if x ≠ -1 then find_turns_xy mtx x y else find_turns_scan color mtx).1 = [] then
          (if depth % 2 ≠ 0 then 0 else INF)
        else
          if depth % 2 ≠ 0 then
            ((if x ≠ -1 then find_turns_xy mtx x y else find_turns_scan color mtx).1.map fun t =>
              if (if x ≠ -1 then find_turns_xy mtx x y else find_turns_scan color mtx).2 = false
                  ∧ x = -1 then
                minimax M mode n (make_turn mtx t) (!color) (depth + 1) (-1) (-1)
              else minimax M mode n (make_turn mtx t) color depth t.x2 t.y2).foldl max (-1)
          else
            ((if x ≠ -1 then find_turns_xy mtx x y else find_turns_scan color mtx).1.map fun t =>
              if (if x ≠ -1 then find_turns_xy mtx x y else find_turns_scan color mtx).2 = false
                  ∧ x = -1 then
                minimax M mode n (make_turn mtx t) (!color) (depth + 1) (-1) (-1)
              else minimax M mode n (make_turn mtx t) color depth t.x2 t.y2).foldl min (INF + 1) :=
  rfl

/-- Plain minimax values lie between the loss value 0 and the win sentinel. -/
theorem minimax_bounds (M : Nat) (mode : String) :
    ∀ (n : Nat) (mtx : Board) (color : Bool) (depth : Nat) (x y : Int),
      0 ≤ minimax M mode n mtx color depth x y ∧ minimax M mode n mtx color depth x y ≤ INF := by
  intro n
  induction n with
  | zero => intro mtx color depth x y; exact ⟨le_refl _, INF_pos⟩
  | succ n ih =>
    intro mtx color depth x y
    rw [minimax_succ]
    by_cases hd : depth = M
    · rw [if_pos hd]; exact calc_score_bounds _ _ _
    · rw [if_neg hd]
      generalize (if x ≠ -1 then find_turns_xy mtx x y else find_turns_scan color mtx) = r
      by_cases hp : r.2 = false ∧ x ≠ -1
      · rw [if_pos hp]; exact ih _ _ _ _ _
      · rw [if_neg hp]
        by_cases he : r.1 = []
        · rw [if_pos he]
          split
          · exact ⟨le_refl _, INF_pos⟩
          · exact ⟨INF_pos, le_refl _⟩
        · rw [if_neg he]
          obtain ⟨t0, ht0⟩ := List.exists_mem_of_ne_nil _ he
          have hall : ∀ v ∈ (r.1.map fun t =>
              if r.2 = false ∧ x = -1 then
                minimax M mode n (make_turn mtx t) (!color) (depth + 1) (-1) (-1)
              else minimax M mode n (make_turn mtx t) color depth t.x2 t.y2),
              0 ≤ v ∧ v ≤ INF := by
            intro v hv
            obtain ⟨t, _, rfl⟩ := List.mem_map.mp hv
            split
            · exact ih _ _ _ _ _
            · exact ih _ _ _ _ _
          have hmem := List.mem_map_of_mem (fun t =>
              if r.2 = false ∧ x = -1 then
                minimax M mode n (make_turn mtx t) (!color) (depth + 1) (-1) (-1)
              else minimax M mode n (make_turn mtx t) color depth t.x2 t.y2) ht0
          split
          · constructor
            · exact le_trans (hall _ hmem).1 (foldl_max_ge_mem _ _ _ hmem)
            · exact foldl_max_le _ _ _ (by linarith [INF_pos]) (fun v hv => (hall v hv).2)
          · constructor
            · exact le_foldl_min _ _ _ (by linarith [INF_pos]) (fun v hv => (hall v hv).1)
            · exact le_trans (foldl_min_le_mem _ _ _ hmem) (hall _ hmem).2


/-! ## The loop of `find_best_turns_rec` -/

/-- Unfolding of one iteration of the loop of `find_best_turns_rec`. -/
theorem rec_loop_cons {σ : Type} (P : Params σ) (depth : Nat)
    (child : Logic σ → move_pos → ℚ → ℚ → Option (ℚ × Logic σ)) (turn : move_pos)
    (rest : List move_pos) (L : Logic σ) (alpha beta mn mx score : ℚ) (L1 : Logic σ)
    (h : child L turn alpha beta = some (score, L1)) :
    rec_loop P depth child (turn :: rest) L alpha beta mn mx =
      if P.optimization ≠ "O0" ∧
          (if depth % 2 ≠ 0 then max alpha (max mx score) else alpha)
            ≥ (if depth % 2 ≠ 0 then beta else min beta (min mn score)) then
        some (if depth % 2 ≠ 0 then max mx score + 1 else min mn score - 1, L1)
      else rec_loop P depth child rest L1
        (if depth % 2 ≠ 0 then max alpha (max mx score) else alpha)
        (if depth % 2 ≠ 0 then beta else min beta (min mn score)) (min mn score) (max mx score) := by
  simp only [rec_loop, h]

/-- The loop of `find_best_turns_rec` without pruning returns the minimum (even depth) or the
maximum (odd depth) of the values of the children. -/
theorem rec_loop_plain {σ : Type} (P : Params σ) (hP : P.optimization = "O0") (depth : Nat)
    (child : Logic σ → move_pos → ℚ → ℚ → Option (ℚ × Logic σ)) (cv : move_pos → ℚ) :
    ∀ (ts : List move_pos),
      (∀ t ∈ ts, ∀ (L : Logic σ) (a b : ℚ), ∃ L1, child L t a b = some (cv t, L1)
        ∧ L1.next_move = L.next_move ∧ L1.next_best_state = L.next_best_state) →
      ∀ (L : Logic σ) (alpha beta mn mx : ℚ),
        ∃ L1, rec_loop P depth child ts L alpha beta mn mx =
            some (if depth % 2 ≠ 0 then (ts.map cv).foldl max mx else (ts.map cv).foldl min mn, L1)
          ∧ L1.next_move = L.next_move ∧ L1.next_best_state = L.next_best_state := by
  intro ts
  induction ts with
  | nil =>
    intro _ L alpha beta mn mx
    exact ⟨L, by simp [rec_loop], rfl, rfl⟩
  | cons t rest ih =>
    intro hchild L alpha beta mn mx
    obtain ⟨L1, hc, hf1, hf2⟩ := hchild t (List.mem_cons_self _ _) L alpha beta
    rw [rec_loop_cons P depth child t rest L alpha beta mn mx (cv t) L1 hc]
    rw [if_neg (fun h => h.1 hP)]
    obtain ⟨L2, hr, hg1, hg2⟩ := ih (fun t' ht' => hchild t' (List.mem_cons_of_mem _ ht')) L1
      (if depth % 2 ≠ 0 then max alpha (max mx (cv t)) else alpha)
      (if depth % 2 ≠ 0 then beta else min beta (min mn (cv t))) (min mn (cv t)) (max mx (cv t))
    refine ⟨L2, ?_, hg1.trans hf1, hg2.trans hf2⟩
    rw [hr]
    simp only [List.map_cons, List.foldl_cons]

/-- The loop of `find_best_turns_rec` with pruning at an even depth (a minimising node). -/
theorem rec_loop_min {σ : Type} (P : Params σ) (hP : P.optimization ≠ "O0") (depth : Nat)
    (hd : depth % 2 = 0)
    (child : Logic σ → move_pos → ℚ → ℚ → Option (ℚ × Logic σ)) (cv : move_pos → ℚ)
    (alpha beta : ℚ) :
    ∀ (ts : List move_pos),
      (∀ t ∈ ts, ∀ (L : Logic σ) (b : ℚ), alpha < b → b ≤ INF + 1 →
        ∃ w L1, child L t alpha b = some (w, L1)
          ∧ L1.next_move = L.next_move ∧ L1.next_best_state = L.next_best_state
          ∧ within alpha b (cv t) w) →
      ∀ (L : Logic σ) (mn mx m0 : ℚ), alpha < min beta mn → min beta mn = min beta m0 →
        beta ≤ INF + 1 →
        ∃ w L1, rec_loop P depth child ts L alpha (min beta mn) mn mx = some (w, L1)
          ∧ L1.next_move = L.next_move ∧ L1.next_best_state = L.next_best_state
          ∧ within alpha beta ((ts.map cv).foldl min m0) w := by
  intro ts
  induction ts with
  | nil =>
    intro _ L mn mx m0 hlt heq _
    refine ⟨mn, L, by simp [rec_loop, hd], rfl, rfl, ?_⟩
    simp only [List.map_nil, List.foldl_nil]
    unfold within
    by_cases hm : m0 < beta
    · right; left
      rw [min_eq_right (le_of_lt hm)] at heq
      have hmn : mn = m0 := by
        rcases le_total beta mn with h | h
        · rw [min_eq_left h] at heq; linarith
        · rw [min_eq_right h] at heq; exact heq
      rw [heq] at hlt
      exact ⟨hlt, hm, hmn⟩
    · right; right
      push_neg at hm
      rw [min_eq_left hm] at heq
      refine ⟨hm, ?_⟩
      rcases le_total beta mn with h | h
      · exact h
      · rw [min_eq_right h] at heq; linarith
  | cons t rest ih =>
    intro hchild L mn mx m0 hlt heq hbeta
    obtain ⟨w, L1, hc, hf1, hf2, hw⟩ := hchild t (List.mem_cons_self _ _) L (min beta mn) hlt
      (le_trans (min_le_left _ _) hbeta)
    rw [rec_loop_cons P depth child t rest L alpha (min beta mn) mn mx w L1 hc]
    have hodd : ¬ depth % 2 ≠ 0 := fun h => h hd
    simp only [if_neg hodd]
    have hb1 : min (min beta mn) (min mn w) = min beta (min mn w) := by
      rw [min_assoc, ← min_assoc mn mn w, min_self]
    rw [hb1]
    simp only [List.map_cons, List.foldl_cons]
    rcases hw with ⟨hv, hw⟩ | ⟨hv1, hv2, hw⟩ | ⟨hv, hw⟩
    · -- the child is at most alpha: the loop is cut
      have hcut : alpha ≥ min beta (min mn w) :=
        le_trans (le_trans (min_le_right _ _) (min_le_right _ _)) hw
      rw [if_pos ⟨hP, hcut⟩]
      refine ⟨_, L1, rfl, hf1, hf2, ?_⟩
      left
      constructor
      · exact le_trans (foldl_min_le_init _ _) (le_trans (min_le_right _ _) hv)
      · have : min mn w ≤ w := min_le_right _ _
        linarith
    · -- the child is exact
      subst hw
      have hlt2 : alpha < min beta (min mn (cv t)) := by
        rw [← min_assoc]; exact lt_min hlt hv1
      have heq2 : min beta (min mn (cv t)) = min beta (min m0 (cv t)) := by
        rw [← min_assoc, ← min_assoc, heq]
      rw [if_neg (fun h => absurd h.2 (not_le.mpr hlt2))]
      obtain ⟨w2, L2, hr, hg1, hg2, hw2⟩ := ih
        (fun t' ht' => hchild t' (List.mem_cons_of_mem _ ht')) L1 (min mn (cv t)) (max mx (cv t))
        (min m0 (cv t)) hlt2 heq2 hbeta
      exact ⟨w2, L2, hr, hg1.trans hf1, hg2.trans hf2, hw2⟩
    · -- the child is at least the current beta
      have e1 : min beta (min mn w) = min beta mn := by
        rw [← min_assoc]; exact min_eq_left hw
      have e2 : min beta (min m0 (cv t)) = min beta mn := by
        rw [← min_assoc, ← heq]; exact min_eq_left hv
      have hlt2 : alpha < min beta (min mn w) := by rw [e1]; exact hlt
      rw [if_neg (fun h => absurd h.2 (not_le.mpr hlt2))]
      obtain ⟨w2, L2, hr, hg1, hg2, hw2⟩ := ih
        (fun t' ht' => hchild t' (List.mem_cons_of_mem _ ht')) L1 (min mn w) (max mx w)
        (min m0 (cv t)) hlt2 (e1.trans e2.symm) hbeta
      exact ⟨w2, L2, hr, hg1.trans hf1, hg2.trans hf2, hw2⟩

/-- The loop of `find_best_turns_rec` with pruning at an odd depth (a maximising node). -/
theorem rec_loop_max {σ : Type} (P : Params σ) (hP : P.optimization ≠ "O0") (depth : Nat)
    (hd : depth % 2 ≠ 0)
    (child : Logic σ → move_pos → ℚ → ℚ → Option (ℚ × Logic σ)) (cv : move_pos → ℚ)
    (alpha beta : ℚ) :
    ∀ (ts : List move_pos),
      (∀ t ∈ ts, ∀ (L : Logic σ) (a : ℚ), -1 ≤ a → a < beta →
        ∃ w L1, child L t a beta = some (w, L1)
          ∧ L1.next_move = L.next_move ∧ L1.next_best_state = L.next_best_state
          ∧ within a beta (cv t) w) →
      ∀ (L : Logic σ) (mn mx m0 : ℚ), max alpha mx < beta → max alpha mx = max alpha m0 →
        -1 ≤ alpha →
        ∃ w L1, rec_loop P depth child ts L (max alpha mx) beta mn mx = some (w, L1)
          ∧ L1.next_move = L.next_move ∧ L1.next_best_state = L.next_best_state
          ∧ within alpha beta ((ts.map cv).foldl max m0) w := by
  intro ts
  induction ts with
  | nil =>
    intro _ L mn mx m0 hlt heq _
    refine ⟨mx, L, by simp [rec_loop, hd], rfl, rfl, ?_⟩
    simp only [List.map_nil, List.foldl_nil]
    unfold within
    by_cases hm : alpha < m0
    · right; left
      rw [max_eq_right (le_of_lt hm)] at heq
      have hmx : mx = m0 := by
        rcases le_total mx alpha with h | h
        · rw [max_eq_left h] at heq; linarith
        · rw [max_eq_right h] at heq; exact heq
      rw [heq] at hlt
      exact ⟨hm, hlt, hmx⟩
    · left
      push_neg at hm
      rw [max_eq_left hm] at heq
      refine ⟨hm, ?_⟩
      rcases le_total mx alpha with h | h
      · exact h
      · rw [max_eq_right h] at heq; linarith
  | cons t rest ih =>
    intro hchild L mn mx m0 hlt heq halpha
    obtain ⟨w, L1, hc, hf1, hf2, hw⟩ := hchild t (List.mem_cons_self _ _) L (max alpha mx)
      (le_trans halpha (le_max_left _ _)) hlt
    rw [rec_loop_cons P depth child t rest L (max alpha mx) beta mn mx w L1 hc]
    simp only [if_pos hd]
    have ha1 : max (max alpha mx) (max mx w) = max alpha (max mx w) := by
      rw [max_assoc, ← max_assoc mx mx w, max_self]
    rw [ha1]
    simp only [List.map_cons, List.foldl_cons]
    rcases hw with ⟨hv, hw⟩ | ⟨hv1, hv2, hw⟩ | ⟨hv, hw⟩
    · -- the child is at most the current alpha
      have e1 : max alpha (max mx w) = max alpha mx := by
        rw [← max_assoc]; exact max_eq_left hw
      have e2 : max alpha (max m0 (cv t)) = max alpha mx := by
        rw [← max_assoc, ← heq]; exact max_eq_left hv
      have hlt2 : max alpha (max mx w) < beta := by rw [e1]; exact hlt
      rw [if_neg (fun h => absurd h.2 (not_le.mpr hlt2))]
      obtain ⟨w2, L2, hr, hg1, hg2, hw2⟩ := ih
        (fun t' ht' => hchild t' (List.mem_cons_of_mem _ ht')) L1 (min mn w) (max mx w)
        (max m0 (cv t)) hlt2 (e1.trans e2.symm) halpha
      exact ⟨w2, L2, hr, hg1.trans hf1, hg2.trans hf2, hw2⟩
    · -- the child is exact
      subst hw
      have hlt2 : max alpha (max mx (cv t)) < beta := by
        rw [← max_assoc]; exact max_lt hlt hv2
      have heq2 : max alpha (max mx (cv t)) = max alpha (max m0 (cv t)) := by
        rw [← max_assoc, ← max_assoc, heq]
      rw [if_neg (fun h => absurd h.2 (not_le.mpr hlt2))]
      obtain ⟨w2, L2, hr, hg1, hg2, hw2⟩ := ih
        (fun t' ht' => hchild t' (List.mem_cons_of_mem _ ht')) L1 (min mn (cv t)) (max mx (cv t))
        (max m0 (cv t)) hlt2 heq2 halpha
      exact ⟨w2, L2, hr, hg1.trans hf1, hg2.trans hf2, hw2⟩
    · -- the child is at least beta: the loop is cut
      have hcut : max alpha (max mx w) ≥ beta :=
        le_trans hw (le_trans (le_max_right _ _) (le_max_right _ _))
      rw [if_pos ⟨hP, hcut⟩]
      refine ⟨_, L1, rfl, hf1, hf2, ?_⟩
      right; right
      constructor
      · exact le_trans hv (le_trans (le_max_right _ _) (foldl_max_ge_init _ _))
      · have : w ≤ max mx w := le_max_right _ _
        linarith


/-! ## `find_best_turns_rec` against plain minimax -/

theorem within_self (alpha beta v : ℚ) : within alpha beta v v := by
  unfold within
  by_cases h1 : v ≤ alpha
  · exact Or.inl ⟨h1, h1⟩
  · by_cases h2 : v < beta
    · exact Or.inr (Or.inl ⟨not_le.mp h1, h2, rfl⟩)
    · exact Or.inr (Or.inr ⟨not_lt.mp h2, not_lt.mp h2⟩)

/-- The members after the move generation made by `find_best_turns_rec`: the move list is a
permutation of the unshuffled one, the flag is the same, the chain arrays are untouched. -/
theorem rec_gen {σ : Type} (P : Params σ) (hsh : ∀ s l, (P.shuffle s l).1.Perm l)
    (L : Logic σ) (mtx : Board) (color : Bool) (x y : Int) :
    (if x ≠ -1 then L.find_turns_xy x y mtx else L.find_turns P color mtx).turns.Perm
        (if x ≠ -1 then find_turns_xy mtx x y else find_turns_scan color mtx).1
    ∧ (if x ≠ -1 then L.find_turns_xy x y mtx else L.find_turns P color mtx).have_beats
        = (if x ≠ -1 then find_turns_xy mtx x y else find_turns_scan color mtx).2
    ∧ (if x ≠ -1 then L.find_turns_xy x y mtx else L.find_turns P color mtx).next_move
        = L.next_move
    ∧ (if x ≠ -1 then L.find_turns_xy x y mtx else L.find_turns P color mtx).next_best_state
        = L.next_best_state := by
  by_cases hx : x ≠ -1
  · simp only [if_pos hx]
    exact ⟨List.Perm.refl _, rfl, rfl, rfl⟩
  · simp only [if_neg hx]
    exact ⟨hsh _ _, rfl, rfl, rfl⟩

/-- Unfolding of `find_best_turns_rec`. -/
theorem find_best_turns_rec_succ {σ : Type} (P : Params σ) (n : Nat) (L : Logic σ) (mtx : Board)
    (color : Bool) (depth : Nat) (alpha beta : ℚ) (x y : Int) :
    find_best_turns_rec P (n + 1) L mtx color depth alpha beta x y =
      if depth = P.Max_depth then
        some (calc_score P.scoring_mode mtx (decide ((depth % 2 : Int) = colorInt color)), L)
      else
        if (if x ≠ -1 then L.find_turns_xy x y mtx else L.find_turns P color mtx).have_beats = false
            ∧ x ≠ -1 then
          find_best_turns_rec P n (if x ≠ -1 then L.find_turns_xy x y mtx
            else L.find_turns P color mtx) mtx (!color) (depth + 1) alpha beta (-1) (-1)
        else if (if x ≠ -1 then L.find_turns_xy x y mtx else L.find_turns P color mtx).turns = []
        then
          some (if depth % 2 ≠ 0 then 0 else INF,
            if x ≠ -1 then L.find_turns_xy x y mtx else L.find_turns P color mtx)
        else
          rec_loop P depth
            (fun L2 turn a b =>
              if (if x ≠ -1 then L.find_turns_xy x y mtx
                  else L.find_turns P color mtx).have_beats = false ∧ x = -1 then
                find_best_turns_rec P n L2 (make_turn mtx turn) (!color) (depth + 1) a b (-1) (-1)
              else
                find_best_turns_rec P n L2 (make_turn mtx turn) color depth a b turn.x2 turn.y2)
            (if x ≠ -1 then L.find_turns_xy x y mtx else L.find_turns P color mtx).turns
            (if x ≠ -1 then L.find_turns_xy x y mtx else L.find_turns P color mtx)
            alpha beta (INF + 1) (-1) := rfl

/-- The moves generated at a node that reports captures are well-formed captures. -/
theorem gen_ok (mtx : Board) (color : Bool) (x y : Int) (hxy : x ≠ -1 → inRange x y)
    (hb : (if x ≠ -1 then find_turns_xy mtx x y else find_turns_scan color mtx).2 = true) :
    ∀ t ∈ (if x ≠ -1 then find_turns_xy mtx x y else find_turns_scan color mtx).1,
      captureOK mtx t := by
  by_cases hx : x ≠ -1
  · simp only [if_pos hx] at hb ⊢
    intro t ht
    exact (find_turns_xy_ok mtx x y (hxy hx) hb t ht).2.2
  · simp only [if_neg hx] at hb ⊢
    exact find_turns_scan_ok color mtx hb


/-- `find_best_turns_rec` returns when the nesting bound exceeds
`(Max_depth - depth) * 65 + pieceCount mtx`, leaves the chain arrays untouched, returns the
plain minimax value when pruning is off, and a value related to it by `within` for a window
`-1 ≤ alpha < beta ≤ INF + 1` when pruning is on. -/
theorem rec_sound {σ : Type} (P : Params σ) (hsh : ∀ s l, (P.shuffle s l).1.Perm l) :
    ∀ (n : Nat) (L : Logic σ) (mtx : Board) (color : Bool) (depth : Nat) (alpha beta : ℚ)
      (x y : Int), is8x8 mtx → depth ≤ P.Max_depth → (x ≠ -1 → inRange x y) →
      (P.Max_depth - depth) * 65 + pieceCount mtx < n →
      (P.optimization ≠ "O0" → -1 ≤ alpha ∧ alpha < beta ∧ beta ≤ INF + 1) →
      ∃ w L1, find_best_turns_rec P n L mtx color depth alpha beta x y = some (w, L1)
        ∧ L1.next_move = L.next_move ∧ L1.next_best_state = L.next_best_state
        ∧ (P.optimization = "O0" →
            w = minimax P.Max_depth P.scoring_mode n mtx color depth x y)
        ∧ (P.optimization ≠ "O0" →
            within alpha beta (minimax P.Max_depth P.scoring_mode n mtx color depth x y) w) := by
  intro n
  induction n with
  | zero => intro L mtx color depth alpha beta x y _ _ _ hfuel; omega
  | succ n ih =>
    intro L mtx color depth alpha beta x y h8 hdepth hxy hfuel hwin
    rw [find_best_turns_rec_succ, minimax_succ]
    by_cases hd : depth = P.Max_depth
    · rw [if_pos hd, if_pos hd]
      exact ⟨_, L, rfl, rfl, rfl, fun _ => rfl, fun _ => within_self _ _ _⟩
    · rw [if_neg hd, if_neg hd]
      obtain ⟨hperm, hflag, hnm, hnbs⟩ := rec_gen P hsh L mtx color x y
      have hok := gen_ok mtx color x y hxy
      generalize (if x ≠ -1 then L.find_turns_xy x y mtx else L.find_turns P color mtx) = L1
        at hperm hflag hnm hnbs ⊢
      generalize (if x ≠ -1 then find_turns_xy mtx x y else find_turns_scan color mtx) = r
        at hperm hflag hok ⊢
      rw [hflag]
      have hpc := pieceCount_le mtx
      by_cases hpass : r.2 = false ∧ x ≠ -1
      · -- the capture series is over: the opponent moves one level deeper
        rw [if_pos hpass, if_pos hpass]
        obtain ⟨w, L2, hr, hf1, hf2, hv1, hv2⟩ := ih L1 mtx (!color) (depth + 1) alpha beta (-1)
          (-1) h8 (by omega) (fun h => absurd rfl h) (by omega) hwin
        exact ⟨w, L2, hr, hf1.trans hnm, hf2.trans hnbs, hv1, hv2⟩
      · rw [if_neg hpass, if_neg hpass]
        by_cases hnil : L1.turns = []
        · have hrnil : r.1 = [] := by
            rw [hnil] at hperm; exact List.Perm.nil_eq hperm |>.symm
          rw [if_pos hnil, if_pos hrnil]
          exact ⟨_, L1, rfl, hnm, hnbs, fun _ => rfl, fun _ => within_self _ _ _⟩
        · have hrnil : ¬ r.1 = [] := by
            intro h; rw [h] at hperm; exact hnil (List.Perm.eq_nil hperm)
          rw [if_neg hnil, if_neg hrnil]
          -- the value of the child reached by a move
          set cv : move_pos → ℚ := fun t =>
            if r.2 = false ∧ x = -1 then
              minimax P.Max_depth P.scoring_mode n (make_turn mtx t) (!color) (depth + 1) (-1) (-1)
            else minimax P.Max_depth P.scoring_mode n (make_turn mtx t) color depth t.x2 t.y2
            with hcv
          set child : Logic σ → move_pos → ℚ → ℚ → Option (ℚ × Logic σ) := fun L2 turn a b =>
            if r.2 = false ∧ x = -1 then
              find_best_turns_rec P n L2 (make_turn mtx turn) (!color) (depth + 1) a b (-1) (-1)
            else find_best_turns_rec P n L2 (make_turn mtx turn) color depth a b turn.x2 turn.y2
            with hchild
          have hkid : ∀ t ∈ L1.turns, ∀ (L2 : Logic σ) (a b : ℚ),
              (P.optimization ≠ "O0" → -1 ≤ a ∧ a < b ∧ b ≤ INF + 1) →
              ∃ w L3, child L2 t a b = some (w, L3)
                ∧ L3.next_move = L2.next_move ∧ L3.next_best_state = L2.next_best_state
                ∧ (P.optimization = "O0" → w = cv t)
                ∧ (P.optimization ≠ "O0" → within a b (cv t) w) := by
            intro t ht L2 a b hw
            have htr : t ∈ r.1 := hperm.mem_iff.mp ht
            have h8t := is8x8_make_turn mtx t h8
            have hpct := pieceCount_le (make_turn mtx t)
            by_cases hsimple : r.2 = false ∧ x = -1
            · simp only [hchild, hcv, if_pos hsimple]
              exact ih L2 (make_turn mtx t) (!color) (depth + 1) a b (-1) (-1) h8t (by omega)
                (fun h => absurd rfl h) (by omega) hw
            · simp only [hchild, hcv, if_neg hsimple]
              have hr2 : r.2 = true := by
                cases hr2 : r.2
                · exfalso
                  by_cases hx : x = -1
                  · exact hsimple ⟨hr2, hx⟩
                  · exact hpass ⟨hr2, hx⟩
                · rfl
              have hcap := hok hr2 t htr
              have hcnt := pieceCount_captureOK mtx t h8 hcap
              exact ih L2 (make_turn mtx t) color depth a b t.x2 t.y2 h8t hdepth
                (fun _ => hcap.2.1) (by omega) hw
          by_cases hO : P.optimization = "O0"
          · -- no pruning
            obtain ⟨L2, hr, hf1, hf2⟩ := rec_loop_plain P hO depth child cv L1.turns
              (fun t ht L2 a b => by
                obtain ⟨w, L3, h1, h2, h3, h4, _⟩ := hkid t ht L2 a b (fun h => absurd hO h)
                exact ⟨L3, by rw [h1, h4 hO], h2, h3⟩)
              L1 alpha beta (INF + 1) (-1)
            refine ⟨_, L2, hr, hf1.trans hnm, hf2.trans hnbs, ?_, fun h => absurd hO h⟩
            intro _
            by_cases hodd : depth % 2 ≠ 0
            · rw [if_pos hodd, if_pos hodd]
              exact foldl_max_perm _ _ _ (hperm.map cv)
            · rw [if_neg hodd, if_neg hodd]
              exact foldl_min_perm _ _ _ (hperm.map cv)
          · obtain ⟨ha, hab, hb⟩ := hwin hO
            by_cases hodd : depth % 2 ≠ 0
            · -- a maximising node
              rw [if_pos hodd]
              have hal : alpha = max alpha (-1) := (max_eq_left ha).symm
              obtain ⟨w, L2, hr, hf1, hf2, hw⟩ := rec_loop_max P hO depth hodd child cv alpha beta
                L1.turns
                (fun t ht L2 a ha' hab' => by
                  obtain ⟨w, L3, h1, h2, h3, _, h5⟩ := hkid t ht L2 a beta (fun _ => ⟨ha', hab', hb⟩)
                  exact ⟨w, L3, h1, h2, h3, h5 hO⟩)
                L1 (INF + 1) (-1) (-1) (by rw [← hal]; exact hab) rfl ha
              rw [← hal] at hr
              refine ⟨w, L2, hr, hf1.trans hnm, hf2.trans hnbs, fun h => absurd h hO, fun _ => ?_⟩
              rw [← foldl_max_perm _ _ _ (hperm.map cv)]
              exact hw
            · -- a minimising node
              rw [if_neg hodd]
              have hd0 : depth % 2 = 0 := by omega
              have hbe : beta = min beta (INF + 1) := (min_eq_left hb).symm
              obtain ⟨w, L2, hr, hf1, hf2, hw⟩ := rec_loop_min P hO depth hd0 child cv alpha beta
                L1.turns
                (fun t ht L2 b hab' hb' => by
                  obtain ⟨w, L3, h1, h2, h3, _, h5⟩ := hkid t ht L2 alpha b (fun _ => ⟨ha, hab', hb'⟩)
                  exact ⟨w, L3, h1, h2, h3, h5 hO⟩)
                L1 (INF + 1) (-1) (INF + 1) (by rw [← hbe]; exact hab) rfl hb
              rw [← hbe] at hr
              refine ⟨w, L2, hr, hf1.trans hnm, hf2.trans hnbs, fun h => absurd h hO, fun _ => ?_⟩
              rw [← foldl_min_perm _ _ _ (hperm.map cv)]
              exact hw


/-! ## The recorded chain: reference values and the chain arrays -/

theorem pick_fst (val : move_pos → ℚ) (ts : List move_pos) (best : ℚ) (cur : Option move_pos) :
    (pick val ts best cur).1 = (ts.map val).foldl max best := by
  induction ts generalizing best cur with
  | nil => rfl
  | cons t rest ih =>
    simp only [pick, List.map_cons, List.foldl_cons]
    by_cases h : val t > best
    · rw [if_pos h, ih, max_eq_right (le_of_lt h)]
    · rw [if_neg h, ih, max_eq_left (not_lt.mp h)]

theorem pick_mem (val : move_pos → ℚ) (ts : List move_pos) (best : ℚ) (cur : Option move_pos)
    (t : move_pos) (h : (pick val ts best cur).2 = some t) : t ∈ ts ∨ cur = some t := by
  induction ts generalizing best cur with
  | nil => right; exact h
  | cons t0 rest ih =>
    simp only [pick] at h
    by_cases hv : val t0 > best
    · rw [if_pos hv] at h
      rcases ih _ _ h with h1 | h1
      · left; exact List.mem_cons_of_mem _ h1
      · left; rw [Option.some.injEq] at h1; rw [h1]; exact List.mem_cons_self _ _
    · rw [if_neg hv] at h
      rcases ih _ _ h with h1 | h1
      · left; exact List.mem_cons_of_mem _ h1
      · right; exact h1

/-- A candidate is kept as soon as some candidate is worth more than the initial best. -/
theorem pick_some (val : move_pos → ℚ) (ts : List move_pos) (best : ℚ) (cur : Option move_pos)
    (h : (∃ t ∈ ts, best < val t) ∨ cur ≠ none) : (pick val ts best cur).2 ≠ none := by
  induction ts generalizing best cur with
  | nil =>
    rcases h with ⟨t, ht, _⟩ | h
    · simp at ht
    · exact h
  | cons t0 rest ih =>
    simp only [pick]
    by_cases hv : val t0 > best
    · rw [if_pos hv]; exact ih _ _ (Or.inr (by simp))
    · rw [if_neg hv]
      apply ih
      rcases h with ⟨t, ht, hlt⟩ | h
      · rcases List.mem_cons.mp ht with h1 | h1
        · subst h1; exact absurd hlt hv
        · exact Or.inl ⟨t, h1, hlt⟩
      · exact Or.inr h

theorem first_value_succ (M : Nat) (mode : String) (n : Nat) (mtx : Board) (color : Bool)
    (x y : Int) :
    first_value M mode (n + 1) mtx color x y =
      if (find_turns_xy mtx x y).2 = false then minimax M mode n mtx (!color) 0 (-1) (-1)
      else ((find_turns_xy mtx x y).1.map (cand M mode n mtx color true)).foldl max (-1) := by
  simp only [first_value]
  have : (fun t => first_value M mode n (make_turn mtx t) color t.x2 t.y2)
      = cand M mode n mtx color true := by
    funext t; simp only [cand, if_true]
  rw [this]

/-- The square query never reports captures with an empty move list. -/
theorem find_turns_xy_ne_nil (mtx : Board) (x y : Int) (h : (find_turns_xy mtx x y).2 = true) :
    (find_turns_xy mtx x y).1 ≠ [] := by
  rw [find_turns_xy_eq] at h ⊢
  by_cases hne : ¬ (if getCell mtx x y = 1 ∨ getCell mtx x y = 2
      then manBeats mtx x y (getCell mtx x y) else kingBeats mtx x y (getCell mtx x y)) = []
  · rw [if_pos hne]; exact hne
  · rw [if_neg hne] at h
    by_cases hm : getCell mtx x y = 1 ∨ getCell mtx x y = 2
    · rw [if_pos hm] at h; simp at h
    · rw [if_neg hm] at h; simp at h

theorem first_value_bounds (M : Nat) (mode : String) :
    ∀ (n : Nat) (mtx : Board) (color : Bool) (x y : Int),
      0 ≤ first_value M mode n mtx color x y ∧ first_value M mode n mtx color x y ≤ INF := by
  intro n
  induction n with
  | zero => intro mtx color x y; exact ⟨le_refl _, INF_pos⟩
  | succ n ih =>
    intro mtx color x y
    rw [first_value_succ]
    by_cases hb : (find_turns_xy mtx x y).2 = false
    · rw [if_pos hb]; exact minimax_bounds _ _ _ _ _ _ _ _
    · rw [if_neg hb]
      have hb' : (find_turns_xy mtx x y).2 = true := by
        cases h : (find_turns_xy mtx x y).2
        · exact absurd h hb
        · rfl
      obtain ⟨t0, ht0⟩ := List.exists_mem_of_ne_nil _ (find_turns_xy_ne_nil mtx x y hb')
      have hall : ∀ v ∈ (find_turns_xy mtx x y).1.map (cand M mode n mtx color true),
          0 ≤ v ∧ v ≤ INF := by
        intro v hv
        obtain ⟨t, _, rfl⟩ := List.mem_map.mp hv
        simp only [cand, if_true]
        exact ih _ _ _ _
      have hmem := List.mem_map_of_mem (cand M mode n mtx color true) ht0
      constructor
      · exact le_trans (hall _ hmem).1 (foldl_max_ge_mem _ _ _ hmem)
      · exact foldl_max_le _ _ _ (by linarith [INF_pos]) (fun v hv => (hall v hv).2)

theorem cand_bounds (M : Nat) (mode : String) (n : Nat) (mtx : Board) (color : Bool)
    (hb : Bool) (t : move_pos) :
    0 ≤ cand M mode n mtx color hb t ∧ cand M mode n mtx color hb t ≤ INF := by
  unfold cand
  split
  · exact first_value_bounds _ _ _ _ _ _ _
  · exact minimax_bounds _ _ _ _ _ _ _ _

/-- Unfolding of `state_chain`. -/
theorem state_chain_succ (M : Nat) (mode : String) (n : Nat) (mtx : Board) (color : Bool)
    (ts : List move_pos) (hb : Bool) :
    state_chain M mode (n + 1) mtx color ts hb =
      match (pick (cand M mode n mtx color hb) ts (-1) none).2 with
      | none => []
      | some t =>
        t :: (if hb = true then landing_chain M mode n (make_turn mtx t) color t.x2 t.y2 else []) := by
  simp only [state_chain, landing_chain]
  cases (pick (cand M mode n mtx color hb) ts (-1) none).2 with
  | none => rfl
  | some t =>
    simp only []
    cases hb <;> simp

/-- `Rep` only looks at the entries from `s` on that exist. -/
theorem Rep_congr (nm nm1 : List move_pos) (nbs nbs1 : List Int) (chain : List move_pos) :
    ∀ (s : Nat), (∀ i, s ≤ i → i < nm.length → nm1[i]? = nm[i]?) →
      (∀ i, s ≤ i → i < nbs.length → nbs1[i]? = nbs[i]?) →
      Rep nm nbs s chain → Rep nm1 nbs1 s chain := by
  induction chain with
  | nil =>
    intro s h1 _ hr
    obtain ⟨p, hp, hx⟩ := hr
    have hlt : s < nm.length := by
      by_contra hc
      rw [List.getElem?_eq_none (not_lt.mp hc)] at hp
      simp at hp
    exact ⟨p, by rw [h1 s (le_refl _) hlt]; exact hp, hx⟩
  | cons t rest ih =>
    intro s h1 h2 hr
    obtain ⟨ht, hx, s1, hs1, hn, hrest⟩ := hr
    have hlt : s < nm.length := by
      by_contra hc
      rw [List.getElem?_eq_none (not_lt.mp hc)] at ht
      simp at ht
    have hlt2 : s < nbs.length := by
      by_contra hc
      rw [List.getElem?_eq_none (not_lt.mp hc)] at hn
      simp at hn
    refine ⟨by rw [h1 s (le_refl _) hlt]; exact ht, hx, s1, hs1,
      by rw [h2 s (le_refl _) hlt2]; exact hn, ?_⟩
    exact ih s1 (fun i hi hl => h1 i (by omega) hl) (fun i hi hl => h2 i (by omega) hl) hrest

/-- The states of a recorded chain lie inside the arrays. -/
theorem Rep_length (nm : List move_pos) (nbs : List Int) (chain : List move_pos) :
    ∀ (s : Nat), Rep nm nbs s chain → s + chain.length < nm.length := by
  induction chain with
  | nil =>
    intro s hr
    obtain ⟨p, hp, _⟩ := hr
    by_contra hc
    rw [List.getElem?_eq_none (by simpa using hc)] at hp
    simp at hp
  | cons t rest ih =>
    intro s hr
    obtain ⟨_, _, s1, hs1, _, hrest⟩ := hr
    have := ih s1 hrest
    simp only [List.length_cons]
    omega


/-! ## The loop of `find_first_best_turn` -/

/-- Unfolding of one iteration of the loop of `find_first_best_turn`. -/
theorem first_loop_cons {σ : Type} (hb : Bool) (s : Nat)
    (child : Logic σ → move_pos → Nat → ℚ → Option (ℚ × Logic σ)) (t : move_pos)
    (rest : List move_pos) (L : Logic σ) (best w : ℚ) (L1 : Logic σ)
    (h : child L t L.next_move.length best = some (w, L1)) :
    first_loop hb s child (t :: rest) L best =
      if w > best then
        first_loop hb s child rest
          { L1 with
            next_best_state :=
              L1.next_best_state.set s (if hb then (L.next_move.length : Int) else -1),
            next_move := L1.next_move.set s t }
          w
      else first_loop hb s child rest L1 best := by
  simp only [first_loop, h]

theorem getElem?_of_take_eq {α : Type} (l l1 : List α) (n i : Nat) (h : l1.take n = l)
    (hi : i < l.length) : l1[i]? = l[i]? := by
  subst h
  rw [List.length_take] at hi
  rw [List.getElem?_take]
  simp [show i < n by omega]

theorem take_set_self {α : Type} (l : List α) (s : Nat) (a : α) :
    (l.set s a).take s = l.take s :=
  List.ext_getElem? fun i => by
    rw [List.getElem?_take, List.getElem?_take]
    split
    · rw [List.getElem?_set_ne (by omega)]
    · rfl

theorem take_of_take_eq {α : Type} (l l1 : List α) (n s : Nat) (h : l1.take n = l)
    (hs : s < l.length) : l1.take s = l.take s := by
  subst h
  rw [List.length_take] at hs
  rw [List.take_take, min_eq_left (by omega)]

/-- The loop of `find_first_best_turn` keeps its invariant and returns the value of the
candidate `pick` keeps. -/
theorem first_loop_spec {σ : Type} (hb : Bool) (s : Nat)
    (child : Logic σ → move_pos → Nat → ℚ → Option (ℚ × Logic σ))
    (tail : move_pos → List move_pos) (cv : move_pos → ℚ)
    (pre_nm : List move_pos) (pre_nbs : List Int) :
    ∀ (ts : List move_pos),
      (∀ t ∈ ts, 0 ≤ cv t ∧ cv t ≤ INF) →
      (∀ t ∈ ts, ∀ (L2 : Logic σ) (best : ℚ),
        L2.next_move.length = L2.next_best_state.length → s < L2.next_move.length →
        -1 ≤ best → best ≤ INF →
        ∃ w L3, child L2 t L2.next_move.length best = some (w, L3)
          ∧ L3.next_move.length = L3.next_best_state.length
          ∧ L2.next_move.length ≤ L3.next_move.length
          ∧ L3.next_move.take L2.next_move.length = L2.next_move
          ∧ L3.next_best_state.take L2.next_move.length = L2.next_best_state
          ∧ ((cv t ≤ best ∧ w ≤ best) ∨ (best < cv t ∧ w = cv t))
          ∧ (hb = true → Rep L3.next_move L3.next_best_state L2.next_move.length (tail t))) →
      ∀ (L : Logic σ) (best : ℚ) (cur : Option move_pos),
        LoopInv hb s tail cv pre_nm pre_nbs L best cur →
        ∃ w L1, first_loop hb s child ts L best = some (w, L1)
          ∧ w = (pick cv ts best cur).1
          ∧ LoopInv hb s tail cv pre_nm pre_nbs L1 w (pick cv ts best cur).2 := by
  intro ts
  induction ts with
  | nil =>
    intro _ _ L best cur hinv
    exact ⟨best, L, rfl, rfl, hinv⟩
  | cons t rest ih =>
    intro hcv hchild L best cur hinv
    obtain ⟨hlen, hs, hpnm, hpnbs, hb1, hb2, hcur⟩ := hinv
    obtain ⟨w, L3, hc, hlen3, hle3, htk1, htk2, hrel, hrep⟩ :=
      hchild t (List.mem_cons_self _ _) L best hlen hs hb1 hb2
    rw [first_loop_cons hb s child t rest L best w L3 hc]
    have hcvt := hcv t (List.mem_cons_self _ _)
    have hs3 : s < L3.next_move.length := by omega
    have hs3' : s < L3.next_best_state.length := by omega
    simp only [pick]
    by_cases hw : w > best
    · -- the candidate is better: it is recorded at state `s`
      have hbetter : best < cv t ∧ w = cv t := by
        rcases hrel with ⟨_, h2⟩ | h
        · exact absurd hw (not_lt.mpr h2)
        · exact h
      rw [if_pos hw, if_pos (show cv t > best from hbetter.1)]
      rw [hbetter.2]
      apply ih (fun t' ht' => hcv t' (List.mem_cons_of_mem _ ht'))
        (fun t' ht' => hchild t' (List.mem_cons_of_mem _ ht'))
      refine ⟨?_, ?_, ?_, ?_, by linarith, hcvt.2, ?_⟩
      · simp only [List.length_set]; exact hlen3
      · simp only [List.length_set]; exact hs3
      · simp only []
        rw [take_set_self, take_of_take_eq _ _ _ _ htk1 hs]; exact hpnm
      · simp only []
        rw [take_set_self, take_of_take_eq _ _ _ _ htk2 (by omega)]; exact hpnbs
      · simp only []
        refine ⟨trivial, ?_, ?_, ?_⟩
        · rw [List.getElem?_set_self hs3]
        · intro hf
          rw [List.getElem?_set_self hs3']
          simp [hf]
        · intro ht
          refine ⟨L.next_move.length, hs, ?_, ?_⟩
          · rw [List.getElem?_set_self hs3']
            simp [ht]
          · apply Rep_congr L3.next_move _ L3.next_best_state _ _ _ _ _ (hrep ht)
            · intro i hi _
              rw [List.getElem?_set_ne (by omega)]
            · intro i hi _
              rw [List.getElem?_set_ne (by omega)]
    · -- the candidate is not better: the record of state `s` is kept
      have hnot : cv t ≤ best := by
        rcases hrel with ⟨h1, _⟩ | ⟨_, h2⟩
        · exact h1
        · rw [h2] at hw; exact not_lt.mp hw
      rw [if_neg hw, if_neg (not_lt.mpr hnot)]
      apply ih (fun t' ht' => hcv t' (List.mem_cons_of_mem _ ht'))
        (fun t' ht' => hchild t' (List.mem_cons_of_mem _ ht'))
      have hnm : ∀ i, i < L.next_move.length → L3.next_move[i]? = L.next_move[i]? :=
        fun i hi => getElem?_of_take_eq _ _ _ _ htk1 hi
      have hnbs : ∀ i, i < L.next_best_state.length →
          L3.next_best_state[i]? = L.next_best_state[i]? :=
        fun i hi => getElem?_of_take_eq _ _ _ _ htk2 hi
      refine ⟨hlen3, hs3, ?_, ?_, hb1, hb2, ?_⟩
      · rw [take_of_take_eq _ _ _ _ htk1 hs]; exact hpnm
      · rw [take_of_take_eq _ _ _ _ htk2 (by omega)]; exact hpnbs
      · cases cur with
        | none =>
          obtain ⟨h1, h2, h3⟩ := hcur
          exact ⟨h1, by rw [hnm s hs]; exact h2, by rw [hnbs s (by omega)]; exact h3⟩
        | some t0 =>
          obtain ⟨h1, h2, h3, h4⟩ := hcur
          refine ⟨h1, by rw [hnm s hs]; exact h2, fun hf => by rw [hnbs s (by omega)]; exact h3 hf,
            ?_⟩
          intro ht
          obtain ⟨s1, hs1, hn, hr⟩ := h4 ht
          refine ⟨s1, hs1, by rw [hnbs s (by omega)]; exact hn, ?_⟩
          exact Rep_congr L.next_move _ L.next_best_state _ _ _ (fun i _ hi => hnm i hi)
            (fun i _ hi => hnbs i hi) hr


/-! ## `find_first_best_turn` -/

/-- Unfolding of `find_first_best_turn`. -/
theorem find_first_best_turn_succ {σ : Type} (P : Params σ) (n : Nat) (L : Logic σ)
    (mtx : Board) (color : Bool) (x y : Int) (state : Nat) (alpha : ℚ) (L1 : Logic σ)
    (hL1 : L1 = if state ≠ 0 then L.push_state.find_turns_xy x y mtx else L.push_state) :
    find_first_best_turn P (n + 1) L mtx color x y state alpha =
      if L1.have_beats = false ∧ state ≠ 0 then
        find_best_turns_rec P n L1 mtx (!color) 0 alpha (INF + 1) (-1) (-1)
      else
        first_loop L1.have_beats state
          (fun L2 turn next_state best_score =>
            if L1.have_beats = true then
              find_first_best_turn P n L2 (make_turn mtx turn) color turn.x2 turn.y2 next_state
                best_score
            else
              find_best_turns_rec P n L2 (make_turn mtx turn) (!color) 0 best_score (INF + 1)
                (-1) (-1))
          L1.turns L1 (-1) := by
  subst hL1
  rfl

theorem getElem?_append_self {α : Type} (l : List α) (a : α) : (l ++ [a])[l.length]? = some a := by
  simp

/-- The value returned for a window `(alpha, INF + 1)` against a plain value below `INF`. -/
theorem within_top (alpha v w : ℚ) (hv : v ≤ INF) (h : within alpha (INF + 1) v w) :
    (v ≤ alpha ∧ w ≤ alpha) ∨ (alpha < v ∧ w = v) := by
  rcases h with h | ⟨h1, _, h3⟩ | ⟨h1, _⟩
  · exact Or.inl h
  · exact Or.inr ⟨h1, h3⟩
  · linarith

theorem exact_top (alpha v : ℚ) : (v ≤ alpha ∧ v ≤ alpha) ∨ (alpha < v ∧ v = v) := by
  by_cases h : v ≤ alpha
  · exact Or.inl ⟨h, h⟩
  · exact Or.inr ⟨not_le.mp h, rfl⟩

/-- The call of `find_best_turns_rec` that passes the turn to the opponent at depth 0. -/
theorem rec_top {σ : Type} (P : Params σ) (hsh : ∀ s l, (P.shuffle s l).1.Perm l)
    (n : Nat) (L : Logic σ) (mtx : Board) (color : Bool) (alpha : ℚ) (h8 : is8x8 mtx)
    (hfuel : P.Max_depth * 65 + pieceCount mtx < n) (ha1 : -1 ≤ alpha) (ha2 : alpha ≤ INF) :
    ∃ w L1, find_best_turns_rec P n L mtx color 0 alpha (INF + 1) (-1) (-1) = some (w, L1)
      ∧ L1.next_move = L.next_move ∧ L1.next_best_state = L.next_best_state
      ∧ ((minimax P.Max_depth P.scoring_mode n mtx color 0 (-1) (-1) ≤ alpha ∧ w ≤ alpha)
          ∨ (alpha < minimax P.Max_depth P.scoring_mode n mtx color 0 (-1) (-1)
              ∧ w = minimax P.Max_depth P.scoring_mode n mtx color 0 (-1) (-1))) := by
  obtain ⟨w, L1, hr, hf1, hf2, hO, hN⟩ := rec_sound P hsh n L mtx color 0 alpha (INF + 1) (-1) (-1)
    h8 (Nat.zero_le _) (fun h => absurd rfl h) (by simpa using hfuel)
    (fun _ => ⟨ha1, by linarith, le_refl _⟩)
  refine ⟨w, L1, hr, hf1, hf2, ?_⟩
  by_cases hopt : P.optimization = "O0"
  · rw [hO hopt]; exact exact_top _ _
  · exact within_top _ _ _ (minimax_bounds _ _ _ _ _ _ _ _).2 (hN hopt)


/-- `find_first_best_turn` at a state other than 0, for a piece that has just landed on the
board cell `(x, y)`: it returns when the nesting bound exceeds
`Max_depth * 65 + pieceCount mtx + 1`, appends to the arrays without touching the entries
below `state`, records the chain `landing_chain` from `state`, and returns a value that is
the reference value `first_value` when that exceeds `alpha` and is at most `alpha` otherwise. -/
theorem first_sound {σ : Type} (P : Params σ) (hsh : ∀ s l, (P.shuffle s l).1.Perm l) :
    ∀ (n : Nat) (L : Logic σ) (mtx : Board) (color : Bool) (x y : Int) (state : Nat) (alpha : ℚ),
      is8x8 mtx → inRange x y → state ≠ 0 → L.next_move.length = state →
      L.next_best_state.length = state → P.Max_depth * 65 + pieceCount mtx + 1 < n →
      -1 ≤ alpha → alpha ≤ INF →
      ∃ w L1, find_first_best_turn P n L mtx color x y state alpha = some (w, L1)
        ∧ L1.next_move.length = L1.next_best_state.length ∧ state ≤ L1.next_move.length
        ∧ L1.next_move.take state = L.next_move
        ∧ L1.next_best_state.take state = L.next_best_state
        ∧ ((first_value P.Max_depth P.scoring_mode n mtx color x y ≤ alpha ∧ w ≤ alpha)
            ∨ (alpha < first_value P.Max_depth P.scoring_mode n mtx color x y
                ∧ w = first_value P.Max_depth P.scoring_mode n mtx color x y))
        ∧ Rep L1.next_move L1.next_best_state state
            (landing_chain P.Max_depth P.scoring_mode n mtx color x y) := by
  intro n
  induction n with
  | zero => intro L mtx color x y state alpha _ _ _ _ _ hfuel; omega
  | succ n ih =>
    intro L mtx color x y state alpha h8 hxy hst hl1 hl2 hfuel ha1 ha2
    rw [find_first_best_turn_succ P n L mtx color x y state alpha _ rfl]
    rw [if_pos hst]
    have hnmL : (L.push_state.find_turns_xy x y mtx).next_move
        = L.next_move ++ [move_pos.mk4 (-1) (-1) (-1) (-1)] := rfl
    have hnbsL : (L.push_state.find_turns_xy x y mtx).next_best_state = L.next_best_state ++ [-1] := rfl
    have hturns : (L.push_state.find_turns_xy x y mtx).turns = (find_turns_xy mtx x y).1 := rfl
    have hflag : (L.push_state.find_turns_xy x y mtx).have_beats = (find_turns_xy mtx x y).2 := rfl
    generalize (L.push_state.find_turns_xy x y mtx) = L1 at hnmL hnbsL hturns hflag ⊢
    rw [first_value_succ]
    unfold landing_chain
    rw [hflag]
    by_cases hb : (find_turns_xy mtx x y).2 = false
    · -- no further capture: the turn passes to the opponent
      rw [if_pos ⟨hb, hst⟩, if_pos hb, if_neg (by rw [hb]; simp)]
      obtain ⟨w, L2, hr, hf1, hf2, hrel⟩ := rec_top P hsh n L1 mtx (!color) alpha h8 (by omega)
        ha1 ha2
      refine ⟨w, L2, hr, ?_, ?_, ?_, ?_, hrel, ?_⟩
      · rw [hf1, hf2, hnmL, hnbsL]; simp [hl1, hl2]
      · rw [hf1, hnmL]; simp [hl1]
      · rw [hf1, hnmL, ← hl1]; simp
      · rw [hf2, hnbsL, ← hl2]; simp
      · refine ⟨move_pos.mk4 (-1) (-1) (-1) (-1), ?_, rfl⟩
        rw [hf1, hnmL, ← hl1]; simp
    · -- further captures: the loop over them
      have hbt : (find_turns_xy mtx x y).2 = true := by
        cases h : (find_turns_xy mtx x y).2
        · exact absurd h hb
        · rfl
      have hok0 := find_turns_xy_ok mtx x y hxy hbt
      rw [hbt]
      rw [if_neg (fun h => absurd h.1 (by simp)), if_neg (by simp), if_pos rfl]
      have hok := hok0
      obtain ⟨w, L2, hr, hw, hinv⟩ := first_loop_spec true state
        (fun L2 turn next_state best_score =>
          if true = true then
            find_first_best_turn P n L2 (make_turn mtx turn) color turn.x2 turn.y2 next_state
              best_score
          else
            find_best_turns_rec P n L2 (make_turn mtx turn) (!color) 0 best_score (INF + 1)
              (-1) (-1))
        (fun t => landing_chain P.Max_depth P.scoring_mode n (make_turn mtx t) color t.x2 t.y2)
        (cand P.Max_depth P.scoring_mode n mtx color true) L.next_move L.next_best_state
        L1.turns
        (fun t _ => cand_bounds _ _ _ _ _ _ _)
        (fun t ht L2 best hlen hs hb1 hb2 => by
          rw [hturns] at ht
          obtain ⟨_, _, hcap⟩ := hok t ht
          have hcnt := pieceCount_captureOK mtx t h8 hcap
          simp only [if_true]
          obtain ⟨w, L3, h1, h2, h3, h4, h5, h6, h7⟩ := ih L2 (make_turn mtx t) color t.x2 t.y2
            L2.next_move.length best (is8x8_make_turn mtx t h8) hcap.2.1 (by omega) rfl
            hlen.symm (by omega) hb1 hb2
          refine ⟨w, L3, h1, h2, h3, h4, h5, ?_, fun _ => h7⟩
          simp only [cand, if_true]
          exact h6)
        L1 (-1) none
        ⟨by rw [hnmL, hnbsL]; simp [hl1, hl2], by rw [hnmL]; simp [hl1],
          by rw [hnmL, ← hl1]; simp, by rw [hnbsL, ← hl2]; simp, le_refl _,
          by linarith [INF_pos],
          rfl, by rw [hnmL, ← hl1]; simp, by rw [hnbsL, ← hl2]; simp⟩
      obtain ⟨hlen, hs, hpnm, hpnbs, _, _, hcur⟩ := hinv
      refine ⟨w, L2, hr, hlen, le_of_lt hs, hpnm, hpnbs, ?_, ?_⟩
      · rw [hw, pick_fst, hturns]
        exact exact_top _ _
      · rw [state_chain_succ, ← hturns]
        cases hp : (pick (cand P.Max_depth P.scoring_mode n mtx color true) L1.turns (-1) none).2
          with
        | none =>
          rw [hp] at hcur
          exact ⟨_, hcur.2.1, rfl⟩
        | some t =>
          rw [hp] at hcur
          obtain ⟨_, h2, _, h4⟩ := hcur
          obtain ⟨s1, hs1, hn, hrep⟩ := h4 rfl
          have hmem : t ∈ L1.turns := by
            rcases pick_mem _ _ _ _ _ hp with h | h
            · exact h
            · simp at h
          rw [hturns] at hmem
          have htx := (hok t hmem).1
          simp only [if_true]
          refine ⟨h2, ?_, s1, hs1, hn, hrep⟩
          rw [htx]
          unfold inRange at hxy
          omega


/-! ## `find_best_turns` -/

/-- The chain loop of `find_best_turns` from a state that holds `t` and links to the recorded
chain `rest`. -/
theorem collect_from (nm : List move_pos) (nbs : List Int) :
    ∀ (rest : List move_pos) (t : move_pos) (s fuel : Nat), nm[s]? = some t →
      (∃ s1 : Nat, nbs[s]? = some (s1 : Int) ∧ Rep nm nbs s1 rest) → rest.length < fuel →
      collect_chain nm nbs fuel (s : Int) = some (t :: rest) := by
  intro rest
  induction rest with
  | nil =>
    intro t s fuel ht hlink hfuel
    obtain ⟨s1, hn, p, hp, hpx⟩ := hlink
    obtain ⟨f, rfl⟩ : ∃ f, fuel = f + 1 := ⟨fuel - 1, by omega⟩
    simp only [collect_chain, Int.toNat_ofNat, List.getD_eq_getElem?_getD, ht, hn, hp,
      Option.getD_some, hpx]
    simp
  | cons t1 rest1 ih =>
    intro t s fuel ht hlink hfuel
    obtain ⟨s1, hn, ht1, hx1, s2, _, hn2, hrep⟩ := hlink
    simp only [List.length_cons] at hfuel
    obtain ⟨f, rfl⟩ : ∃ f, fuel = f + 1 := ⟨fuel - 1, by omega⟩
    have hrec := ih t1 s1 f ht1 ⟨s2, hn2, hrep⟩ (by omega)
    simp only [collect_chain, Int.toNat_ofNat, List.getD_eq_getElem?_getD, ht, hn, ht1,
      Option.getD_some, hrec]
    have h1 : ¬ ((s1 : Int) = -1) := by omega
    simp [h1, hx1]

/-- The chain loop of `find_best_turns` from a state that holds `t` and has no successor. -/
theorem collect_single (nm : List move_pos) (nbs : List Int) (t : move_pos) (fuel : Nat)
    (ht : nm[0]? = some t) (hn : nbs[0]? = some (-1)) (hfuel : 0 < fuel) :
    collect_chain nm nbs fuel 0 = some [t] := by
  obtain ⟨f, rfl⟩ : ∃ f, fuel = f + 1 := ⟨fuel - 1, by omega⟩
  simp [collect_chain, List.getD_eq_getElem?_getD, ht, hn]


/-- `find_best_turns` returns the chain `root_chain`, whatever the pruning setting and the
state of the random engine: on an 8x8 board, with a nesting bound of at least
`65 * Max_depth + 67`, a permuting shuffle, and (when `have_beats` is set) candidate moves
that land on the board. -/
theorem find_best_turns_eq {σ : Type} (P : Params σ) (hsh : ∀ s l, (P.shuffle s l).1.Perm l)
    (fuel : Nat) (L : Logic σ) (mtx : Board) (color : Bool) (h8 : is8x8 mtx)
    (hfuel : 65 * P.Max_depth + 67 ≤ fuel)
    (hpre : L.have_beats = true → ∀ t ∈ L.turns, inRange t.x2 t.y2) :
    ∃ L1, find_best_turns P fuel L mtx color =
      some (root_chain P.Max_depth P.scoring_mode fuel mtx color L.turns L.have_beats, L1) := by
  obtain ⟨n, rfl⟩ : ∃ n, fuel = n + 1 := ⟨fuel - 1, by omega⟩
  unfold find_best_turns
  simp only []
  rw [find_first_best_turn_succ P n _ mtx color (-1) (-1) 0 (-1)
    (({ L with next_best_state := [], next_move := [] } : Logic σ).push_state) (by simp)]
  rw [if_neg (fun h => h.2 rfl)]
  have hnm : (({ L with next_best_state := [], next_move := [] } : Logic σ).push_state).next_move
      = [move_pos.mk4 (-1) (-1) (-1) (-1)] := rfl
  have hnbs : (({ L with next_best_state := [], next_move := [] } :
      Logic σ).push_state).next_best_state = [-1] := rfl
  have hturns : (({ L with next_best_state := [], next_move := [] } :
      Logic σ).push_state).turns = L.turns := rfl
  have hflag : (({ L with next_best_state := [], next_move := [] } :
      Logic σ).push_state).have_beats = L.have_beats := rfl
  generalize (({ L with next_best_state := [], next_move := [] } : Logic σ).push_state) = L1
    at hnm hnbs hturns hflag ⊢
  rw [hflag, hturns]
  obtain ⟨w, L2, hr, _, hinv⟩ := first_loop_spec L.have_beats 0
    (fun L2 turn next_state best_score =>
      if L.have_beats = true then
        find_first_best_turn P n L2 (make_turn mtx turn) color turn.x2 turn.y2 next_state
          best_score
      else
        find_best_turns_rec P n L2 (make_turn mtx turn) (!color) 0 best_score (INF + 1)
          (-1) (-1))
    (fun t => landing_chain P.Max_depth P.scoring_mode n (make_turn mtx t) color t.x2 t.y2)
    (cand P.Max_depth P.scoring_mode n mtx color L.have_beats) [] []
    L.turns
    (fun t _ => cand_bounds _ _ _ _ _ _ _)
    (fun t ht L2 best hlen hs hb1 hb2 => by
      have hpc := pieceCount_le (make_turn mtx t)
      have h8t := is8x8_make_turn mtx t h8
      by_cases hb : L.have_beats = true
      · simp only [if_pos hb]
        obtain ⟨w, L3, h1, h2, h3, h4, h5, h6, h7⟩ := first_sound P hsh n L2 (make_turn mtx t)
          color t.x2 t.y2 L2.next_move.length best h8t (hpre hb t ht) (by omega) rfl
          hlen.symm (by omega) hb1 hb2
        refine ⟨w, L3, h1, h2, h3, h4, h5, ?_, fun _ => h7⟩
        simp only [cand, if_pos hb]
        exact h6
      · simp only [if_neg hb]
        obtain ⟨w, L3, h1, h2, h3, h4⟩ := rec_top P hsh n L2 (make_turn mtx t) (!color) best h8t
          (by omega) hb1 hb2
        refine ⟨w, L3, h1, by rw [h2, h3]; exact hlen, by rw [h2], by rw [h2]; simp,
          by rw [h3, hlen]; simp, ?_, fun h => absurd h hb⟩
        simp only [cand, if_neg hb]
        exact h4)
    L1 (-1) none
    ⟨by rw [hnm, hnbs]; rfl, by rw [hnm]; simp, by simp, by simp, le_refl _,
      by linarith [INF_pos], rfl, by rw [hnm]; rfl, by rw [hnbs]; rfl⟩
  rw [hr]
  simp only []
  obtain ⟨hlen, hs, _, _, _, _, hcur⟩ := hinv
  refine ⟨L2, ?_⟩
  unfold root_chain
  rw [state_chain_succ]
  cases hp : (pick (cand P.Max_depth P.scoring_mode n mtx color L.have_beats) L.turns (-1) none).2
    with
  | none =>
    rw [hp] at hcur
    simp only [if_true]
    rw [collect_single _ _ _ _ hcur.2.1 hcur.2.2 hs]
    rfl
  | some t =>
    rw [hp] at hcur
    obtain ⟨_, h2, h3, h4⟩ := hcur
    simp only [if_neg (List.cons_ne_nil _ _)]
    by_cases hb : L.have_beats = true
    · obtain ⟨s1, hs1, hn, hrep⟩ := h4 hb
      have hl := Rep_length _ _ _ _ hrep
      have := collect_from L2.next_move L2.next_best_state _ t 0 L2.next_move.length h2
        ⟨s1, hn, hrep⟩ (by omega)
      simp only [Nat.cast_zero] at this
      rw [this, if_pos hb]
      rfl
    · have hf : L.have_beats = false := by
        cases h : L.have_beats
        · rfl
        · exact absurd h hb
      rw [collect_single _ _ _ _ h2 (h3 hf) hs, if_neg hb]
      rfl


/-! ## The shape of the returned chain -/

theorem manMoves_xb (mtx : Board) (x y type : Int) (t : move_pos)
    (h : t ∈ manMoves mtx x y type) : t.xb = -1 := by
  unfold manMoves at h
  simp only [List.mem_flatMap] at h
  obtain ⟨j, -, h⟩ := h
  by_cases hc : (if type.tmod 2 ≠ 0 then x - 1 else x + 1) < 0
      ∨ (if type.tmod 2 ≠ 0 then x - 1 else x + 1) > 7 ∨ j < 0 ∨ j > 7
      ∨ getCell mtx (if type.tmod 2 ≠ 0 then x - 1 else x + 1) j ≠ 0
  · rw [if_pos hc] at h; simp at h
  · rw [if_neg hc, List.mem_singleton] at h
    subst h; rfl

/-- When the square query reports no capture, every returned move is a simple move. -/
theorem find_turns_xy_simple (mtx : Board) (x y : Int)
    (hb : (find_turns_xy mtx x y).2 = false) : ∀ t ∈ (find_turns_xy mtx x y).1, t.xb = -1 := by
  intro t ht
  rw [find_turns_xy_eq] at hb ht
  by_cases hne : ¬ (if getCell mtx x y = 1 ∨ getCell mtx x y = 2
      then manBeats mtx x y (getCell mtx x y) else kingBeats mtx x y (getCell mtx x y)) = []
  · rw [if_pos hne] at hb; simp at hb
  · rw [if_neg hne] at ht
    by_cases hm : getCell mtx x y = 1 ∨ getCell mtx x y = 2
    · rw [if_pos hm] at ht; exact manMoves_xb _ _ _ _ _ ht
    · rw [if_neg hm] at ht; exact kingMoves_xb _ _ _ _ ht

/-- While `have_beats_before` is not set, `res_turns` holds simple moves only. -/
theorem find_turns_scan_simple (color : Bool) (mtx : Board) :
    (find_turns_scan color mtx).2 = false → ∀ t ∈ (find_turns_scan color mtx).1, t.xb = -1 := by
  unfold find_turns_scan
  apply scan_inv (find_turns_cell color mtx) (fun st => st.2 = false → ∀ t ∈ st.1, t.xb = -1)
  · simp
  · intro st i j hi _ hst
    by_cases h : getCell mtx i j ≠ 0 ∧ (getCell mtx i j).tmod 2 ≠ colorInt color
    · rw [find_turns_cell_eq color mtx st i j h]
      by_cases hr : (find_turns_xy mtx i j).2 = true
      · rw [if_pos hr]
        by_cases hs : st.2 = true
        · rw [if_pos hs]; intro h; simp at h
        · rw [if_neg hs]; intro h; simp at h
      · rw [if_neg hr]
        have hrf : (find_turns_xy mtx i j).2 = false := by
          cases h : (find_turns_xy mtx i j).2
          · rfl
          · exact absurd h hr
        by_cases hs : st.2 = true
        · rw [if_pos hs]; exact hst
        · rw [if_neg hs]
          intro _ t ht
          have hsf : st.2 = false := by
            cases h : st.2
            · rfl
            · exact absurd h hs
          rcases List.mem_append.mp ht with ht | ht
          · exact hst hsf t ht
          · exact find_turns_xy_simple mtx i j hrf t ht
    · unfold find_turns_cell
      rw [if_neg h]; exact hst

/-- The members left by the colour-wide query: with `have_beats` every move is a well-formed
capture, without it every move is a simple move. -/
theorem find_turns_result {σ : Type} (shuffle : σ → List move_pos → List move_pos × σ)
    (hsh : ∀ s l, (shuffle s l).1.Perm l) (rng : σ) (color : Bool) (mtx : Board) :
    ((find_turns shuffle rng color mtx).1.2 = true →
      ∀ t ∈ (find_turns shuffle rng color mtx).1.1, captureOK mtx t)
    ∧ ((find_turns shuffle rng color mtx).1.2 = false →
      ∀ t ∈ (find_turns shuffle rng color mtx).1.1, t.xb = -1) := by
  constructor
  · intro hb t ht
    exact find_turns_scan_ok color mtx hb t ((hsh rng _).mem_iff.mp ht)
  · intro hb t ht
    exact find_turns_scan_simple color mtx hb t ((hsh rng _).mem_iff.mp ht)

/-- The chain recorded for a piece that has just landed is a complete series of captures. -/
theorem landing_chain_spec (M : Nat) (mode : String) :
    ∀ (n : Nat) (mtx : Board) (color : Bool) (x y : Int), is8x8 mtx → inRange x y →
      pieceCount mtx < n → chainFrom mtx x y (landing_chain M mode n mtx color x y) := by
  intro n
  induction n with
  | zero => intro mtx color x y _ _ h; omega
  | succ n ih =>
    intro mtx color x y h8 hxy hfuel
    unfold landing_chain
    by_cases hb : (find_turns_xy mtx x y).2 = true
    · rw [if_pos hb, state_chain_succ]
      have hok := find_turns_xy_ok mtx x y hxy hb
      obtain ⟨t0, ht0⟩ := List.exists_mem_of_ne_nil _ (find_turns_xy_ne_nil mtx x y hb)
      have hsome := pick_some (cand M mode n mtx color true) (find_turns_xy mtx x y).1 (-1) none
        (Or.inl ⟨t0, ht0, by linarith [(cand_bounds M mode n mtx color true t0).1]⟩)
      cases hp : (pick (cand M mode n mtx color true) (find_turns_xy mtx x y).1 (-1) none).2 with
      | none => exact absurd hp hsome
      | some t =>
        have hmem : t ∈ (find_turns_xy mtx x y).1 := by
          rcases pick_mem _ _ _ _ _ hp with h | h
          · exact h
          · simp at h
        obtain ⟨_, _, hcap⟩ := hok t hmem
        have hcnt := pieceCount_captureOK mtx t h8 hcap
        simp only [if_true]
        exact ⟨hb, hmem, ih (make_turn mtx t) color t.x2 t.y2 (is8x8_make_turn mtx t h8) hcap.2.1
          (by omega)⟩
    · rw [if_neg hb]
      cases h : (find_turns_xy mtx x y).2
      · exact h
      · exact absurd h hb

/-- The chain `find_best_turns` returns for a non-empty candidate list: a candidate,
followed by nothing for simple moves and by a complete series of captures for captures. -/
theorem root_chain_spec (M : Nat) (mode : String) (fuel : Nat) (mtx : Board) (color : Bool)
    (ts : List move_pos) (hb : Bool) (h8 : is8x8 mtx) (hfuel : 66 ≤ fuel) (hts : ts ≠ [])
    (hpre : hb = true → ∀ t ∈ ts, inRange t.x2 t.y2) :
    ∃ t rest, root_chain M mode fuel mtx color ts hb = t :: rest ∧ t ∈ ts
      ∧ (hb = false → rest = [])
      ∧ (hb = true → chainFrom (make_turn mtx t) t.x2 t.y2 rest) := by
  obtain ⟨n, rfl⟩ : ∃ n, fuel = n + 1 := ⟨fuel - 1, by omega⟩
  unfold root_chain
  rw [state_chain_succ]
  obtain ⟨t0, ht0⟩ := List.exists_mem_of_ne_nil _ hts
  have hsome := pick_some (cand M mode n mtx color hb) ts (-1) none
    (Or.inl ⟨t0, ht0, by linarith [(cand_bounds M mode n mtx color hb t0).1]⟩)
  cases hp : (pick (cand M mode n mtx color hb) ts (-1) none).2 with
  | none => exact absurd hp hsome
  | some t =>
    have hmem : t ∈ ts := by
      rcases pick_mem _ _ _ _ _ hp with h | h
      · exact h
      · simp at h
    simp only [if_neg (List.cons_ne_nil _ _)]
    refine ⟨t, _, rfl, hmem, ?_, ?_⟩
    · intro hf; rw [hf]; simp
    · intro ht
      rw [if_pos ht]
      have hpc := pieceCount_le (make_turn mtx t)
      exact landing_chain_spec M mode n (make_turn mtx t) color t.x2 t.y2
        (is8x8_make_turn mtx t h8) (hpre ht t hmem) (by omega)

/-- The chain `find_best_turns` returns for an empty candidate list is the placeholder. -/
theorem root_chain_nil (M : Nat) (mode : String) (fuel : Nat) (mtx : Board) (color : Bool)
    (hb : Bool) : root_chain M mode fuel mtx color [] hb = [move_pos.mk4 (-1) (-1) (-1) (-1)] := by
  unfold root_chain
  cases fuel with
  | zero => simp [state_chain]
  | succ n => rw [state_chain_succ]; simp [pick]


theorem boardAfter_cons (mtx : Board) (t : move_pos) (rest : List move_pos) (k : Nat) :
    boardAfter mtx (t :: rest) (k + 1) = boardAfter (make_turn mtx t) rest k := by
  simp [boardAfter]

theorem boardAfter_zero (mtx : Board) (chain : List move_pos) : boardAfter mtx chain 0 = mtx := by
  simp [boardAfter]

/-- Along a chain that continues its first move by a complete series of captures: the move
after position `k` exists exactly when the square query on the landing square of move `k`,
on the board after moves `0..k`, reports captures; it is then one of them, a capture that
starts from that landing square. -/
theorem chainFrom_index :
    ∀ (rest : List move_pos) (mtx : Board) (t : move_pos), inRange t.x2 t.y2 →
      chainFrom (make_turn mtx t) t.x2 t.y2 rest →
      ∀ (k : Nat) (tk : move_pos), (t :: rest)[k]? = some tk →
        ((t :: rest)[k + 1]? = none →
          (find_turns_xy (boardAfter mtx (t :: rest) (k + 1)) tk.x2 tk.y2).2 = false)
        ∧ (∀ t1, (t :: rest)[k + 1]? = some t1 →
            (find_turns_xy (boardAfter mtx (t :: rest) (k + 1)) tk.x2 tk.y2).2 = true
            ∧ t1 ∈ (find_turns_xy (boardAfter mtx (t :: rest) (k + 1)) tk.x2 tk.y2).1
            ∧ t1.xb ≠ -1 ∧ t1.x = tk.x2 ∧ t1.y = tk.y2) := by
  intro rest
  induction rest with
  | nil =>
    intro mtx t _ hch k tk hk
    have hk0 : k = 0 := by
      cases k with
      | zero => rfl
      | succ k => simp at hk
    subst hk0
    simp only [List.getElem?_cons_zero, Option.some.injEq] at hk
    subst hk
    rw [boardAfter_cons, boardAfter_zero]
    constructor
    · intro _; exact hch
    · intro t1 h1; simp at h1
  | cons t1 rest1 ih =>
    intro mtx t hin hch k tk hk
    obtain ⟨hflag, hmem, hrest⟩ := hch
    have hok := find_turns_xy_ok (make_turn mtx t) t.x2 t.y2 hin hflag t1 hmem
    cases k with
    | zero =>
      simp only [List.getElem?_cons_zero, Option.some.injEq] at hk
      subst hk
      rw [boardAfter_cons, boardAfter_zero]
      constructor
      · intro h; simp at h
      · intro t' h'
        simp only [zero_add, List.getElem?_cons_succ, List.getElem?_cons_zero,
          Option.some.injEq] at h'
        subst h'
        exact ⟨hflag, hmem, hok.2.2.2.2.2.1, hok.1, hok.2.1⟩
    | succ k =>
      rw [List.getElem?_cons_succ] at hk
      have := ih (make_turn mtx t) t1 hok.2.2.2.1 hrest k tk hk
      rw [boardAfter_cons]
      simp only [List.getElem?_cons_succ] at this ⊢
      exact this


/-! ## The search claims -/

theorem sampleShuffle_perm : ∀ (s : Unit) (l : List move_pos), (sampleShuffle s l).1.Perm l :=
  fun _ l => List.reverse_perm l

/-- C2: when `find_best_turns(color)` is called on an 8x8 live board with `turns`/`have_beats`
holding the result of `find_turns(color)` on that board (nesting bound at least
`65 * Max_depth + 67`, any pruning setting, any permuting shuffle), it returns a chain such
that for every position `k`: if move `k` is a capture and the square query on its landing
square, on the board obtained by applying moves `0..k` with `make_turn`, reports a capture,
then the chain has a move `k + 1` and that move is one of the moves the query returns. -/
theorem C2_chain_continuation {σ : Type} (P : Params σ) (hsh : ∀ s l, (P.shuffle s l).1.Perm l)
    (fuel : Nat) (L : Logic σ) (mtx : Board) (color : Bool) (rng : σ) (h8 : is8x8 mtx)
    (hfuel : 65 * P.Max_depth + 67 ≤ fuel)
    (hturns : L.turns = (find_turns P.shuffle rng color mtx).1.1)
    (hflag : L.have_beats = (find_turns P.shuffle rng color mtx).1.2) :
    ∃ chain L1, find_best_turns P fuel L mtx color = some (chain, L1)
      ∧ ∀ (k : Nat) (t : move_pos), chain[k]? = some t → t.xb ≠ -1 →
          (find_turns_xy (boardAfter mtx chain (k + 1)) t.x2 t.y2).2 = true →
          ∃ t1, chain[k + 1]? = some t1
            ∧ t1 ∈ (find_turns_xy (boardAfter mtx chain (k + 1)) t.x2 t.y2).1 := by
  obtain ⟨hcap, hsimple⟩ := find_turns_result P.shuffle hsh rng color mtx
  rw [← hturns, ← hflag] at hcap hsimple
  have hpre : L.have_beats = true → ∀ t ∈ L.turns, inRange t.x2 t.y2 :=
    fun hb t ht => (hcap hb t ht).2.1
  obtain ⟨L1, h1⟩ := find_best_turns_eq P hsh fuel L mtx color h8 hfuel hpre
  refine ⟨_, L1, h1, ?_⟩
  intro k t hk hxb hq
  by_cases hnil : L.turns = []
  · rw [hnil, root_chain_nil] at hk
    cases k with
    | zero =>
      simp only [List.getElem?_cons_zero, Option.some.injEq] at hk
      subst hk
      exact absurd rfl hxb
    | succ k => simp at hk
  · obtain ⟨t0, rest, hc, hmem, hs, hb⟩ := root_chain_spec P.Max_depth P.scoring_mode fuel mtx
      color L.turns L.have_beats h8 (by omega) hnil hpre
    rw [hc] at hk hq ⊢
    cases hbv : L.have_beats with
    | false =>
      rw [hs hbv] at hk
      cases k with
      | zero =>
        simp only [List.getElem?_cons_zero, Option.some.injEq] at hk
        subst hk
        exact absurd (hsimple hbv _ hmem) hxb
      | succ k => simp at hk
    | true =>
      obtain ⟨hnone, hsome⟩ := chainFrom_index rest mtx t0 (hpre hbv t0 hmem) (hb hbv) k t hk
      cases hnext : (t0 :: rest)[k + 1]? with
      | none =>
        rw [hnone hnext] at hq
        simp at hq
      | some t1 =>
        exact ⟨t1, rfl, (hsome t1 hnext).2.1⟩

theorem C2_chain_continuation_witness :
    ∃ chain L1, find_best_turns (sampleParams "O1") 197 (sampleLogic false sampleBoard)
        sampleBoard false = some (chain, L1)
      ∧ ∀ (k : Nat) (t : move_pos), chain[k]? = some t → t.xb ≠ -1 →
          (find_turns_xy (boardAfter sampleBoard chain (k + 1)) t.x2 t.y2).2 = true →
          ∃ t1, chain[k + 1]? = some t1
            ∧ t1 ∈ (find_turns_xy (boardAfter sampleBoard chain (k + 1)) t.x2 t.y2).1 :=
  C2_chain_continuation (sampleParams "O1") sampleShuffle_perm 197
    (sampleLogic false sampleBoard) sampleBoard false () (by decide) (by decide) rfl rfl

/-- C3: on an 8x8 live board, with `turns`/`have_beats` holding the result of
`find_turns(color)` and at least one legal move (nesting bound at least
`65 * Max_depth + 67`, any pruning setting, any permuting shuffle), `find_best_turns` returns
a non-empty chain whose first move is one of the legal moves, and: if the first move is a
simple move the chain has length exactly 1; if the first move is a capture, every later move
is a capture whose origin is the previous move's landing square and which the square query
returns (reporting captures) on the board obtained by applying the preceding moves, and the
chain ends exactly at a move after which the square query for the landing piece reports no
capture. -/
theorem C3_chain_invariant {σ : Type} (P : Params σ) (hsh : ∀ s l, (P.shuffle s l).1.Perm l)
    (fuel : Nat) (L : Logic σ) (mtx : Board) (color : Bool) (rng : σ) (h8 : is8x8 mtx)
    (hfuel : 65 * P.Max_depth + 67 ≤ fuel)
    (hturns : L.turns = (find_turns P.shuffle rng color mtx).1.1)
    (hflag : L.have_beats = (find_turns P.shuffle rng color mtx).1.2)
    (hlegal : L.turns ≠ []) :
    ∃ chain L1 t0, find_best_turns P fuel L mtx color = some (chain, L1)
      ∧ chain[0]? = some t0 ∧ t0 ∈ L.turns
      ∧ (t0.xb = -1 → chain.length = 1)
      ∧ (t0.xb ≠ -1 →
          (∀ (k : Nat) (t t1 : move_pos), chain[k]? = some t → chain[k + 1]? = some t1 →
            t1.xb ≠ -1 ∧ t1.x = t.x2 ∧ t1.y = t.y2
            ∧ (find_turns_xy (boardAfter mtx chain (k + 1)) t.x2 t.y2).2 = true
            ∧ t1 ∈ (find_turns_xy (boardAfter mtx chain (k + 1)) t.x2 t.y2).1)
          ∧ (∀ (k : Nat) (t : move_pos), chain[k]? = some t → chain[k + 1]? = none →
            (find_turns_xy (boardAfter mtx chain (k + 1)) t.x2 t.y2).2 = false)) := by
  obtain ⟨hcap, hsimple⟩ := find_turns_result P.shuffle hsh rng color mtx
  rw [← hturns, ← hflag] at hcap hsimple
  have hpre : L.have_beats = true → ∀ t ∈ L.turns, inRange t.x2 t.y2 :=
    fun hb t ht => (hcap hb t ht).2.1
  obtain ⟨L1, h1⟩ := find_best_turns_eq P hsh fuel L mtx color h8 hfuel hpre
  obtain ⟨t0, rest, hc, hmem, hs, hb⟩ := root_chain_spec P.Max_depth P.scoring_mode fuel mtx
    color L.turns L.have_beats h8 (by omega) hlegal hpre
  refine ⟨t0 :: rest, L1, t0, by rw [← hc]; exact h1, by simp, hmem, ?_, ?_⟩
  · intro hx
    by_cases hbv : L.have_beats = true
    · exact absurd hx (hcap hbv t0 hmem).2.2.2.1
    · have hbf : L.have_beats = false := by
        cases h : L.have_beats
        · rfl
        · exact absurd h hbv
      rw [hs hbf]; rfl
  · intro hx
    by_cases hbv : L.have_beats = true
    · constructor
      · intro k t t1 hk hk1
        obtain ⟨_, hsome⟩ := chainFrom_index rest mtx t0 (hpre hbv t0 hmem) (hb hbv) k t hk
        obtain ⟨a, b, c, d, e⟩ := hsome t1 hk1
        exact ⟨c, d, e, a, b⟩
      · intro k t hk hk1
        exact (chainFrom_index rest mtx t0 (hpre hbv t0 hmem) (hb hbv) k t hk).1 hk1
    · have hbf : L.have_beats = false := by
        cases h : L.have_beats
        · rfl
        · exact absurd h hbv
      exact absurd (hsimple hbf t0 hmem) hx

theorem C3_chain_invariant_witness :
    ∃ chain L1 t0, find_best_turns (sampleParams "O1") 197 (sampleLogic false sampleBoard)
        sampleBoard false = some (chain, L1)
      ∧ chain[0]? = some t0 ∧ t0 ∈ (sampleLogic false sampleBoard).turns
      ∧ (t0.xb = -1 → chain.length = 1)
      ∧ (t0.xb ≠ -1 →
          (∀ (k : Nat) (t t1 : move_pos), chain[k]? = some t → chain[k + 1]? = some t1 →
            t1.xb ≠ -1 ∧ t1.x = t.x2 ∧ t1.y = t.y2
            ∧ (find_turns_xy (boardAfter sampleBoard chain (k + 1)) t.x2 t.y2).2 = true
            ∧ t1 ∈ (find_turns_xy (boardAfter sampleBoard chain (k + 1)) t.x2 t.y2).1)
          ∧ (∀ (k : Nat) (t : move_pos), chain[k]? = some t → chain[k + 1]? = none →
            (find_turns_xy (boardAfter sampleBoard chain (k + 1)) t.x2 t.y2).2 = false)) :=
  C3_chain_invariant (sampleParams "O1") sampleShuffle_perm 197
    (sampleLogic false sampleBoard) sampleBoard false () (by decide) (by decide) rfl rfl
    (by decide)


/-! ## The iteration bound of the king loops -/

/-- The bound on the iterations of the king capture loop is never the reason it stops: once
the bound covers the cells left before the board edge, a larger bound gives the same moves. -/
theorem kingBeatRay_fuel_gen (mtx : Board) (x y type i j : Int) :
    ∀ (n m : Nat) (i2 j2 xb yb : Int), n ≤ m →
      ((i = 1 ∧ i2 ≤ 8 ∧ 8 - i2 ≤ n) ∨ (i = -1 ∧ -1 ≤ i2 ∧ i2 + 1 ≤ n)) →
      kingBeatRay mtx x y type i j m i2 j2 xb yb = kingBeatRay mtx x y type i j n i2 j2 xb yb := by
  intro n
  induction n with
  | zero =>
    intro m i2 j2 xb yb _ h
    have hedge : i2 = 8 ∨ i2 = -1 := by omega
    cases m with
    | zero => rfl
    | succ m =>
      rw [kingBeatRay_succ]
      rw [if_neg (fun hc => by rcases hedge with h | h <;> simp [h] at hc)]
      rfl
  | succ n ih =>
    intro m i2 j2 xb yb hnm h
    obtain ⟨m, rfl⟩ : ∃ m', m = m' + 1 := ⟨m - 1, by omega⟩
    rw [kingBeatRay_succ, kingBeatRay_succ]
    by_cases hc : i2 ≠ 8 ∧ j2 ≠ 8 ∧ i2 ≠ -1 ∧ j2 ≠ -1
    · rw [if_pos hc, if_pos hc]
      have hstep : (i = 1 ∧ i2 + i ≤ 8 ∧ 8 - (i2 + i) ≤ n)
          ∨ (i = -1 ∧ -1 ≤ i2 + i ∧ i2 + i + 1 ≤ n) := by
        rcases h with ⟨h1, h2, h3⟩ | ⟨h1, h2, h3⟩
        · left; subst h1; omega
        · right; subst h1; omega
      rw [ih m (i2 + i) (j2 + j) _ _ (by omega) hstep]
    · rw [if_neg hc, if_neg hc]

/-- From a board cell, 8 iterations of the king capture loop are as good as any larger
number. -/
theorem kingBeatRay_fuel (mtx : Board) (x y type i j : Int) (hdi : i = 1 ∨ i = -1)
    (hxy : inRange x y) (m : Nat) (hm : 8 ≤ m) (xb yb : Int) :
    kingBeatRay mtx x y type i j m (x + i) (y + j) xb yb
      = kingBeatRay mtx x y type i j 8 (x + i) (y + j) xb yb := by
  apply kingBeatRay_fuel_gen mtx x y type i j 8 m _ _ _ _ hm
  unfold inRange at hxy
  rcases hdi with h | h
  · left; subst h; omega
  · right; subst h; omega

/-- The same for the simple-move loop of a king. -/
theorem kingMoveRay_fuel_gen (mtx : Board) (x y i j : Int) :
    ∀ (n m : Nat) (i2 j2 : Int), n ≤ m →
      ((i = 1 ∧ i2 ≤ 8 ∧ 8 - i2 ≤ n) ∨ (i = -1 ∧ -1 ≤ i2 ∧ i2 + 1 ≤ n)) →
      kingMoveRay mtx x y i j m i2 j2 = kingMoveRay mtx x y i j n i2 j2 := by
  intro n
  induction n with
  | zero =>
    intro m i2 j2 _ h
    have hedge : i2 = 8 ∨ i2 = -1 := by omega
    cases m with
    | zero => rfl
    | succ m =>
      simp only [kingMoveRay]
      rw [if_neg (fun hc => by rcases hedge with h | h <;> simp [h] at hc)]
  | succ n ih =>
    intro m i2 j2 hnm h
    obtain ⟨m, rfl⟩ : ∃ m', m = m' + 1 := ⟨m - 1, by omega⟩
    simp only [kingMoveRay]
    by_cases hc : i2 ≠ 8 ∧ j2 ≠ 8 ∧ i2 ≠ -1 ∧ j2 ≠ -1
    · rw [if_pos hc, if_pos hc]
      have hstep : (i = 1 ∧ i2 + i ≤ 8 ∧ 8 - (i2 + i) ≤ n)
          ∨ (i = -1 ∧ -1 ≤ i2 + i ∧ i2 + i + 1 ≤ n) := by
        rcases h with ⟨h1, h2, h3⟩ | ⟨h1, h2, h3⟩
        · left; subst h1; omega
        · right; subst h1; omega
      rw [ih m (i2 + i) (j2 + j) (by omega) hstep]
    · rw [if_neg hc, if_neg hc]

theorem kingMoveRay_fuel (mtx : Board) (x y i j : Int) (hdi : i = 1 ∨ i = -1)
    (hxy : inRange x y) (m : Nat) (hm : 8 ≤ m) :
    kingMoveRay mtx x y i j m (x + i) (y + j) = kingMoveRay mtx x y i j 8 (x + i) (y + j) := by
  apply kingMoveRay_fuel_gen mtx x y i j 8 m _ _ hm
  unfold inRange at hxy
  rcases hdi with h | h
  · left; subst h; omega
  · right; subst h; omega

/-! ## The evaluation formula -/

/-- The double loop over the board visits the 64 cells in the order of `cells`. -/
theorem scan_cells {α : Type} (f : α → Int → Int → α) (init : α) :
    idx8.foldl (fun st i => idx8.foldl (fun st1 j => f st1 i j) st) init
      = cells.foldl (fun st p => f st p.1 p.2) init := rfl

/-- The accumulators of `calc_score` after the loops are sums over the cells. -/
theorem score_fold (mode : String) (mtx : Board) (l : List (Int × Int)) (s : Sums) :
    (l.foldl (fun st p => score_cell mode mtx st p.1 p.2) s).w
        = s.w + (l.map fun p => if getCell mtx p.1 p.2 = 1 then
            1 + (if mode = "NumberAndPotential" then (1 / 20) * (7 - (p.1 : ℚ)) else 0)
          else 0).sum
    ∧ (l.foldl (fun st p => score_cell mode mtx st p.1 p.2) s).wq
        = s.wq + (l.map fun p => if getCell mtx p.1 p.2 = 3 then (1 : ℚ) else 0).sum
    ∧ (l.foldl (fun st p => score_cell mode mtx st p.1 p.2) s).b
        = s.b + (l.map fun p => if getCell mtx p.1 p.2 = 2 then
            1 + (if mode = "NumberAndPotential" then (1 / 20) * (p.1 : ℚ) else 0)
          else 0).sum
    ∧ (l.foldl (fun st p => score_cell mode mtx st p.1 p.2) s).bq
        = s.bq + (l.map fun p => if getCell mtx p.1 p.2 = 4 then (1 : ℚ) else 0).sum := by
  induction l generalizing s with
  | nil => simp
  | cons p l ih =>
    simp only [List.foldl_cons, List.map_cons, List.sum_cons]
    obtain ⟨h1, h2, h3, h4⟩ := ih (score_cell mode mtx s p.1 p.2)
    rw [h1, h2, h3, h4]
    unfold score_cell ind
    by_cases hm : mode = "NumberAndPotential"
    · simp only [hm, if_true]
      refine ⟨?_, ?_, ?_, ?_⟩
      · by_cases h : getCell mtx p.1 p.2 = 1 <;> simp [h]; ring
      · by_cases h : getCell mtx p.1 p.2 = 3 <;> simp [h]; ring
      · by_cases h : getCell mtx p.1 p.2 = 2 <;> simp [h]; ring
      · by_cases h : getCell mtx p.1 p.2 = 4 <;> simp [h]; ring
    · simp only [hm, if_false]
      refine ⟨?_, ?_, ?_, ?_⟩
      · by_cases h : getCell mtx p.1 p.2 = 1 <;> simp [h]; ring
      · by_cases h : getCell mtx p.1 p.2 = 3 <;> simp [h]; ring
      · by_cases h : getCell mtx p.1 p.2 = 2 <;> simp [h]; ring
      · by_cases h : getCell mtx p.1 p.2 = 4 <;> simp [h]; ring

/-- The accumulators of `calc_score` after the swap are the spec's men and king values. -/
theorem score_sums_spec (mode : String) (mtx : Board) (c : Bool) :
    (score_sums mode mtx c).b = spec_men mode mtx c
    ∧ (score_sums mode mtx c).bq = spec_kings mtx c
    ∧ (score_sums mode mtx c).w = spec_men mode mtx (!c)
    ∧ (score_sums mode mtx c).wq = spec_kings mtx (!c) := by
  obtain ⟨h1, h2, h3, h4⟩ := score_fold mode mtx cells ⟨0, 0, 0, 0⟩
  simp only [zero_add] at h1 h2 h3 h4
  unfold score_sums score_scan
  rw [scan_cells]
  unfold spec_men spec_kings
  cases c
  · simp only [if_true, Bool.not_false, Bool.false_eq_true, if_false]
    exact ⟨h1, h2, h3, h4⟩
  · simp only [Bool.true_eq_false, if_false, Bool.not_true, if_true, Bool.false_eq_true]
    exact ⟨h3, h4, h1, h2⟩

/-- C11: for every board on which both sides have at least one piece, `calc_score` (in exact
arithmetic) equals the spec's ratio `(own_men + own_kings * q) / (opp_men + opp_kings * q)`
for the evaluated colour (`false` = white, `true` = black): `q` is 4 and men are plain counts
in material-only mode, `q` is 5 and each man adds `0.05 * (7 - row)` (white) or `0.05 * row`
(black) in the mode "NumberAndPotential". -/
theorem C11_calc_score_formula (scoring_mode : String) (mtx : Board) (first_bot_color : Bool)
    (hwhite : ¬ noPieces false mtx) (hblack : ¬ noPieces true mtx) :
    calc_score scoring_mode mtx first_bot_color = spec_score scoring_mode mtx first_bot_color := by
  have hown : ¬ noPieces first_bot_color mtx := by cases first_bot_color <;> assumption
  have hopp : ¬ noPieces (!first_bot_color) mtx := by cases first_bot_color <;> assumption
  have h1 := score_sums_opp_pos scoring_mode mtx first_bot_color hopp
  have h2 := score_sums_own_pos scoring_mode mtx first_bot_color hown
  obtain ⟨e1, e2, e3, e4⟩ := score_sums_spec scoring_mode mtx first_bot_color
  unfold calc_score score_divisor spec_score
  simp only []
  rw [if_neg (by linarith), if_neg (by linarith), e1, e2, e3, e4]
  rfl

theorem C11_calc_score_formula_witness :
    calc_score "NumberAndPotential" sampleBoard false
      = spec_score "NumberAndPotential" sampleBoard false :=
  C11_calc_score_formula "NumberAndPotential" sampleBoard false (by decide) (by decide)

/-! ## Scenarios -/

/-- C14: on the board that is empty except for a white man at (5,4) and black men at (4,3)
and (2,1), the square query on (5,4) returns exactly the capture (5,4)->(3,2) taking (4,3)
with `have_beats` true; on the board after that move, the square query on (3,2) returns
exactly the capture (3,2)->(1,0) taking (2,1) with `have_beats` true; after both moves no
black piece is left and the white man stands on (1,0). -/
theorem C14_forced_double_jump :
    find_turns_xy jumpBoard 5 4 = ([⟨5, 4, 3, 2, 4, 3⟩], true)
    ∧ find_turns_xy (make_turn jumpBoard ⟨5, 4, 3, 2, 4, 3⟩) 3 2 = ([⟨3, 2, 1, 0, 2, 1⟩], true)
    ∧ noPieces true (make_turn (make_turn jumpBoard ⟨5, 4, 3, 2, 4, 3⟩) ⟨3, 2, 1, 0, 2, 1⟩)
    ∧ make_turn (make_turn jumpBoard ⟨5, 4, 3, 2, 4, 3⟩) ⟨3, 2, 1, 0, 2, 1⟩ = place [(1, 0, 1)] := by
  decide

/-- The colour-wide query returns the flag of its loops and a reordering of their moves. -/
theorem find_turns_perm {σ : Type} (shuffle : σ → List move_pos → List move_pos × σ)
    (hsh : ∀ s l, (shuffle s l).1.Perm l) (rng : σ) (color : Bool) (mtx : Board) :
    (find_turns shuffle rng color mtx).1.2 = (find_turns_scan color mtx).2
    ∧ (find_turns shuffle rng color mtx).1.1.Perm (find_turns_scan color mtx).1 :=
  ⟨rfl, hsh rng _⟩

set_option maxRecDepth 100000 in
/-- The colour-wide loops on the starting position. -/
theorem startBoard_scan :
    (find_turns_scan false startBoard).2 = false ∧ (find_turns_scan true startBoard).2 = false
    ∧ (find_turns_scan false startBoard).1.length = 7
    ∧ ∀ t ∈ (find_turns_scan false startBoard).1,
        t.xb = -1 ∧ t.x2 = t.x - 1 ∧ (t.y2 = t.y - 1 ∨ t.y2 = t.y + 1) := by
  decide

/-- C15: on the standard starting position the colour-wide query (with any shuffle that
permutes the list) reports `have_beats` false for white and for black, and for white it
returns seven moves, each a simple move (`xb = -1`) one row up (`x2 = x - 1`) and one column
sideways (`y2 = y - 1` or `y2 = y + 1`). -/
theorem C15_opening {σ : Type} (shuffle : σ → List move_pos → List move_pos × σ)
    (hsh : ∀ s l, (shuffle s l).1.Perm l) (rng : σ) :
    (find_turns shuffle rng false startBoard).1.2 = false
    ∧ (find_turns shuffle rng true startBoard).1.2 = false
    ∧ (find_turns shuffle rng false startBoard).1.1.length = 7
    ∧ ∀ t ∈ (find_turns shuffle rng false startBoard).1.1,
        t.xb = -1 ∧ t.x2 = t.x - 1 ∧ (t.y2 = t.y - 1 ∨ t.y2 = t.y + 1) := by
  obtain ⟨h1, h2, h3, h4⟩ := startBoard_scan
  obtain ⟨fw, pw⟩ := find_turns_perm shuffle hsh rng false startBoard
  obtain ⟨fb, -⟩ := find_turns_perm shuffle hsh rng true startBoard
  refine ⟨fw.trans h1, fb.trans h2, pw.length_eq.trans h3, ?_⟩
  intro t ht
  exact h4 t (pw.mem_iff.mp ht)

theorem C15_opening_witness :
    (find_turns sampleShuffle () false startBoard).1.2 = false
    ∧ (find_turns sampleShuffle () true startBoard).1.2 = false
    ∧ (find_turns sampleShuffle () false startBoard).1.1.length = 7
    ∧ ∀ t ∈ (find_turns sampleShuffle () false startBoard).1.1,
        t.xb = -1 ∧ t.x2 = t.x - 1 ∧ (t.y2 = t.y - 1 ∨ t.y2 = t.y + 1) :=
  C15_opening sampleShuffle sampleShuffle_perm ()

/-! ## The square query on an empty square -/

/-- A king capture ray depends on the board only through the cells it visits and on the
piece code only through its parity. -/
theorem kingBeatRay_congr (m1 m2 : Board) (x y t1 t2 i j : Int) (ht : t1.tmod 2 = t2.tmod 2) :
    ∀ (n : Nat) (i2 j2 xb yb : Int),
      (∀ k : Nat, getCell m1 (i2 + k * i) (j2 + k * j) = getCell m2 (i2 + k * i) (j2 + k * j)) →
      kingBeatRay m1 x y t1 i j n i2 j2 xb yb = kingBeatRay m2 x y t2 i j n i2 j2 xb yb := by
  intro n
  induction n with
  | zero => intros; rfl
  | succ n ih =>
    intro i2 j2 xb yb h
    have h0 : getCell m1 i2 j2 = getCell m2 i2 j2 := by
      have := h 0
      simpa using this
    have hs : ∀ k : Nat, getCell m1 (i2 + i + k * i) (j2 + j + k * j)
        = getCell m2 (i2 + i + k * i) (j2 + j + k * j) := by
      intro k
      have := h (k + 1)
      have e1 : i2 + ((k + 1 : Nat) : Int) * i = i2 + i + k * i := by push_cast; ring
      have e2 : j2 + ((k + 1 : Nat) : Int) * j = j2 + j + k * j := by push_cast; ring
      rw [e1, e2] at this
      exact this
    simp only [kingBeatRay]
    rw [h0, ht, ih (i2 + i) (j2 + j) _ _ hs]

/-- A king move ray depends on the board only through the cells it visits. -/
theorem kingMoveRay_congr (m1 m2 : Board) (x y i j : Int) :
    ∀ (n : Nat) (i2 j2 : Int),
      (∀ k : Nat, getCell m1 (i2 + k * i) (j2 + k * j) = getCell m2 (i2 + k * i) (j2 + k * j)) →
      kingMoveRay m1 x y i j n i2 j2 = kingMoveRay m2 x y i j n i2 j2 := by
  intro n
  induction n with
  | zero => intros; rfl
  | succ n ih =>
    intro i2 j2 h
    have h0 : getCell m1 i2 j2 = getCell m2 i2 j2 := by
      have := h 0
      simpa using this
    have hs : ∀ k : Nat, getCell m1 (i2 + i + k * i) (j2 + j + k * j)
        = getCell m2 (i2 + i + k * i) (j2 + j + k * j) := by
      intro k
      have := h (k + 1)
      have e1 : i2 + ((k + 1 : Nat) : Int) * i = i2 + i + k * i := by push_cast; ring
      have e2 : j2 + ((k + 1 : Nat) : Int) * j = j2 + j + k * j := by push_cast; ring
      rw [e1, e2] at this
      exact this
    simp only [kingMoveRay]
    rw [h0, ih (i2 + i) (j2 + j) hs]

/-- The rays from `(x, y)` never come back to `(x, y)`. -/
theorem ray_off_origin (x y i j : Int) (hi : i ∈ ([-1, 1] : List Int)) (k : Nat) :
    ¬ (x + i + k * i = x ∧ y + j + k * j = y) := by
  intro h
  have h1 := h.1
  simp only [List.mem_cons, List.mem_singleton, List.not_mem_nil, or_false] at hi
  rcases hi with hi | hi <;> subst hi <;> omega

/-- The king loops from `(x, y)` do not read the cell `(x, y)` itself, and use the piece
code only through its parity. -/
theorem king_loops_congr (mtx : Board) (x y v t1 t2 : Int) (ht : t1.tmod 2 = t2.tmod 2) :
    kingBeats mtx x y t1 = kingBeats (setCell mtx x y v) x y t2
    ∧ kingMoves mtx x y = kingMoves (setCell mtx x y v) x y := by
  have hcell : ∀ i ∈ ([-1, 1] : List Int), ∀ (j : Int) (k : Nat),
      getCell mtx (x + i + k * i) (y + j + k * j)
        = getCell (setCell mtx x y v) (x + i + k * i) (y + j + k * j) := by
    intro i hi j k
    exact (getCell_setCell_ne mtx x y v _ _ (ray_off_origin x y i j hi k)).symm
  constructor
  · unfold kingBeats
    apply List.flatMap_congr
    intro i hi
    apply List.flatMap_congr
    intro j _
    exact kingBeatRay_congr _ _ x y t1 t2 i j ht 8 _ _ _ _ (hcell i hi j)
  · unfold kingMoves
    apply List.flatMap_congr
    intro i hi
    apply List.flatMap_congr
    intro j _
    exact kingMoveRay_congr _ _ x y i j 8 _ _ (hcell i hi j)

/-- C13 (counterexample): on the board that is empty except for a white man on (3,3), the
square query on the empty square (2,2) returns four captures of that man and sets
`have_beats`. -/
theorem C13_counterexample :
    inRange 2 2 ∧ getCell (place [(3, 3, 1)]) 2 2 = 0
    ∧ find_turns_xy (place [(3, 3, 1)]) 2 2
        = ([⟨2, 2, 4, 4, 3, 3⟩, ⟨2, 2, 5, 5, 3, 3⟩, ⟨2, 2, 6, 6, 3, 3⟩, ⟨2, 2, 7, 7, 3, 3⟩], true) := by
  decide

/-- C13 (amended): the square query has no guard for an empty square.  For every 8x8 board
and every in-range square `(x, y)` with cell code 0 it returns exactly the moves and the
`have_beats` flag it returns when a black king (code 4) stands on `(x, y)`; the colour-wide
query skips the cell (its loop body leaves `res_turns` and `have_beats_before` unchanged)
and so never issues this query. -/
theorem C13_empty_square (mtx : Board) (x y : Int) (h8 : is8x8 mtx) (hin : inRange x y)
    (h0 : getCell mtx x y = 0) :
    find_turns_xy mtx x y = find_turns_xy (setCell mtx x y 4) x y
    ∧ ∀ (color : Bool) (st : List move_pos × Bool), find_turns_cell color mtx st x y = st := by
  constructor
  · have h4 : getCell (setCell mtx x y 4) x y = 4 := getCell_setCell_eq mtx x y 4 h8 hin
    obtain ⟨hb, hm⟩ := king_loops_congr mtx x y 4 0 4 (by decide)
    rw [find_turns_xy_eq, find_turns_xy_eq, h0, h4]
    have e0 : ¬ ((0 : Int) = 1 ∨ (0 : Int) = 2) := by decide
    have e4 : ¬ ((4 : Int) = 1 ∨ (4 : Int) = 2) := by decide
    simp only [e0, e4, if_false]
    rw [hb, hm]
  · intro color st
    unfold find_turns_cell
    rw [if_neg (by rw [h0]; simp)]

theorem C13_empty_square_witness :
    find_turns_xy (place [(3, 3, 1)]) 2 2 = find_turns_xy (setCell (place [(3, 3, 1)]) 2 2 4) 2 2
    ∧ ∀ (color : Bool) (st : List move_pos × Bool),
        find_turns_cell color (place [(3, 3, 1)]) st 2 2 = st :=
  C13_empty_square (place [(3, 3, 1)]) 2 2 (by decide) (by decide) (by decide)

/-! ## The moves of a man -/

theorem getCell_nonneg (mtx : Board) (x y : Int) (h : getCell mtx x y ≠ 0) : 0 ≤ x ∧ 0 ≤ y := by
  unfold getCell at h
  by_cases hc : 0 ≤ x ∧ 0 ≤ y
  · exact hc
  · rw [if_neg hc] at h; exact absurd rfl h

/-- For a man, the parity test of the capture loop is the opposite-colour test. -/
theorem parity_opposing_man (type c : Int) (hk : type = 1 ∨ type = 2) (hc : 0 ≤ c ∧ c ≤ 4) :
    (c ≠ 0 ∧ c.tmod 2 ≠ type.tmod 2) ↔ opposing type c := by
  unfold opposing
  have hcases : c = 0 ∨ c = 1 ∨ c = 2 ∨ c = 3 ∨ c = 4 := by omega
  rcases hk with h | h <;> subst h <;>
    rcases hcases with h | h | h | h | h <;> subst h <;> decide

/-- The capture loop of a man returns exactly the captures of the man capture rule. -/
theorem manBeats_iff (mtx : Board) (x y : Int) (hc : codesOK mtx)
    (hman : getCell mtx x y = 1 ∨ getCell mtx x y = 2) (t : move_pos) :
    t ∈ manBeats mtx x y (getCell mtx x y) ↔ manCapture mtx x y t := by
  have hne : getCell mtx x y ≠ 0 := by rcases hman with h | h <;> rw [h] <;> decide
  obtain ⟨hx, hy⟩ := getCell_nonneg mtx x y hne
  unfold manBeats manCapture
  simp only [List.mem_flatMap, List.mem_cons, List.mem_singleton, List.not_mem_nil, or_false]
  constructor
  · rintro ⟨i, hi, j, hj, h⟩
    by_cases hr : i < 0 ∨ i > 7 ∨ j < 0 ∨ j > 7
    · rw [if_pos hr] at h; simp at h
    · rw [if_neg hr] at h
      by_cases hcond : getCell mtx i j ≠ 0 ∨ getCell mtx ((x + i).tdiv 2) ((y + j).tdiv 2) = 0
          ∨ (getCell mtx ((x + i).tdiv 2) ((y + j).tdiv 2)).tmod 2 = (getCell mtx x y).tmod 2
      · rw [if_pos hcond] at h; simp at h
      · rw [if_neg hcond, List.mem_singleton] at h
        subst h
        simp only [not_or, not_not] at hcond hr
        obtain ⟨h0, hb0, hpar⟩ := hcond
        have e1 : (x + i).tdiv 2 = (x + i) / 2 := Int.tdiv_eq_ediv (by omega) (by norm_num)
        have e2 : (y + j).tdiv 2 = (y + j) / 2 := Int.tdiv_eq_ediv (by omega) (by norm_num)
        have hop := (parity_opposing_man (getCell mtx x y)
          (getCell mtx ((x + i).tdiv 2) ((y + j).tdiv 2)) hman (getCell_codes mtx hc _ _)).mp
          ⟨hb0, hpar⟩
        unfold inRange
        dsimp only
        refine ⟨rfl, rfl, ?_, ?_, ⟨by omega, by omega, by omega, by omega⟩, h0, e1, e2, hop⟩
        · rcases hi with hi | hi <;> subst hi <;> simp
        · rcases hj with hj | hj <;> subst hj <;> simp
  · rintro ⟨h1, h2, h3, h4, hr, h0, hxb, hyb, hop⟩
    obtain ⟨r1, r2, r3, r4⟩ := hr
    have e1 : (x + t.x2).tdiv 2 = (x + t.x2) / 2 := Int.tdiv_eq_ediv (by omega) (by norm_num)
    have e2 : (y + t.y2).tdiv 2 = (y + t.y2) / 2 := Int.tdiv_eq_ediv (by omega) (by norm_num)
    refine ⟨t.x2, ?_, t.y2, ?_, ?_⟩
    · rcases abs_eq (by norm_num : (0 : Int) ≤ 2) |>.mp h3 with h | h <;> omega
    · rcases abs_eq (by norm_num : (0 : Int) ≤ 2) |>.mp h4 with h | h <;> omega
    · rw [if_neg (by omega)]
      rw [e1, e2, ← hxb, ← hyb]
      have hpar := (parity_opposing_man (getCell mtx x y) (getCell mtx t.xb t.yb) hman
        (getCell_codes mtx hc _ _)).mpr hop
      rw [if_neg (by
        simp only [not_or, not_not]
        exact ⟨h0, hpar.1, hpar.2⟩), List.mem_singleton]
      cases t
      simp only [move_pos.mk.injEq] at h1 h2 ⊢
      simp [h1, h2]

/-- A capture of a man names a captured square on the board. -/
theorem manCapture_xb (mtx : Board) (x y : Int) (t : move_pos) (hx : 0 ≤ x)
    (h : manCapture mtx x y t) : t.xb ≠ -1 := by
  obtain ⟨-, -, -, -, ⟨r1, -, -, -⟩, -, hxb, -⟩ := h
  rw [hxb]
  omega

/-- The simple-move loop of a man returns the simple moves of the rule, in the same order. -/
theorem manMoves_eq (mtx : Board) (x y : Int)
    (hman : getCell mtx x y = 1 ∨ getCell mtx x y = 2) :
    manMoves mtx x y (getCell mtx x y) = manSimple mtx x y := by
  have hf : (if (getCell mtx x y).tmod 2 ≠ 0 then x - 1 else x + 1)
      = (if getCell mtx x y = 1 then x - 1 else x + 1) := by
    rcases hman with h | h <;> rw [h] <;> rfl
  unfold manMoves manSimple
  simp only []
  rw [hf]
  generalize (if getCell mtx x y = 1 then x - 1 else x + 1) = f
  have hj : ∀ j : Int,
      (if f < 0 ∨ f > 7 ∨ j < 0 ∨ j > 7 ∨ getCell mtx f j ≠ 0 then []
        else [move_pos.mk4 x y f j])
      = ([j].filter fun j => decide (inRange f j ∧ getCell mtx f j = 0)).map
          fun j => move_pos.mk4 x y f j := by
    intro j
    by_cases hc : f < 0 ∨ f > 7 ∨ j < 0 ∨ j > 7 ∨ getCell mtx f j ≠ 0
    · rw [if_pos hc]
      have : ¬ (inRange f j ∧ getCell mtx f j = 0) := by
        unfold inRange
        intro ⟨⟨a, b, c, d⟩, e⟩
        rcases hc with h | h | h | h | h
        · omega
        · omega
        · omega
        · omega
        · exact h e
      simp [List.filter, this]
    · rw [if_neg hc]
      have : inRange f j ∧ getCell mtx f j = 0 := by
        unfold inRange
        simp only [not_or, not_not] at hc
        obtain ⟨a, b, c, d, e⟩ := hc
        exact ⟨⟨by omega, by omega, by omega, by omega⟩, e⟩
      simp [List.filter, this]
  have e : [y - 1, y + 1] = [y - 1] ++ [y + 1] := rfl
  rw [e, List.filter_append, List.map_append, List.flatMap_append, ← hj, ← hj]
  simp

/-- The square query of a man: its captures if it has any, else its simple moves. -/
theorem find_turns_xy_man (mtx : Board) (x y : Int)
    (hman : getCell mtx x y = 1 ∨ getCell mtx x y = 2) :
    find_turns_xy mtx x y =
      if ¬ manBeats mtx x y (getCell mtx x y) = [] then (manBeats mtx x y (getCell mtx x y), true)
      else (manMoves mtx x y (getCell mtx x y), false) := by
  rw [find_turns_xy_eq, if_pos hman, if_pos hman]

/-- A man whose capture loop returns nothing has no capture under the man capture rule. -/
theorem manCapture_none (mtx : Board) (x y : Int) (hc : codesOK mtx)
    (hman : getCell mtx x y = 1 ∨ getCell mtx x y = 2)
    (hnil : manBeats mtx x y (getCell mtx x y) = []) : ∀ t, ¬ manCapture mtx x y t := by
  intro t ht
  have := (manBeats_iff mtx x y hc hman t).mpr ht
  rw [hnil] at this
  exact absurd this (List.not_mem_nil t)

/-- C19: for every board with cell codes in 0..4 and every man at `(x, y)`, the captures
returned by the square query (the returned moves that name a captured square) are exactly
the moves `(x, y) -> (i, j)` taking `((x + i) / 2, (y + j) / 2)` with `|i - x| = 2`,
`|j - y| = 2`, `(i, j)` on the board and empty and the cell in between holding a piece of
the opposite colour, in any of the four diagonal directions; `have_beats` is set exactly
when such a capture exists, and then the query returns nothing else. -/
theorem C19_man_capture_rule (mtx : Board) (x y : Int) (hc : codesOK mtx)
    (hman : getCell mtx x y = 1 ∨ getCell mtx x y = 2) :
    (∀ t, (t ∈ (find_turns_xy mtx x y).1 ∧ t.xb ≠ -1) ↔ manCapture mtx x y t)
    ∧ ((find_turns_xy mtx x y).2 = true ↔ ∃ t, manCapture mtx x y t)
    ∧ ((find_turns_xy mtx x y).2 = true →
        ∀ t, t ∈ (find_turns_xy mtx x y).1 ↔ manCapture mtx x y t) := by
  have hne : getCell mtx x y ≠ 0 := by rcases hman with h | h <;> rw [h] <;> decide
  obtain ⟨hx, -⟩ := getCell_nonneg mtx x y hne
  have hiff := manBeats_iff mtx x y hc hman
  rw [find_turns_xy_man mtx x y hman]
  by_cases hb : ¬ manBeats mtx x y (getCell mtx x y) = []
  · rw [if_pos hb]
    refine ⟨?_, ?_, ?_⟩
    · intro t
      constructor
      · rintro ⟨ht, -⟩; exact (hiff t).mp ht
      · intro ht; exact ⟨(hiff t).mpr ht, manCapture_xb mtx x y t hx ht⟩
    · constructor
      · intro _
        obtain ⟨t, ht⟩ := List.exists_mem_of_ne_nil _ hb
        exact ⟨t, (hiff t).mp ht⟩
      · intro _; rfl
    · intro _ t; exact hiff t
  · rw [if_neg hb]
    have hnil : manBeats mtx x y (getCell mtx x y) = [] := not_not.mp hb
    refine ⟨?_, ?_, ?_⟩
    · intro t
      constructor
      · rintro ⟨ht, hxb⟩; exact absurd (manMoves_xb _ _ _ _ _ ht) hxb
      · intro ht
        have := (hiff t).mpr ht
        rw [hnil] at this
        exact absurd this (List.not_mem_nil t)
    · constructor
      · intro h; simp at h
      · rintro ⟨t, ht⟩
        have := (hiff t).mpr ht
        rw [hnil] at this
        exact absurd this (List.not_mem_nil t)
    · intro h; simp at h

theorem C19_man_capture_rule_witness :
    (∀ t, (t ∈ (find_turns_xy jumpBoard 5 4).1 ∧ t.xb ≠ -1) ↔ manCapture jumpBoard 5 4 t)
    ∧ ((find_turns_xy jumpBoard 5 4).2 = true ↔ ∃ t, manCapture jumpBoard 5 4 t)
    ∧ ((find_turns_xy jumpBoard 5 4).2 = true →
        ∀ t, t ∈ (find_turns_xy jumpBoard 5 4).1 ↔ manCapture jumpBoard 5 4 t) :=
  C19_man_capture_rule jumpBoard 5 4 (by decide) (by decide)

/-- C20: for every board with cell codes in 0..4 and every man at `(x, y)` that has no
capture under the man capture rule, the square query returns exactly the simple moves to
the cells `(f, y - 1)` and `(f, y + 1)` that are on the board and empty, in that order, where
`f = x - 1` for a white man and `f = x + 1` for a black man, and `have_beats` is false. -/
theorem C20_man_simple_rule (mtx : Board) (x y : Int) (hc : codesOK mtx)
    (hman : getCell mtx x y = 1 ∨ getCell mtx x y = 2) (hno : ∀ t, ¬ manCapture mtx x y t) :
    find_turns_xy mtx x y = (manSimple mtx x y, false) := by
  have hnil : manBeats mtx x y (getCell mtx x y) = [] := by
    apply List.eq_nil_iff_forall_not_mem.mpr
    intro t ht
    exact hno t ((manBeats_iff mtx x y hc hman t).mp ht)
  rw [find_turns_xy_man mtx x y hman, if_neg (not_not.mpr hnil), manMoves_eq mtx x y hman]

theorem C20_man_simple_rule_witness :
    find_turns_xy startBoard 5 0 = (manSimple startBoard 5 0, false) :=
  C20_man_simple_rule startBoard 5 0 (by decide) (by decide)
    (manCapture_none startBoard 5 0 (by decide) (by decide) (by decide))

/-- The rows of the moves of a man: a capture lands two rows away, a simple move one row
forward. -/
theorem man_rows (mtx : Board) (x y : Int) :
    (∀ t ∈ manBeats mtx x y (getCell mtx x y), t.x2 = x - 2 ∨ t.x2 = x + 2)
    ∧ (∀ t ∈ manMoves mtx x y (getCell mtx x y),
        t.x2 = if (getCell mtx x y).tmod 2 ≠ 0 then x - 1 else x + 1) := by
  constructor
  · intro t ht
    unfold manBeats at ht
    simp only [List.mem_flatMap, List.mem_cons, List.mem_singleton, List.not_mem_nil,
      or_false] at ht
    obtain ⟨i, hi, j, -, h⟩ := ht
    by_cases hr : i < 0 ∨ i > 7 ∨ j < 0 ∨ j > 7
    · rw [if_pos hr] at h; simp at h
    · rw [if_neg hr] at h
      by_cases hcond : getCell mtx i j ≠ 0 ∨ getCell mtx ((x + i).tdiv 2) ((y + j).tdiv 2) = 0
          ∨ (getCell mtx ((x + i).tdiv 2) ((y + j).tdiv 2)).tmod 2 = (getCell mtx x y).tmod 2
      · rw [if_pos hcond] at h; simp at h
      · rw [if_neg hcond, List.mem_singleton] at h
        subst h
        rcases hi with hi | hi
        · left; exact hi
        · right; exact hi
  · intro t ht
    unfold manMoves at ht
    simp only [List.mem_flatMap] at ht
    obtain ⟨j, -, h⟩ := ht
    by_cases hc : (if (getCell mtx x y).tmod 2 ≠ 0 then x - 1 else x + 1) < 0
        ∨ (if (getCell mtx x y).tmod 2 ≠ 0 then x - 1 else x + 1) > 7 ∨ j < 0 ∨ j > 7
        ∨ getCell mtx (if (getCell mtx x y).tmod 2 ≠ 0 then x - 1 else x + 1) j ≠ 0
    · rw [if_pos hc] at h; simp at h
    · rw [if_neg hc, List.mem_singleton] at h
      subst h; rfl

/-- A capture of a man standing on a row `x ≥ 0` names a captured square. -/
theorem manBeats_xb_row (mtx : Board) (x y type : Int) (hx : 0 ≤ x) :
    ∀ t ∈ manBeats mtx x y type, t.xb ≠ -1 := by
  intro t ht
  unfold manBeats at ht
  simp only [List.mem_flatMap, List.mem_cons, List.mem_singleton, List.not_mem_nil,
    or_false] at ht
  obtain ⟨i, -, j, -, h⟩ := ht
  by_cases hr : i < 0 ∨ i > 7 ∨ j < 0 ∨ j > 7
  · rw [if_pos hr] at h; simp at h
  · rw [if_neg hr] at h
    by_cases hcond : getCell mtx i j ≠ 0 ∨ getCell mtx ((x + i).tdiv 2) ((y + j).tdiv 2) = 0
        ∨ (getCell mtx ((x + i).tdiv 2) ((y + j).tdiv 2)).tmod 2 = type.tmod 2
    · rw [if_pos hcond] at h; simp at h
    · rw [if_neg hcond, List.mem_singleton] at h
      subst h
      have e1 : (x + i).tdiv 2 = (x + i) / 2 := Int.tdiv_eq_ediv (by omega) (by norm_num)
      show (x + i).tdiv 2 ≠ -1
      rw [e1]
      omega

/-- C17 (counterexample): on the board with a white man on (3,2) and a black man on (4,3),
the square query on (3,2) returns the capture (3,2)->(5,4): the destination row 5 of the
white man is larger than its row 3. -/
theorem C17_counterexample :
    getCell (place [(3, 2, 1), (4, 3, 2)]) 3 2 = 1
    ∧ find_turns_xy (place [(3, 2, 1), (4, 3, 2)]) 3 2 = ([⟨3, 2, 5, 4, 4, 3⟩], true)
    ∧ ¬ ((⟨3, 2, 5, 4, 4, 3⟩ : move_pos).x2 < 3) := by
  decide

/-- C17 (amended): for every board and every man at `(x, y)`, every simple move the square
query returns for it (a move with `xb = -1`) goes one row forward: to row `x - 1` for a white
man and to row `x + 1` for a black man; every capture it returns lands two rows away, on row
`x - 2` or on row `x + 2`. -/
theorem C17_man_forward (mtx : Board) (x y : Int)
    (hman : getCell mtx x y = 1 ∨ getCell mtx x y = 2) :
    ∀ t ∈ (find_turns_xy mtx x y).1,
      (t.xb = -1 → (getCell mtx x y = 1 → t.x2 = x - 1) ∧ (getCell mtx x y = 2 → t.x2 = x + 1))
      ∧ (t.xb ≠ -1 → t.x2 = x - 2 ∨ t.x2 = x + 2) := by
  obtain ⟨hb, hm⟩ := man_rows mtx x y
  intro t ht
  rw [find_turns_xy_man mtx x y hman] at ht
  by_cases hne : ¬ manBeats mtx x y (getCell mtx x y) = []
  · rw [if_pos hne] at ht
    constructor
    · intro hxb
      have hx : 0 ≤ x :=
        (getCell_nonneg mtx x y (by rcases hman with h | h <;> rw [h] <;> decide)).1
      exact absurd hxb (manBeats_xb_row mtx x y (getCell mtx x y) hx t ht)
    · intro _; exact hb t ht
  · rw [if_neg hne] at ht
    constructor
    · intro _
      have h2 := hm t ht
      constructor
      · intro h1; rw [h1] at h2; exact h2
      · intro h1; rw [h1] at h2; exact h2
    · intro hxb; exact absurd (manMoves_xb _ _ _ _ _ ht) hxb

theorem C17_man_forward_witness :
    move_pos.mk4 5 0 4 1 ∈ (find_turns_xy startBoard 5 0).1
    ∧ ((move_pos.mk4 5 0 4 1).xb = -1 →
        (getCell startBoard 5 0 = 1 → (move_pos.mk4 5 0 4 1).x2 = 5 - 1)
        ∧ (getCell startBoard 5 0 = 2 → (move_pos.mk4 5 0 4 1).x2 = 5 + 1))
    ∧ ((move_pos.mk4 5 0 4 1).xb ≠ -1 →
        (move_pos.mk4 5 0 4 1).x2 = 5 - 2 ∨ (move_pos.mk4 5 0 4 1).x2 = 5 + 2) :=
  ⟨by decide, C17_man_forward startBoard 5 0 (by decide) (move_pos.mk4 5 0 4 1) (by decide)⟩

/-! ## A side without moves -/

/-- On a board with codes in 0..4 the colour test of the colour-wide loop selects the pieces
of the colour. -/
theorem isPiece_of_test (color : Bool) (c : Int) (hc : 0 ≤ c ∧ c ≤ 4)
    (h : c ≠ 0 ∧ c.tmod 2 ≠ colorInt color) : isPiece color c := by
  have hcases : c = 0 ∨ c = 1 ∨ c = 2 ∨ c = 3 ∨ c = 4 := by omega
  revert h
  cases color <;> rcases hcases with h | h | h | h | h <;> subst h <;> decide

/-- A blocked man has no simple move under the rule. -/
theorem manSimple_blocked (mtx : Board) (color : Bool) (i j : Int)
    (hman : getCell mtx i j = if color then 2 else 1) (hb : blockedMan mtx color i j) :
    manSimple mtx i j = [] := by
  have hf : (if getCell mtx i j = 1 then i - 1 else i + 1) = (if color then i + 1 else i - 1) := by
    rw [hman]; cases color <;> simp
  unfold manSimple
  simp only []
  rw [hf]
  unfold blockedMan at hb
  have h1 := hb (j - 1) (by simp)
  have h2 := hb (j + 1) (by simp)
  generalize (if color then i + 1 else i - 1) = f at h1 h2 ⊢
  have d1 : ¬ (inRange f (j - 1) ∧ getCell mtx f (j - 1) = 0) := by
    intro ⟨a, b⟩
    rcases h1 with h | h
    · exact h a
    · exact h b
  have d2 : ¬ (inRange f (j + 1) ∧ getCell mtx f (j + 1) = 0) := by
    intro ⟨a, b⟩
    rcases h2 with h | h
    · exact h a
    · exact h b
  simp [List.filter, d1, d2]

/-- The captures of the men of a colour, from the capture loops: no loop returns a move, so
no man has a capture under the man capture rule. -/
theorem no_capture_of_loops (mtx : Board) (color : Bool) (hc : codesOK mtx)
    (hmen : ∀ i ∈ idx8, ∀ j ∈ idx8, isPiece color (getCell mtx i j) →
      getCell mtx i j = (if color then 2 else 1))
    (hnil : ∀ i ∈ idx8, ∀ j ∈ idx8, isPiece color (getCell mtx i j) →
      manBeats mtx i j (getCell mtx i j) = []) :
    ∀ i ∈ idx8, ∀ j ∈ idx8, isPiece color (getCell mtx i j) → ∀ t, ¬ manCapture mtx i j t := by
  intro i hi j hj hp
  have hman : getCell mtx i j = 1 ∨ getCell mtx i j = 2 := by
    rw [hmen i hi j hj hp]; cases color <;> simp
  exact manCapture_none mtx i j hc hman (hnil i hi j hj hp)

/-- C16: for every board with cell codes in 0..4 and every colour such that every piece of
the colour is a man, each such man has both forward diagonal neighbour cells off the board
or occupied, and no such man has a capture under the man capture rule, the colour-wide
query (with any shuffle that permutes the list) yields an empty `turns` list with
`have_beats` false. -/
theorem C16_no_moves_when_blocked {σ : Type} (shuffle : σ → List move_pos → List move_pos × σ)
    (hsh : ∀ s l, (shuffle s l).1.Perm l) (rng : σ) (color : Bool) (mtx : Board)
    (hc : codesOK mtx) (hhas : ¬ noPieces color mtx)
    (hmen : ∀ i ∈ idx8, ∀ j ∈ idx8, isPiece color (getCell mtx i j) →
      getCell mtx i j = (if color then 2 else 1) ∧ blockedMan mtx color i j)
    (hno : ∀ i ∈ idx8, ∀ j ∈ idx8, isPiece color (getCell mtx i j) →
      ∀ t, ¬ manCapture mtx i j t) :
    (find_turns shuffle rng color mtx).1 = ([], false) := by
  have _ := hhas
  have hscan : find_turns_scan color mtx = ([], false) := by
    unfold find_turns_scan
    apply scan_inv (find_turns_cell color mtx) (fun st => st = ([], false))
    · rfl
    · intro st i j hi hj hst
      by_cases h : getCell mtx i j ≠ 0 ∧ (getCell mtx i j).tmod 2 ≠ colorInt color
      · have hp := isPiece_of_test color _ (getCell_codes mtx hc i j) h
        obtain ⟨hm, hb⟩ := hmen i hi j hj hp
        have hman : getCell mtx i j = 1 ∨ getCell mtx i j = 2 := by
          rw [hm]; cases color <;> simp
        have hnil : manBeats mtx i j (getCell mtx i j) = [] := by
          apply List.eq_nil_iff_forall_not_mem.mpr
          intro t ht
          exact hno i hi j hj hp t ((manBeats_iff mtx i j hc hman t).mp ht)
        have hq : find_turns_xy mtx i j = ([], false) := by
          rw [find_turns_xy_man mtx i j hman, if_neg (not_not.mpr hnil), manMoves_eq mtx i j hman,
            manSimple_blocked mtx color i j hm hb]
        rw [find_turns_cell_eq color mtx st i j h, hq, hst]
        simp
      · unfold find_turns_cell
        rw [if_neg h]; exact hst
  obtain ⟨hf, hp⟩ := find_turns_perm shuffle hsh rng color mtx
  rw [hscan] at hf hp
  exact Prod.ext (List.Perm.eq_nil hp) hf

theorem C16_no_moves_when_blocked_witness :
    (find_turns sampleShuffle () false blockedBoard).1 = ([], false) :=
  C16_no_moves_when_blocked sampleShuffle sampleShuffle_perm () false blockedBoard (by decide)
    (by decide) (by decide)
    (no_capture_of_loops blockedBoard false (by decide) (by decide) (by decide))

/-! ## Termination of the search -/

/-- The loop of `find_best_turns_rec` returns when every child call returns. -/
theorem rec_loop_total {σ : Type} (P : Params σ) (depth : Nat)
    (child : Logic σ → move_pos → ℚ → ℚ → Option (ℚ × Logic σ)) (ts : List move_pos)
    (hkid : ∀ t ∈ ts, ∀ (L : Logic σ) (a b : ℚ), ∃ r, child L t a b = some r) :
    ∀ (L : Logic σ) (alpha beta mn mx : ℚ), ∃ r, rec_loop P depth child ts L alpha beta mn mx
      = some r := by
  induction ts with
  | nil => intro L alpha beta mn mx; exact ⟨_, rfl⟩
  | cons t rest ih =>
    intro L alpha beta mn mx
    obtain ⟨⟨score, L1⟩, hr⟩ := hkid t (List.mem_cons_self _ _) L alpha beta
    rw [rec_loop_cons P depth child t rest L alpha beta mn mx score L1 hr]
    by_cases hc : P.optimization ≠ "O0" ∧
        (if depth % 2 ≠ 0 then max alpha (max mx score) else alpha)
          ≥ (if depth % 2 ≠ 0 then beta else min beta (min mn score))
    · rw [if_pos hc]; exact ⟨_, rfl⟩
    · rw [if_neg hc]
      exact ih (fun t ht => hkid t (List.mem_cons_of_mem _ ht)) _ _ _ _ _

/-- A result of the loop of `find_best_turns_rec` is kept when the child calls are replaced
by calls that return at least the same results. -/
theorem rec_loop_mono {σ : Type} (P : Params σ) (depth : Nat)
    (child1 child2 : Logic σ → move_pos → ℚ → ℚ → Option (ℚ × Logic σ))
    (hkid : ∀ (L : Logic σ) (t : move_pos) (a b : ℚ) r, child1 L t a b = some r →
      child2 L t a b = some r) (ts : List move_pos) :
    ∀ (L : Logic σ) (alpha beta mn mx : ℚ) r,
      rec_loop P depth child1 ts L alpha beta mn mx = some r →
      rec_loop P depth child2 ts L alpha beta mn mx = some r := by
  induction ts with
  | nil => intro L alpha beta mn mx r h; exact h
  | cons t rest ih =>
    intro L alpha beta mn mx r h
    cases hc : child1 L t alpha beta with
    | none => simp only [rec_loop, hc] at h; exact absurd h (by simp)
    | some sl =>
      obtain ⟨score, L1⟩ := sl
      rw [rec_loop_cons P depth child1 t rest L alpha beta mn mx score L1 hc] at h
      rw [rec_loop_cons P depth child2 t rest L alpha beta mn mx score L1 (hkid _ _ _ _ _ hc)]
      by_cases hcut : P.optimization ≠ "O0" ∧
          (if depth % 2 ≠ 0 then max alpha (max mx score) else alpha)
            ≥ (if depth % 2 ≠ 0 then beta else min beta (min mn score))
      · rw [if_pos hcut] at h ⊢; exact h
      · rw [if_neg hcut] at h ⊢
        exact ih _ _ _ _ _ _ h

/-- A result of `find_best_turns_rec` does not depend on the nesting bound: a larger bound
gives the same result. -/
theorem rec_mono {σ : Type} (P : Params σ) :
    ∀ (n : Nat) (L : Logic σ) (mtx : Board) (color : Bool) (depth : Nat) (alpha beta : ℚ)
      (x y : Int) r, find_best_turns_rec P n L mtx color depth alpha beta x y = some r →
      find_best_turns_rec P (n + 1) L mtx color depth alpha beta x y = some r := by
  intro n
  induction n with
  | zero => intro L mtx color depth alpha beta x y r h; exact absurd h (by simp [find_best_turns_rec])
  | succ n ih =>
    intro L mtx color depth alpha beta x y r h
    rw [find_best_turns_rec_succ] at h ⊢
    by_cases hd : depth = P.Max_depth
    · rw [if_pos hd] at h ⊢; exact h
    · rw [if_neg hd] at h ⊢
      generalize (if x ≠ -1 then L.find_turns_xy x y mtx else L.find_turns P color mtx) = L1
        at h ⊢
      by_cases hpass : L1.have_beats = false ∧ x ≠ -1
      · rw [if_pos hpass] at h ⊢
        exact ih _ _ _ _ _ _ _ _ _ h
      · rw [if_neg hpass] at h ⊢
        by_cases hnil : L1.turns = []
        · rw [if_pos hnil] at h ⊢; exact h
        · rw [if_neg hnil] at h ⊢
          refine rec_loop_mono P depth _ _ ?_ L1.turns L1 alpha beta _ _ r h
          intro L2 t a b r2 h2
          by_cases hs : L1.have_beats = false ∧ x = -1
          · simp only [if_pos hs] at h2 ⊢
            exact ih _ _ _ _ _ _ _ _ _ h2
          · simp only [if_neg hs] at h2 ⊢
            exact ih _ _ _ _ _ _ _ _ _ h2

/-- A result of `find_best_turns_rec` is the result for every larger nesting bound. -/
theorem rec_mono_le {σ : Type} (P : Params σ) (n m : Nat) (hnm : n ≤ m) (L : Logic σ)
    (mtx : Board) (color : Bool) (depth : Nat) (alpha beta : ℚ) (x y : Int) (r : ℚ × Logic σ)
    (h : find_best_turns_rec P n L mtx color depth alpha beta x y = some r) :
    find_best_turns_rec P m L mtx color depth alpha beta x y = some r := by
  induction m with
  | zero =>
    have : n = 0 := by omega
    subst this; exact h
  | succ m ih =>
    by_cases hle : n ≤ m
    · exact rec_mono P m _ _ _ _ _ _ _ _ _ (ih hle)
    · have : n = m + 1 := by omega
      subst this; exact h

/-- `find_best_turns_rec` returns, for every window, when the nesting bound exceeds
`(Max_depth - depth) * 65 + pieceCount mtx`: a nested call is one level deeper, or is made
at the same depth on a board with one piece less. -/
theorem rec_total {σ : Type} (P : Params σ) (hsh : ∀ s l, (P.shuffle s l).1.Perm l) :
    ∀ (n : Nat) (L : Logic σ) (mtx : Board) (color : Bool) (depth : Nat) (alpha beta : ℚ)
      (x y : Int), is8x8 mtx → depth ≤ P.Max_depth → (x ≠ -1 → inRange x y) →
      (P.Max_depth - depth) * 65 + pieceCount mtx < n →
      ∃ r, find_best_turns_rec P n L mtx color depth alpha beta x y = some r := by
  intro n
  induction n with
  | zero => intro L mtx color depth alpha beta x y _ _ _ hfuel; omega
  | succ n ih =>
    intro L mtx color depth alpha beta x y h8 hdepth hxy hfuel
    rw [find_best_turns_rec_succ]
    by_cases hd : depth = P.Max_depth
    · rw [if_pos hd]; exact ⟨_, rfl⟩
    · rw [if_neg hd]
      obtain ⟨hperm, hflag, -, -⟩ := rec_gen P hsh L mtx color x y
      have hok := gen_ok mtx color x y hxy
      generalize (if x ≠ -1 then L.find_turns_xy x y mtx else L.find_turns P color mtx) = L1
        at hperm hflag ⊢
      generalize (if x ≠ -1 then find_turns_xy mtx x y else find_turns_scan color mtx) = r
        at hperm hflag hok
      have hpc := pieceCount_le mtx
      by_cases hpass : L1.have_beats = false ∧ x ≠ -1
      · rw [if_pos hpass]
        exact ih L1 mtx (!color) (depth + 1) alpha beta (-1) (-1) h8 (by omega)
          (fun h => absurd rfl h) (by omega)
      · rw [if_neg hpass]
        by_cases hnil : L1.turns = []
        · rw [if_pos hnil]; exact ⟨_, rfl⟩
        · rw [if_neg hnil]
          apply rec_loop_total
          intro t ht L2 a b
          have htr : t ∈ r.1 := hperm.mem_iff.mp ht
          have h8t := is8x8_make_turn mtx t h8
          have hpct := pieceCount_le (make_turn mtx t)
          by_cases hs : L1.have_beats = false ∧ x = -1
          · simp only [if_pos hs]
            exact ih L2 (make_turn mtx t) (!color) (depth + 1) a b (-1) (-1) h8t (by omega)
              (fun h => absurd rfl h) (by omega)
          · simp only [if_neg hs]
            have hr2 : r.2 = true := by
              rw [← hflag]
              cases hr2 : L1.have_beats
              · exfalso
                by_cases hx : x = -1
                · exact hs ⟨hr2, hx⟩
                · exact hpass ⟨hr2, hx⟩
              · rfl
            have hcap := hok hr2 t htr
            have hcnt := pieceCount_captureOK mtx t h8 hcap
            exact ih L2 (make_turn mtx t) color depth a b t.x2 t.y2 h8t hdepth
              (fun _ => hcap.2.1) (by omega)

/-- A result of the loop of `find_first_best_turn` is kept when the child calls are
replaced by calls that return at least the same results. -/
theorem first_loop_mono {σ : Type} (hb : Bool) (s : Nat)
    (child1 child2 : Logic σ → move_pos → Nat → ℚ → Option (ℚ × Logic σ))
    (hkid : ∀ (L : Logic σ) (t : move_pos) (k : Nat) (a : ℚ) r, child1 L t k a = some r →
      child2 L t k a = some r) (ts : List move_pos) :
    ∀ (L : Logic σ) (best : ℚ) r, first_loop hb s child1 ts L best = some r →
      first_loop hb s child2 ts L best = some r := by
  induction ts with
  | nil => intro L best r h; exact h
  | cons t rest ih =>
    intro L best r h
    cases hc : child1 L t L.next_move.length best with
    | none => simp only [first_loop, hc] at h; exact absurd h (by simp)
    | some sl =>
      obtain ⟨w, L1⟩ := sl
      rw [first_loop_cons hb s child1 t rest L best w L1 hc] at h
      rw [first_loop_cons hb s child2 t rest L best w L1 (hkid _ _ _ _ _ hc)]
      by_cases hw : w > best
      · rw [if_pos hw] at h ⊢; exact ih _ _ _ h
      · rw [if_neg hw] at h ⊢; exact ih _ _ _ h

/-- A result of `find_first_best_turn` does not depend on the nesting bound. -/
theorem first_mono {σ : Type} (P : Params σ) :
    ∀ (n : Nat) (L : Logic σ) (mtx : Board) (color : Bool) (x y : Int) (state : Nat)
      (alpha : ℚ) r, find_first_best_turn P n L mtx color x y state alpha = some r →
      find_first_best_turn P (n + 1) L mtx color x y state alpha = some r := by
  intro n
  induction n with
  | zero =>
    intro L mtx color x y state alpha r h
    exact absurd h (by simp [find_first_best_turn])
  | succ n ih =>
    intro L mtx color x y state alpha r h
    rw [find_first_best_turn_succ P _ L mtx color x y state alpha _ rfl] at h ⊢
    generalize (if state ≠ 0 then L.push_state.find_turns_xy x y mtx else L.push_state) = L1
      at h ⊢
    by_cases hpass : L1.have_beats = false ∧ state ≠ 0
    · rw [if_pos hpass] at h ⊢
      exact rec_mono P _ _ _ _ _ _ _ _ _ _ h
    · rw [if_neg hpass] at h ⊢
      refine first_loop_mono L1.have_beats state _ _ ?_ L1.turns L1 (-1) r h
      intro L2 t k a r2 h2
      by_cases hbt : L1.have_beats = true
      · simp only [if_pos hbt] at h2 ⊢
        exact ih _ _ _ _ _ _ _ _ h2
      · simp only [if_neg hbt] at h2 ⊢
        exact rec_mono P _ _ _ _ _ _ _ _ _ _ h2

/-- A result of `find_best_turns` is the result for every larger nesting bound. -/
theorem best_mono_le {σ : Type} (P : Params σ) (n m : Nat) (hnm : n ≤ m) (L : Logic σ)
    (mtx : Board) (color : Bool) (r : List move_pos × Logic σ)
    (h : find_best_turns P n L mtx color = some r) :
    find_best_turns P m L mtx color = some r := by
  induction m with
  | zero =>
    have : n = 0 := by omega
    subst this; exact h
  | succ m ih =>
    by_cases hle : n ≤ m
    · have hm := ih hle
      unfold find_best_turns at hm ⊢
      simp only [] at hm ⊢
      cases hf : find_first_best_turn P m { L with next_best_state := [], next_move := [] } mtx
          color (-1) (-1) 0 (-1) with
      | none => rw [hf] at hm; exact absurd hm (by simp)
      | some wl =>
        rw [first_mono P m _ _ _ _ _ _ _ _ hf]
        rw [hf] at hm
        exact hm
    · have : n = m + 1 := by omega
      subst this; exact h

/-- C18: for every 8x8 board, every colour, every `Max_depth` and every shuffle that
permutes the list: (1) `find_best_turns_rec` started at a depth `≤ Max_depth`, with any
window and either no active square or an active square on the board, returns a result once
the bound on the nesting of calls exceeds `(Max_depth - depth) * 65 + pieceCount mtx`, and
the result is the same for every larger bound; (2) `find_best_turns` (with `turns` and
`have_beats` as left by the move generator: candidate captures land on the board) returns a
result once the bound is at least `65 * Max_depth + 67`, the same for every larger bound;
(3) the measure decreases along the recursion because applying a well-formed capture
removes exactly one piece from the board. -/
theorem C18_search_terminates {σ : Type} (P : Params σ)
    (hsh : ∀ s l, (P.shuffle s l).1.Perm l) (L : Logic σ) (mtx : Board) (color : Bool)
    (h8 : is8x8 mtx) (hpre : L.have_beats = true → ∀ t ∈ L.turns, inRange t.x2 t.y2) :
    (∀ (depth : Nat) (alpha beta : ℚ) (x y : Int), depth ≤ P.Max_depth →
      (x ≠ -1 → inRange x y) →
      ∃ r, ∀ n, (P.Max_depth - depth) * 65 + pieceCount mtx < n →
        find_best_turns_rec P n L mtx color depth alpha beta x y = some r)
    ∧ (∃ r, ∀ fuel, 65 * P.Max_depth + 67 ≤ fuel → find_best_turns P fuel L mtx color = some r)
    ∧ (∀ t, captureOK mtx t → pieceCount (make_turn mtx t) + 1 = pieceCount mtx) := by
  refine ⟨?_, ?_, ?_⟩
  · intro depth alpha beta x y hd hxy
    obtain ⟨r, hr⟩ := rec_total P hsh ((P.Max_depth - depth) * 65 + pieceCount mtx + 1) L mtx
      color depth alpha beta x y h8 hd hxy (Nat.lt_succ_self _)
    exact ⟨r, fun n hn => rec_mono_le P _ n hn L mtx color depth alpha beta x y r hr⟩
  · obtain ⟨L1, hr⟩ := find_best_turns_eq P hsh (65 * P.Max_depth + 67) L mtx color h8
      (Nat.le_refl _) hpre
    exact ⟨_, fun fuel hf => best_mono_le P _ fuel hf L mtx color _ hr⟩
  · intro t ht
    exact pieceCount_captureOK mtx t h8 ht

theorem C18_search_terminates_witness :
    (∀ (depth : Nat) (alpha beta : ℚ) (x y : Int), depth ≤ (sampleParams "O1").Max_depth →
      (x ≠ -1 → inRange x y) →
      ∃ r, ∀ n, ((sampleParams "O1").Max_depth - depth) * 65 + pieceCount sampleBoard < n →
        find_best_turns_rec (sampleParams "O1") n (sampleLogic false sampleBoard) sampleBoard
          false depth alpha beta x y = some r)
    ∧ (∃ r, ∀ fuel, 65 * (sampleParams "O1").Max_depth + 67 ≤ fuel →
        find_best_turns (sampleParams "O1") fuel (sampleLogic false sampleBoard) sampleBoard
          false = some r)
    ∧ (∀ t, captureOK sampleBoard t →
        pieceCount (make_turn sampleBoard t) + 1 = pieceCount sampleBoard) :=
  C18_search_terminates (sampleParams "O1") sampleShuffle_perm (sampleLogic false sampleBoard)
    sampleBoard false (by decide) (by decide)

/-! ## `find_best_turns` for a side without moves -/

/-- With no candidate move, `find_best_turns` returns the placeholder move that
`find_first_best_turn` stored for state 0. -/
theorem find_best_turns_nil {σ : Type} (P : Params σ) (n : Nat) (L : Logic σ) (mtx : Board)
    (color : Bool) (h : L.turns = []) :
    find_best_turns P (n + 1) L mtx color
      = some ([move_pos.mk4 (-1) (-1) (-1) (-1)],
          { L with next_best_state := [-1], next_move := [move_pos.mk4 (-1) (-1) (-1) (-1)] }) := by
  unfold find_best_turns
  simp only []
  rw [find_first_best_turn_succ P n _ mtx color (-1) (-1) 0 (-1) _ rfl]
  simp [Logic.push_state, h, first_loop, collect_chain, move_pos.mk4]

/-- C12 (counterexample): on the board with a single white man, black has no legal move
(`turns` is empty after `find_turns` for black), and `find_best_turns` for black returns a
chain of one move, the placeholder `(-1, -1, -1, -1)`, not an empty chain. -/
theorem C12_counterexample :
    (sampleLogic true (place [(5, 4, 1)])).turns = []
    ∧ ∃ L1, find_best_turns (sampleParams "O1") 197 (sampleLogic true (place [(5, 4, 1)]))
        (place [(5, 4, 1)]) true = some ([move_pos.mk4 (-1) (-1) (-1) (-1)], L1) :=
  ⟨by decide, _, find_best_turns_nil (sampleParams "O1") 196 _ _ true (by decide)⟩

/-- C12 (amended): if `turns` is empty when `find_best_turns(color)` is called (the side to
move has no legal move), it returns, for every board and every positive bound on the nesting
of calls, the chain of exactly one move that holds the placeholder `(-1, -1, -1, -1)` stored
in `next_move[0]`; the returned chain is never empty. -/
theorem C12_no_moves_chain {σ : Type} (P : Params σ) (fuel : Nat) (L : Logic σ) (mtx : Board)
    (color : Bool) (hfuel : 0 < fuel) (h : L.turns = []) :
    ∃ L1, find_best_turns P fuel L mtx color = some ([move_pos.mk4 (-1) (-1) (-1) (-1)], L1) := by
  obtain ⟨n, rfl⟩ : ∃ n, fuel = n + 1 := ⟨fuel - 1, by omega⟩
  exact ⟨_, find_best_turns_nil P n L mtx color h⟩

theorem C12_no_moves_chain_witness :
    ∃ L1, find_best_turns (sampleParams "O1") 197 (sampleLogic true (place [(5, 4, 1)]))
        (place [(5, 4, 1)]) true = some ([move_pos.mk4 (-1) (-1) (-1) (-1)], L1) :=
  C12_no_moves_chain (sampleParams "O1") 197 (sampleLogic true (place [(5, 4, 1)]))
    (place [(5, 4, 1)]) true (by decide) (by decide)

/-! ## The colour-wide query as a list -/

/-- The colour-wide loop over a list of cells, from any state: with `have_beats_before` set
it appends the moves of the capturing pieces; otherwise it returns the moves of the
capturing pieces if there are any, and else appends the moves of all selected pieces. -/
theorem scan_fold (color : Bool) (mtx : Board) (l : List (Int × Int)) :
    ∀ st : List move_pos × Bool,
      l.foldl (fun st p => find_turns_cell color mtx st p.1 p.2) st =
        if st.2 = true then
          (st.1 ++ ((l.filter (loopTest color mtx)).filter
              fun p => (find_turns_xy mtx p.1 p.2).2).flatMap
            (fun p => (find_turns_xy mtx p.1 p.2).1), true)
        else if ((l.filter (loopTest color mtx)).filter
              fun p => (find_turns_xy mtx p.1 p.2).2) = [] then
          (st.1 ++ (l.filter (loopTest color mtx)).flatMap
            (fun p => (find_turns_xy mtx p.1 p.2).1), false)
        else
          (((l.filter (loopTest color mtx)).filter
              fun p => (find_turns_xy mtx p.1 p.2).2).flatMap
            (fun p => (find_turns_xy mtx p.1 p.2).1), true) := by
  induction l with
  | nil =>
    intro st
    obtain ⟨res, hb⟩ := st
    cases hb <;> simp
  | cons p l ih =>
    intro st
    rw [List.foldl_cons, ih]
    obtain ⟨res, hb⟩ := st
    by_cases ht : getCell mtx p.1 p.2 ≠ 0 ∧ (getCell mtx p.1 p.2).tmod 2 ≠ colorInt color
    · have hlt : loopTest color mtx p = true := by unfold loopTest; exact decide_eq_true ht
      rw [find_turns_cell_eq color mtx (res, hb) p.1 p.2 ht, List.filter_cons_of_pos hlt]
      cases hq : (find_turns_xy mtx p.1 p.2).2
      · rw [List.filter_cons_of_neg (by rw [hq]; simp)]
        cases hb
        · simp only [Bool.false_eq_true, if_false, List.flatMap_cons, List.append_assoc]
        · simp only [if_true, Bool.false_eq_true, if_false]
      · rw [List.filter_cons_of_pos (by rw [hq])]
        cases hb
        · simp [hq, List.flatMap_cons]
        · simp [hq, List.flatMap_cons]
    · have hlt : ¬ loopTest color mtx p = true := by
        unfold loopTest; simpa using ht
      unfold find_turns_cell
      rw [if_neg ht, List.filter_cons_of_neg hlt]

/-- The loops of the colour-wide query, as a list: the moves of the capturing pieces if
there are any, else the moves of all pieces the loop selects. -/
theorem find_turns_scan_list (color : Bool) (mtx : Board) :
    find_turns_scan color mtx =
      if ((cells.filter (loopTest color mtx)).filter
            fun p => (find_turns_xy mtx p.1 p.2).2) = [] then
        ((cells.filter (loopTest color mtx)).flatMap
          (fun p => (find_turns_xy mtx p.1 p.2).1), false)
      else
        (((cells.filter (loopTest color mtx)).filter
            fun p => (find_turns_xy mtx p.1 p.2).2).flatMap
          (fun p => (find_turns_xy mtx p.1 p.2).1), true) := by
  unfold find_turns_scan
  rw [scan_cells (find_turns_cell color mtx) ([], false), scan_fold]
  simp

/-- On a board with codes in 0..4 the loop selects the squares holding a piece of the
colour. -/
theorem loopTest_pieces (color : Bool) (mtx : Board) (hc : codesOK mtx) :
    cells.filter (loopTest color mtx) = pieceCells color mtx := by
  unfold pieceCells
  apply List.filter_congr
  intro p _
  unfold loopTest
  by_cases h : getCell mtx p.1 p.2 ≠ 0 ∧ (getCell mtx p.1 p.2).tmod 2 ≠ colorInt color
  · rw [decide_eq_true h, decide_eq_true (isPiece_of_test color _ (getCell_codes mtx hc _ _) h)]
  · have : ¬ isPiece color (getCell mtx p.1 p.2) := fun hp => h (isPiece_test color _ hp)
    rw [decide_eq_false h, decide_eq_false this]

/-- The loops of the colour-wide query return the moves of the colour-level rule. -/
theorem find_turns_scan_spec (color : Bool) (mtx : Board) (hc : codesOK mtx) :
    find_turns_scan color mtx = (spec_turns color mtx, anyCapture color mtx) := by
  rw [find_turns_scan_list, loopTest_pieces color mtx hc]
  unfold spec_turns
  by_cases hnil : ((pieceCells color mtx).filter fun p => (find_turns_xy mtx p.1 p.2).2) = []
  · have hany : anyCapture color mtx = false := by
      unfold anyCapture
      rw [List.any_eq_false]
      intro p hp hq
      have : p ∈ (pieceCells color mtx).filter fun p => (find_turns_xy mtx p.1 p.2).2 :=
        List.mem_filter.mpr ⟨hp, hq⟩
      rw [hnil] at this
      exact absurd this (List.not_mem_nil p)
    rw [if_pos hnil, hany]
    simp
  · have hany : anyCapture color mtx = true := by
      unfold anyCapture
      rw [List.any_eq_true]
      obtain ⟨p, hp⟩ := List.exists_mem_of_ne_nil _ hnil
      obtain ⟨h1, h2⟩ := List.mem_filter.mp hp
      exact ⟨p, h1, h2⟩
    rw [if_neg hnil, hany]
    simp

/-- Every move of a king capture ray starts on `(x, y)`. -/
theorem kingBeatRay_origin (mtx : Board) (x y type i j : Int) (t : move_pos) :
    ∀ (n : Nat) (i2 j2 xb yb : Int), t ∈ kingBeatRay mtx x y type i j n i2 j2 xb yb →
      t.x = x ∧ t.y = y := by
  intro n
  induction n with
  | zero => intro i2 j2 xb yb h; simp [kingBeatRay] at h
  | succ n ih =>
    intro i2 j2 xb yb h
    rw [kingBeatRay_succ] at h
    by_cases hc : i2 ≠ 8 ∧ j2 ≠ 8 ∧ i2 ≠ -1 ∧ j2 ≠ -1
    · rw [if_pos hc] at h
      by_cases hs : getCell mtx i2 j2 ≠ 0 ∧
          ((getCell mtx i2 j2).tmod 2 = type.tmod 2
            ∨ ((getCell mtx i2 j2).tmod 2 ≠ type.tmod 2 ∧ xb ≠ -1))
      · rw [if_pos hs] at h; simp at h
      · rw [if_neg hs] at h
        rcases List.mem_append.mp h with h | h
        · by_cases hm : (if getCell mtx i2 j2 ≠ 0 then i2 else xb) ≠ -1
              ∧ (if getCell mtx i2 j2 ≠ 0 then i2 else xb) ≠ i2
          · rw [if_pos hm, List.mem_singleton] at h
            subst h; exact ⟨rfl, rfl⟩
          · rw [if_neg hm] at h; simp at h
        · exact ih _ _ _ _ h
    · rw [if_neg hc] at h; simp at h

/-- Every move of a king simple-move ray starts on `(x, y)`. -/
theorem kingMoveRay_origin (mtx : Board) (x y i j : Int) (t : move_pos) :
    ∀ (n : Nat) (i2 j2 : Int), t ∈ kingMoveRay mtx x y i j n i2 j2 → t.x = x ∧ t.y = y := by
  intro n
  induction n with
  | zero => intro i2 j2 h; simp [kingMoveRay] at h
  | succ n ih =>
    intro i2 j2 h
    simp only [kingMoveRay] at h
    by_cases hc : i2 ≠ 8 ∧ j2 ≠ 8 ∧ i2 ≠ -1 ∧ j2 ≠ -1
    · rw [if_pos hc] at h
      by_cases hs : getCell mtx i2 j2 ≠ 0
      · rw [if_pos hs] at h; simp at h
      · rw [if_neg hs] at h
        rcases List.mem_cons.mp h with h | h
        · subst h; exact ⟨rfl, rfl⟩
        · exact ih _ _ h
    · rw [if_neg hc] at h; simp at h

/-- Every move the square query returns starts on the queried square. -/
theorem find_turns_xy_origin (mtx : Board) (x y : Int) :
    ∀ t ∈ (find_turns_xy mtx x y).1, t.x = x ∧ t.y = y := by
  have hmanB : ∀ t ∈ manBeats mtx x y (getCell mtx x y), t.x = x ∧ t.y = y := by
    intro t ht
    unfold manBeats at ht
    simp only [List.mem_flatMap] at ht
    obtain ⟨i, -, j, -, h⟩ := ht
    by_cases hr : i < 0 ∨ i > 7 ∨ j < 0 ∨ j > 7
    · rw [if_pos hr] at h; simp at h
    · rw [if_neg hr] at h
      by_cases hcond : getCell mtx i j ≠ 0 ∨ getCell mtx ((x + i).tdiv 2) ((y + j).tdiv 2) = 0
          ∨ (getCell mtx ((x + i).tdiv 2) ((y + j).tdiv 2)).tmod 2 = (getCell mtx x y).tmod 2
      · rw [if_pos hcond] at h; simp at h
      · rw [if_neg hcond, List.mem_singleton] at h
        subst h; exact ⟨rfl, rfl⟩
  have hmanM : ∀ t ∈ manMoves mtx x y (getCell mtx x y), t.x = x ∧ t.y = y := by
    intro t ht
    unfold manMoves at ht
    simp only [List.mem_flatMap] at ht
    obtain ⟨j, -, h⟩ := ht
    by_cases hc : (if (getCell mtx x y).tmod 2 ≠ 0 then x - 1 else x + 1) < 0
        ∨ (if (getCell mtx x y).tmod 2 ≠ 0 then x - 1 else x + 1) > 7 ∨ j < 0 ∨ j > 7
        ∨ getCell mtx (if (getCell mtx x y).tmod 2 ≠ 0 then x - 1 else x + 1) j ≠ 0
    · rw [if_pos hc] at h; simp at h
    · rw [if_neg hc, List.mem_singleton] at h
      subst h; exact ⟨rfl, rfl⟩
  have hkB : ∀ t ∈ kingBeats mtx x y (getCell mtx x y), t.x = x ∧ t.y = y := by
    intro t ht
    unfold kingBeats at ht
    simp only [List.mem_flatMap] at ht
    obtain ⟨i, -, j, -, h⟩ := ht
    exact kingBeatRay_origin _ _ _ _ _ _ _ _ _ _ _ _ h
  have hkM : ∀ t ∈ kingMoves mtx x y, t.x = x ∧ t.y = y := by
    intro t ht
    unfold kingMoves at ht
    simp only [List.mem_flatMap] at ht
    obtain ⟨i, -, j, -, h⟩ := ht
    exact kingMoveRay_origin _ _ _ _ _ _ _ _ _ h
  intro t ht
  rw [find_turns_xy_eq] at ht
  by_cases hm : getCell mtx x y = 1 ∨ getCell mtx x y = 2
  · simp only [if_pos hm] at ht
    by_cases hne : ¬ manBeats mtx x y (getCell mtx x y) = []
    · rw [if_pos hne] at ht; exact hmanB t ht
    · rw [if_neg hne] at ht; exact hmanM t ht
  · simp only [if_neg hm] at ht
    by_cases hne : ¬ kingBeats mtx x y (getCell mtx x y) = []
    · rw [if_pos hne] at ht; exact hkB t ht
    · rw [if_neg hne] at ht; exact hkM t ht

/-- Every move of the colour-level rule starts on a square holding a piece of the colour. -/
theorem spec_turns_origin (color : Bool) (mtx : Board) :
    ∀ t ∈ spec_turns color mtx, inRange t.x t.y ∧ isPiece color (getCell mtx t.x t.y) := by
  intro t ht
  unfold spec_turns at ht
  obtain ⟨p, hp, htp⟩ := List.mem_flatMap.mp ht
  have hpc := (List.mem_filter.mp hp).1
  unfold pieceCells at hpc
  obtain ⟨hcell, hpiece⟩ := List.mem_filter.mp hpc
  obtain ⟨e1, e2⟩ := find_turns_xy_origin mtx p.1 p.2 t htp
  rw [e1, e2]
  exact ⟨(mem_cells p.1 p.2).mp hcell, of_decide_eq_true hpiece⟩

/-- C23: for every board with cell codes in 0..4, every colour and every shuffle that
permutes the list, the `turns` left by the colour-wide query are a permutation of the moves
of the colour-level rule (the square-query results over exactly the squares holding a piece
of the colour, of the pieces that have a capture only when some piece of the colour has
one), and `have_beats` tells whether some piece of the colour has a capture; so for any two
states of the random engine the two results are permutations of each other, and every
returned move starts on a board square holding a piece of the asked colour. -/
theorem C23_shuffle_same_moves {σ : Type} (shuffle : σ → List move_pos → List move_pos × σ)
    (hsh : ∀ s l, (shuffle s l).1.Perm l) (color : Bool) (mtx : Board) (hc : codesOK mtx) :
    (∀ rng, (find_turns shuffle rng color mtx).1.1.Perm (spec_turns color mtx)
      ∧ (find_turns shuffle rng color mtx).1.2 = anyCapture color mtx)
    ∧ (∀ rng1 rng2, (find_turns shuffle rng1 color mtx).1.1.Perm
        (find_turns shuffle rng2 color mtx).1.1
      ∧ (find_turns shuffle rng1 color mtx).1.2 = (find_turns shuffle rng2 color mtx).1.2)
    ∧ (∀ rng, ∀ t ∈ (find_turns shuffle rng color mtx).1.1,
        inRange t.x t.y ∧ isPiece color (getCell mtx t.x t.y)) := by
  have hspec := find_turns_scan_spec color mtx hc
  have h1 : ∀ rng, (find_turns shuffle rng color mtx).1.1.Perm (spec_turns color mtx)
      ∧ (find_turns shuffle rng color mtx).1.2 = anyCapture color mtx := by
    intro rng
    obtain ⟨hf, hp⟩ := find_turns_perm shuffle hsh rng color mtx
    rw [hspec] at hf hp
    exact ⟨hp, hf⟩
  refine ⟨h1, ?_, ?_⟩
  · intro rng1 rng2
    exact ⟨(h1 rng1).1.trans (h1 rng2).1.symm, (h1 rng1).2.trans (h1 rng2).2.symm⟩
  · intro rng t ht
    exact spec_turns_origin color mtx t ((h1 rng).1.mem_iff.mp ht)

theorem C23_shuffle_same_moves_witness :
    (∀ rng, (find_turns sampleShuffle rng false sampleBoard).1.1.Perm
        (spec_turns false sampleBoard)
      ∧ (find_turns sampleShuffle rng false sampleBoard).1.2 = anyCapture false sampleBoard)
    ∧ (∀ rng1 rng2, (find_turns sampleShuffle rng1 false sampleBoard).1.1.Perm
        (find_turns sampleShuffle rng2 false sampleBoard).1.1
      ∧ (find_turns sampleShuffle rng1 false sampleBoard).1.2
          = (find_turns sampleShuffle rng2 false sampleBoard).1.2)
    ∧ (∀ rng, ∀ t ∈ (find_turns sampleShuffle rng false sampleBoard).1.1,
        inRange t.x t.y ∧ isPiece false (getCell sampleBoard t.x t.y)) :=
  C23_shuffle_same_moves sampleShuffle sampleShuffle_perm false sampleBoard (by decide)

/-! ## The capture flag -/

/-- With `have_beats` the square query returns captures only, on every board and square. -/
theorem find_turns_xy_caps (mtx : Board) (x y : Int) (hb : (find_turns_xy mtx x y).2 = true) :
    ∀ t ∈ (find_turns_xy mtx x y).1, t.xb ≠ -1 := by
  intro t ht
  rw [find_turns_xy_eq] at hb ht
  by_cases hm : getCell mtx x y = 1 ∨ getCell mtx x y = 2
  · simp only [if_pos hm] at hb ht
    by_cases hne : ¬ manBeats mtx x y (getCell mtx x y) = []
    · rw [if_pos hne] at ht
      have hx : 0 ≤ x :=
        (getCell_nonneg mtx x y (by rcases hm with h | h <;> rw [h] <;> decide)).1
      exact manBeats_xb_row mtx x y _ hx t ht
    · rw [if_neg hne] at hb; simp at hb
  · simp only [if_neg hm] at hb ht
    by_cases hne : ¬ kingBeats mtx x y (getCell mtx x y) = []
    · rw [if_pos hne] at ht
      exact kingBeats_xb _ _ _ _ _ ht
    · rw [if_neg hne] at hb; simp at hb

/-- The flag of a result that holds captures only when the flag is set, simple moves only
when it is not, and is non-empty when the flag is set. -/
theorem flag_iff (l : List move_pos) (b : Bool) (hne : b = true → l ≠ [])
    (hcap : b = true → ∀ t ∈ l, t.xb ≠ -1) (hsim : b = false → ∀ t ∈ l, t.xb = -1) :
    (b = true ↔ (l ≠ [] ∧ ∀ t ∈ l, t.xb ≠ -1)) ∧ (b = false → ∀ t ∈ l, t.xb = -1) := by
  refine ⟨⟨fun h => ⟨hne h, hcap h⟩, ?_⟩, hsim⟩
  rintro ⟨h1, h2⟩
  cases hb : b
  · exfalso
    obtain ⟨t, ht⟩ := List.exists_mem_of_ne_nil l h1
    exact h2 t ht (hsim hb t ht)
  · rfl

/-- With `have_beats_before` set, the loops of the colour-wide query have collected a
move. -/
theorem find_turns_scan_ne_nil (color : Bool) (mtx : Board)
    (h : (find_turns_scan color mtx).2 = true) : (find_turns_scan color mtx).1 ≠ [] := by
  rw [find_turns_scan_list] at h ⊢
  by_cases hnil : ((cells.filter (loopTest color mtx)).filter
      fun p => (find_turns_xy mtx p.1 p.2).2) = []
  · rw [if_pos hnil] at h; simp at h
  · rw [if_neg hnil]
    obtain ⟨p, hp⟩ := List.exists_mem_of_ne_nil _ hnil
    have hq := (List.mem_filter.mp hp).2
    obtain ⟨t, ht⟩ := List.exists_mem_of_ne_nil _ (find_turns_xy_ne_nil mtx p.1 p.2 hq)
    intro hempty
    have : t ∈ (((cells.filter (loopTest color mtx)).filter
        fun p => (find_turns_xy mtx p.1 p.2).2).flatMap
          (fun p => (find_turns_xy mtx p.1 p.2).1)) := List.mem_flatMap.mpr ⟨p, hp, ht⟩
    simp only [] at hempty
    rw [hempty] at this
    exact absurd this (List.not_mem_nil t)

/-- C22: on every board, after the square query on any square and after the colour-wide
query for any colour (with any shuffle that permutes the list), `have_beats` is true if and
only if `turns` is non-empty and every move in `turns` is a capture (`xb ≠ -1`); when
`have_beats` is false every move in `turns` is a simple move (`xb = -1`). -/
theorem C22_capture_flag {σ : Type} (shuffle : σ → List move_pos → List move_pos × σ)
    (hsh : ∀ s l, (shuffle s l).1.Perm l) (rng : σ) (color : Bool) (mtx : Board) (x y : Int) :
    (((find_turns_xy mtx x y).2 = true ↔
        ((find_turns_xy mtx x y).1 ≠ [] ∧ ∀ t ∈ (find_turns_xy mtx x y).1, t.xb ≠ -1))
      ∧ ((find_turns_xy mtx x y).2 = false → ∀ t ∈ (find_turns_xy mtx x y).1, t.xb = -1))
    ∧ (((find_turns shuffle rng color mtx).1.2 = true ↔
        ((find_turns shuffle rng color mtx).1.1 ≠ []
          ∧ ∀ t ∈ (find_turns shuffle rng color mtx).1.1, t.xb ≠ -1))
      ∧ ((find_turns shuffle rng color mtx).1.2 = false →
          ∀ t ∈ (find_turns shuffle rng color mtx).1.1, t.xb = -1)) := by
  constructor
  · exact flag_iff _ _ (find_turns_xy_ne_nil mtx x y) (find_turns_xy_caps mtx x y)
      (find_turns_xy_simple mtx x y)
  · obtain ⟨hf, hp⟩ := find_turns_perm shuffle hsh rng color mtx
    apply flag_iff
    · intro hb hnil
      rw [hf] at hb
      rw [hnil] at hp
      exact find_turns_scan_ne_nil color mtx hb (List.Perm.nil_eq hp).symm
    · intro hb t ht
      rw [hf] at hb
      exact find_turns_scan_beats color mtx hb t (hp.mem_iff.mp ht)
    · intro hb t ht
      rw [hf] at hb
      exact find_turns_scan_simple color mtx hb t (hp.mem_iff.mp ht)

theorem C22_capture_flag_witness :
    (((find_turns_xy mixedBoard 5 4).2 = true ↔
        ((find_turns_xy mixedBoard 5 4).1 ≠ []
          ∧ ∀ t ∈ (find_turns_xy mixedBoard 5 4).1, t.xb ≠ -1))
      ∧ ((find_turns_xy mixedBoard 5 4).2 = false →
          ∀ t ∈ (find_turns_xy mixedBoard 5 4).1, t.xb = -1))
    ∧ (((find_turns sampleShuffle () false mixedBoard).1.2 = true ↔
        ((find_turns sampleShuffle () false mixedBoard).1.1 ≠ []
          ∧ ∀ t ∈ (find_turns sampleShuffle () false mixedBoard).1.1, t.xb ≠ -1))
      ∧ ((find_turns sampleShuffle () false mixedBoard).1.2 = false →
          ∀ t ∈ (find_turns sampleShuffle () false mixedBoard).1.1, t.xb = -1)) :=
  C22_capture_flag sampleShuffle sampleShuffle_perm () false mixedBoard 5 4

/-! ## Simple moves and captures of other pieces -/

/-- C24 (counterexample): with white men on (5,0) and (5,4) and a black man on (4,3), the
square query on (5,0) returns the simple move (5,0)->(4,1), although the white man on (5,4)
has a capture. -/
theorem C24_counterexample :
    find_turns_xy mixedBoard 5 0 = ([move_pos.mk4 5 0 4 1], false)
    ∧ (move_pos.mk4 5 0 4 1).xb = -1
    ∧ isPiece false (getCell mixedBoard 5 0) ∧ isPiece false (getCell mixedBoard 5 4)
    ∧ find_turns_xy mixedBoard 5 4 = ([⟨5, 4, 3, 2, 4, 3⟩], true) := by
  decide

/-- C24 (amended): for every board and every square `(x, y)`, if the square query returns at
least one simple move (`xb = -1`) for the piece on it, then that piece has no capture
available (the query reports `have_beats` false and returns no capture); and if the
colour-wide query (any shuffle that permutes the list) returns at least one simple move,
then no piece of that colour anywhere on the board has a capture available. -/
theorem C24_simple_moves {σ : Type} (shuffle : σ → List move_pos → List move_pos × σ)
    (hsh : ∀ s l, (shuffle s l).1.Perm l) (rng : σ) (color : Bool) (mtx : Board) (x y : Int) :
    ((∃ t ∈ (find_turns_xy mtx x y).1, t.xb = -1) →
        (find_turns_xy mtx x y).2 = false ∧ ∀ t ∈ (find_turns_xy mtx x y).1, t.xb = -1)
    ∧ ((∃ t ∈ (find_turns shuffle rng color mtx).1.1, t.xb = -1) →
        ∀ i ∈ idx8, ∀ j ∈ idx8, isPiece color (getCell mtx i j) →
          (find_turns_xy mtx i j).2 = false) := by
  constructor
  · rintro ⟨t, ht, hxb⟩
    have hf : (find_turns_xy mtx x y).2 = false := by
      cases hb : (find_turns_xy mtx x y).2
      · rfl
      · exact absurd hxb (find_turns_xy_caps mtx x y hb t ht)
    exact ⟨hf, find_turns_xy_simple mtx x y hf⟩
  · rintro ⟨t, ht, hxb⟩ i hi j hj hp
    obtain ⟨hf, hperm⟩ := find_turns_perm shuffle hsh rng color mtx
    cases hb : (find_turns_xy mtx i j).2
    · rfl
    · exfalso
      have hflag := find_turns_scan_flag color mtx i j hi hj hp hb
      exact find_turns_scan_beats color mtx hflag t (hperm.mem_iff.mp ht) hxb

theorem C24_simple_moves_witness :
    ((∃ t ∈ (find_turns_xy mixedBoard 5 0).1, t.xb = -1) →
        (find_turns_xy mixedBoard 5 0).2 = false
          ∧ ∀ t ∈ (find_turns_xy mixedBoard 5 0).1, t.xb = -1)
    ∧ ((∃ t ∈ (find_turns sampleShuffle () false mixedBoard).1.1, t.xb = -1) →
        ∀ i ∈ idx8, ∀ j ∈ idx8, isPiece false (getCell mixedBoard i j) →
          (find_turns_xy mixedBoard i j).2 = false) :=
  C24_simple_moves sampleShuffle sampleShuffle_perm () false mixedBoard 5 0

/-! ## The no-moves sentinel of the search -/

/-- C25: for every board, colour, window and pruning setting, every shuffle that permutes the
list and every depth below `Max_depth`: if `find_best_turns_rec` is called without a
continuing square (`x = -1`, any positive bound on the nesting of calls) and the colour to
move has no legal move (the loops of the colour-wide query collect no move), it returns
`INF` when the depth is even and `0` when the depth is odd. -/
theorem C25_no_moves_sentinel {σ : Type} (P : Params σ)
    (hsh : ∀ s l, (P.shuffle s l).1.Perm l) (fuel : Nat) (L : Logic σ) (mtx : Board)
    (color : Bool) (depth : Nat) (alpha beta : ℚ) (hfuel : 0 < fuel)
    (hd : depth < P.Max_depth) (hno : (find_turns_scan color mtx).1 = []) :
    ∃ L1, find_best_turns_rec P fuel L mtx color depth alpha beta (-1) (-1)
      = some (if depth % 2 = 0 then INF else 0, L1) := by
  obtain ⟨n, rfl⟩ : ∃ n, fuel = n + 1 := ⟨fuel - 1, by omega⟩
  obtain ⟨hperm, -, -, -⟩ := rec_gen P hsh L mtx color (-1) (-1)
  rw [find_best_turns_rec_succ, if_neg (by omega)]
  have hx : ¬ ((-1 : Int) ≠ -1) := fun h => h rfl
  simp only [if_neg hx] at hperm ⊢
  rw [hno] at hperm
  have hnil : (L.find_turns P color mtx).turns = [] := List.Perm.eq_nil hperm
  rw [if_neg (fun h => hx h.2), if_pos hnil]
  refine ⟨L.find_turns P color mtx, ?_⟩
  by_cases hpar : depth % 2 = 0
  · rw [if_pos hpar, if_neg (by omega)]
  · rw [if_neg hpar, if_pos hpar]

theorem C25_no_moves_sentinel_witness :
    ∃ L1, find_best_turns_rec (sampleParams "O1") 1 (sampleLogic true (place [(5, 4, 1)]))
        (place [(5, 4, 1)]) true 0 (-1) (INF + 1) (-1) (-1)
      = some (if 0 % 2 = 0 then INF else 0, L1) :=
  C25_no_moves_sentinel (sampleParams "O1") sampleShuffle_perm 1
    (sampleLogic true (place [(5, 4, 1)])) (place [(5, 4, 1)]) true 0 (-1) (INF + 1)
    (by decide) (by decide) (by decide)

/-! ## The moves of a king -/

/-- The moves of one king simple-move ray, started next to a board cell: the cells reached
over on-board empty cells. -/
theorem kingMoveRay_iff (mtx : Board) (x y i j : Int) (hdi : i = 1 ∨ i = -1)
    (hdj : j = 1 ∨ j = -1) (t : move_pos) :
    ∀ (n : Nat) (i2 j2 : Int), inRange (i2 - i) (j2 - j) →
      (t ∈ kingMoveRay mtx x y i j n i2 j2 ↔
        ∃ q : Nat, q < n ∧ t = move_pos.mk4 x y (i2 + q * i) (j2 + q * j)
          ∧ ∀ r : Nat, r ≤ q →
              inRange (i2 + r * i) (j2 + r * j) ∧ getCell mtx (i2 + r * i) (j2 + r * j) = 0) := by
  intro n
  induction n with
  | zero =>
    intro i2 j2 _
    simp [kingMoveRay]
  | succ n ih =>
    intro i2 j2 hprev
    simp only [kingMoveRay]
    have hcond := ray_cond i2 j2 i j hdi hdj hprev
    by_cases hc : i2 ≠ 8 ∧ j2 ≠ 8 ∧ i2 ≠ -1 ∧ j2 ≠ -1
    · have hin : inRange i2 j2 := hcond.mp hc
      rw [if_pos hc]
      by_cases hs : getCell mtx i2 j2 ≠ 0
      · rw [if_pos hs]
        constructor
        · intro h; simp at h
        · rintro ⟨q, -, -, hall⟩
          have := (hall 0 (Nat.zero_le _)).2
          simp only [Nat.cast_zero, zero_mul, add_zero] at this
          exact absurd this hs
      · rw [if_neg hs]
        have h0 : getCell mtx i2 j2 = 0 := not_not.mp hs
        have hprev1 : inRange (i2 + i - i) (j2 + j - j) := by
          have e1 : i2 + i - i = i2 := by ring
          have e2 : j2 + j - j = j2 := by ring
          rw [e1, e2]; exact hin
        rw [List.mem_cons, ih (i2 + i) (j2 + j) hprev1]
        constructor
        · rintro (h | ⟨q, hq, ht, hall⟩)
          · refine ⟨0, Nat.succ_pos _, ?_, ?_⟩
            · simpa using h
            · intro r hr
              have : r = 0 := by omega
              subst this
              simpa using ⟨hin, h0⟩
          · refine ⟨q + 1, by omega, ?_, ?_⟩
            · rw [ht, ray_shift, ray_shift]
            · intro r hr
              cases r with
              | zero => simpa using ⟨hin, h0⟩
              | succ r =>
                rw [ray_shift, ray_shift]
                exact hall r (by omega)
        · rintro ⟨q, hq, ht, hall⟩
          cases q with
          | zero => left; simpa using ht
          | succ q =>
            right
            refine ⟨q, by omega, ?_, ?_⟩
            · rw [ht, ray_shift, ray_shift]
            · intro r hr
              have := hall (r + 1) (by omega)
              rw [ray_shift, ray_shift] at this
              exact this
    · rw [if_neg hc]
      have hnin : ¬ inRange i2 j2 := fun h => hc (hcond.mpr h)
      constructor
      · intro h; simp at h
      · rintro ⟨q, -, -, hall⟩
        have := (hall 0 (Nat.zero_le _)).1
        simp only [Nat.cast_zero, zero_mul, add_zero] at this
        exact absurd this hnin

/-- The simple-move loops of a king on a board cell return exactly the simple moves of the
king rule. -/
theorem kingMoves_iff (mtx : Board) (x y : Int) (hxy : inRange x y) (t : move_pos) :
    t ∈ kingMoves mtx x y ↔ kingSimple mtx x y t := by
  have hmem : ∀ d : Int, d ∈ ([-1, 1] : List Int) ↔ (d = 1 ∨ d = -1) := by
    intro d; simp only [List.mem_cons, List.mem_singleton, List.not_mem_nil, or_false]
    constructor <;> (intro h; rcases h with h | h <;> simp [h])
  unfold kingMoves kingSimple
  simp only [List.mem_flatMap]
  constructor
  · rintro ⟨i, hi, j, hj, h⟩
    have hprev : inRange (x + i - i) (y + j - j) := by
      have e1 : x + i - i = x := by ring
      have e2 : y + j - j = y := by ring
      rw [e1, e2]; exact hxy
    rw [kingMoveRay_iff mtx x y i j ((hmem i).mp hi) ((hmem j).mp hj) t 8 _ _ hprev] at h
    obtain ⟨q, -, ht, hall⟩ := h
    subst ht
    refine ⟨rfl, rfl, rfl, rfl, i, hi, j, hj, q + 1, by omega, ?_, ?_, ?_⟩
    · show x + i + q * i = x + ((q + 1 : Nat) : Int) * i
      rw [ray_shift]
    · show y + j + q * j = y + ((q + 1 : Nat) : Int) * j
      rw [ray_shift]
    · intro n hn1 hnk
      obtain ⟨r, rfl⟩ : ∃ r, n = r + 1 := ⟨n - 1, by omega⟩
      rw [ray_shift, ray_shift]
      exact hall r (by omega)
  · rintro ⟨hx, hy, hxb, hyb, i, hi, j, hj, k, hk, hx2, hy2, hall⟩
    refine ⟨i, hi, j, hj, ?_⟩
    have hprev : inRange (x + i - i) (y + j - j) := by
      have e1 : x + i - i = x := by ring
      have e2 : y + j - j = y := by ring
      rw [e1, e2]; exact hxy
    rw [kingMoveRay_iff mtx x y i j ((hmem i).mp hi) ((hmem j).mp hj) t 8 _ _ hprev]
    obtain ⟨q, rfl⟩ : ∃ q, k = q + 1 := ⟨k - 1, by omega⟩
    refine ⟨q, ?_, ?_, ?_⟩
    · have hin := (hall (q + 1) (by omega) (Nat.le_refl _)).1
      unfold inRange at hin hxy
      rcases (hmem i).mp hi with h | h <;> subst h <;> push_cast at hin <;> omega
    · rw [ray_shift] at hx2 hy2
      cases t
      simp only [move_pos.mk4, move_pos.mk.injEq] at *
      exact ⟨hx, hy, hx2, hy2, hxb, hyb⟩
    · intro r hr
      have := hall (r + 1) (by omega) (by omega)
      rw [ray_shift, ray_shift] at this
      exact this

/-- The capture loops of a king on a board cell return exactly the captures of the king
capture rule (board codes in 0..4). -/
theorem kingBeats_iff (mtx : Board) (x y : Int) (hcodes : codesOK mtx) (hxy : inRange x y)
    (hk : getCell mtx x y = 3 ∨ getCell mtx x y = 4) (t : move_pos) :
    t ∈ kingBeats mtx x y (getCell mtx x y) ↔ kingCapture mtx x y t := by
  have hmem : ∀ d : Int, d ∈ ([-1, 1] : List Int) ↔ (d = 1 ∨ d = -1) := by
    intro d; simp only [List.mem_cons, List.mem_singleton, List.not_mem_nil, or_false]
    constructor <;> (intro h; rcases h with h | h <;> simp [h])
  unfold kingBeats kingCapture
  simp only [List.mem_flatMap]
  constructor
  · rintro ⟨i, hi, j, hj, h⟩
    rw [kingBeatRay_start mtx x y _ i j ((hmem i).mp hi) ((hmem j).mp hj) hxy t] at h
    obtain ⟨k, m, hm1, hmk, ht, hin, hland, hpiece, hpar, hbetween⟩ := h
    subst ht
    refine ⟨rfl, rfl, i, hi, j, hj, k, m, hm1, hmk, rfl, rfl, hin, hland, rfl, rfl, ?_,
      hbetween⟩
    exact (parity_opposing _ _ hk (getCell_codes mtx hcodes _ _)).mp ⟨hpiece, hpar⟩
  · rintro ⟨hx, hy, i, hi, j, hj, k, m, hm1, hmk, hx2, hy2, hin, hland, hxb, hyb, hopp,
      hbetween⟩
    refine ⟨i, hi, j, hj, ?_⟩
    rw [kingBeatRay_start mtx x y _ i j ((hmem i).mp hi) ((hmem j).mp hj) hxy t]
    rw [hxb, hyb] at hopp
    have hp := (parity_opposing _ _ hk (getCell_codes mtx hcodes _ _)).mpr hopp
    refine ⟨k, m, hm1, hmk, ?_, ?_, ?_, hp.1, hp.2, hbetween⟩
    · cases t; simp only [move_pos.mk.injEq] at *
      exact ⟨hx, hy, hx2, hy2, hxb, hyb⟩
    · rw [← hx2, ← hy2]; exact hin
    · rw [← hx2, ← hy2]; exact hland

/-- The square query of a king: its captures if it has any, else its simple moves. -/
theorem find_turns_xy_kingq (mtx : Board) (x y : Int)
    (hk : ¬ (getCell mtx x y = 1 ∨ getCell mtx x y = 2)) :
    find_turns_xy mtx x y =
      if ¬ kingBeats mtx x y (getCell mtx x y) = [] then
        (kingBeats mtx x y (getCell mtx x y), true)
      else (kingMoves mtx x y, false) := by
  rw [find_turns_xy_eq, if_neg hk, if_neg hk]

/-- A king whose capture loops return nothing has no capture under the king capture rule. -/
theorem kingCapture_none (mtx : Board) (x y : Int) (hcodes : codesOK mtx) (hxy : inRange x y)
    (hk : getCell mtx x y = 3 ∨ getCell mtx x y = 4)
    (hnil : kingBeats mtx x y (getCell mtx x y) = []) : ∀ t, ¬ kingCapture mtx x y t := by
  intro t ht
  have := (kingBeats_iff mtx x y hcodes hxy hk t).mpr ht
  rw [hnil] at this
  exact absurd this (List.not_mem_nil t)

/-- C21: for every board with cell codes in 0..4 and every king (code 3 or 4) on a board cell
`(x, y)` that has no capture under the king capture rule, the square query returns exactly
the simple moves to the cells `(x2, y2)` on a diagonal through `(x, y)` for which `(x2, y2)`
and every cell strictly between `(x, y)` and `(x2, y2)` are on the board and empty, and
`have_beats` is false. -/
theorem C21_king_simple_rule (mtx : Board) (x y : Int) (hcodes : codesOK mtx)
    (hxy : inRange x y) (hk : getCell mtx x y = 3 ∨ getCell mtx x y = 4)
    (hno : ∀ t, ¬ kingCapture mtx x y t) :
    (find_turns_xy mtx x y).2 = false
    ∧ ∀ t, t ∈ (find_turns_xy mtx x y).1 ↔ kingSimple mtx x y t := by
  have hnm : ¬ (getCell mtx x y = 1 ∨ getCell mtx x y = 2) := by
    rcases hk with h | h <;> rw [h] <;> decide
  have hnil : kingBeats mtx x y (getCell mtx x y) = [] := by
    apply List.eq_nil_iff_forall_not_mem.mpr
    intro t ht
    exact hno t ((kingBeats_iff mtx x y hcodes hxy hk t).mp ht)
  rw [find_turns_xy_kingq mtx x y hnm, if_neg (not_not.mpr hnil)]
  exact ⟨rfl, fun t => kingMoves_iff mtx x y hxy t⟩

theorem C21_king_simple_rule_witness :
    (find_turns_xy kingBoard 4 3).2 = false
    ∧ ∀ t, t ∈ (find_turns_xy kingBoard 4 3).1 ↔ kingSimple kingBoard 4 3 t :=
  C21_king_simple_rule kingBoard 4 3 (by decide) (by decide) (by decide)
    (kingCapture_none kingBoard 4 3 (by decide) (by decide) (by decide) (by decide))

/-! ## Generated moves are well-formed -/

theorem abs_step (x : Int) (k : Nat) (d : Int) (hd : d = 1 ∨ d = -1) :
    |x + k * d - x| = k := by
  rcases hd with rfl | rfl <;> simp

theorem dir_mem (d : Int) : d ∈ ([-1, 1] : List Int) ↔ (d = 1 ∨ d = -1) := by
  simp only [List.mem_cons, List.mem_singleton, List.not_mem_nil, or_false]
  constructor <;> (intro h; rcases h with h | h <;> simp [h])

/-- A cell between two board cells of a diagonal is a board cell. -/
theorem inRange_between (x y : Int) (di dj : Int) (k m : Nat) (hdi : di = 1 ∨ di = -1)
    (hdj : dj = 1 ∨ dj = -1) (hmk : m ≤ k) (hxy : inRange x y)
    (hk : inRange (x + k * di) (y + k * dj)) : inRange (x + m * di) (y + m * dj) := by
  unfold inRange at *
  rcases hdi with h | h <;> rcases hdj with h' | h' <;> subst h <;> subst h' <;> omega

/-- A capture under the man capture rule is a well-formed move. -/
theorem manCapture_wf (mtx : Board) (x y : Int) (t : move_pos) (hxy : inRange x y)
    (h : manCapture mtx x y t) : wellFormed mtx x y t := by
  obtain ⟨h1, h2, h3, h4, hr, h0, hxb, hyb, hop⟩ := h
  have a3 := (abs_eq (by norm_num : (0 : Int) ≤ 2)).mp h3
  have a4 := (abs_eq (by norm_num : (0 : Int) ≤ 2)).mp h4
  have hB : inRange t.xb t.yb := by
    unfold inRange at hr hxy ⊢
    rw [hxb, hyb]
    omega
  refine ⟨h1, h2, hr, h0, by rw [h3, h4], by rw [h3]; norm_num, fun _ => ⟨hB, ?_, hop⟩⟩
  unfold between
  have hdi : ∃ di : Int, (di = 1 ∨ di = -1) ∧ t.x2 = x + 2 * di ∧ t.xb = x + di := by
    rcases a3 with a | a
    · exact ⟨1, Or.inl rfl, by omega, by rw [hxb]; omega⟩
    · exact ⟨-1, Or.inr rfl, by omega, by rw [hxb]; omega⟩
  have hdj : ∃ dj : Int, (dj = 1 ∨ dj = -1) ∧ t.y2 = y + 2 * dj ∧ t.yb = y + dj := by
    rcases a4 with a | a
    · exact ⟨1, Or.inl rfl, by omega, by rw [hyb]; omega⟩
    · exact ⟨-1, Or.inr rfl, by omega, by rw [hyb]; omega⟩
  obtain ⟨di, hdi, e1, e2⟩ := hdi
  obtain ⟨dj, hdj, e3, e4⟩ := hdj
  refine ⟨di, (dir_mem di).mpr hdi, dj, (dir_mem dj).mpr hdj, 2, 1, Nat.le_refl _, by norm_num,
    ?_, ?_, ?_, ?_⟩
  · rw [e1]; norm_num
  · rw [e3]; norm_num
  · rw [e2]; norm_num
  · rw [e4]; norm_num

/-- A capture under the king capture rule is a well-formed move. -/
theorem kingCapture_wf (mtx : Board) (x y : Int) (t : move_pos) (hxy : inRange x y)
    (h : kingCapture mtx x y t) : wellFormed mtx x y t := by
  obtain ⟨hx, hy, i, hi, j, hj, k, m, hm1, hmk, hx2, hy2, hin, hland, hxb, hyb, hopp, -⟩ := h
  have hdi := (dir_mem i).mp hi
  have hdj := (dir_mem j).mp hj
  refine ⟨hx, hy, hin, hland, ?_, ?_, fun _ => ⟨?_, ?_, hopp⟩⟩
  · rw [hx2, hy2, abs_step x k i hdi, abs_step y k j hdj]
  · rw [hx2, abs_step x k i hdi]
    have : (1 : Int) ≤ (k : Int) := by omega
    exact this
  · rw [hxb, hyb]
    rw [hx2, hy2] at hin
    exact inRange_between x y i j k m hdi hdj (by omega) hxy hin
  · exact ⟨i, hi, j, hj, k, m, hm1, hmk, hx2, hy2, hxb, hyb⟩

/-- A simple move under the man rule is a well-formed move. -/
theorem manSimple_wf (mtx : Board) (x y : Int) (t : move_pos) (h : t ∈ manSimple mtx x y) :
    wellFormed mtx x y t ∧ t.xb = -1 := by
  unfold manSimple at h
  simp only [List.mem_map, List.mem_filter, decide_eq_true_eq] at h
  obtain ⟨j, ⟨hj, hin, h0⟩, rfl⟩ := h
  simp only [List.mem_cons, List.mem_singleton, List.not_mem_nil, or_false] at hj
  refine ⟨⟨rfl, rfl, hin, h0, ?_, ?_, fun hxb => absurd rfl hxb⟩, rfl⟩
  · show |(if getCell mtx x y = 1 then x - 1 else x + 1) - x| = |j - y|
    have e1 : |(if getCell mtx x y = 1 then x - 1 else x + 1) - x| = 1 := by
      by_cases hw : getCell mtx x y = 1
      · rw [if_pos hw]; simp
      · rw [if_neg hw]; simp
    have e2 : |j - y| = 1 := by rcases hj with rfl | rfl <;> simp
    rw [e1, e2]
  · show 1 ≤ |(if getCell mtx x y = 1 then x - 1 else x + 1) - x|
    by_cases hw : getCell mtx x y = 1
    · rw [if_pos hw]; simp
    · rw [if_neg hw]; simp

/-- A simple move under the king rule is a well-formed move. -/
theorem kingSimple_wf (mtx : Board) (x y : Int) (t : move_pos) (h : kingSimple mtx x y t) :
    wellFormed mtx x y t ∧ t.xb = -1 := by
  obtain ⟨hx, hy, hxb, -, i, hi, j, hj, k, hk, hx2, hy2, hall⟩ := h
  have hdi := (dir_mem i).mp hi
  have hdj := (dir_mem j).mp hj
  obtain ⟨hin, h0⟩ := hall k hk (Nat.le_refl _)
  rw [← hx2, ← hy2] at hin h0
  refine ⟨⟨hx, hy, hin, h0, ?_, ?_, fun h => absurd hxb h⟩, hxb⟩
  · rw [hx2, hy2, abs_step x k i hdi, abs_step y k j hdj]
  · rw [hx2, abs_step x k i hdi]
    have : (1 : Int) ≤ (k : Int) := by omega
    exact this

/-- Every move the square query returns for a piece on a board cell is well-formed; with
`have_beats` every move names a captured square, without it none does. -/
theorem find_turns_xy_wf (mtx : Board) (x y : Int) (hcodes : codesOK mtx) (hxy : inRange x y)
    (hp : getCell mtx x y ≠ 0) :
    ∀ t ∈ (find_turns_xy mtx x y).1, wellFormed mtx x y t
      ∧ ((find_turns_xy mtx x y).2 = true → t.xb ≠ -1)
      ∧ ((find_turns_xy mtx x y).2 = false → t.xb = -1) := by
  have hrange := getCell_codes mtx hcodes x y
  intro t ht
  have hcaps := find_turns_xy_caps mtx x y
  have hsimp := find_turns_xy_simple mtx x y
  refine ⟨?_, fun hb => hcaps hb t ht, fun hb => hsimp hb t ht⟩
  by_cases hm : getCell mtx x y = 1 ∨ getCell mtx x y = 2
  · rw [find_turns_xy_man mtx x y hm] at ht
    by_cases hne : ¬ manBeats mtx x y (getCell mtx x y) = []
    · rw [if_pos hne] at ht
      exact manCapture_wf mtx x y t hxy ((manBeats_iff mtx x y hcodes hm t).mp ht)
    · rw [if_neg hne, manMoves_eq mtx x y hm] at ht
      exact (manSimple_wf mtx x y t ht).1
  · have hk : getCell mtx x y = 3 ∨ getCell mtx x y = 4 := by
      rw [not_or] at hm
      omega
    rw [find_turns_xy_kingq mtx x y hm] at ht
    by_cases hne : ¬ kingBeats mtx x y (getCell mtx x y) = []
    · rw [if_pos hne] at ht
      exact kingCapture_wf mtx x y t hxy ((kingBeats_iff mtx x y hcodes hxy hk t).mp ht)
    · rw [if_neg hne] at ht
      exact (kingSimple_wf mtx x y t ((kingMoves_iff mtx x y hxy t).mp ht)).1

/-- C29: for every 8x8 board with cell codes in 0..4 and every in-range square `(x, y)`
holding a piece (code 1..4), every move returned by the square query has origin `(x, y)`, a
destination with both coordinates in 0..7 that is empty on the board and satisfies
`|x2 - x| = |y2 - y| ≥ 1`, and, if it is a capture, a captured square in range lying strictly
between origin and destination on the same diagonal and holding a piece of the opposite
colour.  So the cells `make_turn` accesses for a generated move (origin, destination,
captured square) are board cells; the man capture loop reads the middle cell only between two
board cells, and a king ray that passes its loop test after a board cell is on a board
cell. -/
theorem C29_moves_well_formed (mtx : Board) (x y : Int) (h8 : is8x8 mtx) (hcodes : codesOK mtx)
    (hxy : inRange x y) (hp : 1 ≤ getCell mtx x y ∧ getCell mtx x y ≤ 4) :
    (∀ t ∈ (find_turns_xy mtx x y).1,
      wellFormed mtx x y t ∧ inRange t.x t.y ∧ (t.xb ≠ -1 → inRange t.xb t.yb))
    ∧ (∀ i ∈ [x - 2, x + 2], ∀ j ∈ [y - 2, y + 2], ¬ (i < 0 ∨ i > 7 ∨ j < 0 ∨ j > 7) →
        inRange i j ∧ inRange ((x + i).tdiv 2) ((y + j).tdiv 2))
    ∧ (∀ i ∈ ([-1, 1] : List Int), ∀ j ∈ ([-1, 1] : List Int), ∀ i2 j2 : Int,
        inRange (i2 - i) (j2 - j) → (i2 ≠ 8 ∧ j2 ≠ 8 ∧ i2 ≠ -1 ∧ j2 ≠ -1) → inRange i2 j2) := by
  have _ := h8
  refine ⟨?_, ?_, ?_⟩
  · intro t ht
    obtain ⟨hwf, -, -⟩ := find_turns_xy_wf mtx x y hcodes hxy (by omega) t ht
    refine ⟨hwf, ?_, fun hxb => (hwf.2.2.2.2.2.2 hxb).1⟩
    rw [hwf.1, hwf.2.1]; exact hxy
  · intro i hi j hj hr
    simp only [List.mem_cons, List.mem_singleton, List.not_mem_nil, or_false] at hi hj
    unfold inRange at hxy ⊢
    have e1 : (x + i).tdiv 2 = (x + i) / 2 := Int.tdiv_eq_ediv (by omega) (by norm_num)
    have e2 : (y + j).tdiv 2 = (y + j) / 2 := Int.tdiv_eq_ediv (by omega) (by norm_num)
    rw [e1, e2]
    omega
  · intro i hi j hj i2 j2 hprev hc
    exact (ray_cond i2 j2 i j ((dir_mem i).mp hi) ((dir_mem j).mp hj) hprev).mp hc

theorem C29_moves_well_formed_witness :
    (∀ t ∈ (find_turns_xy kingBoard 4 3).1,
      wellFormed kingBoard 4 3 t ∧ inRange t.x t.y ∧ (t.xb ≠ -1 → inRange t.xb t.yb))
    ∧ (∀ i ∈ [(4 : Int) - 2, 4 + 2], ∀ j ∈ [(3 : Int) - 2, 3 + 2],
        ¬ (i < 0 ∨ i > 7 ∨ j < 0 ∨ j > 7) →
        inRange i j ∧ inRange ((4 + i).tdiv 2) ((3 + j).tdiv 2))
    ∧ (∀ i ∈ ([-1, 1] : List Int), ∀ j ∈ ([-1, 1] : List Int), ∀ i2 j2 : Int,
        inRange (i2 - i) (j2 - j) → (i2 ≠ 8 ∧ j2 ≠ 8 ∧ i2 ≠ -1 ∧ j2 ≠ -1) → inRange i2 j2) :=
  C29_moves_well_formed kingBoard 4 3 (by decide) (by decide) (by decide) (by decide)

/-! ## The piece counts after a generated move -/

/-- Writing a code in 0..4 keeps the codes in 0..4. -/
theorem codesOK_setCell (mtx : Board) (i j v : Int) (hv : 0 ≤ v ∧ v ≤ 4) (hc : codesOK mtx) :
    codesOK (setCell mtx i j v) := by
  unfold setCell
  by_cases h : 0 ≤ i ∧ 0 ≤ j
  · rw [if_pos h]
    intro row hrow c hcm
    rcases List.mem_or_eq_of_mem_set hrow with hrow | hrow
    · exact hc row hrow c hcm
    · subst hrow
      rcases List.mem_or_eq_of_mem_set hcm with hcm | hcm
      · have hmem : c ∈ mtx.getD i.toNat [] := hcm
        rw [List.getD_eq_getElem?_getD] at hmem
        cases hrow : mtx[i.toNat]? with
        | none => rw [hrow] at hmem; simp at hmem
        | some r =>
          rw [hrow] at hmem
          simp only [Option.getD_some] at hmem
          exact hc r (List.getElem?_mem hrow) c hmem
      · subst hcm; exact hv
  · rw [if_neg h]; exact hc

/-- `make_turn` keeps the cell codes in 0..4. -/
theorem codesOK_make_turn (mtx : Board) (t : move_pos) (hc : codesOK mtx) :
    codesOK (make_turn mtx t) := by
  unfold make_turn
  simp only []
  have h1 : codesOK (if t.xb ≠ -1 then setCell mtx t.xb t.yb 0 else mtx) := by
    by_cases h : t.xb ≠ -1
    · rw [if_pos h]; exact codesOK_setCell mtx _ _ 0 (by decide) hc
    · rw [if_neg h]; exact hc
  generalize (if t.xb ≠ -1 then setCell mtx t.xb t.yb 0 else mtx) = m1 at h1 ⊢
  have h2 : codesOK (if (getCell m1 t.x t.y = 1 ∧ t.x2 = 0) ∨ (getCell m1 t.x t.y = 2 ∧ t.x2 = 7)
      then setCell m1 t.x t.y (getCell m1 t.x t.y + 2) else m1) := by
    by_cases h : (getCell m1 t.x t.y = 1 ∧ t.x2 = 0) ∨ (getCell m1 t.x t.y = 2 ∧ t.x2 = 7)
    · rw [if_pos h]
      apply codesOK_setCell m1 _ _ _ _ h1
      rcases h with h | h <;> rw [h.1] <;> decide
    · rw [if_neg h]; exact h1
  generalize (if (getCell m1 t.x t.y = 1 ∧ t.x2 = 0) ∨ (getCell m1 t.x t.y = 2 ∧ t.x2 = 7)
      then setCell m1 t.x t.y (getCell m1 t.x t.y + 2) else m1) = m2 at h2 ⊢
  exact codesOK_setCell _ _ _ 0 (by decide)
    (codesOK_setCell m2 _ _ _ (getCell_codes m2 h2 _ _) h2)

/-- The piece put on the destination has the colour of the moved piece. -/
theorem isPiece_landed (color : Bool) (v x2 : Int) :
    isPiece color (landed v x2) ↔ isPiece color v := by
  unfold landed
  by_cases h1 : v = 1 ∧ x2 = 0
  · rw [if_pos h1, h1.1]; cases color <;> decide
  · rw [if_neg h1]
    by_cases h2 : v = 2 ∧ x2 = 7
    · rw [if_pos h2, h2.1]; cases color <;> decide
    · rw [if_neg h2]

/-- The count of a colour after a move between distinct board cells that lands on an empty
cell: the piece captured, if any, is taken off the count of its colour. -/
theorem colourCount_move (color : Bool) (mtx : Board) (t : move_pos) (h8 : is8x8 mtx)
    (hO : inRange t.x t.y) (hD : inRange t.x2 t.y2) (hB : t.xb ≠ -1 → inRange t.xb t.yb)
    (hOD : ¬ (t.x = t.x2 ∧ t.y = t.y2)) (hOB : t.xb ≠ -1 → ¬ (t.x = t.xb ∧ t.y = t.yb))
    (hDB : t.xb ≠ -1 → ¬ (t.x2 = t.xb ∧ t.y2 = t.yb))
    (hDe : getCell mtx t.x2 t.y2 = 0) :
    colourCount color (make_turn mtx t)
        + (if t.xb ≠ -1 ∧ isPiece color (getCell mtx t.xb t.yb) then 1 else 0)
      = colourCount color mtx := by
  obtain ⟨h1, h2, h3, h4⟩ := make_turn_spec mtx t h8 hO hD hB hOD hOB
  have hn0 : ¬ isPiece color 0 := by cases color <;> decide
  set w : Int → Nat := fun v => if isPiece color v then 1 else 0 with hw
  have hw0 : w 0 = 0 := by simp [hw, hn0]
  have hwl : ∀ v x2, w (landed v x2) = w v := by
    intro v x2
    simp only [hw, isPiece_landed]
  have hpt : ∀ p : Int × Int,
      w (getCell (make_turn mtx t) p.1 p.2)
        + (if p = (t.xb, t.yb) then 1 else 0)
            * (if t.xb ≠ -1 then w (getCell mtx t.xb t.yb) else 0)
        + (if p = (t.x, t.y) then 1 else 0) * w (getCell mtx t.x t.y)
      = w (getCell mtx p.1 p.2)
        + (if p = (t.x2, t.y2) then 1 else 0) * w (getCell mtx t.x t.y) := by
    rintro ⟨a, b⟩
    simp only [Prod.mk.injEq]
    by_cases hxb : t.xb ≠ -1
    · have hOB' := hOB hxb
      have hDB' := hDB hxb
      have h2' := h2 hxb hDB'
      rw [if_pos hxb]
      by_cases pO : a = t.x ∧ b = t.y
      · obtain ⟨rfl, rfl⟩ := pO
        simp [h1, hOB', hOD, hw0]
      · by_cases pD : a = t.x2 ∧ b = t.y2
        · obtain ⟨rfl, rfl⟩ := pD
          simp [h3, hDB', pO, hDe, hwl, hw0]
        · by_cases pB : a = t.xb ∧ b = t.yb
          · obtain ⟨rfl, rfl⟩ := pB
            simp [h2', pO, pD, hw0]
          · rw [h4 a b pO pD (fun h => pB h.2)]
            simp [pB, pO, pD]
    · rw [if_neg hxb]
      by_cases pO : a = t.x ∧ b = t.y
      · obtain ⟨rfl, rfl⟩ := pO
        simp [h1, hOD, hw0]
      · by_cases pD : a = t.x2 ∧ b = t.y2
        · obtain ⟨rfl, rfl⟩ := pD
          simp [h3, pO, hDe, hwl, hw0]
        · rw [h4 a b pO pD (fun h => hxb h.1)]
          simp [pO, pD]
  have hsum := congrArg List.sum (List.map_congr_left (l := cells) (fun p _ => hpt p))
  rw [sum_map_add3, sum_map_add2, sum_map_scale, sum_map_scale, sum_map_scale,
    sum_delta _ _ hO, sum_delta _ _ hD] at hsum
  unfold colourCount
  by_cases hxb : t.xb ≠ -1
  · rw [sum_delta _ _ (hB hxb), if_pos hxb] at hsum
    by_cases hpc : isPiece color (getCell mtx t.xb t.yb)
    · rw [if_pos ⟨hxb, hpc⟩]
      have : w (getCell mtx t.xb t.yb) = 1 := by simp [hw, hpc]
      rw [this] at hsum
      simp only [hw] at hsum
      omega
    · rw [if_neg (fun h => hpc h.2)]
      have : w (getCell mtx t.xb t.yb) = 0 := by simp [hw, hpc]
      rw [this] at hsum
      simp only [hw] at hsum
      omega
  · rw [if_neg hxb] at hsum
    rw [if_neg (fun h => hxb h.1)]
    simp only [hw] at hsum
    omega

/-- A piece opposing a piece of colour `color` is of the other colour. -/
theorem opposing_colour (color : Bool) (v w : Int) (hv : isPiece color v) (ho : opposing v w) :
    isPiece (!color) w ∧ ¬ isPiece color w := by
  unfold opposing at ho
  unfold isPiece at hv
  cases color
  · simp only [Bool.false_eq_true, if_false] at hv
    rcases ho with ⟨-, h | h⟩ | ⟨h1, -⟩
    · subst h; decide
    · subst h; decide
    · exfalso; rcases hv with h | h <;> rcases h1 with h' | h' <;> omega
  · simp only [if_true] at hv
    rcases ho with ⟨h1, -⟩ | ⟨-, h | h⟩
    · exfalso; rcases hv with h | h <;> rcases h1 with h' | h' <;> omega
    · subst h; decide
    · subst h; decide

/-- C30: for every 8x8 board with cell codes in 0..4 and every move returned by the square
query for a piece of colour `c` on a board cell, the board returned by `make_turn` has the
same number of pieces of colour `c` as the input board, the same number of opposing pieces
if the move is simple (`xb = -1`) and exactly one fewer if it is a capture, and all its cell
codes are again in 0..4. -/
theorem C30_piece_counts (mtx : Board) (x y : Int) (c : Bool) (t : move_pos) (h8 : is8x8 mtx)
    (hcodes : codesOK mtx) (hxy : inRange x y) (hp : isPiece c (getCell mtx x y))
    (ht : t ∈ (find_turns_xy mtx x y).1) :
    colourCount c (make_turn mtx t) = colourCount c mtx
    ∧ (t.xb = -1 → colourCount (!c) (make_turn mtx t) = colourCount (!c) mtx)
    ∧ (t.xb ≠ -1 → colourCount (!c) (make_turn mtx t) + 1 = colourCount (!c) mtx)
    ∧ codesOK (make_turn mtx t) := by
  have hne : getCell mtx x y ≠ 0 := (isPiece_test c _ hp).1
  obtain ⟨⟨hx, hy, hD, hDe, -, hstep, hcap⟩, -, -⟩ :=
    find_turns_xy_wf mtx x y hcodes hxy hne t ht
  have hO : inRange t.x t.y := by rw [hx, hy]; exact hxy
  have hOD : ¬ (t.x = t.x2 ∧ t.y = t.y2) := by
    rintro ⟨h, -⟩
    rw [← hx, ← h] at hstep
    simp at hstep
  have hB : t.xb ≠ -1 → inRange t.xb t.yb := fun h => (hcap h).1
  have hOB : t.xb ≠ -1 → ¬ (t.x = t.xb ∧ t.y = t.yb) := by
    intro h
    obtain ⟨-, ⟨di, hdi, dj, -, k, m, hm1, hmk, -, -, e3, -⟩, -⟩ := hcap h
    rintro ⟨h1, -⟩
    rw [hx] at h1
    have hdi' := (dir_mem di).mp hdi
    rcases hdi' with r | r <;> subst r <;> omega
  have hDB : t.xb ≠ -1 → ¬ (t.x2 = t.xb ∧ t.y2 = t.yb) := by
    intro h
    obtain ⟨-, ⟨di, hdi, dj, -, k, m, hm1, hmk, e1, -, e3, -⟩, -⟩ := hcap h
    rintro ⟨h1, -⟩
    have hdi' := (dir_mem di).mp hdi
    rcases hdi' with r | r <;> subst r <;> omega
  have hown := colourCount_move c mtx t h8 hO hD hB hOD hOB hDB hDe
  have hopp := colourCount_move (!c) mtx t h8 hO hD hB hOD hOB hDB hDe
  refine ⟨?_, ?_, ?_, codesOK_make_turn mtx t hcodes⟩
  · by_cases hxb : t.xb ≠ -1
    · have hoc := opposing_colour c _ _ hp (hcap hxb).2.2
      rw [if_neg (fun h => hoc.2 h.2), Nat.add_zero] at hown
      exact hown
    · rw [if_neg (fun h => hxb h.1), Nat.add_zero] at hown
      exact hown
  · intro hxb
    rw [if_neg (fun h => h.1 hxb), Nat.add_zero] at hopp
    exact hopp
  · intro hxb
    have hoc := opposing_colour c _ _ hp (hcap hxb).2.2
    rw [if_pos ⟨hxb, hoc.1⟩] at hopp
    exact hopp

theorem C30_piece_counts_witness :
    colourCount false (make_turn jumpBoard jumpMove) = colourCount false jumpBoard
    ∧ (jumpMove.xb = -1 →
        colourCount true (make_turn jumpBoard jumpMove) = colourCount true jumpBoard)
    ∧ (jumpMove.xb ≠ -1 →
        colourCount true (make_turn jumpBoard jumpMove) + 1 = colourCount true jumpBoard)
    ∧ codesOK (make_turn jumpBoard jumpMove) :=
  C30_piece_counts jumpBoard 5 4 false jumpMove (by decide) (by decide) (by decide)
    (by decide) (by decide)

/-! ## The choice of the first move -/

/-- The move `pick` ends with: the current one when no value exceeds the current best, else
the earliest move of the largest value. -/
theorem pick_split (val : move_pos → ℚ) :
    ∀ (ts : List move_pos) (best : ℚ) (cur : Option move_pos),
      ((pick val ts best cur).2 = cur ∧ ∀ u ∈ ts, val u ≤ best)
      ∨ ∃ pre t post, ts = pre ++ t :: post ∧ (pick val ts best cur).2 = some t ∧ best < val t
          ∧ (∀ u ∈ pre, val u < val t) ∧ (∀ u ∈ post, val u ≤ val t) := by
  intro ts
  induction ts with
  | nil => intro best cur; left; exact ⟨rfl, fun u hu => absurd hu (List.not_mem_nil u)⟩
  | cons a rest ih =>
    intro best cur
    simp only [pick]
    by_cases h : val a > best
    · rw [if_pos h]
      rcases ih (val a) (some a) with ⟨h1, h2⟩ | ⟨pre, t, post, e, h1, h2, h3, h4⟩
      · right
        exact ⟨[], a, rest, rfl, h1, h, fun u hu => absurd hu (List.not_mem_nil u), h2⟩
      · right
        refine ⟨a :: pre, t, post, by rw [e]; rfl, h1, lt_trans h h2, ?_, h4⟩
        intro u hu
        rcases List.mem_cons.mp hu with hu | hu
        · rw [hu]; exact h2
        · exact h3 u hu
    · rw [if_neg h]
      have hle : val a ≤ best := not_lt.mp h
      rcases ih best cur with ⟨h1, h2⟩ | ⟨pre, t, post, e, h1, h2, h3, h4⟩
      · left
        refine ⟨h1, ?_⟩
        intro u hu
        rcases List.mem_cons.mp hu with hu | hu
        · rw [hu]; exact hle
        · exact h2 u hu
      · right
        refine ⟨a :: pre, t, post, by rw [e]; rfl, h1, h2, ?_, h4⟩
        intro u hu
        rcases List.mem_cons.mp hu with hu | hu
        · rw [hu]; exact lt_of_le_of_lt hle h2
        · exact h3 u hu

/-- The call made for a candidate returns; its value is the reference value of the candidate
when that exceeds `alpha`, and at most `alpha` otherwise. -/
theorem root_child_value {σ : Type} (P : Params σ) (hsh : ∀ s l, (P.shuffle s l).1.Perm l)
    (n : Nat) (mtx : Board) (color : Bool) (hb : Bool) (L : Logic σ) (t : move_pos) (alpha : ℚ)
    (h8 : is8x8 mtx) (hfuel : 65 * P.Max_depth + 66 ≤ n)
    (hpre : hb = true → inRange t.x2 t.y2)
    (hlen : L.next_move.length = L.next_best_state.length) (hs : 0 < L.next_move.length)
    (ha1 : -1 ≤ alpha) (ha2 : alpha ≤ INF) :
    ∃ w L1, root_child P n mtx color hb L t alpha = some (w, L1)
      ∧ ((cand P.Max_depth P.scoring_mode n mtx color hb t ≤ alpha ∧ w ≤ alpha)
          ∨ (alpha < cand P.Max_depth P.scoring_mode n mtx color hb t
              ∧ w = cand P.Max_depth P.scoring_mode n mtx color hb t)) := by
  have hpc := pieceCount_le (make_turn mtx t)
  have h8t := is8x8_make_turn mtx t h8
  unfold root_child cand
  by_cases hbt : hb = true
  · rw [if_pos hbt, if_pos hbt]
    obtain ⟨w, L3, h1, -, -, -, -, h6, -⟩ := first_sound P hsh n L (make_turn mtx t)
      color t.x2 t.y2 L.next_move.length alpha h8t (hpre hbt) (by omega) rfl
      hlen.symm (by omega) ha1 ha2
    exact ⟨w, L3, h1, h6⟩
  · rw [if_neg hbt, if_neg hbt]
    obtain ⟨w, L3, h1, -, -, h4⟩ := rec_top P hsh n L (make_turn mtx t) (!color) alpha h8t
      (by omega) ha1 ha2
    exact ⟨w, L3, h1, h4⟩

/-- The chain returned for a non-empty candidate list starts with the earliest candidate of
the largest reference value. -/
theorem root_chain_head (M : Nat) (mode : String) (n : Nat) (mtx : Board) (color : Bool)
    (ts : List move_pos) (hb : Bool) (hts : ts ≠ []) :
    ∃ t0 rest pre post, root_chain M mode (n + 1) mtx color ts hb = t0 :: rest
      ∧ ts = pre ++ t0 :: post
      ∧ (∀ u ∈ pre, cand M mode n mtx color hb u < cand M mode n mtx color hb t0)
      ∧ (∀ u ∈ post, cand M mode n mtx color hb u ≤ cand M mode n mtx color hb t0) := by
  rcases pick_split (cand M mode n mtx color hb) ts (-1) none with
    ⟨-, h2⟩ | ⟨pre, t, post, e, h1, -, h3, h4⟩
  · exfalso
    obtain ⟨u, hu⟩ := List.exists_mem_of_ne_nil ts hts
    have := (cand_bounds M mode n mtx color hb u).1
    have := h2 u hu
    linarith
  · have hsc : state_chain M mode (n + 1) mtx color ts hb =
        t :: (if hb = true then landing_chain M mode n (make_turn mtx t) color t.x2 t.y2
          else []) := by
      rw [state_chain_succ, h1]
    refine ⟨t, (if hb = true then landing_chain M mode n (make_turn mtx t) color t.x2 t.y2
      else []), pre, post, ?_, e, h3, h4⟩
    unfold root_chain
    rw [hsc, if_neg (List.cons_ne_nil _ _)]

/-- C27: for every 8x8 board, colour, `Max_depth` and pruning setting (nesting bound at least
`65 * Max_depth + 67`, any shuffle that permutes the list), if `turns` is non-empty when
`find_best_turns` is called and holds moves that start on the board (as all generated moves
do; candidate captures land on the board), the first move of the returned chain is an
element of that `turns` list and is not the placeholder `(-1, -1, -1, -1)`; and the call
made for any candidate with `alpha = -1` returns a value of at least 0, which exceeds the
initial `best_score` of -1. -/
theorem C27_first_move_real {σ : Type} (P : Params σ)
    (hsh : ∀ s l, (P.shuffle s l).1.Perm l) (fuel : Nat)
    (L : Logic σ) (mtx : Board) (color : Bool) (h8 : is8x8 mtx)
    (hfuel : 65 * P.Max_depth + 67 ≤ fuel)
    (hpre : L.have_beats = true → ∀ t ∈ L.turns, inRange t.x2 t.y2) (hne : L.turns ≠ [])
    (hgen : ∀ t ∈ L.turns, inRange t.x t.y) :
    ∃ (t0 : move_pos) (rest : List move_pos) (L1 : Logic σ),
      find_best_turns P fuel L mtx color = some (t0 :: rest, L1)
      ∧ t0 ∈ L.turns ∧ t0 ≠ move_pos.mk4 (-1) (-1) (-1) (-1)
      ∧ (∀ u ∈ L.turns, ∀ (L2 : Logic σ),
          L2.next_move.length = L2.next_best_state.length → 0 < L2.next_move.length →
          ∃ w L3, root_child P (fuel - 1) mtx color L.have_beats L2 u (-1) = some (w, L3)
            ∧ 0 ≤ w ∧ -1 < w) := by
  obtain ⟨n, rfl⟩ : ∃ n, fuel = n + 1 := ⟨fuel - 1, by omega⟩
  obtain ⟨L1, hr⟩ := find_best_turns_eq P hsh (n + 1) L mtx color h8 hfuel hpre
  obtain ⟨t0, rest, pre, post, hc, e, -, -⟩ := root_chain_head P.Max_depth P.scoring_mode n mtx
    color L.turns L.have_beats hne
  have hmem : t0 ∈ L.turns := by rw [e]; simp
  refine ⟨t0, rest, L1, by rw [hr, hc], hmem, ?_, ?_⟩
  · intro h
    have := hgen t0 hmem
    rw [h] at this
    revert this
    decide
  · intro u hu L2 hlen hs
    obtain ⟨w, L3, h1, h2⟩ := root_child_value P hsh n mtx color L.have_beats L2 u (-1) h8
      (by omega) (fun hb => hpre hb u hu) hlen hs (le_refl _) (by linarith [INF_pos])
    have hcb := (cand_bounds P.Max_depth P.scoring_mode n mtx color L.have_beats u).1
    have hw : w = cand P.Max_depth P.scoring_mode n mtx color L.have_beats u := by
      rcases h2 with ⟨h, -⟩ | ⟨-, h⟩
      · linarith
      · exact h
    refine ⟨w, L3, h1, ?_, ?_⟩
    · rw [hw]; exact hcb
    · rw [hw]; linarith

theorem C27_first_move_real_witness :
    ∃ (t0 : move_pos) (rest : List move_pos) (L1 : Logic Unit),
      find_best_turns (sampleParams "O1") 197 (sampleLogic false sampleBoard) sampleBoard false
        = some (t0 :: rest, L1)
      ∧ t0 ∈ (sampleLogic false sampleBoard).turns ∧ t0 ≠ move_pos.mk4 (-1) (-1) (-1) (-1)
      ∧ (∀ u ∈ (sampleLogic false sampleBoard).turns, ∀ (L2 : Logic Unit),
          L2.next_move.length = L2.next_best_state.length → 0 < L2.next_move.length →
          ∃ w L3, root_child (sampleParams "O1") (197 - 1) sampleBoard false
            (sampleLogic false sampleBoard).have_beats L2 u (-1) = some (w, L3)
            ∧ 0 ≤ w ∧ -1 < w) :=
  C27_first_move_real (sampleParams "O1") sampleShuffle_perm 197
    (sampleLogic false sampleBoard) sampleBoard false (by decide) (by decide) (by decide)
    (by decide) (by decide)

/-! ## The perspective of the search -/

/-- The evaluation flag `depth % 2 == color` is the root colour `c` when `color` is `c` at
odd depth and the opponent of `c` at even depth. -/
theorem eval_flag (c color : Bool) (depth : Nat) (h : color = c ↔ depth % 2 = 1) :
    decide (((depth % 2 : Nat) : Int) = colorInt color) = c := by
  rcases Nat.mod_two_eq_zero_or_one depth with hd | hd
  · have hne : color ≠ c := fun e => by
      have := h.mp e
      omega
    rw [hd]
    cases color <;> cases c <;> first | rfl | exact absurd rfl hne
  · have he : color = c := h.mpr hd
    subst he
    rw [hd]
    cases color <;> rfl

/-- The invariant is kept when the colour is flipped and the depth increased by one. -/
theorem perspective_step (c color : Bool) (depth : Nat) (h : color = c ↔ depth % 2 = 1) :
    ((!color) = c ↔ (depth + 1) % 2 = 1) := by
  rcases Nat.mod_two_eq_zero_or_one depth with hd | hd
  · have hne : color ≠ c := fun e => by
      have := h.mp e
      omega
    constructor
    · intro _; omega
    · intro _; cases color <;> cases c <;> first | rfl | exact absurd rfl hne
  · have he : color = c := h.mpr hd
    subst he
    constructor
    · intro e; cases color <;> simp at e
    · intro e; omega

/-- From a call that satisfies the invariant, `find_best_turns_rec` is the search that makes
every depth-cutoff evaluation for the root colour `c`. -/
theorem rec_for_eq {σ : Type} (P : Params σ) (c : Bool) :
    ∀ (n : Nat) (L : Logic σ) (mtx : Board) (color : Bool) (depth : Nat) (alpha beta : ℚ)
      (x y : Int), (color = c ↔ depth % 2 = 1) →
      find_best_turns_rec P n L mtx color depth alpha beta x y
        = rec_for P c n L mtx color depth alpha beta x y := by
  intro n
  induction n with
  | zero => intro L mtx color depth alpha beta x y _; rfl
  | succ n ih =>
    intro L mtx color depth alpha beta x y hinv
    have hflag := eval_flag c color depth hinv
    have hstep := perspective_step c color depth hinv
    simp only [find_best_turns_rec, rec_for]
    have hcut : decide (((depth : Int) % 2) = colorInt color) = c := by
      have e : ((depth : Int) % 2) = ((depth % 2 : Nat) : Int) := by push_cast; rfl
      rw [e]; exact hflag
    rw [hcut]
    by_cases hd : depth = P.Max_depth
    · rw [if_pos hd, if_pos hd]
    · rw [if_neg hd, if_neg hd]
      have hchild : (fun (L2 : Logic σ) (turn : move_pos) (a b : ℚ) =>
            if (if x ≠ -1 then L.find_turns_xy x y mtx
                else L.find_turns P color mtx).have_beats = false ∧ x = -1 then
              find_best_turns_rec P n L2 (make_turn mtx turn) (!color) (depth + 1) a b (-1) (-1)
            else
              find_best_turns_rec P n L2 (make_turn mtx turn) color depth a b turn.x2 turn.y2)
          = (fun (L2 : Logic σ) (turn : move_pos) (a b : ℚ) =>
            if (if x ≠ -1 then L.find_turns_xy x y mtx
                else L.find_turns P color mtx).have_beats = false ∧ x = -1 then
              rec_for P c n L2 (make_turn mtx turn) (!color) (depth + 1) a b (-1) (-1)
            else
              rec_for P c n L2 (make_turn mtx turn) color depth a b turn.x2 turn.y2) := by
        funext L2 turn a b
        rw [ih L2 (make_turn mtx turn) (!color) (depth + 1) a b (-1) (-1) hstep,
          ih L2 (make_turn mtx turn) color depth a b turn.x2 turn.y2 hinv]
      rw [hchild, ih _ mtx (!color) (depth + 1) alpha beta (-1) (-1) hstep]

/-! ## The calls of the search -/

/-- Dropping the collected calls from the instrumented loop of `find_best_turns_rec` gives
the loop itself. -/
theorem rec_loop_tr_fst {σ : Type} (P : Params σ) (depth : Nat)
    (child_tr : Logic σ → move_pos → ℚ → ℚ → Option ((ℚ × Logic σ) × List Call))
    (child : Logic σ → move_pos → ℚ → ℚ → Option (ℚ × Logic σ))
    (hkid : ∀ L t a b, (child_tr L t a b).map Prod.fst = child L t a b) (ts : List move_pos) :
    ∀ (L : Logic σ) (alpha beta mn mx : ℚ),
      (rec_loop_tr P depth child_tr ts L alpha beta mn mx).map Prod.fst
        = rec_loop P depth child ts L alpha beta mn mx := by
  induction ts with
  | nil => intro L alpha beta mn mx; rfl
  | cons t rest ih =>
    intro L alpha beta mn mx
    have hk := hkid L t alpha beta
    simp only [rec_loop_tr, rec_loop]
    cases hc : child_tr L t alpha beta with
    | none =>
      rw [hc] at hk
      simp only [Option.map_none'] at hk
      rw [← hk]
      rfl
    | some r =>
      obtain ⟨⟨score, L1⟩, tr⟩ := r
      rw [hc] at hk
      simp only [Option.map_some'] at hk
      rw [← hk]
      simp only []
      by_cases hcut : P.optimization ≠ "O0" ∧
          (if depth % 2 ≠ 0 then max alpha (max mx score) else alpha)
            ≥ (if depth % 2 ≠ 0 then beta else min beta (min mn score))
      · rw [if_pos hcut, if_pos hcut]; rfl
      · rw [if_neg hcut, if_neg hcut]
        rw [← ih L1 _ _ _ _, Option.map_map]
        rfl

/-- Dropping the collected calls from the instrumented `find_best_turns_rec` gives
`find_best_turns_rec`. -/
theorem rec_tr_fst {σ : Type} (P : Params σ) :
    ∀ (n : Nat) (L : Logic σ) (mtx : Board) (color : Bool) (depth : Nat) (alpha beta : ℚ)
      (x y : Int),
      (rec_tr P n L mtx color depth alpha beta x y).map Prod.fst
        = find_best_turns_rec P n L mtx color depth alpha beta x y := by
  intro n
  induction n with
  | zero => intro L mtx color depth alpha beta x y; rfl
  | succ n ih =>
    intro L mtx color depth alpha beta x y
    simp only [rec_tr, find_best_turns_rec]
    by_cases hd : depth = P.Max_depth
    · rw [if_pos hd, if_pos hd]; rfl
    · rw [if_neg hd, if_neg hd]
      generalize (if x ≠ -1 then L.find_turns_xy x y mtx else L.find_turns P color mtx) = L1
      by_cases hpass : L1.have_beats = false ∧ x ≠ -1
      · rw [if_pos hpass, if_pos hpass, Option.map_map, ← ih]
        rfl
      · rw [if_neg hpass, if_neg hpass]
        by_cases hnil : L1.turns = []
        · rw [if_pos hnil, if_pos hnil]; rfl
        · rw [if_neg hnil, if_neg hnil, Option.map_map]
          rw [← rec_loop_tr_fst P depth _ _ ?_ L1.turns L1 alpha beta (INF + 1) (-1)]
          · rfl
          · intro L2 t a b
            by_cases hs : L1.have_beats = false ∧ x = -1
            · simp only [if_pos hs]; exact ih _ _ _ _ _ _ _ _
            · simp only [if_neg hs]; exact ih _ _ _ _ _ _ _ _

/-- Dropping the collected calls from the instrumented loop of `find_first_best_turn` gives
the loop itself. -/
theorem first_loop_tr_fst {σ : Type} (hb : Bool) (s : Nat)
    (child_tr : Logic σ → move_pos → Nat → ℚ → Option ((ℚ × Logic σ) × List Call))
    (child : Logic σ → move_pos → Nat → ℚ → Option (ℚ × Logic σ))
    (hkid : ∀ L t k a, (child_tr L t k a).map Prod.fst = child L t k a) (ts : List move_pos) :
    ∀ (L : Logic σ) (best : ℚ),
      (first_loop_tr hb s child_tr ts L best).map Prod.fst = first_loop hb s child ts L best := by
  induction ts with
  | nil => intro L best; rfl
  | cons t rest ih =>
    intro L best
    have hk := hkid L t L.next_move.length best
    simp only [first_loop_tr, first_loop]
    cases hc : child_tr L t L.next_move.length best with
    | none =>
      rw [hc] at hk
      simp only [Option.map_none'] at hk
      rw [← hk]
      rfl
    | some r =>
      obtain ⟨⟨score, L1⟩, tr⟩ := r
      rw [hc] at hk
      simp only [Option.map_some'] at hk
      rw [← hk]
      simp only []
      by_cases hw : score > best
      · rw [if_pos hw, if_pos hw, Option.map_map, ← ih]
        rfl
      · rw [if_neg hw, if_neg hw, Option.map_map, ← ih]
        rfl

/-- Dropping the collected calls from the instrumented `find_first_best_turn` gives
`find_first_best_turn`. -/
theorem first_tr_fst {σ : Type} (P : Params σ) :
    ∀ (n : Nat) (L : Logic σ) (mtx : Board) (color : Bool) (x y : Int) (state : Nat)
      (alpha : ℚ),
      (first_tr P n L mtx color x y state alpha).map Prod.fst
        = find_first_best_turn P n L mtx color x y state alpha := by
  intro n
  induction n with
  | zero => intro L mtx color x y state alpha; rfl
  | succ n ih =>
    intro L mtx color x y state alpha
    simp only [first_tr, find_first_best_turn]
    generalize (if state ≠ 0 then L.push_state.find_turns_xy x y mtx else L.push_state) = L1
    by_cases hpass : L1.have_beats = false ∧ state ≠ 0
    · rw [if_pos hpass, if_pos hpass]
      exact rec_tr_fst P n _ _ _ _ _ _ _ _
    · rw [if_neg hpass, if_neg hpass]
      apply first_loop_tr_fst
      intro L2 t k a
      by_cases hbt : L1.have_beats = true
      · simp only [if_pos hbt]; exact ih _ _ _ _ _ _ _
      · simp only [if_neg hbt]; exact rec_tr_fst P n _ _ _ _ _ _ _ _

/-- Dropping the collected calls from the instrumented `find_best_turns` gives
`find_best_turns`. -/
theorem best_tr_fst {σ : Type} (P : Params σ) (fuel : Nat) (L : Logic σ) (mtx : Board)
    (color : Bool) :
    (best_tr P fuel L mtx color).map Prod.fst = find_best_turns P fuel L mtx color := by
  have h := first_tr_fst P fuel { L with next_best_state := [], next_move := [] } mtx color
    (-1) (-1) 0 (-1)
  unfold best_tr find_best_turns
  simp only []
  cases hc : first_tr P fuel { L with next_best_state := [], next_move := [] } mtx color
      (-1) (-1) 0 (-1) with
  | none =>
    rw [hc] at h
    simp only [Option.map_none'] at h
    rw [← h]
    rfl
  | some r =>
    obtain ⟨⟨w, L1⟩, tr⟩ := r
    rw [hc] at h
    simp only [Option.map_some'] at h
    rw [← h]
    simp only [Option.map_map]
    rfl

/-- A property of the calls collected by every child call holds for the calls collected by
the instrumented loop of `find_best_turns_rec`. -/
theorem rec_loop_tr_all {σ : Type} (P : Params σ) (depth : Nat) (Q : Call → Prop)
    (child : Logic σ → move_pos → ℚ → ℚ → Option ((ℚ × Logic σ) × List Call))
    (hkid : ∀ L t a b r, child L t a b = some r → ∀ e ∈ r.2, Q e) (ts : List move_pos) :
    ∀ (L : Logic σ) (alpha beta mn mx : ℚ) r,
      rec_loop_tr P depth child ts L alpha beta mn mx = some r → ∀ e ∈ r.2, Q e := by
  induction ts with
  | nil =>
    intro L alpha beta mn mx r h e he
    simp only [rec_loop_tr, Option.some.injEq] at h
    rw [← h] at he
    exact absurd he (List.not_mem_nil e)
  | cons t rest ih =>
    intro L alpha beta mn mx r h e he
    simp only [rec_loop_tr] at h
    cases hc : child L t alpha beta with
    | none => rw [hc] at h; exact absurd h (by simp)
    | some r1 =>
      obtain ⟨⟨score, L1⟩, tr⟩ := r1
      have hq := hkid L t alpha beta _ hc
      rw [hc] at h
      simp only [] at h
      by_cases hcut : P.optimization ≠ "O0" ∧
          (if depth % 2 ≠ 0 then max alpha (max mx score) else alpha)
            ≥ (if depth % 2 ≠ 0 then beta else min beta (min mn score))
      · rw [if_pos hcut, Option.some.injEq] at h
        rw [← h] at he
        exact hq e he
      · rw [if_neg hcut] at h
        cases hl : rec_loop_tr P depth child rest L1
            (if depth % 2 ≠ 0 then max alpha (max mx score) else alpha)
            (if depth % 2 ≠ 0 then beta else min beta (min mn score))
            (min mn score) (max mx score) with
        | none => rw [hl] at h; exact absurd h (by simp)
        | some r2 =>
          rw [hl, Option.map_some', Option.some.injEq] at h
          rw [← h] at he
          rcases List.mem_append.mp he with he | he
          · exact hq e he
          · exact ih _ _ _ _ _ _ hl e he

/-- Every call collected by the instrumented `find_best_turns_rec`, started with `color`
equal to `c` exactly at odd `depth`, has its colour equal to `c` exactly at odd depth; the
call itself is collected. -/
theorem rec_tr_all {σ : Type} (P : Params σ) (c : Bool) :
    ∀ (n : Nat) (L : Logic σ) (mtx : Board) (color : Bool) (depth : Nat) (alpha beta : ℚ)
      (x y : Int) r, (color = c ↔ depth % 2 = 1) →
      rec_tr P n L mtx color depth alpha beta x y = some r →
      r.2 ≠ [] ∧ ∀ e ∈ r.2, (e.color = c ↔ e.depth % 2 = 1) := by
  intro n
  induction n with
  | zero => intro L mtx color depth alpha beta x y r _ h; exact absurd h (by simp [rec_tr])
  | succ n ih =>
    intro L mtx color depth alpha beta x y r hinv h
    have hstep := perspective_step c color depth hinv
    simp only [rec_tr] at h
    by_cases hd : depth = P.Max_depth
    · rw [if_pos hd, Option.some.injEq] at h
      rw [← h]
      refine ⟨List.cons_ne_nil _ _, ?_⟩
      intro e he
      rw [List.mem_singleton.mp he]
      exact hinv
    · rw [if_neg hd] at h
      generalize (if x ≠ -1 then L.find_turns_xy x y mtx else L.find_turns P color mtx) = L1
        at h
      by_cases hpass : L1.have_beats = false ∧ x ≠ -1
      · rw [if_pos hpass] at h
        cases hr : rec_tr P n L1 mtx (!color) (depth + 1) alpha beta (-1) (-1) with
        | none => rw [hr] at h; exact absurd h (by simp)
        | some r1 =>
          rw [hr, Option.map_some', Option.some.injEq] at h
          rw [← h]
          refine ⟨List.cons_ne_nil _ _, ?_⟩
          intro e he
          rcases List.mem_cons.mp he with he | he
          · rw [he]; exact hinv
          · exact (ih _ _ _ _ _ _ _ _ _ hstep hr).2 e he
      · rw [if_neg hpass] at h
        by_cases hnil : L1.turns = []
        · rw [if_pos hnil, Option.some.injEq] at h
          rw [← h]
          refine ⟨List.cons_ne_nil _ _, ?_⟩
          intro e he
          rw [List.mem_singleton.mp he]
          exact hinv
        · rw [if_neg hnil] at h
          cases hl : rec_loop_tr P depth
              (fun L2 turn a b =>
                if L1.have_beats = false ∧ x = -1 then
                  rec_tr P n L2 (make_turn mtx turn) (!color) (depth + 1) a b (-1) (-1)
                else
                  rec_tr P n L2 (make_turn mtx turn) color depth a b turn.x2 turn.y2)
              L1.turns L1 alpha beta (INF + 1) (-1) with
          | none => rw [hl] at h; exact absurd h (by simp)
          | some r1 =>
            rw [hl, Option.map_some', Option.some.injEq] at h
            rw [← h]
            refine ⟨List.cons_ne_nil _ _, ?_⟩
            intro e he
            rcases List.mem_cons.mp he with he | he
            · rw [he]; exact hinv
            · refine rec_loop_tr_all P depth (fun e => e.color = c ↔ e.depth % 2 = 1) _ ?_
                L1.turns L1 alpha beta (INF + 1) (-1) r1 hl e he
              intro L2 t a b r2 h2
              by_cases hs : L1.have_beats = false ∧ x = -1
              · simp only [if_pos hs] at h2
                exact (ih _ _ _ _ _ _ _ _ _ hstep h2).2
              · simp only [if_neg hs] at h2
                exact (ih _ _ _ _ _ _ _ _ _ hinv h2).2

/-- A property of the calls collected by every child call holds for the calls collected by
the instrumented loop of `find_first_best_turn`; the calls of the first child are among
them. -/
theorem first_loop_tr_all {σ : Type} (hb : Bool) (s : Nat) (Q : Call → Prop)
    (child : Logic σ → move_pos → Nat → ℚ → Option ((ℚ × Logic σ) × List Call))
    (hkid : ∀ L t k a r, child L t k a = some r → ∀ e ∈ r.2, Q e) (ts : List move_pos) :
    ∀ (L : Logic σ) (best : ℚ) r, first_loop_tr hb s child ts L best = some r →
      (∀ e ∈ r.2, Q e)
      ∧ ∀ t rest, ts = t :: rest →
          ∃ r1, child L t L.next_move.length best = some r1 ∧ ∀ e ∈ r1.2, e ∈ r.2 := by
  induction ts with
  | nil =>
    intro L best r h
    simp only [first_loop_tr, Option.some.injEq] at h
    rw [← h]
    exact ⟨fun e he => absurd he (List.not_mem_nil e), fun t rest ht => absurd ht (by simp)⟩
  | cons t rest ih =>
    intro L best r h
    simp only [first_loop_tr] at h
    cases hc : child L t L.next_move.length best with
    | none => rw [hc] at h; exact absurd h (by simp)
    | some r1 =>
      obtain ⟨⟨score, L1⟩, tr⟩ := r1
      have hq := hkid L t _ best _ hc
      rw [hc] at h
      simp only [] at h
      have hfin : ∀ (L2 : Logic σ) (b2 : ℚ),
          (first_loop_tr hb s child rest L2 b2).map (fun r => (r.1, tr ++ r.2)) = some r →
          (∀ e ∈ r.2, Q e)
          ∧ ∀ t1 rest1, t :: rest = t1 :: rest1 →
              ∃ r1, child L t1 L.next_move.length best = some r1 ∧ ∀ e ∈ r1.2, e ∈ r.2 := by
        intro L2 b2 hm
        cases hl : first_loop_tr hb s child rest L2 b2 with
        | none => rw [hl] at hm; exact absurd hm (by simp)
        | some r2 =>
          rw [hl, Option.map_some', Option.some.injEq] at hm
          rw [← hm]
          refine ⟨?_, ?_⟩
          · intro e he
            rcases List.mem_append.mp he with he | he
            · exact hq e he
            · exact (ih L2 b2 r2 hl).1 e he
          · intro t1 rest1 ht
            obtain ⟨rfl, -⟩ := List.cons.inj ht
            exact ⟨_, hc, fun e he => List.mem_append.mpr (Or.inl he)⟩
      by_cases hw : score > best
      · rw [if_pos hw] at h; exact hfin _ _ h
      · rw [if_neg hw] at h; exact hfin _ _ h

/-- Every call of `find_best_turns_rec` collected by the instrumented `find_first_best_turn`
for the colour `c` has its colour equal to `c` exactly at odd depth; a nested call
(`state ≠ 0`) and a call with candidates collect at least one call. -/
theorem first_tr_all {σ : Type} (P : Params σ) (c : Bool) :
    ∀ (n : Nat) (L : Logic σ) (mtx : Board) (x y : Int) (state : Nat) (alpha : ℚ) r,
      first_tr P n L mtx c x y state alpha = some r →
      (∀ e ∈ r.2, (e.color = c ↔ e.depth % 2 = 1))
      ∧ ((state ≠ 0 ∨ L.turns ≠ []) → r.2 ≠ []) := by
  have hroot : ((!c) = c ↔ 0 % 2 = 1) := by
    constructor
    · intro e; cases c <;> simp at e
    · intro e; simp at e
  intro n
  induction n with
  | zero => intro L mtx x y state alpha r h; exact absurd h (by simp [first_tr])
  | succ n ih =>
    intro L mtx x y state alpha r h
    simp only [first_tr] at h
    have hturns0 : state = 0 →
        (if state ≠ 0 then L.push_state.find_turns_xy x y mtx else L.push_state).turns
          = L.turns := by
      intro hs; rw [if_neg (not_not.mpr hs)]; rfl
    have hgen : state ≠ 0 →
        (if state ≠ 0 then L.push_state.find_turns_xy x y mtx else L.push_state).have_beats
            = (find_turns_xy mtx x y).2
        ∧ (if state ≠ 0 then L.push_state.find_turns_xy x y mtx else L.push_state).turns
            = (find_turns_xy mtx x y).1 := by
      intro hs; rw [if_pos hs]; exact ⟨rfl, rfl⟩
    have hlen : (if state ≠ 0 then L.push_state.find_turns_xy x y mtx
        else L.push_state).next_move.length ≠ 0 := by
      by_cases hs : state ≠ 0
      · rw [if_pos hs]
        show (L.next_move ++ [move_pos.mk4 (-1) (-1) (-1) (-1)]).length ≠ 0
        simp
      · rw [if_neg hs]
        show (L.next_move ++ [move_pos.mk4 (-1) (-1) (-1) (-1)]).length ≠ 0
        simp
    generalize (if state ≠ 0 then L.push_state.find_turns_xy x y mtx else L.push_state) = L1
      at h hturns0 hgen hlen
    by_cases hpass : L1.have_beats = false ∧ state ≠ 0
    · rw [if_pos hpass] at h
      obtain ⟨h1, h2⟩ := rec_tr_all P c n _ _ _ _ _ _ _ _ r hroot h
      exact ⟨h2, fun _ => h1⟩
    · rw [if_neg hpass] at h
      have hkid : ∀ (L2 : Logic σ) (t : move_pos) (k : Nat) (a : ℚ) r2,
          (if L1.have_beats = true then
              first_tr P n L2 (make_turn mtx t) c t.x2 t.y2 k a
            else rec_tr P n L2 (make_turn mtx t) (!c) 0 a (INF + 1) (-1) (-1)) = some r2 →
          (∀ e ∈ r2.2, (e.color = c ↔ e.depth % 2 = 1)) ∧ (k ≠ 0 → r2.2 ≠ []) := by
        intro L2 t k a r2 h2
        by_cases hbt : L1.have_beats = true
        · rw [if_pos hbt] at h2
          obtain ⟨q1, q2⟩ := ih _ _ _ _ _ _ _ h2
          exact ⟨q1, fun hk => q2 (Or.inl hk)⟩
        · rw [if_neg hbt] at h2
          obtain ⟨q1, q2⟩ := rec_tr_all P c n _ _ _ _ _ _ _ _ r2 hroot h2
          exact ⟨q2, fun _ => q1⟩
      obtain ⟨hall, hfirst⟩ := first_loop_tr_all L1.have_beats state
        (fun e => e.color = c ↔ e.depth % 2 = 1) _
        (fun L2 t k a r2 h2 => (hkid L2 t k a r2 h2).1) L1.turns L1 (-1) r h
      refine ⟨hall, ?_⟩
      intro hor
      have hne : L1.turns ≠ [] := by
        by_cases hs : state = 0
        · rw [hturns0 hs]
          rcases hor with h0 | h0
          · exact absurd hs h0
          · exact h0
        · obtain ⟨e1, e2⟩ := hgen hs
          have hb : (find_turns_xy mtx x y).2 = true := by
            cases hbv : (find_turns_xy mtx x y).2
            · exact absurd ⟨e1.trans hbv, hs⟩ hpass
            · rfl
          rw [e2]
          exact find_turns_xy_ne_nil mtx x y hb
      obtain ⟨t, rest, hts⟩ := List.exists_cons_of_ne_nil hne
      obtain ⟨r1, hr1, hsub⟩ := hfirst t rest hts
      have hr1ne := (hkid L1 t _ (-1) r1 hr1).2 hlen
      obtain ⟨e, he⟩ := List.exists_mem_of_ne_nil _ hr1ne
      exact List.ne_nil_of_mem (hsub e he)

/-- Every call of `find_best_turns_rec` collected by the instrumented `find_best_turns(c)`
has its colour equal to `c` exactly at odd depth; with candidates at least one call is
collected. -/
theorem best_tr_all {σ : Type} (P : Params σ) (c : Bool) (fuel : Nat) (L : Logic σ)
    (mtx : Board) r (h : best_tr P fuel L mtx c = some r) :
    (∀ e ∈ r.2, (e.color = c ↔ e.depth % 2 = 1)) ∧ (L.turns ≠ [] → r.2 ≠ []) := by
  unfold best_tr at h
  simp only [] at h
  cases hc : first_tr P fuel { L with next_best_state := [], next_move := [] } mtx c
      (-1) (-1) 0 (-1) with
  | none => rw [hc] at h; exact absurd h (by simp)
  | some r1 =>
    obtain ⟨⟨w, L1⟩, tr⟩ := r1
    obtain ⟨q1, q2⟩ := first_tr_all P c fuel _ _ _ _ _ _ _ hc
    rw [hc] at h
    simp only [] at h
    cases hcc : collect_chain L1.next_move L1.next_best_state L1.next_move.length 0 with
    | none => rw [hcc] at h; exact absurd h (by simp)
    | some res =>
      rw [hcc, Option.map_some', Option.some.injEq] at h
      rw [← h]
      exact ⟨q1, fun hne => q2 (Or.inr hne)⟩

/-- C28: `find_best_turns(c)` run with its calls of `find_best_turns_rec` recorded (`best_tr`:
the same functions, each call of `find_best_turns_rec` recording the arguments
`(mtx, color, depth)` it received; dropping the record gives `find_best_turns` back, for all
arguments) returns on an 8x8 board (nesting bound at least `65 * Max_depth + 67`, candidate
captures landing on the board, any shuffle that permutes the list), and in every recorded
call `color` equals `c` exactly when `depth` is odd and equals the opponent of `c` exactly
when `depth` is even; hence the flag `depth % 2 == color` given to `calc_score` is `c`, a
recorded call at the maximum depth returns `calc_score(mtx, c)`, and the search from a
recorded call is the search that makes every depth-cutoff evaluation for the root colour
`c`.  With a candidate to search at least one call is recorded. -/
theorem C28_search_perspective {σ : Type} (P : Params σ)
    (hsh : ∀ s l, (P.shuffle s l).1.Perm l) (c : Bool) (fuel : Nat) (L : Logic σ)
    (mtx : Board) (h8 : is8x8 mtx) (hfuel : 65 * P.Max_depth + 67 ≤ fuel)
    (hpre : L.have_beats = true → ∀ t ∈ L.turns, inRange t.x2 t.y2) :
    (∀ (fuel1 : Nat) (L1 : Logic σ) (mtx1 : Board) (c1 : Bool),
      (best_tr P fuel1 L1 mtx1 c1).map Prod.fst = find_best_turns P fuel1 L1 mtx1 c1)
    ∧ ∃ (chain : List move_pos) (L1 : Logic σ) (calls : List Call),
        best_tr P fuel L mtx c = some ((chain, L1), calls)
        ∧ find_best_turns P fuel L mtx c = some (chain, L1)
        ∧ (L.turns ≠ [] → calls ≠ [])
        ∧ ∀ e ∈ calls,
            (e.color = c ↔ e.depth % 2 = 1) ∧ (e.color = (!c) ↔ e.depth % 2 = 0)
            ∧ decide (((e.depth % 2 : Nat) : Int) = colorInt e.color) = c
            ∧ (e.depth = P.Max_depth →
                ∀ (n : Nat) (L2 : Logic σ) (alpha beta : ℚ) (x y : Int),
                  find_best_turns_rec P (n + 1) L2 e.mtx e.color e.depth alpha beta x y
                    = some (calc_score P.scoring_mode e.mtx c, L2))
            ∧ (∀ (n : Nat) (L2 : Logic σ) (alpha beta : ℚ) (x y : Int),
                find_best_turns_rec P n L2 e.mtx e.color e.depth alpha beta x y
                  = rec_for P c n L2 e.mtx e.color e.depth alpha beta x y) := by
  refine ⟨fun fuel1 L1 mtx1 c1 => best_tr_fst P fuel1 L1 mtx1 c1, ?_⟩
  obtain ⟨L1, hr⟩ := find_best_turns_eq P hsh fuel L mtx c h8 hfuel hpre
  have her := best_tr_fst P fuel L mtx c
  cases hb : best_tr P fuel L mtx c with
  | none => rw [hb, hr] at her; exact absurd her (by simp)
  | some r =>
    obtain ⟨⟨chain, L2⟩, calls⟩ := r
    rw [hb, Option.map_some'] at her
    obtain ⟨hall, hne⟩ := best_tr_all P c fuel L mtx _ hb
    refine ⟨chain, L2, calls, rfl, her.symm, hne, ?_⟩
    intro e he
    have hinv := hall e he
    have heq := rec_for_eq P c
    refine ⟨hinv, ?_, eval_flag c e.color e.depth hinv, ?_,
      fun n L3 a b x y => heq n L3 e.mtx e.color e.depth a b x y hinv⟩
    · rcases Nat.mod_two_eq_zero_or_one e.depth with hd | hd
      · have hnc : e.color ≠ c := fun h => by
          have := hinv.mp h
          omega
        constructor
        · intro _; exact hd
        · intro _
          cases hcol : e.color <;> cases c <;> first | rfl | exact absurd hcol hnc
      · have hc : e.color = c := hinv.mpr hd
        constructor
        · intro h; rw [hc] at h; cases c <;> simp at h
        · intro h; omega
    · intro hd n L3 a b x y
      rw [heq (n + 1) L3 e.mtx e.color e.depth a b x y hinv]
      simp only [rec_for]
      rw [if_pos hd]

theorem C28_search_perspective_witness :
    (∀ (fuel1 : Nat) (L1 : Logic Unit) (mtx1 : Board) (c1 : Bool),
      (best_tr (sampleParams "O1") fuel1 L1 mtx1 c1).map Prod.fst
        = find_best_turns (sampleParams "O1") fuel1 L1 mtx1 c1)
    ∧ ∃ (chain : List move_pos) (L1 : Logic Unit) (calls : List Call),
        best_tr (sampleParams "O1") 197 (sampleLogic false sampleBoard) sampleBoard false
          = some ((chain, L1), calls)
        ∧ find_best_turns (sampleParams "O1") 197 (sampleLogic false sampleBoard) sampleBoard
            false = some (chain, L1)
        ∧ ((sampleLogic false sampleBoard).turns ≠ [] → calls ≠ [])
        ∧ ∀ e ∈ calls,
            (e.color = false ↔ e.depth % 2 = 1) ∧ (e.color = (!false) ↔ e.depth % 2 = 0)
            ∧ decide (((e.depth % 2 : Nat) : Int) = colorInt e.color) = false
            ∧ (e.depth = (sampleParams "O1").Max_depth →
                ∀ (n : Nat) (L2 : Logic Unit) (alpha beta : ℚ) (x y : Int),
                  find_best_turns_rec (sampleParams "O1") (n + 1) L2 e.mtx e.color e.depth
                    alpha beta x y
                    = some (calc_score (sampleParams "O1").scoring_mode e.mtx false, L2))
            ∧ (∀ (n : Nat) (L2 : Logic Unit) (alpha beta : ℚ) (x y : Int),
                find_best_turns_rec (sampleParams "O1") n L2 e.mtx e.color e.depth alpha beta
                  x y
                  = rec_for (sampleParams "O1") false n L2 e.mtx e.color e.depth alpha beta
                      x y) :=
  C28_search_perspective (sampleParams "O1") sampleShuffle_perm false 197
    (sampleLogic false sampleBoard) sampleBoard (by decide) (by decide) (by decide)

end Checkers
